import Mathlib

/-!
WizardsToolkit: the hash engine and the byte stream.

A shallow embedding of `wizard/sha224.c` and of `wizard/blob.c`, followed by
the properties established about them.

Conventions of the embedding:

* a C `unsigned int` is a `Nat` below `2 ^ 32`; every place where the C code
  wraps is written with `Trunc32` (the source's own helper) or `% 2 ^ 32`;
* a byte buffer (`unsigned char *`, `StringInfo`) is a `List Nat`;
* a function that mutates `*sha_info` or `*blob_info` takes the record and
  returns the new record (together with the C return value, if any);
* contents that C leaves indeterminate (fresh allocations) are parameters.
-/

namespace Wizard

/-! ## Memory and string helpers used by the sources -/

/-- Modelled from the spec: `ResetWizardMemory(p+off,c,n)` of `wizard/memory.c`
(not among the sources), a `memset`: the `n` bytes of `buf` from index `off` on
become `c`. -/
def ResetWizardMemory (buf : List Nat) (off c n : Nat) : List Nat :=
  buf.take off ++ List.replicate n c ++ buf.drop (off + n)

/-- Modelled from the spec: `CopyWizardMemory(dst+off,src,n)` of
`wizard/memory.c` (not among the sources), a `memcpy`: the bytes `src` replace
the bytes of `dst` from index `off` on. -/
def CopyWizardMemory (dst : List Nat) (off : Nat) (src : List Nat) : List Nat :=
  dst.take off ++ src ++ dst.drop (off + src.length)

/-- Modelled from the spec: `SetStringInfoDatum(string_info,source)` of
`wizard/string.c` (not among the sources): copies as many bytes as the string
holds from `source` into its datum. -/
def SetStringInfoDatum (datum source : List Nat) : List Nat :=
  CopyWizardMemory datum 0 (source.take datum.length)

/-! ## `wizard/sha224.c` -/

def SHA224Blocksize : Nat := 64

def SHA224Digestsize : Nat := 28

/-- The `struct _SHA224Info` of the source (the `signature` field, which only
feeds assertions, is left out). `digest` and `message` are the data of the two
`StringInfo` buffers; their lengths are the `StringInfo` lengths. -/
structure SHA224Info where
  digestsize : Nat
  blocksize : Nat
  digest : List Nat
  message : List Nat
  accumulator : List Nat
  low_order : Nat
  high_order : Nat
  offset : Nat
  lsb_first : Bool
  timestamp : Nat
  deriving DecidableEq, Repr

def Ch (x y z : Nat) : Nat :=
  (x &&& y) ^^^ ((x ^^^ 0xffffffff) &&& z)

def Maj (x y z : Nat) : Nat :=
  (x &&& y) ^^^ (x &&& z) ^^^ (y &&& z)

def Trunc32 (x : Nat) : Nat :=
  x &&& 0xffffffff

def RotateRight (x n : Nat) : Nat :=
  Trunc32 ((x >>> n) ||| (x <<< (32 - n)))

def Sigma0 (x : Nat) : Nat :=
  RotateRight x 7 ^^^ RotateRight x 18 ^^^ Trunc32 (x >>> 3)

def Sigma1 (x : Nat) : Nat :=
  RotateRight x 17 ^^^ RotateRight x 19 ^^^ Trunc32 (x >>> 10)

def Suma0 (x : Nat) : Nat :=
  RotateRight x 2 ^^^ RotateRight x 13 ^^^ RotateRight x 22

def Suma1 (x : Nat) : Nat :=
  RotateRight x 6 ^^^ RotateRight x 11 ^^^ RotateRight x 25

/-- The table `K[64]` of `TransformSHA224`. -/
def K : List Nat :=
  [0x428A2F98, 0x71374491, 0xB5C0FBCF, 0xE9B5DBA5, 0x3956C25B,
   0x59F111F1, 0x923F82A4, 0xAB1C5ED5, 0xD807AA98, 0x12835B01,
   0x243185BE, 0x550C7DC3, 0x72BE5D74, 0x80DEB1FE, 0x9BDC06A7,
   0xC19BF174, 0xE49B69C1, 0xEFBE4786, 0x0FC19DC6, 0x240CA1CC,
   0x2DE92C6F, 0x4A7484AA, 0x5CB0A9DC, 0x76F988DA, 0x983E5152,
   0xA831C66D, 0xB00327C8, 0xBF597FC7, 0xC6E00BF3, 0xD5A79147,
   0x06CA6351, 0x14292967, 0x27B70A85, 0x2E1B2138, 0x4D2C6DFC,
   0x53380D13, 0x650A7354, 0x766A0ABB, 0x81C2C92E, 0x92722C85,
   0xA2BFE8A1, 0xA81A664B, 0xC24B8B70, 0xC76C51A3, 0xD192E819,
   0xD6990624, 0xF40E3585, 0x106AA070, 0x19A4C116, 0x1E376C08,
   0x2748774C, 0x34B0BCB5, 0x391C0CB3, 0x4ED8AA4A, 0x5B9CCA4F,
   0x682E6FF3, 0x748F82EE, 0x78A5636F, 0x84C87814, 0x8CC70208,
   0x90BEFFFA, 0xA4506CEB, 0xBEF9A3F7, 0xC67178F2]

/-- The load `T=(*((unsigned int *) p))` of the `i`-th 4-byte group of the
block, for a 4-byte `unsigned int`: on a host whose first byte is the least
significant one (`lsb_first`) the first byte of the group is the low byte of
`T`, otherwise it is the high byte. -/
def LoadWord (lsb_first : Bool) (p : List Nat) (i : Nat) : Nat :=
  let b0 := p.getD (4 * i) 0
  let b1 := p.getD (4 * i + 1) 0
  let b2 := p.getD (4 * i + 2) 0
  let b3 := p.getD (4 * i + 3) 0
  if lsb_first then b0 ||| (b1 <<< 8) ||| (b2 <<< 16) ||| (b3 <<< 24)
  else (b0 <<< 24) ||| (b1 <<< 16) ||| (b2 <<< 8) ||| b3

/-- The first loop of `TransformSHA224` (branch `sizeof(unsigned int) <= 4`):
the value stored in `W[i]` for `i < 16`. -/
def UnpackWord (lsb_first : Bool) (p : List Nat) (i : Nat) : Nat :=
  let T := LoadWord lsb_first p i
  if lsb_first then
    ((T <<< 24) &&& 0xff000000) ||| ((T <<< 8) &&& 0x00ff0000) |||
      ((T >>> 8) &&& 0x0000ff00) ||| ((T >>> 24) &&& 0x000000ff)
  else Trunc32 T

/-- The array `W[64]` after the loops `for (i=0; i < 16; i++)` and
`for (i=16; i < 64; i++)` of `TransformSHA224`. Entries not yet written hold
`0` (they are never read before being written). -/
def Schedule (lsb_first : Bool) (p : List Nat) : List Nat :=
  let W0 := (List.range 16).map (UnpackWord lsb_first p) ++ List.replicate 48 0
  (List.range' 16 48).foldl
    (fun W i => W.set i (Trunc32 (Sigma1 (W.getD (i - 2) 0) + W.getD (i - 7) 0 +
      Sigma0 (W.getD (i - 15) 0) + W.getD (i - 16) 0))) W0

/-- The working registers `A` .. `H` of `TransformSHA224`. -/
structure Registers where
  A : Nat
  B : Nat
  C : Nat
  D : Nat
  E : Nat
  F : Nat
  G : Nat
  H : Nat
  deriving DecidableEq, Repr

/-- One pass of the body of `for (j=0; j < 64; j++)` in `TransformSHA224`. -/
def Round (W : List Nat) (r : Registers) (j : Nat) : Registers :=
  let T1 := Trunc32 (r.H + Suma1 r.E + Ch r.E r.F r.G + K.getD j 0 + W.getD j 0)
  let T2 := Trunc32 (Suma0 r.A + Maj r.A r.B r.C)
  { A := Trunc32 (T1 + T2), B := r.A, C := r.B, D := r.C,
    E := Trunc32 (r.D + T1), F := r.E, G := r.F, H := r.G }

/-- The accumulator after `TransformSHA224`, as a function of the accumulator
and of the 64-byte block before it. The source adds the registers `A` .. `G`
back into `accumulator[0]` .. `accumulator[6]`; it has no statement for
`accumulator[7]`. -/
def TransformAccumulator (lsb_first : Bool) (acc p : List Nat) : List Nat :=
  let W := Schedule lsb_first p
  let r0 : Registers :=
    { A := acc.getD 0 0, B := acc.getD 1 0, C := acc.getD 2 0, D := acc.getD 3 0,
      E := acc.getD 4 0, F := acc.getD 5 0, G := acc.getD 6 0, H := acc.getD 7 0 }
  let r := (List.range 64).foldl (Round W) r0
  ((((((acc.set 0 (Trunc32 (acc.getD 0 0 + r.A))).set 1
    (Trunc32 (acc.getD 1 0 + r.B))).set 2
    (Trunc32 (acc.getD 2 0 + r.C))).set 3
    (Trunc32 (acc.getD 3 0 + r.D))).set 4
    (Trunc32 (acc.getD 4 0 + r.E))).set 5
    (Trunc32 (acc.getD 5 0 + r.F))).set 6
    (Trunc32 (acc.getD 6 0 + r.G))

/-- `TransformSHA224(sha_info)`: only the accumulator changes. -/
def TransformSHA224 (s : SHA224Info) : SHA224Info :=
  { s with accumulator := TransformAccumulator s.lsb_first s.accumulator s.message }

/-- `InitializeSHA224(sha_info)`. -/
def InitializeSHA224 (s : SHA224Info) : SHA224Info :=
  { s with
    accumulator :=
      (((((((s.accumulator.set 0 0xc1059ed8).set 1 0x367cd507).set 2 0x3070dd17).set 3
        0xf70e5939).set 4 0xffc00b31).set 5 0x68581511).set 6 0x64f98fa7).set 7 0xbefa4fa4
    low_order := 0
    high_order := 0
    offset := 0 }

/-- `AcquireSHA224Info()`. The contents of the freshly allocated digest,
message and accumulator buffers are indeterminate in C and are the parameters
`digest0`, `message0`, `accumulator0` (a byte or word for every index); the
host byte order and the clock are parameters as well. -/
def AcquireSHA224Info (digest0 message0 accumulator0 : Nat → Nat) (lsb_first : Bool)
    (timestamp : Nat) : SHA224Info :=
  InitializeSHA224
    { digestsize := SHA224Digestsize
      blocksize := SHA224Blocksize
      digest := (List.range SHA224Digestsize).map digest0
      message := (List.range SHA224Blocksize).map message0
      accumulator := (List.range SHA224Blocksize).map accumulator0
      low_order := 0
      high_order := 0
      offset := 0
      lsb_first := lsb_first
      timestamp := timestamp }

/-- The loop `while (n >= GetStringInfoLength(sha_info->message))` of
`UpdateSHA224`, with the not yet consumed input `p` (so `n` is `p.length`).
Every pass consumes one block, so `fuel` passes are enough as soon as
`fuel * 64 > p.length`. Returns the context and the input left over. -/
def UpdateBlocks : Nat → SHA224Info → List Nat → SHA224Info × List Nat
  | 0, s, p => (s, p)
  | fuel + 1, s, p =>
    if p.length ≥ s.message.length then
      UpdateBlocks fuel
        (TransformSHA224 { s with message := SetStringInfoDatum s.message p })
        (p.drop s.message.length)
    else (s, p)

/-- `UpdateSHA224(sha_info,message)`; `message` is the data of the `StringInfo`
argument and `n` its length. `(unsigned int) n >> 29` casts before it shifts. -/
def UpdateSHA224 (s : SHA224Info) (message : List Nat) : SHA224Info :=
  let n := message.length
  let length := Trunc32 ((s.low_order + (n <<< 3)) % 2 ^ 32)
  let high1 := if length < s.low_order then (s.high_order + 1) % 2 ^ 32 else s.high_order
  let high2 := (high1 + ((n % 2 ^ 32) >>> 29)) % 2 ^ 32
  let s1 := { s with low_order := length, high_order := high2 }
  if s1.offset ≠ 0 then
    let i0 := s1.message.length - s1.offset
    let i := if i0 > n then n else i0
    let s2 := { s1 with
      message := CopyWizardMemory s1.message s1.offset (message.take i)
      offset := s1.offset + i }
    if s2.offset ≠ s2.message.length then s2
    else
      let (s3, p) := UpdateBlocks (n + 1) (TransformSHA224 s2) (message.drop i)
      { s3 with message := CopyWizardMemory s3.message 0 p, offset := p.length }
  else
    let (s3, p) := UpdateBlocks (n + 1) s1 message
    { s3 with message := CopyWizardMemory s3.message 0 p, offset := p.length }

/-- The loop at the end of `FinalizeSHA224` that writes the first
`SHA224Digestsize/4` accumulator words, most significant byte first. -/
def PackDigest (acc : List Nat) : List Nat :=
  (List.range (SHA224Digestsize / 4)).flatMap fun i =>
    let w := acc.getD i 0
    [(w >>> 24) &&& 0xff, (w >>> 16) &&& 0xff, (w >>> 8) &&& 0xff, w &&& 0xff]

/-- `FinalizeSHA224(sha_info)`. A store into an `unsigned char` keeps the low
eight bits. -/
def FinalizeSHA224 (s : SHA224Info) : SHA224Info :=
  let low_order := s.low_order
  let high_order := s.high_order
  let count0 := (low_order >>> 3) &&& 0x3f
  let datum0 := s.message.set count0 0x80
  let count := count0 + 1
  let s1 : SHA224Info :=
    if count ≤ s.message.length - 8 then
      { s with message := ResetWizardMemory datum0 count 0 (s.message.length - 8 - count) }
    else
      let s' := TransformSHA224
        { s with message := ResetWizardMemory datum0 count 0 (s.message.length - count) }
      { s' with message := ResetWizardMemory s'.message 0 0 (s'.message.length - 8) }
  let datum :=
    ((((((((s1.message.set 56 ((high_order >>> 24) % 256)).set 57
      ((high_order >>> 16) % 256)).set 58
      ((high_order >>> 8) % 256)).set 59
      (high_order % 256)).set 60
      ((low_order >>> 24) % 256)).set 61
      ((low_order >>> 16) % 256)).set 62
      ((low_order >>> 8) % 256)).set 63
      (low_order % 256))
  let s2 := TransformSHA224 { s1 with message := datum }
  { s2 with
    digest := CopyWizardMemory s2.digest 0 (PackDigest s2.accumulator) }


/-! ## Functional form of the hash computation

The accumulator after the full blocks of a byte sequence, the last block(s)
built by `FinalizeSHA224`, and the state `FinalizeSHA224` leaves, written as
functions of the bytes supplied so far. They are assembled from
`TransformAccumulator`, so they say what the source computes. -/

/-- `TransformAccumulator` applied to the first `k` consecutive 64-byte blocks
of `p`, in order. -/
def AbsorbBlocks (lsb_first : Bool) : Nat → List Nat → List Nat → List Nat
  | 0, acc, _ => acc
  | k + 1, acc, p =>
    AbsorbBlocks lsb_first k (TransformAccumulator lsb_first acc (p.take 64)) (p.drop 64)

/-- The eight bytes `datum[56]` .. `datum[63]` stored by `FinalizeSHA224`. -/
def LengthBytes (high_order low_order : Nat) : List Nat :=
  [(high_order >>> 24) % 256, (high_order >>> 16) % 256, (high_order >>> 8) % 256,
   high_order % 256, (low_order >>> 24) % 256, (low_order >>> 16) % 256,
   (low_order >>> 8) % 256, low_order % 256]

/-- The last block that `FinalizeSHA224` hands to `TransformSHA224` after the
bytes `B`: the pending bytes, the `0x80` marker and the zero fill when they
leave room for the length, otherwise 56 zero bytes; then the eight length
bytes. -/
def LastBlock (B : List Nat) : List Nat :=
  let c := B.length % 64
  (if c + 1 ≤ 56 then B.drop (B.length / 64 * 64) ++ 0x80 :: List.replicate (55 - c) 0
    else List.replicate 56 0) ++
    LengthBytes (8 * B.length / 2 ^ 32 % 2 ^ 32) (8 * B.length % 2 ^ 32)

/-- The accumulator that `FinalizeSHA224` leaves when the accumulator was `acc0`
at initialization and the bytes `B` were supplied since. -/
def FinalAccumulator (lsb_first : Bool) (acc0 B : List Nat) : List Nat :=
  let c := B.length % 64
  let acc1 := AbsorbBlocks lsb_first (B.length / 64) acc0 B
  let acc2 :=
    if c + 1 ≤ 56 then acc1
    else TransformAccumulator lsb_first acc1
      (B.drop (B.length / 64 * 64) ++ 0x80 :: List.replicate (63 - c) 0)
  TransformAccumulator lsb_first acc2 (LastBlock B)

/-- The state in which `FinalizeSHA224` leaves a context that started as `s0`
(initialized) and was fed the bytes `B`. -/
def FinalState (s0 : SHA224Info) (B : List Nat) : SHA224Info :=
  { s0 with
    message := LastBlock B
    accumulator := FinalAccumulator s0.lsb_first s0.accumulator B
    low_order := 8 * B.length % 2 ^ 32
    high_order := 8 * B.length / 2 ^ 32 % 2 ^ 32
    offset := B.length % 64
    digest := CopyWizardMemory s0.digest 0
      (PackDigest (FinalAccumulator s0.lsb_first s0.accumulator B)) }

/-- The last block that `FinalizeSHA224` hands to `TransformSHA224` after the
bytes `B` when the counters stand at `high` and `low`: as `LastBlock`, with
the eight length bytes of these counters. -/
def LastBlockWith (B : List Nat) (high low : Nat) : List Nat :=
  let c := B.length % 64
  (if c + 1 ≤ 56 then B.drop (B.length / 64 * 64) ++ 0x80 :: List.replicate (55 - c) 0
    else List.replicate 56 0) ++
    LengthBytes high low

/-- The accumulator that `FinalizeSHA224` leaves when the accumulator was `acc0`
at initialization, the bytes `B` were supplied since and the counters stand at
`high` and `low`. -/
def FinalAccumulatorWith (lsb_first : Bool) (acc0 B : List Nat) (high low : Nat) : List Nat :=
  let c := B.length % 64
  let acc1 := AbsorbBlocks lsb_first (B.length / 64) acc0 B
  let acc2 :=
    if c + 1 ≤ 56 then acc1
    else TransformAccumulator lsb_first acc1
      (B.drop (B.length / 64 * 64) ++ 0x80 :: List.replicate (63 - c) 0)
  TransformAccumulator lsb_first acc2 (LastBlockWith B high low)

/-- The state in which `FinalizeSHA224` leaves a context that started as `s0`
(initialized) and was fed the bytes `B`, the counters standing at `high` and
`low`. -/
def FinalStateWith (s0 : SHA224Info) (B : List Nat) (high low : Nat) : SHA224Info :=
  { s0 with
    message := LastBlockWith B high low
    accumulator := FinalAccumulatorWith s0.lsb_first s0.accumulator B high low
    low_order := low
    high_order := high
    offset := B.length % 64
    digest := CopyWizardMemory s0.digest 0
      (PackDigest (FinalAccumulatorWith s0.lsb_first s0.accumulator B high low)) }

/-- The high counter word after one `UpdateSHA224` of `n` bytes on a context
whose counters were zero: `(unsigned int) n >> 29`, the cast coming first. -/
def HighAfter (n : Nat) : Nat :=
  ((n % 2 ^ 32) >>> 29) % 2 ^ 32

/-- The accumulator words `InitializeSHA224` stores. -/
def InitialWords : List Nat :=
  [0xc1059ed8, 0x367cd507, 0x3070dd17, 0xf70e5939, 0xffc00b31, 0x68581511, 0x64f98fa7,
   0xbefa4fa4]

/-- The 28 digest bytes the source computes for the bytes `B`, as a closed
function of `B` and of the host byte order (see `digest_eq`). -/
def DigestOf (lsb_first : Bool) (B : List Nat) : List Nat :=
  PackDigest (FinalAccumulator lsb_first InitialWords B)

/-- The context `s` is the initialized context `s0` after the bytes `B` went
through it, with the bit counters at `low` and `high`: only the bytes of the
message buffer beyond the pending ones are left open. -/
def Absorbed (s0 s : SHA224Info) (B : List Nat) (low high : Nat) : Prop :=
  s.message.length = 64 ∧
  s.message.take (B.length % 64) = B.drop (B.length / 64 * 64) ∧
  s = { s0 with
        message := s.message
        offset := B.length % 64
        accumulator := AbsorbBlocks s0.lsb_first (B.length / 64) s0.accumulator B
        low_order := low
        high_order := high }

/-- The context `s` is what a sequence of `UpdateSHA224` calls that supplied
the bytes `B` in total makes of the initialized context `s0`. -/
def Tracks (s0 s : SHA224Info) (B : List Nat) : Prop :=
  Absorbed s0 s B (8 * B.length % 2 ^ 32) (8 * B.length / 2 ^ 32 % 2 ^ 32)


/-! ## Reference: SHA-224 as FIPS 180-4 defines it

Written from the standard, independently of the source: the padding of
section 5.1.1, the functions of section 4.1.2, the constants of section 4.2.2,
the initial hash value of section 5.3.2 and the computation of sections 6.2.2
and 6.3 (SHA-224 is SHA-256 from another initial value, cut to 224 bits). Words
are numbers below `2 ^ 32` and addition is modulo `2 ^ 32`. -/

namespace FIPS180

/-- Section 3.2: rotate the 32-bit word `x` right by `n` places. -/
def ROTR (n x : Nat) : Nat :=
  ((x >>> n) ||| (x <<< (32 - n))) % 2 ^ 32

/-- Section 3.2: shift the word `x` right by `n` places. -/
def SHR (n x : Nat) : Nat :=
  x >>> n

/-- Section 4.1.2, (4.2). -/
def Ch (x y z : Nat) : Nat :=
  (x &&& y) ^^^ ((2 ^ 32 - 1 - x) &&& z)

/-- Section 4.1.2, (4.3). -/
def Maj (x y z : Nat) : Nat :=
  (x &&& y) ^^^ (x &&& z) ^^^ (y &&& z)

/-- Section 4.1.2, (4.4). -/
def bigSigma0 (x : Nat) : Nat :=
  ROTR 2 x ^^^ ROTR 13 x ^^^ ROTR 22 x

/-- Section 4.1.2, (4.5). -/
def bigSigma1 (x : Nat) : Nat :=
  ROTR 6 x ^^^ ROTR 11 x ^^^ ROTR 25 x

/-- Section 4.1.2, (4.6). -/
def smallSigma0 (x : Nat) : Nat :=
  ROTR 7 x ^^^ ROTR 18 x ^^^ SHR 3 x

/-- Section 4.1.2, (4.7). -/
def smallSigma1 (x : Nat) : Nat :=
  ROTR 17 x ^^^ ROTR 19 x ^^^ SHR 10 x

/-- Trial division: whether `n` is a prime number. -/
def isPrime (n : Nat) : Bool :=
  2 ≤ n && (List.range n).all fun d => d < 2 || n % d != 0

/-- The greatest `r` with `r ^ 3 ≤ N`, built from the bit of weight `2 ^ (k - 1)`
downwards on top of `r`. -/
def cubeRoot : Nat → Nat → Nat → Nat
  | 0, _, r => r
  | k + 1, N, r => cubeRoot k N (if (r + 2 ^ k) ^ 3 ≤ N then r + 2 ^ k else r)

/-- Section 4.2.2: the sixty-four constant words of SHA-224 and SHA-256, the
first thirty-two bits of the fractional parts of the cube roots of the first
sixty-four prime numbers (the primes below 312; their cube roots are below
eight, so 36 bits hold the root of `p * 2 ^ 96`). -/
def K256 : List Nat :=
  ((List.range 312).filter isPrime).map fun p => cubeRoot 36 (p * 2 ^ 96) 0 % 2 ^ 32

/-- Section 5.3.2: the initial hash value of SHA-224. -/
def H0 : List Nat :=
  [0xc1059ed8, 0x367cd507, 0x3070dd17, 0xf70e5939, 0xffc00b31, 0x68581511, 0x64f98fa7,
   0xbefa4fa4]

/-- The `k` low bytes of `n`, most significant first. -/
def bigEndian : Nat → Nat → List Nat
  | 0, _ => []
  | k + 1, n => (n >>> (8 * k)) % 256 :: bigEndian k n

/-- Section 5.1.1 for a message of whole bytes: the bit `1` (the byte `0x80`),
the least number of zero bytes that brings the length to 56 modulo 64, and the
bit length of the message as a 64-bit number. -/
def pad (M : List Nat) : List Nat :=
  M ++ 0x80 :: List.replicate ((119 - M.length % 64) % 64) 0 ++
    bigEndian 8 (8 * M.length % 2 ^ 64)

/-- Section 5.2.1: the `t`-th 32-bit word of a block, most significant byte
first. -/
def blockWord (block : List Nat) (t : Nat) : Nat :=
  block.getD (4 * t) 0 * 2 ^ 24 + block.getD (4 * t + 1) 0 * 2 ^ 16 +
    block.getD (4 * t + 2) 0 * 2 ^ 8 + block.getD (4 * t + 3) 0

/-- Section 6.2.2, step 1, for `t` from 16 on: `n` more words of the message
schedule after the words `W` already prepared. -/
def extendSchedule : Nat → List Nat → List Nat
  | 0, W => W
  | n + 1, W =>
    let t := W.length
    extendSchedule n (W ++ [(smallSigma1 (W.getD (t - 2) 0) + W.getD (t - 7) 0 +
      smallSigma0 (W.getD (t - 15) 0) + W.getD (t - 16) 0) % 2 ^ 32])

/-- Section 6.2.2, step 1: the message schedule `W_0 .. W_63` of a block. -/
def messageSchedule (block : List Nat) : List Nat :=
  extendSchedule 48 ((List.range 16).map (blockWord block))

/-- Section 6.2.2, step 3: one pass over the working variables `a .. h`. -/
def step (W : List Nat) (v : List Nat) (t : Nat) : List Nat :=
  match v with
  | [a, b, c, d, e, f, g, h] =>
    let T1 := (h + bigSigma1 e + Ch e f g + K256.getD t 0 + W.getD t 0) % 2 ^ 32
    let T2 := (bigSigma0 a + Maj a b c) % 2 ^ 32
    [(T1 + T2) % 2 ^ 32, a, b, c, (d + T1) % 2 ^ 32, e, f, g]
  | _ => v

/-- Section 6.2.2, steps 1 to 4: the hash value after one more block; every
one of the eight words takes its working variable. -/
def compress (H block : List Nat) : List Nat :=
  List.zipWith (fun x y => (x + y) % 2 ^ 32) H
    ((List.range 64).foldl (step (messageSchedule block)) H)

/-- Section 6.2.2: the hash value after the first `n` blocks of `p`. -/
def hashBlocks : Nat → List Nat → List Nat → List Nat
  | 0, H, _ => H
  | n + 1, H, p => hashBlocks n (compress H (p.take 64)) (p.drop 64)

/-- Section 6.3: the SHA-224 digest of the byte sequence `M`, the first seven
words of the final hash value, most significant byte first. -/
def SHA224 (M : List Nat) : List Nat :=
  ((hashBlocks ((pad M).length / 64) H0 (pad M)).take 7).flatMap (bigEndian 4)

end FIPS180

/-! ## `wizard/blob.c`

Sizes and offsets (`size_t`, `WizardSizeType`, and the `WizardOffsetType`
position, which these paths only set to zero or advance) are natural numbers;
the results hold as long as no size computation leaves the range of its C
type: the sums `quantum<<=1` and `extent+=length+quantum` of `WriteBlob` and of
`WriteBlobStream` are those of the source when they stay below `2 ^ 64`, and a
statement about their values says so. What the operating system, the allocator and the stdio, zlib and bzlib
primitives answer is supplied by a `System` value. -/

inductive StreamType where
  | UndefinedStream
  | FileStream
  | StandardStream
  | PipeStream
  | ZipStream
  | BZipStream
  | BlobStream
  deriving DecidableEq, Repr

def WizardMaxBlobExtent : Nat := 65541

/-- The `struct _BlobInfo` of the source, without the file name, the `stat`
record, the debug flag, the semaphore and the signature. `file` is `none` for a
null `FILE *`, `data` is `none` for a null pointer and otherwise the bytes of
the block it points to. -/
structure BlobInfo where
  length : Nat
  extent : Nat
  quantum : Nat
  mapped : Bool
  eof : Bool
  offset : Nat
  size : Nat
  exempt : Bool
  status : Bool
  temporary : Bool
  type : StreamType
  file : Option Nat
  data : Option (List Nat)
  reference_count : Int
  deriving DecidableEq, Repr

/-- The answers of the environment to one operation on a handle. -/
structure System where
  /-- Whether `ResizeQuantumMemory` obtains the block it is asked for. -/
  grant : Bool
  /-- The indeterminate content of freshly allocated bytes, by index. -/
  junk : Nat → Nat
  /-- Whether the build defines `WIZARDSTOOLKIT_HAVE_POSIX_FALLOCATE`. -/
  have_posix_fallocate : Bool
  /-- The status `posix_fallocate` returns. -/
  fallocate_status : Int
  /-- The block `MapBlob` returns for a mapping of the given length. -/
  map : Nat → Option (List Nat)
  /-- The count and the bytes that the read primitives of a file, pipe, gzip
  or bzip2 stream deliver for a request of the given length. -/
  read : Nat → Int × List Nat
  /-- The count that the write primitives of such a stream return. -/
  write : List Nat → Int

/-- Modelled from the spec: `ResizeQuantumMemory(memory,count,quantum)` of
`wizard/memory.c` (not among the sources), a `realloc` to `count` bytes for a
quantum of one byte: a null pointer when the allocator refuses, otherwise a
block of `count` bytes that keeps the old content as far as it fits; the
remaining bytes are indeterminate. -/
def ResizeQuantumMemory (sys : System) (memory : Option (List Nat)) (count : Nat) :
    Option (List Nat) :=
  if sys.grant then
    some ((List.range count).map fun i => (memory.getD []).getD i (sys.junk i))
  else none

def WizardMin (x y : Nat) : Nat :=
  if x < y then x else y

/-- `AttachBlob(blob_info,blob,length)`. -/
def AttachBlob (blob_info : BlobInfo) (blob : List Nat) (length : Nat) : BlobInfo :=
  { blob_info with
    length := length
    extent := length
    quantum := WizardMaxBlobExtent
    offset := 0
    type := StreamType.BlobStream
    file := none
    data := some blob
    mapped := false }

/-- `DetachBlob(blob_info)`: the handle afterwards and the pointer returned. -/
def DetachBlob (blob_info : BlobInfo) : BlobInfo × Option (List Nat) :=
  ({ blob_info with
      mapped := false
      length := 0
      offset := 0
      eof := false
      exempt := false
      type := StreamType.UndefinedStream
      file := none
      data := none },
    blob_info.data)

/-- `ReadBlob(blob_info,length,data)`: the handle afterwards, the count returned
and the bytes stored at `data`. -/
def ReadBlob (sys : System) (blob_info : BlobInfo) (length : Nat) :
    BlobInfo × Int × List Nat :=
  if length = 0 then (blob_info, 0, [])
  else
    match blob_info.type with
    | StreamType.UndefinedStream => (blob_info, 0, [])
    | StreamType.BlobStream =>
      if blob_info.offset ≥ blob_info.length then
        ({ blob_info with eof := true }, 0, [])
      else
        let p := (blob_info.data.getD []).drop blob_info.offset
        let count := WizardMin length (blob_info.length - blob_info.offset)
        let b1 := { blob_info with offset := blob_info.offset + count }
        let b2 := if count ≠ length then { b1 with eof := true } else b1
        (b2, (count : Int), p.take count)
    | _ => (blob_info, (sys.read length).1, (sys.read length).2)

/-- `ReadBlobStream(blob_info,length,data,count)`: the handle afterwards, the
count and the bytes the returned pointer designates. -/
def ReadBlobStream (sys : System) (blob_info : BlobInfo) (length : Nat) :
    BlobInfo × Int × List Nat :=
  if blob_info.type ≠ StreamType.BlobStream then ReadBlob sys blob_info length
  else if blob_info.offset ≥ blob_info.length then
    ({ blob_info with eof := true }, 0, [])
  else
    let data := (blob_info.data.getD []).drop blob_info.offset
    let count := WizardMin length (blob_info.length - blob_info.offset)
    let b1 := { blob_info with offset := blob_info.offset + count }
    let b2 := if count ≠ length then { b1 with eof := true } else b1
    (b2, (count : Int), data.take count)

/-- `ReadBlobByte(blob_info)`: the handle afterwards and the value returned,
`EOF` being `-1`. -/
def ReadBlobByte (sys : System) (blob_info : BlobInfo) : BlobInfo × Int :=
  let r := ReadBlobStream sys blob_info 1
  if r.2.1 ≠ 1 then (r.1, -1) else (r.1, ((r.2.2.getD 0 0 : Nat) : Int))

/-- `SetBlobExtent(blob_info,extent)`: the handle afterwards and the boolean
returned. The two tests that `extent` survives the conversion to `off_t` or to
`size_t` always pass for the unbounded sizes used here; `UnmapBlob`, `TellBlob`
and `SyncBlob` change no field. -/
def SetBlobExtent (sys : System) (blob_info : BlobInfo) (extent : Nat) : BlobInfo × Bool :=
  match blob_info.type with
  | StreamType.UndefinedStream => (blob_info, true)
  | StreamType.FileStream =>
    if !sys.have_posix_fallocate then (blob_info, false)
    else if sys.fallocate_status ≠ 0 then (blob_info, false)
    else (blob_info, true)
  | StreamType.StandardStream => (blob_info, false)
  | StreamType.PipeStream => (blob_info, false)
  | StreamType.ZipStream => (blob_info, false)
  | StreamType.BZipStream => (blob_info, false)
  | StreamType.BlobStream =>
    if blob_info.mapped then
      if blob_info.file = none then (blob_info, false)
      else if !sys.have_posix_fallocate then (blob_info, false)
      else if sys.fallocate_status ≠ 0 then (blob_info, false)
      else
        ({ blob_info with data := sys.map extent, extent := extent, length := extent }, true)
    else
      let b1 := { blob_info with
        extent := extent
        data := ResizeQuantumMemory sys blob_info.data extent }
      if b1.data = none then ((DetachBlob b1).1, false) else (b1, true)

/-- The end of the `BlobStream` case of `WriteBlob` and of `WriteBlobStream`:
the copy to `data+offset` and the update of the position and the length. -/
def StoreBlob (blob_info : BlobInfo) (data : List Nat) : BlobInfo × Int :=
  let b1 := { blob_info with
    data := some (CopyWizardMemory (blob_info.data.getD []) blob_info.offset data)
    offset := blob_info.offset + data.length }
  let b2 := if b1.offset ≥ b1.length then { b1 with length := b1.offset } else b1
  (b2, (data.length : Int))

/-- `WriteBlob(blob_info,length,data)` with the `length` bytes `data`: the
handle afterwards and the count returned. The source computes `quantum<<=1`,
`extent+=length+quantum` and `extent+1` in `size_t`; they are written here
without the reduction modulo `2 ^ 64`, which leaves them as they are when
`extent + length + 2 * quantum + 1 < 2 ^ 64`. -/
def WriteBlob (sys : System) (blob_info : BlobInfo) (data : List Nat) : BlobInfo × Int :=
  let length := data.length
  if length = 0 then (blob_info, 0)
  else
    match blob_info.type with
    | StreamType.UndefinedStream => (blob_info, 0)
    | StreamType.BlobStream =>
      if blob_info.offset + length ≥ blob_info.extent then
        if blob_info.mapped then (blob_info, 0)
        else
          let quantum := blob_info.quantum <<< 1
          let extent := blob_info.extent + (length + quantum)
          let b1 := { blob_info with
            quantum := quantum
            extent := extent
            data := ResizeQuantumMemory sys blob_info.data (extent + 1) }
          if b1.data = none then ((DetachBlob b1).1, 0) else StoreBlob b1 data
      else StoreBlob blob_info data
    | _ => (blob_info, sys.write data)

/-- `WriteBlobStream(blob_info,length,data)` with the `length` bytes `data`. -/
def WriteBlobStream (sys : System) (blob_info : BlobInfo) (data : List Nat) : BlobInfo × Int :=
  let length := data.length
  if blob_info.type ≠ StreamType.BlobStream then WriteBlob sys blob_info data
  else if blob_info.offset + length ≥ blob_info.extent then
    let b1 := { blob_info with quantum := blob_info.quantum <<< 1 }
    let r := SetBlobExtent sys b1 (b1.extent + b1.quantum + length)
    if r.2 = false then (r.1, 0) else StoreBlob r.1 data
  else StoreBlob blob_info data

/-- `WriteBlobByte(blob_info,value)`. -/
def WriteBlobByte (sys : System) (blob_info : BlobInfo) (value : Nat) : BlobInfo × Int :=
  WriteBlobStream sys blob_info [value]

/-- `WriteBlobString(blob_info,string)`; `string` holds the `strlen(string)`
characters before the terminating zero. -/
def WriteBlobString (sys : System) (blob_info : BlobInfo) (string : List Nat) :
    BlobInfo × Int :=
  WriteBlobStream sys blob_info string

/-- The invariant of the data model: `position <= length <= capacity`. -/
def BlobInvariant (blob_info : BlobInfo) : Prop :=
  blob_info.offset ≤ blob_info.length ∧ blob_info.length ≤ blob_info.extent

instance (blob_info : BlobInfo) : Decidable (BlobInvariant blob_info) := by
  unfold BlobInvariant
  exact inferInstance

/-- The number of bytes of the block `data` points to. -/
def Allocated (blob_info : BlobInfo) : Nat :=
  (blob_info.data.getD []).length

/-- The stored bytes with indices from `i` up to, not including, `j`. -/
def StoredBytes (blob_info : BlobInfo) (i j : Nat) : List Nat :=
  ((blob_info.data.getD []).drop i).take (j - i)

/-! ## Concrete inputs used by the examples -/

/-- An environment in which every request succeeds and fresh bytes are zero. -/
def sysGrant : System :=
  { grant := true
    junk := fun _ => 0
    have_posix_fallocate := true
    fallocate_status := 0
    map := fun n => some (List.replicate n 0)
    read := fun _ => (0, [])
    write := fun d => d.length }

/-- An environment in which the allocator refuses every request. -/
def sysRefuse : System :=
  { sysGrant with grant := false }

/-- A handle as `GetBlobInfo` leaves it. -/
def blankBlob : BlobInfo :=
  { length := 0
    extent := 0
    quantum := WizardMaxBlobExtent
    mapped := false
    eof := false
    offset := 0
    size := 0
    exempt := false
    status := false
    temporary := false
    type := StreamType.UndefinedStream
    file := none
    data := none
    reference_count := 1 }

/-! ## `wizard/blob.c`: opening, closing, chunked reading

C strings are the lists of their character codes (without the terminating
zero). The answers of the operating system to the calls made for one file name
are gathered in a `Host` value; the calls that release a resource are recorded
as a list of `Primitive` values, in the order in which they are made. -/

/-- The character codes of a string. -/
def cstr (s : String) : List Nat :=
  s.toList.map Char.toNat

/-- The value `EOF` of the C library. -/
def EOF : Int := -1

/-- The value `EINTR` of the C library (Linux). -/
def EINTR : Int := 4

/-- The value `SSIZE_MAX` where `ssize_t` has 64 bits. -/
def SSIZE_MAX : Nat := 2 ^ 63 - 1

/-- The conversion `(ssize_t) length` of a 64-bit `size_t`. -/
def SignedSize (length : Nat) : Int :=
  if length ≤ SSIZE_MAX then (length : Int) else (length : Int) - 2 ^ 64

/-- The lower-case form of the code of an ASCII letter. -/
def LowerCode (c : Nat) : Nat :=
  if 65 ≤ c ∧ c ≤ 90 then c + 32 else c

/-- Modelled from the spec: `LocaleCompare(p,q) == 0` of `wizard/locale.c` (not
among the sources), and `strcasecmp(p,q) == 0`: the two strings are equal up
to the case of their ASCII letters. -/
def LocaleCompare (p q : List Nat) : Bool :=
  p.map LowerCode == q.map LowerCode

/-- Modelled from the spec: `LocaleNCompare(p,q,n) == 0` of `wizard/locale.c`
(not among the sources): `LocaleCompare` on the first `n` characters. -/
def LocaleNCompare (p q : List Nat) (n : Nat) : Bool :=
  (p.take n).map LowerCode == (q.take n).map LowerCode

/-- The modes of `OpenBlob` named in its `switch`; any other value of the
enumeration behaves as `UndefinedBlobMode` (the `default` label). -/
inductive BlobMode where
  | UndefinedBlobMode
  | ReadBlobMode
  | ReadBinaryBlobMode
  | WriteBlobMode
  | WriteBinaryBlobMode
  deriving DecidableEq, Repr

/-- The calls by which `CloseBlob`, `DetachBlob` and `DestroyBlob` give a
resource back: `fclose`, `pclose`, `gzclose`, `BZ2_bzclose`, `munmap` (through
`UnmapBlob`) and the release of the `BlobInfo` structure itself. -/
inductive Primitive where
  | fclose
  | pclose
  | gzclose
  | bzclose
  | munmap
  | relinquish
  deriving DecidableEq, Repr

/-- The build options and the answers of the operating system to the calls
`OpenBlob` and `CloseBlob` make for one file name. A `FILE *`, `gzFile` or
`BZFILE *` is a number, `none` being the null pointer. -/
structure Host where
  /-- Whether the build defines `WIZARDSTOOLKIT_HAVE_POPEN`. -/
  have_popen : Bool
  /-- Whether the platform defines `S_ISFIFO`. -/
  have_fifo : Bool
  /-- Whether the build defines `WIZARDSTOOLKIT_ZLIB_DELEGATE`. -/
  zlib_delegate : Bool
  /-- Whether the build defines `WIZARDSTOOLKIT_BZLIB_DELEGATE`. -/
  bzlib_delegate : Bool
  /-- The constant `WizardMaxBufferExtent` (its header is not among the sources). -/
  max_buffer_extent : Nat
  /-- Whether `AcquireWizardMemory` obtains the `BlobInfo` structure. -/
  acquire : Bool
  /-- The results of `fdopen`, `popen`, `WizardOpenStream`, `gzopen`, `BZ2_bzopen`. -/
  fdopen : Option Nat
  popen : Option Nat
  fopen : Option Nat
  gzopen : Option Nat
  bzopen : Option Nat
  /-- Whether `stat` succeeds, whether it reports a FIFO, and the size and the
  modification time it reports (zero when it fails). -/
  stat_ok : Bool
  is_fifo : Bool
  st_size : Nat
  st_mtime : Nat
  /-- The three bytes `magick` after the `fread` of the file header. -/
  magick : List Nat
  /-- The block `MapBlob` returns. -/
  map : Option (List Nat)
  /-- The size `fstat` reports, `none` when it fails. -/
  fstat : Option Nat
  /-- The statuses of `ferror`, `gzerror`, `BZ2_bzerror`, `fclose`, `pclose`, `gzclose`. -/
  ferror : Int
  gzerror : Int
  bzerror : Int
  fclose : Int
  pclose : Int
  gzclose : Int
  /-- The value `errno` holds when `OpenBlob` returns a null pointer: what the
  call that failed (`malloc`, `popen`, `fopen`) has stored there. -/
  errno : Int

/-- `GetBlobInfo(blob_info)`: the structure is cleared, then four fields are
set (the event logging flag, the semaphore and the signature are not part of
the record). -/
def GetBlobInfo : BlobInfo :=
  { length := 0
    extent := 0
    quantum := WizardMaxBlobExtent
    mapped := false
    eof := false
    offset := 0
    size := 0
    exempt := false
    status := false
    temporary := false
    type := StreamType.UndefinedStream
    file := none
    data := none
    reference_count := 1 }

/-- `GetBlobSize(blob_info)`. -/
def GetBlobSize (host : Host) (blob_info : BlobInfo) : Nat :=
  match blob_info.type with
  | StreamType.UndefinedStream => blob_info.size
  | StreamType.FileStream => host.fstat.getD 0
  | StreamType.StandardStream => blob_info.size
  | StreamType.PipeStream => blob_info.size
  | StreamType.ZipStream => if host.zlib_delegate then host.fstat.getD 0 else 0
  | StreamType.BZipStream => if host.bzlib_delegate then host.fstat.getD 0 else 0
  | StreamType.BlobStream => blob_info.length

/-- Whether the first character of the `fopen` type string that `OpenBlob`
derives from the mode is `r`. -/
def ModeReads (mode : BlobMode) : Bool :=
  match mode with
  | BlobMode.WriteBlobMode => false
  | BlobMode.WriteBinaryBlobMode => false
  | _ => true

/-- Whether `filename` is longer than `suffix` and ends with it, up to case:
the tests `(strlen(filename) > n) && (LocaleCompare(filename+strlen(filename)-n,
suffix) == 0)` of `OpenBlob`. -/
def HasSuffix (filename suffix : List Nat) : Bool :=
  decide (filename.length > suffix.length) &&
    LocaleCompare (filename.drop (filename.length - suffix.length)) suffix

/-- The last part of `OpenBlob`, from `properties=(&blob_info->properties)` on:
the attempt to map a file opened for reading, then the size, or a null result
when no stream was obtained. -/
def OpenBlobFinish (host : Host) (mode : BlobMode) (blob_info : BlobInfo) :
    Option BlobInfo :=
  let b1 :=
    if blob_info.type = StreamType.FileStream ∧ ModeReads mode = true ∧
        host.st_size ≤ host.max_buffer_extent then
      match host.map with
      | some blob => { AttachBlob { blob_info with file := none } blob host.st_size with
                        mapped := true }
      | none => blob_info
    else blob_info
  let b2 := { b1 with status := false }
  if b2.type ≠ StreamType.UndefinedStream then some { b2 with size := GetBlobSize host b2 }
  else none

/-- `OpenBlob(filename,mode,compress,exception)`: the handle returned, `none`
for a null pointer. -/
def OpenBlob (host : Host) (filename : List Nat) (mode : BlobMode) (compress : Bool) :
    Option BlobInfo :=
  if !host.acquire then none
  else
    let blob_info := GetBlobInfo
    if LocaleCompare filename (cstr "-") then
      some { blob_info with
        file := some (if ModeReads mode then 0 else 1)
        type := StreamType.StandardStream
        exempt := true }
    else if LocaleNCompare filename (cstr "fd:") 3 then
      some { blob_info with
        file := host.fdopen
        type := StreamType.StandardStream
        exempt := true }
    else if host.have_popen ∧ filename.head? = some 124 then
      match host.popen with
      | none => none
      | some f =>
        some { blob_info with
          file := some f
          type := StreamType.PipeStream
          exempt := true }
    else if host.have_fifo ∧ host.stat_ok ∧ host.is_fifo then
      match host.fopen with
      | none => none
      | some f =>
        some { blob_info with
          file := some f
          type := StreamType.FileStream
          exempt := true }
    else if host.zlib_delegate ∧ compress ∧
        (HasSuffix filename (cstr ".Z") ∨ HasSuffix filename (cstr ".gz") ∨
          HasSuffix filename (cstr ".wmz") ∨ HasSuffix filename (cstr ".svgz")) then
      OpenBlobFinish host mode
        { blob_info with
          file := host.gzopen
          type := if host.gzopen ≠ none then StreamType.ZipStream else blob_info.type }
    else if host.bzlib_delegate ∧ compress ∧ HasSuffix filename (cstr ".bz2") then
      OpenBlobFinish host mode
        { blob_info with
          file := host.bzopen
          type := if host.bzopen ≠ none then StreamType.BZipStream else blob_info.type }
    else
      match host.fopen with
      | none => OpenBlobFinish host mode blob_info
      | some f =>
        let b1 := { blob_info with file := some f, type := StreamType.FileStream }
        if ModeReads mode then
          let b2 :=
            if host.zlib_delegate ∧ compress ∧ host.magick.getD 0 0 = 0x1F ∧
                host.magick.getD 1 0 = 0x8B ∧ host.magick.getD 2 0 = 0x08 then
              { b1 with
                file := host.gzopen
                type := if host.gzopen ≠ none then StreamType.ZipStream else b1.type }
            else b1
          let b3 :=
            if host.bzlib_delegate ∧ compress ∧ host.magick.take 3 = cstr "BZh" then
              { b2 with
                file := host.bzopen
                type := if host.bzopen ≠ none then StreamType.BZipStream else b2.type }
            else b2
          OpenBlobFinish host mode b3
        else OpenBlobFinish host mode b1

/-- The second `switch` of `CloseBlob`: the status after the release call of
the kind, and the call made. `status` comes from the first `switch`. -/
def ReleaseStream (host : Host) (type : StreamType) (status : Int) : Int × List Primitive :=
  match type with
  | StreamType.UndefinedStream => (status, [])
  | StreamType.FileStream => (host.fclose, [Primitive.fclose])
  | StreamType.StandardStream => (host.fclose, [Primitive.fclose])
  | StreamType.PipeStream =>
    if host.have_popen then (host.pclose, [Primitive.pclose]) else (status, [])
  | StreamType.ZipStream =>
    if host.zlib_delegate then (host.gzclose, [Primitive.gzclose]) else (status, [])
  | StreamType.BZipStream =>
    if host.bzlib_delegate then (status, [Primitive.bzclose]) else (status, [])
  | StreamType.BlobStream => (status, [])

/-- `CloseBlob(blob_info)`: the handle afterwards, the boolean returned and the
release calls made. `SyncBlob` changes no field. -/
def CloseBlob (host : Host) (blob_info : BlobInfo) : BlobInfo × Bool × List Primitive :=
  if blob_info.type = StreamType.UndefinedStream then (blob_info, true, [])
  else
    let b1 := { blob_info with size := GetBlobSize host blob_info, eof := false }
    if b1.exempt then ({ b1 with type := StreamType.UndefinedStream }, true, [])
    else
      let status : Int :=
        match b1.type with
        | StreamType.FileStream => host.ferror
        | StreamType.StandardStream => host.ferror
        | StreamType.PipeStream => host.ferror
        | StreamType.ZipStream => if host.zlib_delegate then host.gzerror else 0
        | StreamType.BZipStream => if host.bzlib_delegate then host.bzerror else 0
        | _ => 0
      let b2 := { b1 with status := decide (status < 0) }
      let r := ReleaseStream host b2.type status
      let unmap := if b2.mapped then [Primitive.munmap] else []
      let b3 := (DetachBlob b2).1
      ({ b3 with status := decide (r.1 < 0) }, decide (r.1 < 0), r.2 ++ unmap)

/-- `DestroyBlob(blob_info)`: the pointer returned (`none` once the structure
is released) and the release calls made. The semaphore only orders concurrent
callers and is not modelled. -/
def DestroyBlob (host : Host) (blob_info : BlobInfo) : Option BlobInfo × List Primitive :=
  let b1 := { blob_info with reference_count := blob_info.reference_count - 1 }
  if b1.reference_count ≠ 0 then (some b1, [])
  else
    let c := CloseBlob host b1
    let unmap := if c.1.mapped then [Primitive.munmap] else []
    (none, c.2.2 ++ unmap ++ [Primitive.relinquish])

/-- One answer of the read primitive behind a file, pipe, gzip or bzip2
handle: the bytes it has ready, and the value it stores in `errno`, if any. -/
structure ReadAnswer where
  bytes : List Nat
  errno : Option Int
  deriving DecidableEq, Repr

/-- One call of the read primitive for `n` bytes on a stream given by the
answers it still has to give: the answer, cut to `n` bytes, and the stream
afterwards. When no answer is left the stream is at its end: no byte is
delivered and `errno` is left alone. -/
def StreamRead (stream : List ReadAnswer) (n : Nat) : ReadAnswer × List ReadAnswer :=
  match stream with
  | [] => ({ bytes := [], errno := none }, [])
  | a :: rest =>
    if a.bytes.length ≤ n then (a, rest)
    else ({ bytes := a.bytes.take n, errno := none }, { a with bytes := a.bytes.drop n } :: rest)

/-- The loop `for (i=0; i < (ssize_t) length; i+=count)` of `ReadBlobChunk` with
`fuel` passes left: `none` when the passes are used up before the loop ends,
otherwise the handle, `i`, the bytes gathered at `data`, the stream and `errno`
at the exit. -/
def ReadBlobChunkLoop (sys : System) (length : Nat) :
    Nat → BlobInfo → List ReadAnswer → Int → Int → List Nat →
      Option (BlobInfo × Int × List Nat × List ReadAnswer × Int)
  | 0, _, _, _, _, _ => none
  | fuel + 1, blob_info, stream, errno, i, data =>
    if i < SignedSize length then
      let request := WizardMin (length - i.toNat) SSIZE_MAX
      let a := StreamRead stream request
      let r := ReadBlob { sys with read := fun _ => ((a.1.bytes.length : Int), a.1.bytes) }
        blob_info request
      let errno1 := a.1.errno.getD errno
      if r.2.1 ≤ 0 then
        if errno1 ≠ EINTR then some (r.1, i, data, a.2, errno1)
        else ReadBlobChunkLoop sys length fuel r.1 a.2 errno1 (i + 0) data
      else ReadBlobChunkLoop sys length fuel r.1 a.2 errno1 (i + r.2.1) (data ++ r.2.2)
    else some (blob_info, i, data, stream, errno)

/-- `ReadBlobChunk(blob_info,length,data)` on a handle whose stream is `stream`,
entered with the value `errno` left by earlier calls. -/
def ReadBlobChunk (sys : System) (fuel : Nat) (blob_info : BlobInfo)
    (stream : List ReadAnswer) (errno : Int) (length : Nat) :
    Option (BlobInfo × Int × List Nat × List ReadAnswer × Int) :=
  if blob_info.type = StreamType.BlobStream then
    let r := ReadBlob sys blob_info length
    some (r.1, r.2.1, r.2.2, stream, errno)
  else ReadBlobChunkLoop sys length fuel blob_info stream errno 0 []

/-- A host on which every call succeeds: a regular file of three bytes. -/
def hostPlain : Host :=
  { have_popen := true
    have_fifo := true
    zlib_delegate := true
    bzlib_delegate := true
    max_buffer_extent := 0x80000
    acquire := true
    fdopen := some 3
    popen := some 4
    fopen := some 5
    gzopen := some 6
    bzopen := some 7
    stat_ok := true
    is_fifo := false
    st_size := 3
    st_mtime := 0
    magick := [97, 98, 99]
    map := none
    fstat := some 3
    ferror := 0
    gzerror := 0
    bzerror := 0
    fclose := 0
    pclose := 0
    gzclose := 0
    errno := 2 }

/-- The file names for which `OpenBlob` sets the `exempt` flag before it
returns: the standard stream, an inherited descriptor, a command to pipe to or
from, and a file that `stat` reports as a FIFO. -/
def Exempted (host : Host) (filename : List Nat) : Bool :=
  LocaleCompare filename (cstr "-") || LocaleNCompare filename (cstr "fd:") 3 ||
    (host.have_popen && filename.head? == some 124) ||
    (host.have_fifo && host.stat_ok && host.is_fifo)

/-- A file handle on descriptor 5, as `OpenBlob` leaves it when it does not map
the file. -/
def fileBlob : BlobInfo :=
  { GetBlobInfo with type := StreamType.FileStream, file := some 5 }

/-- The handle `OpenBlob` returns on `hostPlain` for a regular file it does not
map: descriptor 5, three bytes. -/
def plainHandle : BlobInfo :=
  { GetBlobInfo with type := StreamType.FileStream, file := some 5, size := 3 }

/-! ## `utilities/digest.c`: the manifest protocol

A run of `DigestCommand` or `AuthenticateDigest` is a function of the argument
vector and of a `World`: the toolkit functions whose sources are missing, the
answers of the operating system for each file
name, and the bytes each kind of stream delivers for it. What a run does is
gathered in a `Session`. A loop that may go on for ever takes a number of
passes `fuel` and yields `none` when they are used up. -/

/-- `isspace(c)` in the C locale. -/
def isspace (c : Int) : Bool :=
  decide (c = 32 ∨ (9 ≤ c ∧ c ≤ 13))

/-- `isgraph(c)` in the C locale. -/
def isgraph (c : Int) : Bool :=
  decide (33 ≤ c ∧ c ≤ 126)

/-- `isalnum(c)` in the C locale. -/
def isalnum (c : Int) : Bool :=
  decide ((48 ≤ c ∧ c ≤ 57) ∨ (65 ≤ c ∧ c ≤ 90) ∨ (97 ≤ c ∧ c ≤ 122))

/-- The conversion `(int) ((unsigned char) c)`. -/
def UnsignedChar (c : Int) : Int :=
  c % 256

/-- The C string that starts at the beginning of a buffer: the bytes before the
first zero. -/
def CString (buffer : List Nat) : List Nat :=
  buffer.takeWhile fun b => b != 0

/-- `LocaleLower(string)`. -/
def LocaleLower (string : List Nat) : List Nat :=
  string.map LowerCode

/-- The functions and constants of the toolkit that `digest.c` uses and whose
sources (`hash.c`, `option.c`, `string.c`, `utility.c`, `log.c`, `xml-tree.c`,
`studio.h`) are not among the sources: parameters of a run. Each function is
taken as a pure function of its arguments; its values are left open. -/
structure Toolkit where
  /-- The constant `MaxTextExtent`. -/
  MaxTextExtent : Nat
  /-- The members `UndefinedHash` and `SHA256Hash` of `HashType`. -/
  UndefinedHash : Int
  SHA256Hash : Int
  /-- `ExpandFilenames(&argc,&argv)`: the new argument vector, `none` on failure. -/
  ExpandFilenames : List (List Nat) → Option (List (List Nat))
  /-- `ParseWizardOption(WizardHashOptions,WizardFalse,name)`: negative when the
  name is not that of a hash. -/
  ParseHashOption : List Nat → Int
  /-- `ParseWizardOption(WizardListOptions,WizardFalse,name)`. -/
  ParseListOption : List Nat → Int
  /-- `WizardOptionToMnemonic(WizardHashOptions,hash)`. -/
  HashMnemonic : Int → List Nat
  /-- Whether `SetLogEventMask(events)` differs from `UndefinedEvents`. -/
  SetLogEventMask : List Nat → Bool
  /-- `CanonicalXMLContent(content,WizardFalse)`. -/
  CanonicalXMLContent : List Nat → List Nat
  /-- `FormatWizardTime(time,MaxTextExtent,timestamp)`: the text stored. -/
  FormatWizardTime : Nat → List Nat
  /-- `FormatWizardString(text,MaxTextExtent,WizardSizeFormat,extent)`: the text stored. -/
  FormatSize : Nat → List Nat
  /-- `StripString(message)`: the string left in `message`. -/
  StripString : List Nat → List Nat
  /-- `GetHashHexDigest` of a finalized context: a function of the hash the
  context was acquired for and of the bytes it was updated with. -/
  HexDigest : Int → List Nat → List Nat

/-- Modelled from the spec: a `HashInfo` of `wizard/hash.c` (not among the
sources) is known by the hash it was acquired for and by the bytes it has been
updated with so far; `InitializeHash` and `FinalizeHash` change neither. -/
structure HashInfo where
  hash : Int
  message : List Nat
  deriving DecidableEq, Repr

/-- Modelled from the spec: `AcquireHashInfo(hash)` followed by `InitializeHash`. -/
def AcquireHashInfo (hash : Int) : HashInfo :=
  { hash := hash, message := [] }

/-- Modelled from the spec: `UpdateHash(hash_info,content)`. -/
def UpdateHash (hash_info : HashInfo) (content : List Nat) : HashInfo :=
  { hash_info with message := hash_info.message ++ content }

/-- Modelled from the spec: `GetHashHexDigest(hash_info)` after `FinalizeHash`. -/
def GetHashHexDigest (kit : Toolkit) (hash_info : HashInfo) : List Nat :=
  kit.HexDigest hash_info.hash hash_info.message

/-- What surrounds a run. -/
structure World where
  kit : Toolkit
  /-- The allocator and the write primitives. -/
  sys : System
  /-- The answers of the operating system for a file name. -/
  host : List Nat → Host
  /-- The bytes that a stream of the given kind delivers for a file name: the
  bytes of the file for a file stream, what `gzread` or `BZ2_bzread` make of them
  for a gzip or bzip2 stream. The transport hands over what it is asked for as
  far as these bytes go, and does not touch `errno`. -/
  content : List Nat → StreamType → List Nat
  /-- The value of `errno` when the run starts. -/
  errno : Int
  /-- The value of `time((time_t *) NULL)`. -/
  time : Nat

/-- What a run has done so far. -/
structure Session where
  /-- The bytes handed to `WriteBlob` and `WriteBlobString` for the output
  (the manifest of `DigestCommand`, the report of `AuthenticateDigest`). -/
  written : List Nat
  /-- The hash contexts at their `FinalizeHash`, in order. -/
  hashed : List HashInfo
  /-- The number of exceptions thrown. -/
  exceptions : Nat
  /-- The value of `errno`. -/
  errno : Int
  deriving DecidableEq, Repr

/-- How a run ends: with `return(status)`, with `Exit(code)`, or at an operation
whose behaviour C does not define (a null pointer handed on as a string). -/
inductive Outcome where
  | returned (status : Bool)
  | exited (code : Nat)
  | undefined
  deriving DecidableEq, Repr

/-- The end of a run. -/
structure Verdict where
  result : Outcome
  session : Session
  deriving DecidableEq, Repr

/-- After a part of a function: go on with a state, or leave the function. -/
inductive Flow (σ : Type) where
  | proceed (state : σ)
  | finish (result : Outcome) (session : Session)

/-- `ThrowDigestException(asperity,tag,context)`: an exception is thrown and the
function returns `WizardFalse`. -/
def ThrowDigestException {σ : Type} (session : Session) : Flow σ :=
  Flow.finish (Outcome.returned false) { session with exceptions := session.exceptions + 1 }

/-- What a call of `OpenBlob` that returns a null pointer leaves behind. Every
`return((BlobInfo *) NULL)` of `OpenBlob` comes after a
`ThrowWizardException`, and the call that failed has set `errno`. -/
def FailedOpen (host : Host) (session : Session) : Session :=
  { session with exceptions := session.exceptions + 1, errno := host.errno }

/-- The session at the start of a run. -/
def StartSession (w : World) : Session :=
  { written := [], hashed := [], exceptions := 0, errno := w.errno }

/-- The bytes a handle just opened on `filename` has to deliver: the block for
a mapped file, otherwise what the world says for the kind of stream. -/
def StreamBytes (w : World) (filename : List Nat) (blob_info : BlobInfo) : List Nat :=
  match blob_info.type with
  | StreamType.BlobStream => (blob_info.data.getD []).take blob_info.length
  | type => w.content filename type

/-- What the loop over the chunks of a content leaves. -/
structure Hashed where
  blob : BlobInfo
  errno : Int
  hash_info : HashInfo
  extent : Nat

/-- The loop `for (content=AcquireStringInfo(WizardMaxBufferExtent); ; )` of
both commands: `ReadBlobChunk` until its count is not positive, each chunk
being given to `UpdateHash` and added to `extent`. -/
def HashContent (sys : System) (length : Nat) :
    Nat → BlobInfo → List ReadAnswer → Int → HashInfo → Nat → Option Hashed
  | 0, _, _, _, _, _ => none
  | fuel + 1, blob_info, stream, errno, hash_info, extent =>
    match ReadBlobChunk sys (fuel + 1) blob_info stream errno length with
    | none => none
    | some r =>
      if r.2.1 ≤ 0 then
        some { blob := r.1, errno := r.2.2.2.2, hash_info := hash_info, extent := extent }
      else
        HashContent sys length fuel r.1 r.2.2.2.1 r.2.2.2.2 (UpdateHash hash_info r.2.2.1)
          (extent + r.2.1.toNat)

/-- `ReadBlobByte(digest_blob)` on a handle whose stream still has the bytes
`input` to deliver: the value returned, `EOF` once none is left, and the bytes
left. -/
def ReadByte (input : List Nat) : Int × List Nat :=
  match input with
  | [] => (EOF, [])
  | b :: rest => ((b : Int), rest)

/-- The loop `do ... while (c != EOF)` that gets the key: the characters stored
from `key` on (at most `max`), then `c` and the bytes left. -/
def GetKey (max : Nat) : List Nat → Int → List Nat → List Nat × Int × List Nat
  | chars, c, [] =>
    if isspace (UnsignedChar c) = true ∨ c = 62 then (chars, c, [])
    else (if chars.length < max then chars ++ [c.toNat] else chars, EOF, [])
  | chars, c, b :: rest =>
    if isspace (UnsignedChar c) = true ∨ c = 62 then (chars, c, b :: rest)
    else GetKey max (if chars.length < max then chars ++ [c.toNat] else chars) (b : Int) rest

/-- The buffer `key` after the characters `chars` and the closing zero have been
stored from its start: what lay beyond stays. -/
def StoreKey (key chars : List Nat) : List Nat :=
  chars ++ 0 :: key.drop (chars.length + 1)

/-- The loops `while (isspace((int) ((unsigned char) c)) != 0)
c=ReadBlobByte(digest_blob)`. -/
def SkipSpace : Int → List Nat → Int × List Nat
  | c, [] => if isspace (UnsignedChar c) then (EOF, []) else (c, [])
  | c, b :: rest => if isspace (UnsignedChar c) then SkipSpace (b : Int) rest else (c, b :: rest)

/-- The block of the value loop that doubles `length` and resizes `options` when
the next character would not fit: the string kept and the new `length`, `none`
when `ResizeQuantumMemory` returns a null pointer. -/
def GrowOptions (sys : System) (max : Nat) (value : List Nat) (length : Nat) :
    Option (List Nat × Nat) :=
  if value.length + 1 ≥ length then
    match ResizeQuantumMemory sys (some (value ++ [0])) ((length <<< 1) + max) with
    | none => none
    | some options => some (CString options, length <<< 1)
  else some (value, length)

/-- What the value loop leaves: the characters stored from `options` on (`none`
once `options` is a null pointer), `length`, `c` and the bytes left. -/
structure Field where
  options : Option (List Nat)
  length : Nat
  c : Int
  input : List Nat

/-- The loop `while ((c != (int) '<') && (c != EOF))` that gets the value,
entered with `options` not null. When the resize fails the loop is left by
`break` with `options` null, so that the test `options == NULL` that follows
the block is not reached in the same pass. -/
def GetValue (sys : System) (max : Nat) : List Nat → Nat → Int → List Nat → Field
  | value, length, c, [] =>
    if c = 60 ∨ c = EOF then { options := some value, length := length, c := c, input := [] }
    else
      match GrowOptions sys max value length with
      | none => { options := none, length := length <<< 1, c := c, input := [] }
      | some g => { options := some (g.1 ++ [c.toNat]), length := g.2, c := EOF, input := [] }
  | value, length, c, b :: rest =>
    if c = 60 ∨ c = EOF then
      { options := some value, length := length, c := c, input := b :: rest }
    else
      match GrowOptions sys max value length with
      | none => { options := none, length := length <<< 1, c := c, input := b :: rest }
      | some g =>
        if (g.1 ++ [c.toNat]).headD 0 ≠ 60 ∧ isspace (UnsignedChar (b : Int)) = true then
          { options := some (g.1 ++ [c.toNat]), length := g.2, c := (b : Int), input := rest }
        else GetValue sys max (g.1 ++ [c.toNat]) g.2 (b : Int) rest

/-- The variables of `AuthenticateDigest` while it reads one manifest. -/
structure Parse where
  create_date : List Nat
  digest : List Nat
  path : List Nat
  modify_date : List Nat
  timestamp : List Nat
  hash : Int
  /-- The buffer `key`. -/
  key : List Nat
  /-- The string at `options`, `none` for a null pointer. -/
  options : Option (List Nat)
  length : Nat
  c : Int
  /-- The bytes `digest_blob` still has to deliver. -/
  input : List Nat
  digest_blob : BlobInfo
  authenticate_blob : BlobInfo
  session : Session

/-- The message that `AuthenticateDigest` writes for a digest that does not
match; `date` is the time of the check, `fresh` the digest just computed. -/
def Discrepancy (path create_date modify_date timestamp digest date fresh : List Nat) :
    List Nat :=
  cstr "Path: " ++ path ++ [10] ++ cstr "  create date: " ++ create_date ++ [10] ++
    cstr "  modify date: " ++ modify_date ++ [10] ++ cstr "  digest (" ++ timestamp ++
    cstr "):" ++ [10] ++ cstr "    " ++ digest ++ [10] ++ cstr "  errant digest (" ++ date ++
    cstr "):" ++ [10] ++ cstr "    " ++ fresh ++ [10]

/-- The block of `case '/'` run for the keys `/digest:Content` and
`/rdf:Description`: the content at `path` is opened, hashed and compared with
the digest of the record. -/
def VerifyContent (w : World) (fuel : Nat) (p : Parse) : Option (Flow Parse) :=
  match OpenBlob (w.host p.path) p.path BlobMode.ReadBinaryBlobMode true with
  | none => some (Flow.proceed { p with session := FailedOpen (w.host p.path) p.session })
  | some content_blob =>
    match HashContent w.sys (w.host p.path).max_buffer_extent fuel content_blob
        [{ bytes := StreamBytes w p.path content_blob, errno := none }] p.session.errno
        (AcquireHashInfo w.kit.SHA256Hash) 0 with
    | none => none
    | some r =>
      let fresh := GetHashHexDigest w.kit r.hash_info
      let message := Discrepancy p.path p.create_date p.modify_date p.timestamp p.digest
        (w.kit.FormatWizardTime w.time) fresh
      let wrote := WriteBlobString w.sys p.authenticate_blob message
      let differs : Bool := decide (p.digest ≠ fresh)
      let failed : Bool := differs && decide (wrote.2 ≠ (message.length : Int))
      let closed := CloseBlob (w.host p.path) r.blob
      some (Flow.proceed { p with
        authenticate_blob := if differs then wrote.1 else p.authenticate_blob
        session :=
          { written := if differs then p.session.written ++ message else p.session.written
            hashed := p.session.hashed ++ [r.hash_info]
            exceptions := p.session.exceptions + (if failed then 1 else 0) +
              (if closed.2.1 then 1 else 0)
            errno := r.errno } })

/-- The statement `switch (*key)`. A null `options` handed to `StripString`
leaves the behaviour undefined. -/
def InterpretKey (w : World) (fuel : Nat) (p : Parse) : Option (Flow Parse) :=
  let key := CString p.key
  let first := p.key.headD 0
  let strip : (List Nat → Parse) → Option (Flow Parse) := fun store =>
    match p.options with
    | none => some (Flow.finish Outcome.undefined p.session)
    | some options => some (Flow.proceed (store (w.kit.StripString (CString options))))
  if first = 100 ∨ first = 68 then
    if LocaleCompare key (cstr "digest:create-date") then
      strip fun s => { p with create_date := s }
    else if LocaleCompare key (cstr "digest:modify-date") then
      strip fun s => { p with modify_date := s }
    else if LocaleCompare key (cstr "digest:timestamp") then
      strip fun s => { p with timestamp := s }
    else if LocaleNCompare key (cstr "digest:") 7 then
      if w.kit.ParseHashOption (key.drop 7) < 0 then some (Flow.proceed p)
      else strip fun s => { p with hash := w.kit.ParseHashOption (key.drop 7), digest := s }
    else some (Flow.proceed p)
  else if first = 114 ∨ first = 82 then
    if LocaleNCompare key (cstr "rdf:about") 9 then
      some (Flow.proceed { p with
        path := w.kit.StripString (CString (p.key.drop 10))
        digest := cstr "unknown"
        timestamp := cstr "timestamp"
        create_date := cstr "unknown"
        modify_date := cstr "unknown" })
    else some (Flow.proceed p)
  else if first = 47 then
    if LocaleCompare key (cstr "/digest:Content") = true ∨
        LocaleCompare key (cstr "/rdf:Description") = true then
      VerifyContent w fuel p
    else some (Flow.proceed p)
  else some (Flow.proceed p)

/-- The `else` branch of the inner loop: the key, the value if `>` follows the
key, then `InterpretKey`. With `options` null, the test after the resize block
returns `WizardFalse` when the value has a character, and the zero written
through the null pointer leaves the behaviour undefined otherwise. -/
def ReadField (w : World) (fuel : Nat) (p : Parse) : Option (Flow Parse) :=
  let k := GetKey w.kit.MaxTextExtent [] p.c p.input
  let key := StoreKey p.key k.1
  let s := SkipSpace k.2.1 k.2.2
  if s.1 = 62 then
    let r := ReadByte s.2
    match p.options with
    | none =>
      if r.1 = 60 ∨ r.1 = EOF ∨ 1 ≥ p.length then
        some (Flow.finish Outcome.undefined p.session)
      else some (Flow.finish (Outcome.returned false)
        { p.session with exceptions := p.session.exceptions + 1 })
    | some _ =>
      let f := GetValue w.sys w.kit.MaxTextExtent [] p.length r.1 r.2
      InterpretKey w fuel { p with
        key := key, options := f.options.map CString, length := f.length, c := f.c
        input := f.input }
  else
    match p.options with
    | none => some (Flow.finish Outcome.undefined p.session)
    | some _ => InterpretKey w fuel { p with key := key, options := some [], c := s.1, input := s.2 }

/-- The loop `while ((isgraph(c) != WizardFalse) && (c != '>') && (c != EOF))`. -/
def ParseFields (w : World) : Nat → Parse → Option (Flow Parse)
  | 0, _ => none
  | fuel + 1, p =>
    if isgraph p.c = true ∧ p.c ≠ 62 ∧ p.c ≠ EOF then
      if isalnum p.c = false ∧ p.c ≠ 47 then
        let r := ReadByte p.input
        let s := SkipSpace r.1 r.2
        ParseFields w fuel { p with c := s.1, input := s.2 }
      else
        match ReadField w (fuel + 1) p with
        | none => none
        | some (Flow.finish result session) => some (Flow.finish result session)
        | some (Flow.proceed p1) =>
          let s := SkipSpace p1.c p1.input
          ParseFields w fuel { p1 with c := s.1, input := s.2 }
    else some (Flow.proceed p)

/-- The loop `for (c=ReadBlobByte(digest_blob); (c != '>') && (c != EOF); )`,
after its first clause. `CloseBlob(digest_blob)` stands in the body of the
loop; a closed handle delivers no byte. -/
def ParseManifest (w : World) (host : Host) : Nat → Parse → Option (Flow Parse)
  | 0, _ => none
  | fuel + 1, p =>
    if p.c ≠ 62 ∧ p.c ≠ EOF then
      match ParseFields w (fuel + 1)
          { p with length := w.kit.MaxTextExtent, options := some [] } with
      | none => none
      | some (Flow.finish result session) => some (Flow.finish result session)
      | some (Flow.proceed p1) =>
        match p1.options with
        | none => some (Flow.finish Outcome.undefined p1.session)
        | some _ =>
          let closed := CloseBlob host p1.digest_blob
          ParseManifest w host fuel { p1 with
            digest_blob := closed.1
            input := []
            session := { p1.session with
              exceptions := p1.session.exceptions + (if closed.2.1 then 1 else 0) } }
    else some (Flow.proceed p)

/-- The variables of `AuthenticateDigest` between two arguments. -/
structure Authentication where
  hash : Int
  compress : Bool
  authenticate_blob : BlobInfo
  session : Session

/-- The part of the loop body of `AuthenticateDigest` that reads the manifest
`filename`. -/
def AuthenticateManifest (w : World) (fuel : Nat) (a : Authentication) (filename : List Nat) :
    Option (Flow Authentication) :=
  match OpenBlob (w.host filename) filename BlobMode.ReadBinaryBlobMode true with
  | none =>
    some (Flow.finish (Outcome.returned false) (FailedOpen (w.host filename) a.session))
  | some digest_blob =>
    let r := ReadByte (StreamBytes w filename digest_blob)
    match ParseManifest w (w.host filename) fuel
        { create_date := cstr "unknown"
          digest := cstr "unknown"
          path := cstr "unknown"
          modify_date := cstr "unknown"
          timestamp := cstr "unknown"
          hash := w.kit.SHA256Hash
          key := []
          options := some []
          length := w.kit.MaxTextExtent
          c := r.1
          input := r.2
          digest_blob := digest_blob
          authenticate_blob := a.authenticate_blob
          session := a.session } with
    | none => none
    | some (Flow.finish result session) => some (Flow.finish result session)
    | some (Flow.proceed p) =>
      some (Flow.proceed { a with
        hash := p.hash, authenticate_blob := p.authenticate_blob, session := p.session })

/-- The loop `for (i=1; i < (argc-1); i++)` of `AuthenticateDigest` on the
arguments from `argv[i]` to `argv[argc-1]`. An option that takes an argument
finds one, as `i+1` is at most `argc-1`: the tests `i == argc` never hold. -/
def AuthenticateArguments (w : World) (fuel : Nat) :
    List (List Nat) → Authentication → Option (Flow Authentication)
  | [], a => some (Flow.proceed a)
  | [_], a => some (Flow.proceed a)
  | option :: next :: rest, a =>
      if option.head? = some 45 then
        match option.getD 1 0 with
        | 40 =>
          if LocaleCompare (option.drop 1) (cstr "(de)compress") then
            AuthenticateArguments w fuel (next :: rest) { a with compress := true }
          else some (ThrowDigestException a.session)
        | 97 =>
          if LocaleCompare option (cstr "-authenticate") then AuthenticateArguments w fuel (next :: rest) a
          else some (ThrowDigestException a.session)
        | 100 =>
          if LocaleCompare option (cstr "-debug") then
            if w.kit.SetLogEventMask next then AuthenticateArguments w fuel rest a
            else some (ThrowDigestException a.session)
          else some (ThrowDigestException a.session)
        | 108 =>
          if LocaleCompare option (cstr "-list") then
            if LocaleCompare next (cstr "configure") then
              some (Flow.finish (Outcome.exited 0) a.session)
            else if w.kit.ParseListOption next < 0 then some (ThrowDigestException a.session)
            else some (Flow.finish (Outcome.exited 0) a.session)
          else if LocaleCompare (cstr "log") (option.drop 1) then
            if 37 ∈ next then AuthenticateArguments w fuel rest a
            else some (ThrowDigestException a.session)
          else some (ThrowDigestException a.session)
        | 118 =>
          if LocaleCompare option (cstr "-version") then
            some (Flow.finish (Outcome.exited 0) a.session)
          else some (ThrowDigestException a.session)
        | _ => some (ThrowDigestException a.session)
      else
        match AuthenticateManifest w fuel a option with
        | none => none
        | some (Flow.finish result session) => some (Flow.finish result session)
        | some (Flow.proceed a1) => AuthenticateArguments w fuel (next :: rest) a1

/-- `AuthenticateDigest(argc,argv,exception)`. -/
def AuthenticateDigest (w : World) (fuel : Nat) (argv : List (List Nat)) : Option Verdict :=
  let status := false
  match OpenBlob (w.host (argv.getLastD [])) (argv.getLastD []) BlobMode.WriteBinaryBlobMode
      true with
  | none =>
    some { result := Outcome.returned false
           session := FailedOpen (w.host (argv.getLastD [])) (StartSession w) }
  | some authenticate_blob =>
    match AuthenticateArguments w fuel (argv.drop 1)
        { hash := w.kit.UndefinedHash
          compress := false
          authenticate_blob := authenticate_blob
          session := StartSession w } with
    | none => none
    | some (Flow.finish result session) => some { result := result, session := session }
    | some (Flow.proceed a) =>
      if a.hash = w.kit.UndefinedHash then
        some { result := Outcome.returned false
               session := { a.session with exceptions := a.session.exceptions + 1 } }
      else some { result := Outcome.returned status, session := a.session }

/-- The variables of `DigestCommand` between two arguments. -/
structure Digest where
  hash : Int
  compress : Bool
  digest_blob : BlobInfo
  session : Session

/-- The text of one record of the manifest, as `DigestCommand` builds it in
`digest_rdf`: the canonical path, the time of the run, the modification time
of the file (twice), the extent, and the hexadecimal digest between tags made
of the lower-case mnemonic of `hash`. -/
def DigestRecord (kit : Toolkit) (time st_mtime : Nat) (filename : List Nat) (hash : Int)
    (extent : Nat) (digest : List Nat) : List Nat :=
  let algorithm := LocaleLower ((kit.HashMnemonic hash).take (kit.MaxTextExtent - 1))
  cstr "  <digest:Content rdf:about=" ++ [34] ++ kit.CanonicalXMLContent filename ++ [34] ++
    cstr ">" ++ [10] ++
    cstr "    <digest:timestamp>" ++ kit.FormatWizardTime time ++ cstr "</digest:timestamp>" ++
    [10] ++
    cstr "    <digest:modify-date>" ++ kit.FormatWizardTime st_mtime ++
    cstr "</digest:modify-date>" ++ [10] ++
    cstr "    <digest:create-date>" ++ kit.FormatWizardTime st_mtime ++
    cstr "</digest:create-date>" ++ [10] ++
    cstr "    <digest:extent>" ++ kit.FormatSize extent ++ cstr "</digest:extent>" ++ [10] ++
    cstr "    <digest:" ++ algorithm ++ cstr ">" ++ digest ++ cstr "</digest:" ++ algorithm ++
    cstr ">" ++ [10] ++
    cstr "  </digest:Content>" ++ [10]

/-- The field `st_mtime` of `GetBlobProperties(content_blob)`: what `stat` has
stored, and zero for the names that `OpenBlob` opens before it calls `stat`
(`GetBlobInfo` clears the structure). -/
def ModifyTime (host : Host) (filename : List Nat) : Nat :=
  if LocaleCompare filename (cstr "-") || LocaleNCompare filename (cstr "fd:") 3 ||
      (host.have_popen && filename.head? == some 124) then 0
  else host.st_mtime

/-- The part of the loop body of `DigestCommand` that computes the message
digest of the content `filename` and writes its record; `none` when the loop
over the chunks does not end. For a content that does not open the loop goes
on with the next argument (`continue`); `OpenBlob` has thrown an exception and
`errno` is as the failed call left it. -/
def DigestContent (w : World) (fuel : Nat) (d : Digest) (filename : List Nat) : Option Digest :=
  match OpenBlob (w.host filename) filename BlobMode.ReadBinaryBlobMode d.compress with
  | none => some { d with session := FailedOpen (w.host filename) d.session }
  | some content_blob =>
    match HashContent w.sys (w.host filename).max_buffer_extent fuel content_blob
        [{ bytes := StreamBytes w filename content_blob, errno := none }] d.session.errno
        (AcquireHashInfo w.kit.SHA256Hash) 0 with
    | none => none
    | some r =>
      let digest_rdf := DigestRecord w.kit w.time (ModifyTime (w.host filename) filename) filename d.hash
        r.extent (GetHashHexDigest w.kit r.hash_info)
      let closed := CloseBlob (w.host filename) r.blob
      let wrote := WriteBlob w.sys d.digest_blob digest_rdf
      some { d with
        digest_blob := wrote.1
        session :=
          { written := d.session.written ++ digest_rdf
            hashed := d.session.hashed ++ [r.hash_info]
            exceptions := d.session.exceptions + (if closed.2.1 then 1 else 0) +
              (if wrote.2 ≠ (digest_rdf.length : Int) then 1 else 0)
            errno := r.errno } }

/-- `DigestUsage()`: the usage text goes to the standard output, then `Exit(0)`. -/
def DigestUsage {σ : Type} (session : Session) : Flow σ :=
  Flow.finish (Outcome.exited 0) session

/-- The second loop `for (i=1; i < (argc-1); i++)` of `DigestCommand` on the
arguments from `argv[i]` to `argv[argc-1]`. An option that takes an argument
finds one, as `i+1` is at most `argc-1`: the tests `i == argc` never hold. -/
def DigestArguments (w : World) (fuel : Nat) : List (List Nat) → Digest → Option (Flow Digest)
  | [], d => some (Flow.proceed d)
  | [_], d => some (Flow.proceed d)
  | option :: next :: rest, d =>
      if option.head? = some 45 then
        match option.getD 1 0 with
        | 40 =>
          if LocaleCompare (option.drop 1) (cstr "(de)compress") then
            DigestArguments w fuel (next :: rest) { d with compress := true }
          else some (ThrowDigestException d.session)
        | 100 =>
          if LocaleCompare option (cstr "-debug") then
            if w.kit.SetLogEventMask next then DigestArguments w fuel rest d
            else some (ThrowDigestException d.session)
          else some (ThrowDigestException d.session)
        | 104 =>
          if LocaleCompare (cstr "hash") (option.drop 1) then
            if w.kit.ParseHashOption next < 0 then some (ThrowDigestException d.session)
            else DigestArguments w fuel rest { d with hash := w.kit.ParseHashOption next }
          else if LocaleCompare (cstr "help") (option.drop 1) = true ∨
              LocaleCompare (cstr "-help") (option.drop 1) = true then
            some (DigestUsage d.session)
          else some (ThrowDigestException d.session)
        | 108 =>
          if LocaleCompare (cstr "log") (option.drop 1) then
            if 37 ∈ next then DigestArguments w fuel rest d
            else some (ThrowDigestException d.session)
          else some (ThrowDigestException d.session)
        | 118 =>
          if LocaleCompare option (cstr "-version") then
            some (Flow.finish (Outcome.exited 0) d.session)
          else some (ThrowDigestException d.session)
        | _ => some (ThrowDigestException d.session)
      else
        match DigestContent w fuel d option with
        | none => none
        | some d1 => DigestArguments w fuel (next :: rest) d1

/-- The first string written to the manifest. -/
def ManifestDeclaration : List Nat :=
  cstr "<?xml version=" ++ [34] ++ cstr "1.0" ++ [34] ++ cstr "?>" ++ [10]

/-- The second string written to the manifest. -/
def ManifestRoot : List Nat :=
  cstr "<rdf:RDF xmlns:rdf=" ++ [34] ++ cstr "http://www.w3.org/1999/02/22-rdf-syntax-ns#" ++
    [34] ++ [10]

/-- The third string written to the manifest. -/
def ManifestNamespace : List Nat :=
  cstr "         xmlns:digest=" ++ [34] ++ cstr "http://www.wizards-toolkit.org/digest/1.0/" ++
    [34] ++ cstr ">" ++ [10]

/-- The three strings that open the manifest. -/
def ManifestHeader : List Nat :=
  ManifestDeclaration ++ ManifestRoot ++ ManifestNamespace

/-- The string that closes the manifest. -/
def ManifestTrailer : List Nat :=
  cstr "</rdf:RDF>" ++ [10]

/-- `DigestCommand(argc,argv,exception)` from the call of `OpenBlob` for the
manifest on, with the expanded argument vector. -/
def ComputeAndRecord (w : World) (fuel : Nat) (argv : List (List Nat)) : Option Verdict :=
  match OpenBlob (w.host (argv.getLastD [])) (argv.getLastD []) BlobMode.WriteBinaryBlobMode
      true with
  | none =>
    some { result := Outcome.returned false
           session := FailedOpen (w.host (argv.getLastD [])) (StartSession w) }
  | some digest_blob =>
    let w1 := WriteBlobString w.sys digest_blob ManifestDeclaration
    let w2 := WriteBlobString w.sys w1.1 ManifestRoot
    let w3 := WriteBlobString w.sys w2.1 ManifestNamespace
    match DigestArguments w fuel (argv.drop 1)
        { hash := w.kit.SHA256Hash
          compress := false
          digest_blob := w3.1
          session := { StartSession w with written := ManifestHeader } } with
    | none => none
    | some (Flow.finish result session) => some { result := result, session := session }
    | some (Flow.proceed d) =>
      let w4 := WriteBlobString w.sys d.digest_blob ManifestTrailer
      let status := (CloseBlob (w.host (argv.getLastD [])) w4.1).2.1
      some { result := Outcome.returned status
             session := { d.session with written := d.session.written ++ ManifestTrailer } }

/-- `DigestCommand(argc,argv,exception)`. -/
def DigestCommand (w : World) (fuel : Nat) (argv : List (List Nat)) : Option Verdict :=
  if argv.length = 2 ∧
      (LocaleCompare (cstr "version") ((argv.getD 1 []).drop 1) = true ∨
        LocaleCompare (cstr "-version") ((argv.getD 1 []).drop 1) = true) then
    some { result := Outcome.returned true, session := StartSession w }
  else if argv.length < 3 then
    some { result := Outcome.exited 0, session := StartSession w }
  else
    match w.kit.ExpandFilenames argv with
    | none =>
      some { result := Outcome.returned false
             session := { StartSession w with exceptions := 1 } }
    | some argv1 =>
      if ((argv1.drop 1).dropLast).any fun option =>
          LocaleCompare (option.drop 1) (cstr "authenticate") then
        AuthenticateDigest w fuel argv1
      else ComputeAndRecord w fuel argv1

/-! ## A sample world

A toolkit and three files on which the two commands are run: `hello.txt` holds
`hello`; `packed` starts with the gzip signature and inflates to `hello`;
`missing` cannot be opened. The hexadecimal digest is a stand-in that spells
out the hash and the message, so that two digests are equal exactly when the
hash and the message are; any digest that tells the messages used here apart
gives the same runs. -/

/-- The decimal digits of a number below `10 ^ fuel`. -/
def Decimal : Nat → Nat → List Nat
  | 0, _ => []
  | fuel + 1, n => if n < 10 then [48 + n] else Decimal fuel (n / 10) ++ [48 + n % 10]

/-- The two lower-case hexadecimal digits of a byte. -/
def HexByte (b : Nat) : List Nat :=
  let digit := fun d : Nat => if d < 10 then 48 + d else 87 + d
  [digit (b / 16 % 16), digit (b % 16)]

/-- The `StripString` of the sample toolkit: it removes the white space at both
ends of a string, then one quotation mark at each end. -/
def sampleStripString (message : List Nat) : List Nat :=
  let quote := fun s : List Nat => s.head? = some 34 ∨ s.head? = some 39
  let p := message.dropWhile fun b : Nat => isspace (b : Int)
  let p1 := if quote p then p.drop 1 else p
  let q := p1.reverse.dropWhile fun b : Nat => isspace (b : Int)
  let q1 := if quote q then q.drop 1 else q
  q1.reverse

/-- A toolkit with two hashes, `SHA224` (5) and `SHA256` (6). -/
def sampleKit : Toolkit :=
  { MaxTextExtent := 4096
    UndefinedHash := 0
    SHA256Hash := 6
    ExpandFilenames := fun argv => some argv
    ParseHashOption := fun name =>
      if LocaleCompare name (cstr "sha224") then 5
      else if LocaleCompare name (cstr "sha256") then 6 else -1
    ParseListOption := fun _ => -1
    HashMnemonic := fun hash =>
      if hash = 5 then cstr "SHA224" else if hash = 6 then cstr "SHA256" else cstr "undefined"
    SetLogEventMask := fun _ => true
    CanonicalXMLContent := fun content => content
    FormatWizardTime := fun time => cstr "T" ++ Decimal 20 time
    FormatSize := fun extent => Decimal 20 extent
    StripString := sampleStripString
    HexDigest := fun hash message => (hash.toNat :: message).flatMap HexByte }

/-- The bytes of the file `packed`: the gzip signature and three more bytes. -/
def packedBytes : List Nat :=
  [0x1F, 0x8B, 0x08, 0, 1, 2]

/-- The sample world; the clock stands at 7. -/
def sampleWorld : World :=
  { kit := sampleKit
    sys := sysGrant
    host := fun filename =>
      if filename = cstr "missing" then { hostPlain with fopen := none, stat_ok := false }
      else if filename = cstr "packed" then { hostPlain with magick := packedBytes.take 3 }
      else hostPlain
    content := fun filename type =>
      if filename = cstr "hello.txt" then cstr "hello"
      else if filename = cstr "packed" then
        if type = StreamType.ZipStream then cstr "hello" else packedBytes
      else []
    errno := 0
    time := 7 }

/-- The world `w` once the file `filename` holds `bytes`. -/
def withFile (w : World) (filename bytes : List Nat) : World :=
  { w with content := fun name type => if name = filename then bytes else w.content name type }

/-- The bytes that a run handed over for its output, nothing if it has no end. -/
def Output (run : Option Verdict) : List Nat :=
  (run.map fun v => v.session.written).getD []

/-- The session a part of `AuthenticateDigest` leaves. -/
def FlowSession (flow : Flow Parse) : Session :=
  match flow with
  | Flow.proceed p => p.session
  | Flow.finish _ session => session

/-- Whether a part of a function leaves it with `return(WizardTrue)`. -/
def ReturnsTrue {σ : Type} (flow : Option (Flow σ)) : Prop :=
  ∃ session, flow = some (Flow.finish (Outcome.returned true) session)

/-- The sample world when `fclose` fails on the file `out.rdf`. -/
def closeFails : World :=
  { sampleWorld with
    host := fun filename =>
      if filename = cstr "out.rdf" then { hostPlain with fclose := -1 }
      else sampleWorld.host filename }

/-- A manifest for `hello.txt` whose record names `sha224` and holds the
digest of `hello` for that hash. -/
def sha224Manifest : List Nat :=
  ManifestHeader ++
    DigestRecord sampleKit 7 0 (cstr "hello.txt") 5 5 (sampleKit.HexDigest 5 (cstr "hello")) ++
    ManifestTrailer

/-- `GetSHA224Blocksize(sha224_info)`. -/
def GetSHA224Blocksize (s : SHA224Info) : Nat :=
  s.blocksize

/-- `GetSHA224Digestsize(sha224_info)`. -/
def GetSHA224Digestsize (s : SHA224Info) : Nat :=
  s.digestsize

/-- A context that has been used: acquired with zeroed buffers on a host whose
first byte is the least significant one, updated with `abc` and finalized. -/
def usedContext : SHA224Info :=
  FinalizeSHA224 (UpdateSHA224 (AcquireSHA224Info (fun _ => 0) (fun _ => 0) (fun _ => 0) true 0)
    [97, 98, 99])

/-- The working registers `A` .. `H` of `TransformSHA224` after the loop
`for (j=0; j < 64; j++)`, for the accumulator `acc` and the block `p`. -/
def FinalRegisters (lsb_first : Bool) (acc p : List Nat) : Registers :=
  (List.range 64).foldl (Round (Schedule lsb_first p))
    { A := acc.getD 0 0, B := acc.getD 1 0, C := acc.getD 2 0, D := acc.getD 3 0,
      E := acc.getD 4 0, F := acc.getD 5 0, G := acc.getD 6 0, H := acc.getD 7 0 }

/-- The register that belongs to the accumulator word `i`. -/
def RegisterWord (r : Registers) (i : Nat) : Nat :=
  [r.A, r.B, r.C, r.D, r.E, r.F, r.G, r.H].getD i 0

/-- The block that `FinalizeSHA224` builds for the message `abc`. -/
def abcBlock : List Nat :=
  LastBlock [97, 98, 99]


/-- The message buffers that the loop `while (n >= GetStringInfoLength(message))`
of `UpdateSHA224` hands to `TransformSHA224`, in order (the same passes as
`UpdateBlocks`). -/
def UpdateBlocksLog : Nat → SHA224Info → List Nat → List (List Nat)
  | 0, _, _ => []
  | fuel + 1, s, p =>
    if p.length ≥ s.message.length then
      SetStringInfoDatum s.message p ::
        UpdateBlocksLog fuel
          (TransformSHA224 { s with message := SetStringInfoDatum s.message p })
          (p.drop s.message.length)
    else []

/-- The message buffers handed to `TransformSHA224` during
`UpdateSHA224(sha_info,message)`, in order: the completed pending block when
there is one, then the blocks of the loop. -/
def UpdateSHA224Log (s : SHA224Info) (message : List Nat) : List (List Nat) :=
  let n := message.length
  let length := Trunc32 ((s.low_order + (n <<< 3)) % 2 ^ 32)
  let high1 := if length < s.low_order then (s.high_order + 1) % 2 ^ 32 else s.high_order
  let high2 := (high1 + ((n % 2 ^ 32) >>> 29)) % 2 ^ 32
  let s1 := { s with low_order := length, high_order := high2 }
  if s1.offset ≠ 0 then
    let i0 := s1.message.length - s1.offset
    let i := if i0 > n then n else i0
    let s2 := { s1 with
      message := CopyWizardMemory s1.message s1.offset (message.take i)
      offset := s1.offset + i }
    if s2.offset ≠ s2.message.length then []
    else s2.message :: UpdateBlocksLog (n + 1) (TransformSHA224 s2) (message.drop i)
  else UpdateBlocksLog (n + 1) s1 message

/-- The message buffers handed to `TransformSHA224` during
`FinalizeSHA224(sha_info)`, in order: one when the marker and the length fit
into the pending block, two otherwise. -/
def FinalizeSHA224Log (s : SHA224Info) : List (List Nat) :=
  let low_order := s.low_order
  let high_order := s.high_order
  let count0 := (low_order >>> 3) &&& 0x3f
  let datum0 := s.message.set count0 0x80
  let count := count0 + 1
  let first : List (List Nat) :=
    if count ≤ s.message.length - 8 then []
    else [ResetWizardMemory datum0 count 0 (s.message.length - count)]
  let s1 : SHA224Info :=
    if count ≤ s.message.length - 8 then
      { s with message := ResetWizardMemory datum0 count 0 (s.message.length - 8 - count) }
    else
      let s' := TransformSHA224
        { s with message := ResetWizardMemory datum0 count 0 (s.message.length - count) }
      { s' with message := ResetWizardMemory s'.message 0 0 (s'.message.length - 8) }
  let datum :=
    ((((((((s1.message.set 56 ((high_order >>> 24) % 256)).set 57
      ((high_order >>> 16) % 256)).set 58
      ((high_order >>> 8) % 256)).set 59
      (high_order % 256)).set 60
      ((low_order >>> 24) % 256)).set 61
      ((low_order >>> 16) % 256)).set 62
      ((low_order >>> 8) % 256)).set 63
      (low_order % 256))
  first ++ [datum]


/-! ## `wizard/splay-tree.c`

A node is a value of `NodeInfo`: `null` is the `NULL` pointer and
`node key value left right` the node a non-`NULL` pointer points to, fields in
the order of the `struct`. The source links every node from exactly one place,
so a pointer stands for the subtree below it and a store into a link field is
the construction of a new subtree. Keys and values are `void *`; they are the
numbers of the addresses, `0` for `NULL`. `compare` is the user's comparison
or, for `NULL`, absent; its `int` result matters by its sign only.
`unsigned long` has 64 bits. The `relinquish_key` and `relinquish_value`
callbacks release storage and what they return is overwritten or dropped with
the node, so they are not part of the state; `debug`, `semaphore` and
`signature` are left out as well. -/

/-- The constant `MaxSplayTreeDepth`. -/
def MaxSplayTreeDepth : Nat := 1024

/-- The `struct _NodeInfo` behind a `NodeInfo *`. -/
inductive NodeInfo where
  | null : NodeInfo
  | node (key value : Nat) (left right : NodeInfo) : NodeInfo
  deriving DecidableEq, Repr

/-- The `struct _SplayTreeInfo`. -/
structure SplayTreeInfo where
  root : NodeInfo
  compare : Option (Nat → Nat → Int)
  balance : Bool
  key : Nat
  next : Nat
  nodes : Nat

/-- The comparison every function of the file spells out:
`splay_tree->compare(a,b)` when a comparison is set, and otherwise
`(a > b) ? 1 : ((a < b) ? -1 : 0)` on the addresses. -/
def CompareKeys (compare : Option (Nat → Nat → Int)) (a b : Nat) : Int :=
  match compare with
  | some f => f a b
  | none => if a > b then 1 else if a < b then -1 else 0

/-- Which link of its parent holds a node. -/
inductive Side where
  | left : Side
  | right : Side
  deriving DecidableEq, Repr

/-- The branch `if (grandparent == NULL)` of `Splay`: `t` is `*parent` and the
node `n` hangs on its `side`. -/
def RotateParent : Side → NodeInfo → NodeInfo
  | .left, .node pk pv (.node nk nv nl nr) pr =>
    -- *node=n->right; n->right=(*parent); *parent=n;
    .node nk nv nl (.node pk pv nr pr)
  | .right, .node pk pv pl (.node nk nv nl nr) =>
    -- *node=n->left; n->left=(*parent); *parent=n;
    .node nk nv (.node pk pv pl nl) nr
  | _, t => t

/-- The four last branches of `Splay`: `t` is `*grandparent`, the parent `p`
hangs on its `upper` side and the node `n` on the `lower` side of `p`. -/
def RotateGrandparent : Side → Side → NodeInfo → NodeInfo
  | .left, .left, .node gk gv (.node pk pv (.node nk nv nl nr) pr) gr =>
    -- (*grandparent)->left=p->right; p->right=(*grandparent); p->left=n->right;
    -- n->right=p; *grandparent=n;
    .node nk nv nl (.node pk pv nr (.node gk gv pr gr))
  | .right, .right, .node gk gv gl (.node pk pv pl (.node nk nv nl nr)) =>
    -- (*grandparent)->right=p->left; p->left=(*grandparent); p->right=n->left;
    -- n->left=p; *grandparent=n;
    .node nk nv (.node pk pv (.node gk gv gl pl) nl) nr
  | .right, .left, .node gk gv gl (.node pk pv (.node nk nv nl nr) pr) =>
    -- (*parent)->left=n->right; n->right=(*parent); (*grandparent)->right=n->left;
    -- n->left=(*grandparent); *grandparent=n;
    .node nk nv (.node gk gv gl nl) (.node pk pv nr pr)
  | .left, .right, .node gk gv (.node pk pv pl (.node nk nv nl nr)) gr =>
    -- (*parent)->right=n->left; n->left=(*parent); (*grandparent)->left=n->right;
    -- n->right=(*grandparent); *grandparent=n;
    .node nk nv (.node pk pv pl nl) (.node gk gv nr gr)
  | _, _, t => t

/-- What a call `Splay(splay_tree,depth,key,node,parent,grandparent)` has done
when it returns, seen from the link `*node` it was called on. The call rotates
through `*parent` and `*grandparent`, links that belong to the callers; here a
rotation is carried out by the call that owns the topmost link it stores into,
which is told by this value that the rotation is due.

* `absent`: `*node` was `NULL` and `*parent` was returned;
* `here t`: the returned node is the root of `t`, now in `*node`, and the call
  has reached its rotation code (the tests of `parent` and `grandparent`);
* `below side t`: the call one level down has reached its rotation code with
  its node on the `side` link of the root of `t`;
* `settled t balance`: the calls return without any further rotation, `t` is
  in `*node`, and `balance` is `splay_tree->balance`. -/
inductive Splayed where
  | absent : Splayed
  | here (t : NodeInfo) : Splayed
  | below (side : Side) (t : NodeInfo) : Splayed
  | settled (t : NodeInfo) (balance : Bool) : Splayed
  deriving DecidableEq, Repr

/-- The recursion of `Splay` on the subtree in `*node`; `balance` is
`splay_tree->balance` at the call. After the inner call the source goes on
only `if ((n == *node) && (splay_tree->balance == WizardFalse))`: that is the
case when the inner call met `NULL` (it returned `*parent`, this node) and the
case when a call two levels down rotated its node into `*node`. -/
def SplayNode (compare : Option (Nat → Nat → Int)) (balance : Bool) (key : Nat) :
    Nat → NodeInfo → Splayed
  | _, .null => .absent
  | depth, .node k v l r =>
    let c := CompareKeys compare k key
    if c = 0 then .here (.node k v l r)
    else if depth ≥ MaxSplayTreeDepth then .settled (.node k v l r) true
    else if c > 0 then
      match SplayNode compare balance key (depth + 1) l with
      | .absent =>
        if balance then .settled (.node k v l r) balance else .here (.node k v l r)
      | .here l1 => .below .left (.node k v l1 r)
      | .below side l1 =>
        if balance then .settled (RotateGrandparent .left side (.node k v l1 r)) balance
        else .here (RotateGrandparent .left side (.node k v l1 r))
      | .settled l1 b => .settled (.node k v l1 r) b
    else
      match SplayNode compare balance key (depth + 1) r with
      | .absent =>
        if balance then .settled (.node k v l r) balance else .here (.node k v l r)
      | .here r1 => .below .right (.node k v l r1)
      | .below side r1 =>
        if balance then .settled (RotateGrandparent .right side (.node k v l r1)) balance
        else .here (RotateGrandparent .right side (.node k v l r1))
      | .settled r1 b => .settled (.node k v l r1) b

/-- The call `Splay(splay_tree,0UL,key,&splay_tree->root,NULL,NULL)`: a node
that reaches its rotation code in the root link returns at
`if (parent == NULL)`, one on a link of the root is rotated by the branch
`if (grandparent == NULL)`. -/
def Splay (s : SplayTreeInfo) (key : Nat) : SplayTreeInfo :=
  match SplayNode s.compare s.balance key 0 s.root with
  | .absent => s
  | .here t => { s with root := t }
  | .below side t => { s with root := RotateParent side t }
  | .settled t b => { s with root := t, balance := b }

/-- The `TransitionType` of `IterateOverSplayTree`. -/
inductive TransitionType where
  | LeftTransition : TransitionType
  | RightTransition : TransitionType
  | DownTransition : TransitionType
  | UpTransition : TransitionType
  deriving DecidableEq, Repr

/-- The key `node->key`, `0` for `NULL`. -/
def NodeInfo.key : NodeInfo → Nat
  | .null => 0
  | .node k _ _ _ => k

/-- The value `node->value`, `0` for `NULL`. -/
def NodeInfo.value : NodeInfo → Nat
  | .null => 0
  | .node _ v _ _ => v

/-- The link `node->left`. -/
def NodeInfo.left : NodeInfo → NodeInfo
  | .null => .null
  | .node _ _ l _ => l

/-- The link `node->right`. -/
def NodeInfo.right : NodeInfo → NodeInfo
  | .null => .null
  | .node _ _ _ r => r

/-- The loop `for (i=0; final_transition == WizardFalse; )` of
`IterateOverSplayTree`. The arrays `nodes` and `transitions` up to the index
`i` are the list `stack`, the entry at `i` first; `value` is what `method`
has made of its argument so far. The result is the `status` returned. The loop
has no bound in the source: `fuel` counts its passes and `none` says that they
did not suffice. -/
def IterateLoop {α : Type} (method : NodeInfo → α → Int × α) :
    Nat → List (NodeInfo × TransitionType) → α → Option (Int × α)
  | 0, _, _ => none
  | _ + 1, [], _ => none
  | fuel + 1, (node, transition) :: stack, value =>
    match transition with
    | .LeftTransition =>
      if node.left = .null then
        IterateLoop method fuel ((node, .DownTransition) :: stack) value
      else
        IterateLoop method fuel
          ((node.left, .LeftTransition) :: (node, .DownTransition) :: stack) value
    | .RightTransition =>
      if node.right = .null then
        IterateLoop method fuel ((node, .UpTransition) :: stack) value
      else
        IterateLoop method fuel
          ((node.right, .LeftTransition) :: (node, .UpTransition) :: stack) value
    | .DownTransition =>
      if (method node value).1 ≠ 0 then some (method node value)
      else IterateLoop method fuel ((node, .RightTransition) :: stack) (method node value).2
    | .UpTransition =>
      match stack with
      | [] => some (0, value)
      | _ :: _ => IterateLoop method fuel stack value

/-- `IterateOverSplayTree(splay_tree,method,value)`. The two arrays are taken
to be granted. A node passes the four transitions once each, which bounds the
passes of the loop by four times the number of nodes. -/
def IterateOverSplayTree {α : Type} (s : SplayTreeInfo) (method : NodeInfo → α → Int × α)
    (value : α) : Option (Int × α) :=
  match s.root with
  | .null => some (0, value)
  | .node k v l r =>
    IterateLoop method (4 * s.nodes) [(.node k v l r, .LeftTransition)] value

/-- `SplayTreeToNodeArray(node,nodes)`: stores the node at `*p` and advances
`p`; the array filled so far is the list. -/
def SplayTreeToNodeArray (node : NodeInfo) (nodes : List NodeInfo) : Int × List NodeInfo :=
  (0, nodes ++ [node])

/-- `LinkSplayTreeNodes(nodes,low,high)`. Both links of the node at `bisect`
are stored into, so only its key and value are kept. `none` is a read outside
the array, or `fuel` nested calls that did not suffice; the bounds stay below
the number of nodes, so `low+1` and `bisect+1` do not wrap. -/
def LinkSplayTreeNodes : Nat → List NodeInfo → Nat → Nat → Option NodeInfo
  | 0, _, _, _ => none
  | fuel + 1, nodes, low, high =>
    let bisect := low + (high - low) / 2
    match nodes[bisect]? with
    | none => none
    | some .null => none
    | some (.node k v _ _) =>
      let left :=
        if low + 1 > bisect then some NodeInfo.null
        else LinkSplayTreeNodes fuel nodes low (bisect - 1)
      let right :=
        if bisect + 1 > high then some NodeInfo.null
        else LinkSplayTreeNodes fuel nodes (bisect + 1) high
      match left, right with
      | some l, some r => some (.node k v l r)
      | _, _ => none

/-- `BalanceSplayTree(splay_tree)`. The two scratch arrays are taken to be
granted. The array has `splay_tree->nodes` elements: `none` when the traversal
stores beyond it or `LinkSplayTreeNodes` reads an element that was not
stored. -/
def BalanceSplayTree (s : SplayTreeInfo) : Option SplayTreeInfo :=
  if s.nodes ≤ 2 then some { s with balance := false }
  else
    match IterateOverSplayTree s SplayTreeToNodeArray [] with
    | none => none
    | some (_, nodes) =>
      if s.nodes < nodes.length then none
      else
        match LinkSplayTreeNodes s.nodes nodes 0 (s.nodes - 1) with
        | none => none
        | some root => some { s with root := root, balance := false }

/-- The comparison under `if (splay_tree->key != NULL)` in `SplaySplayTree`:
with a comparison set it compares `root->key` with `key`, without one it
compares the remembered `splay_tree->key` with `key`. -/
def CompareRemembered (s : SplayTreeInfo) (key : Nat) : Int :=
  match s.compare with
  | some f => f s.root.key key
  | none => if s.key > key then 1 else if s.key < key then -1 else 0

/-- `SplaySplayTree(splay_tree,key)`; `none` is `ThrowWizardFatalError`. -/
def SplaySplayTree (s : SplayTreeInfo) (key : Nat) : Option SplayTreeInfo :=
  match s.root with
  | .null => some s
  | .node _ _ _ _ =>
    if s.key ≠ 0 ∧ CompareRemembered s key = 0 then some s
    else
      let s1 := Splay s key
      if s1.balance then
        match BalanceSplayTree s1 with
        | none => none
        | some s2 =>
          let s3 := Splay s2 key
          if s3.balance then none else some { s3 with key := key }
      else some { s1 with key := key }

/-- `NewSplayTree(compare,relinquish_key,relinquish_value)`, the structure
being granted. -/
def NewSplayTree (compare : Option (Nat → Nat → Int)) : SplayTreeInfo :=
  { root := .null, compare := compare, balance := false, key := 0, next := 0, nodes := 0 }

/-- `AddValueToSplayTree(splay_tree,key,value)`; `memory` says whether
`AcquireWizardMemory` grants the node. The result is the value returned and
the tree. -/
def AddValueToSplayTree (s : SplayTreeInfo) (key value : Nat) (memory : Bool) :
    Option (Bool × SplayTreeInfo) :=
  match SplaySplayTree s key with
  | none => none
  | some s1 =>
    match s1.root with
    | .node k v l r =>
      let compare := CompareKeys s1.compare k key
      if compare = 0 then some (true, { s1 with root := .node key value l r })
      else if memory = false then some (false, s1)
      else if compare < 0 then
        some (true, { s1 with
          root := .node key value (.node k v l .null) r
          key := 0
          nodes := (s1.nodes + 1) % 2 ^ 64 })
      else
        some (true, { s1 with
          root := .node key value l (.node k v .null r)
          key := 0
          nodes := (s1.nodes + 1) % 2 ^ 64 })
    | .null =>
      if memory = false then some (false, s1)
      else
        some (true, { s1 with
          root := .node key value .null .null
          key := 0
          nodes := (s1.nodes + 1) % 2 ^ 64 })

/-- The loop `while (left->right != NULL) left=left->right;` followed by
`left->right=right;`. -/
def LinkRightmost : NodeInfo → NodeInfo → NodeInfo
  | .null, right => right
  | .node k v l .null, right => .node k v l right
  | .node k v l (.node rk rv rl rr), right =>
    .node k v l (LinkRightmost (.node rk rv rl rr) right)

/-- The end of `DeleteNodeFromSplayTree` and `RemoveNodeFromSplayTree`: the
root that replaces a released root whose links were `left` and `right`. -/
def JoinSubtrees (left right : NodeInfo) : NodeInfo :=
  match left, right with
  | .null, right => right
  | left, .null => left
  | left, right => LinkRightmost left right

/-- `DeleteNodeFromSplayTree(splay_tree,key)`: the value returned and the
tree. After `SplaySplayTree` the source reads `splay_tree->root->key` without
a test; `none` stands for the fatal branch of `SplaySplayTree` and for a root
that is `NULL` there. -/
def DeleteNodeFromSplayTree (s : SplayTreeInfo) (key : Nat) : Option (Bool × SplayTreeInfo) :=
  match s.root with
  | .null => some (false, s)
  | .node _ _ _ _ =>
    match SplaySplayTree s key with
    | none => none
    | some s1 =>
      match s1.root with
      | .null => none
      | .node k _ l r =>
        if CompareKeys s1.compare k key ≠ 0 then some (false, { s1 with key := 0 })
        else
          some (true, { s1 with
            root := JoinSubtrees l r
            key := 0
            nodes := (s1.nodes + 2 ^ 64 - 1) % 2 ^ 64 })

/-- `RemoveNodeFromSplayTree(splay_tree,key)`: the value returned and the
tree; `none` as for `DeleteNodeFromSplayTree`. -/
def RemoveNodeFromSplayTree (s : SplayTreeInfo) (key : Nat) : Option (Nat × SplayTreeInfo) :=
  match s.root with
  | .null => some (0, s)
  | .node _ _ _ _ =>
    match SplaySplayTree s key with
    | none => none
    | some s1 =>
      match s1.root with
      | .null => none
      | .node k v l r =>
        if CompareKeys s1.compare k key ≠ 0 then some (0, { s1 with key := 0 })
        else
          some (v, { s1 with
            root := JoinSubtrees l r
            key := 0
            nodes := (s1.nodes + 2 ^ 64 - 1) % 2 ^ 64 })

/-- `GetValueFromSplayTree(splay_tree,key)`: the value returned and the
tree; `none` as for `DeleteNodeFromSplayTree`. -/
def GetValueFromSplayTree (s : SplayTreeInfo) (key : Nat) : Option (Nat × SplayTreeInfo) :=
  match s.root with
  | .null => some (0, s)
  | .node _ _ _ _ =>
    match SplaySplayTree s key with
    | none => none
    | some s1 =>
      match s1.root with
      | .null => none
      | .node k v _ _ =>
        if CompareKeys s1.compare k key ≠ 0 then some (0, s1) else some (v, s1)

/-- `GetNumberOfNodesInSplayTree(splay_tree)`. -/
def GetNumberOfNodesInSplayTree (s : SplayTreeInfo) : Nat :=
  s.nodes

/-- `ResetSplayTree(splay_tree)`; the two loops release every node. -/
def ResetSplayTree (s : SplayTreeInfo) : SplayTreeInfo :=
  { s with root := .null, key := 0, next := 0, nodes := 0, balance := false }

/-- The loop `while (node->left != NULL) node=node->left;` and the key of the
node it ends at. -/
def LeftmostKey : NodeInfo → Nat
  | .null => 0
  | .node k _ .null _ => k
  | .node _ _ (.node lk lv ll lr) _ => LeftmostKey (.node lk lv ll lr)

/-- `GetFirstSplayTreeNode(splay_tree)`. -/
def GetFirstSplayTreeNode (s : SplayTreeInfo) : Nat :=
  LeftmostKey s.root

/-- `ResetSplayTreeIterator(splay_tree)`. -/
def ResetSplayTreeIterator (s : SplayTreeInfo) : SplayTreeInfo :=
  { s with next := GetFirstSplayTreeNode s }

/-- `GetNextKeyInSplayTree(splay_tree)`: the key returned and the tree; `none`
as for `DeleteNodeFromSplayTree`. -/
def GetNextKeyInSplayTree (s : SplayTreeInfo) : Option (Nat × SplayTreeInfo) :=
  match s.root with
  | .null => some (0, s)
  | .node _ _ _ _ =>
    if s.next = 0 then some (0, s)
    else
      match SplaySplayTree s s.next with
      | none => none
      | some s1 =>
        match s1.root with
        | .null => none
        | .node k _ _ r => some (k, { s1 with next := LeftmostKey r })

/-- `GetNextValueInSplayTree(splay_tree)`: the value returned and the tree;
`none` as for `DeleteNodeFromSplayTree`. -/
def GetNextValueInSplayTree (s : SplayTreeInfo) : Option (Nat × SplayTreeInfo) :=
  match s.root with
  | .null => some (0, s)
  | .node _ _ _ _ =>
    if s.next = 0 then some (0, s)
    else
      match SplaySplayTree s s.next with
      | none => none
      | some s1 =>
        match s1.root with
        | .null => none
        | .node _ v _ r => some (v, { s1 with next := LeftmostKey r })


/-- The argument handed on in `CloneSplayTree`: `clone(p)` when a clone method
is given and `p` is not `NULL`, otherwise `p`. -/
def CloneOf (clone : Option (Nat → Nat)) (p : Nat) : Nat :=
  match clone with
  | some f => if p ≠ 0 then f p else p
  | none => p

/-- The inner loop `for (node=NULL; active != NULL; )` of `CloneSplayTree`,
from the state `active`, `node` and the clone built so far; it ends with
`node` and the clone. The value of `AddValueToSplayTree` is dropped as in the
source. `none` when `fuel` passes did not suffice or an addition stopped the
program. -/
def CloneLevel (clone_key clone_value : Option (Nat → Nat)) (memory : Bool) :
    Nat → NodeInfo → NodeInfo → SplayTreeInfo → Option (NodeInfo × SplayTreeInfo)
  | 0, _, _, _ => none
  | _ + 1, .null, node, clone_tree => some (node, clone_tree)
  | fuel + 1, .node _ _ left right, node, clone_tree =>
    -- next=NULL; if (active->left != NULL) { next=node; ...; node=active->left; }
    let afterLeft : Option (NodeInfo × NodeInfo × SplayTreeInfo) :=
      match left with
      | .null => some (.null, node, clone_tree)
      | .node lk lv ll lr =>
        match AddValueToSplayTree clone_tree (CloneOf clone_key lk) (CloneOf clone_value lv)
            memory with
        | none => none
        | some (_, c) => some (node, .node lk lv ll lr, c)
    match afterLeft with
    | none => none
    | some (next1, node1, c1) =>
      -- if (active->right != NULL) { next=node; ...; node=active->right; }
      let afterRight : Option (NodeInfo × NodeInfo × SplayTreeInfo) :=
        match right with
        | .null => some (next1, node1, c1)
        | .node rk rv rl rr =>
          match AddValueToSplayTree c1 (CloneOf clone_key rk) (CloneOf clone_value rv)
              memory with
          | none => none
          | some (_, c) => some (node1, .node rk rv rl rr, c)
      match afterRight with
      | none => none
      | some (next2, node2, c2) =>
        -- active=next;
        CloneLevel clone_key clone_value memory fuel next2 node2 c2

/-- The outer loop `for (node=splay_tree->root; node != NULL; )` of
`CloneSplayTree`. -/
def CloneLevels (clone_key clone_value : Option (Nat → Nat)) (memory : Bool) (inner : Nat) :
    Nat → NodeInfo → SplayTreeInfo → Option SplayTreeInfo
  | 0, _, _ => none
  | _ + 1, .null, clone_tree => some clone_tree
  | fuel + 1, .node k v l r, clone_tree =>
    match CloneLevel clone_key clone_value memory inner (.node k v l r) .null clone_tree with
    | none => none
    | some (node, c) => CloneLevels clone_key clone_value memory inner fuel node c

/-- `CloneSplayTree(splay_tree,clone_key,clone_value)`. Neither loop has a
bound in the source; each is given one pass more than the tree has nodes
according to `splay_tree->nodes`. -/
def CloneSplayTree (s : SplayTreeInfo) (clone_key clone_value : Option (Nat → Nat))
    (memory : Bool) : Option SplayTreeInfo :=
  let clone_tree := NewSplayTree s.compare
  match s.root with
  | .null => some clone_tree
  | .node k v l r =>
    match AddValueToSplayTree clone_tree (CloneOf clone_key k) (CloneOf clone_value v)
        memory with
    | none => none
    | some (_, c) =>
      CloneLevels clone_key clone_value memory (s.nodes + 1) (s.nodes + 1) (.node k v l r) c


/-! ### What a tree holds

The notions the statements about `wizard/splay-tree.c` are made of: the
entries of a tree in order, the number of nodes, the length of the longest
path, the search-tree ordering, and what a comparison has to satisfy. -/

/-- The key and value of every node linked below a pointer: those of the left
subtree, of the node, of the right subtree. -/
def InOrder : NodeInfo → List (Nat × Nat)
  | .null => []
  | .node k v l r => InOrder l ++ (k, v) :: InOrder r

/-- The nodes linked below a pointer, in the same order. -/
def InOrderNodes : NodeInfo → List NodeInfo
  | .null => []
  | .node k v l r => InOrderNodes l ++ .node k v l r :: InOrderNodes r

/-- The number of nodes linked below a pointer. -/
def Size : NodeInfo → Nat
  | .null => 0
  | .node _ _ l r => Size l + 1 + Size r

/-- The number of nodes on the longest path down from a pointer. -/
def Height : NodeInfo → Nat
  | .null => 0
  | .node _ _ l r => max (Height l) (Height r) + 1

/-- The comparison orders the keys: exchanging the arguments exchanges the
sign, and `≤` is transitive. Keys that compare as `0` are equal keys. -/
def TotalOrder (f : Nat → Nat → Int) : Prop :=
  (∀ a b, 0 < f a b ↔ f b a < 0) ∧ (∀ a b c, f a b ≤ 0 → f b c ≤ 0 → f a c ≤ 0)

/-- The search-tree ordering: the keys in order are strictly increasing. -/
def Ordered (f : Nat → Nat → Int) (t : NodeInfo) : Prop :=
  (InOrder t).Pairwise fun a b => f a.1 b.1 < 0

/-- Every key below the pointer is smaller than `key`. -/
def Below (f : Nat → Nat → Int) (key : Nat) (t : NodeInfo) : Prop :=
  ∀ e ∈ InOrder t, f e.1 key < 0

/-- Every key below the pointer is greater than `key`. -/
def Above (f : Nat → Nat → Int) (key : Nat) (t : NodeInfo) : Prop :=
  ∀ e ∈ InOrder t, 0 < f e.1 key

/-- The root is where a search for `key` ends: the keys on its left are
smaller and those on its right are greater than `key`. -/
def RootSplits (f : Nat → Nat → Int) (key : Nat) : NodeInfo → Prop
  | .null => True
  | .node _ _ l r => Below f key l ∧ Above f key r

/-- What `SplayNode` establishes on an ordered tree, see `Splayed`: the node
that is being moved up splits the keys below it, and so does the part of its
parent that is not below it. -/
def Splayed.Splits (f : Nat → Nat → Int) (key : Nat) : Splayed → Prop
  | .absent => True
  | .here t => t ≠ .null ∧ RootSplits f key t
  | .below .left t =>
    t ≠ .null ∧ t.left ≠ .null ∧ RootSplits f key t.left ∧ 0 < f t.key key ∧
      Above f key t.right
  | .below .right t =>
    t ≠ .null ∧ t.right ≠ .null ∧ RootSplits f key t.right ∧ f t.key key < 0 ∧
      Below f key t.left
  | .settled _ _ => True

/-- The tree a result of `SplayNode` leaves in `*node`. -/
def Splayed.tree : Splayed → NodeInfo
  | .absent => .null
  | .here t => t
  | .below _ t => t
  | .settled t _ => t

/-- A comparison to run examples with: the difference of the two numbers. -/
def CompareNumbers (a b : Nat) : Int :=
  (a : Int) - (b : Int)


/-- The node count is right: `splay_tree->nodes` is the number of nodes linked
below the root, a number an `unsigned long` holds. -/
def Counted (s : SplayTreeInfo) : Prop :=
  s.nodes = Size s.root ∧ Size s.root < 2 ^ 64

/-- The state of a splay tree between two calls, under a comparison that
orders the keys: the search-tree ordering, the right node count, the lowered
`balance` flag, and a remembered key that is the one the root was splayed
for (it is consulted when no comparison is set). -/
structure Sound (s : SplayTreeInfo) : Prop where
  total : TotalOrder (CompareKeys s.compare)
  ordered : Ordered (CompareKeys s.compare) s.root
  counted : Counted s
  lowered : s.balance = false
  remembered : s.compare = none → s.key ≠ 0 →
    RootSplits (CompareKeys s.compare) s.key s.root


/-- The value of the first of the entries whose key equals `key`, and `0`
(`NULL`) when there is none. -/
def Lookup (f : Nat → Nat → Int) (entries : List (Nat × Nat)) (key : Nat) : Nat :=
  match entries.find? (fun e => decide (f e.1 key = 0)) with
  | some e => e.2
  | none => 0


/-! ### Sequences of calls -/

/-- A call of the interface of `wizard/splay-tree.c` with its arguments;
`memory` says whether `AcquireWizardMemory` grants the node. -/
inductive Request where
  | add (key value : Nat) (memory : Bool) : Request
  | delete (key : Nat) : Request
  | remove (key : Nat) : Request
  | get (key : Nat) : Request
  | reset : Request
  | resetIterator : Request
  | nextKey : Request
  | nextValue : Request
  deriving DecidableEq, Repr

/-- The tree a call leaves; `none` when the call stops the program. -/
def Serve (s : SplayTreeInfo) : Request → Option SplayTreeInfo
  | .add key value memory => (AddValueToSplayTree s key value memory).map Prod.snd
  | .delete key => (DeleteNodeFromSplayTree s key).map Prod.snd
  | .remove key => (RemoveNodeFromSplayTree s key).map Prod.snd
  | .get key => (GetValueFromSplayTree s key).map Prod.snd
  | .reset => some (ResetSplayTree s)
  | .resetIterator => some (ResetSplayTreeIterator s)
  | .nextKey => (GetNextKeyInSplayTree s).map Prod.snd
  | .nextValue => (GetNextValueInSplayTree s).map Prod.snd

/-- The tree a sequence of calls leaves. -/
def ServeAll : List Request → SplayTreeInfo → Option SplayTreeInfo
  | [], s => some s
  | c :: cs, s =>
    match Serve s c with
    | none => none
    | some s1 => ServeAll cs s1

/-- A call that stores or deletes: `AddValueToSplayTree(splay_tree,key,value)`
or `DeleteNodeFromSplayTree(splay_tree,key)`. -/
inductive Update where
  | add (key value : Nat) : Update
  | delete (key : Nat) : Update
  deriving DecidableEq, Repr

/-- The call an update is, with the node granted. -/
def Update.request : Update → Request
  | .add key value => .add key value true
  | .delete key => .delete key

/-- The finite map the calls stand for, read off the calls alone, the latest
first: the value most recently added under a key equal to `key` if that key
has not been deleted since, and `0` (`NULL`) otherwise. -/
def Recorded (f : Nat → Nat → Int) : List Update → Nat → Nat
  | [], _ => 0
  | .add k v :: earlier, key => if f k key = 0 then v else Recorded f earlier key
  | .delete k :: earlier, key => if f k key = 0 then 0 else Recorded f earlier key

/-- What `n` calls of `GetNextKeyInSplayTree` in a row return. -/
def NextKeys : Nat → SplayTreeInfo → Option (List Nat)
  | 0, _ => some []
  | n + 1, s =>
    match GetNextKeyInSplayTree s with
    | none => none
    | some (key, s1) => (NextKeys n s1).map (key :: ·)

/-- What `n` calls of `GetNextValueInSplayTree` in a row return. -/
def NextValues : Nat → SplayTreeInfo → Option (List Nat)
  | 0, _ => some []
  | n + 1, s =>
    match GetNextValueInSplayTree s with
    | none => none
    | some (value, s1) => (NextValues n s1).map (value :: ·)

/-- A tree of three entries under `CompareNumbers`. -/
def sampleTree : SplayTreeInfo :=
  { root := .node 20 200 (.node 10 100 .null .null) (.node 30 300 .null .null)
    compare := some CompareNumbers
    balance := false
    key := 0
    next := 0
    nodes := 3 }

/-- The calls that add the keys 1 to 6 in turn and then look up 2 and 4. -/
def sampleCalls : List Request :=
  [.add 1 10 true, .add 2 20 true, .add 3 30 true, .add 4 40 true, .add 5 50 true,
    .add 6 60 true, .get 2, .get 4]

/-- The tree `sampleCalls` leaves of a new tree under `CompareNumbers`. -/
def sampleShape : NodeInfo :=
  .node 4 40
    (.node 2 20 (.node 1 10 .null .null) (.node 3 30 .null .null))
    (.node 5 50 .null (.node 6 60 .null .null))


/-- The state `sampleCalls` leaves of a new tree under `CompareNumbers`. -/
def sampleState : SplayTreeInfo :=
  { root := sampleShape
    compare := some CompareNumbers
    balance := false
    key := 4
    next := 0
    nodes := 6 }

/-- What is compared of two states in examples: everything but the
comparison. -/
def SplayTreeInfo.fields (s : SplayTreeInfo) : NodeInfo × Bool × Nat × Nat × Nat :=
  (s.root, s.balance, s.key, s.next, s.nodes)


/-! ### The search path and the depth of the recursion -/

/-- The search-tree ordering node by node: the keys of the left subtree of
every node are smaller and the keys of its right subtree are greater than the
key of the node. -/
def SearchTree (f : Nat → Nat → Int) : NodeInfo → Prop
  | .null => True
  | .node k _ l r =>
    (∀ e ∈ InOrder l, f e.1 k < 0) ∧ (∀ e ∈ InOrder r, f k e.1 < 0) ∧
      SearchTree f l ∧ SearchTree f r

/-- The key and value of the node a pointer designates. -/
def NodeInfo.entry : NodeInfo → Option (Nat × Nat)
  | .null => none
  | .node k v _ _ => some (k, v)

/-- The nodes a search for `key` passes on its way down from a pointer: it
goes left of a greater key and right of a smaller one, and ends at a key that
compares as equal or at `NULL`. -/
def SearchPath (f : Nat → Nat → Int) (key : Nat) : NodeInfo → List (Nat × Nat)
  | .null => []
  | .node k v l r =>
    (k, v) ::
      (if f k key = 0 then []
        else if f k key > 0 then SearchPath f key l else SearchPath f key r)

/-- The node that a result of `SplayNode` is moving up, see `Splayed`. -/
def Splayed.entry : Splayed → Option (Nat × Nat)
  | .absent => none
  | .here t => t.entry
  | .below .left t => t.left.entry
  | .below .right t => t.right.entry
  | .settled _ _ => none

/-- The greatest `depth` argument among the nested calls that the call
`Splay(splay_tree,depth,key,node,..)` makes, itself included: the call returns
at once on `NULL`, makes no call when the keys compare as equal or when
`depth >= MaxSplayTreeDepth`, and otherwise calls itself once with `depth+1`
on the left or the right link. -/
def SplayDepth (compare : Option (Nat → Nat → Int)) (key : Nat) : Nat → NodeInfo → Nat
  | depth, .null => depth
  | depth, .node k _ l r =>
    let c := CompareKeys compare k key
    if c = 0 then depth
    else if depth ≥ MaxSplayTreeDepth then depth
    else if c > 0 then SplayDepth compare key (depth + 1) l
    else SplayDepth compare key (depth + 1) r

/-- A chain of `n` nodes linked through `right`, with the keys `k`, `k + 1`,
and so on. -/
def rightChain : Nat → Nat → NodeInfo
  | 0, _ => .null
  | n + 1, k => .node k 0 .null (rightChain n (k + 1))

/-- A tree of 1100 nodes on one path, compared by address. -/
def deepState : SplayTreeInfo :=
  { root := rightChain 1100 1
    compare := none
    balance := false
    key := 0
    next := 0
    nodes := 1100 }

/-! ## Lemmas on buffers -/

theorem Trunc32_eq_mod (x : Nat) : Trunc32 x = x % 2 ^ 32 := by
  have h := Nat.and_pow_two_sub_one_eq_mod x 32
  simpa [Trunc32] using h

theorem CopyWizardMemory_length (dst src : List Nat) (off : Nat)
    (h : off + src.length ≤ dst.length) :
    (CopyWizardMemory dst off src).length = dst.length := by
  simp [CopyWizardMemory]
  omega

theorem CopyWizardMemory_take (dst src : List Nat) (off : Nat) (h : off ≤ dst.length) :
    (CopyWizardMemory dst off src).take (off + src.length) = dst.take off ++ src := by
  unfold CopyWizardMemory
  apply List.take_left'
  simp
  omega

theorem CopyWizardMemory_full (dst src : List Nat) (h : src.length = dst.length) :
    CopyWizardMemory dst 0 src = src := by
  simp [CopyWizardMemory, h]

theorem ResetWizardMemory_eq_copy (buf : List Nat) (off c n : Nat) :
    ResetWizardMemory buf off c n = CopyWizardMemory buf off (List.replicate n c) := by
  simp [ResetWizardMemory, CopyWizardMemory]

theorem set_eq_copy (buf : List Nat) (i v : Nat) (h : i < buf.length) :
    buf.set i v = CopyWizardMemory buf i [v] := by
  rw [List.set_eq_take_append_cons_drop, if_pos h]
  simp [CopyWizardMemory]

/-- Writing `src` right after a known prefix extends the known prefix. -/
theorem copy_extends_known (src : List Nat) {buf pre : List Nat} {k : Nat}
    (hpre : buf.take k = pre)
    (hk : k + src.length ≤ buf.length) :
    (CopyWizardMemory buf k src).take (k + src.length) = pre ++ src := by
  rw [CopyWizardMemory_take _ _ _ (by omega), hpre]

theorem set_extends_known {buf pre : List Nat} {k : Nat} (v : Nat) (hpre : buf.take k = pre)
    (hk : k < buf.length) : (buf.set k v).take (k + 1) = pre ++ [v] := by
  rw [set_eq_copy _ _ _ hk]
  exact copy_extends_known [v] hpre (by simp; omega)

theorem eq_of_take_length {buf x : List Nat} {n : Nat} (hn : buf.length = n)
    (h : buf.take n = x) : buf = x := by
  rw [← h, List.take_of_length_le (by omega)]

/-! ## Lemmas on the block loop -/

theorem AbsorbBlocks_take (lsb_first : Bool) (k : Nat) :
    ∀ (acc p : List Nat), AbsorbBlocks lsb_first k acc (p.take (64 * k)) =
      AbsorbBlocks lsb_first k acc p := by
  induction k with
  | zero => intro acc p; rfl
  | succ k ih =>
    intro acc p
    simp only [AbsorbBlocks]
    have h1 : (p.take (64 * (k + 1))).take 64 = p.take 64 := by
      rw [List.take_take]; congr 1; omega
    have h2 : (p.take (64 * (k + 1))).drop 64 = (p.drop 64).take (64 * k) := by
      rw [List.take_drop]; congr 2; omega
    rw [h1, h2, ih]

theorem AbsorbBlocks_append (lsb_first : Bool) (k j : Nat) :
    ∀ (acc X Y : List Nat), X.length = 64 * k →
      AbsorbBlocks lsb_first (k + j) acc (X ++ Y) =
        AbsorbBlocks lsb_first j (AbsorbBlocks lsb_first k acc X) Y := by
  induction k with
  | zero =>
    intro acc X Y hX
    have : X = [] := List.length_eq_zero.mp (by simpa using hX)
    subst this
    simp [AbsorbBlocks]
  | succ k ih =>
    intro acc X Y hX
    have e : k + 1 + j = (k + j) + 1 := by omega
    rw [e]
    simp only [AbsorbBlocks]
    have h1 : (X ++ Y).take 64 = X.take 64 := List.take_append_of_le_length (by omega)
    have h2 : (X ++ Y).drop 64 = X.drop 64 ++ Y := List.drop_append_of_le_length (by omega)
    rw [h1, h2, ih _ _ _ (by simp; omega)]

theorem UpdateBlocks_eq (fuel : Nat) :
    ∀ (s : SHA224Info) (p : List Nat), s.message.length = 64 → p.length / 64 ≤ fuel →
      ∃ msg : List Nat, msg.length = 64 ∧
        UpdateBlocks fuel s p =
          ({ s with
              message := msg
              accumulator := AbsorbBlocks s.lsb_first (p.length / 64) s.accumulator p },
            p.drop (p.length / 64 * 64)) := by
  induction fuel with
  | zero =>
    intro s p hs hp
    have h0 : p.length / 64 = 0 := by omega
    exact ⟨s.message, hs, by simp [UpdateBlocks, h0, AbsorbBlocks]⟩
  | succ fuel ih =>
    intro s p hs hp
    by_cases hlen : p.length ≥ s.message.length
    · have h64 : 64 ≤ p.length := by omega
      have hset : SetStringInfoDatum s.message p = p.take 64 := by
        unfold SetStringInfoDatum
        rw [hs]
        exact CopyWizardMemory_full _ _ (by simp; omega)
      obtain ⟨msg, hmsg, hrec⟩ := ih
        (TransformSHA224 { s with message := SetStringInfoDatum s.message p })
        (p.drop s.message.length)
        (by simp [TransformSHA224, hset]; omega)
        (by simp [hs]; omega)
      refine ⟨msg, hmsg, ?_⟩
      rw [UpdateBlocks, if_pos hlen, hrec]
      have hk : p.length / 64 = (p.length - 64) / 64 + 1 := by omega
      simp only [TransformSHA224, hset, hs, List.length_drop, List.drop_drop]
      rw [hk]
      simp only [AbsorbBlocks]
      congr 2
      omega
    · have h0 : p.length / 64 = 0 := by omega
      exact ⟨s.message, hs, by simp [UpdateBlocks, hlen, h0, AbsorbBlocks]⟩


/-- The part of `UpdateSHA224` from the `while` loop on, entered with a whole
number of blocks absorbed. -/
theorem tail_phase (s0 s1 : SHA224Info) (B p : List Nat) (low high fuel : Nat)
    (hB : B.length % 64 = 0) (hlen : s1.message.length = 64)
    (hs : s1 = { s0 with
        message := s1.message
        offset := s1.offset
        accumulator := AbsorbBlocks s0.lsb_first (B.length / 64) s0.accumulator B
        low_order := low
        high_order := high })
    (hfuel : p.length / 64 ≤ fuel) :
    Absorbed s0
      { (UpdateBlocks fuel s1 p).1 with
        message := CopyWizardMemory (UpdateBlocks fuel s1 p).1.message 0 (UpdateBlocks fuel s1 p).2
        offset := (UpdateBlocks fuel s1 p).2.length }
      (B ++ p) low high := by
  obtain ⟨msg, hmsg, hrun⟩ := UpdateBlocks_eq fuel s1 p hlen hfuel
  rw [hrun]
  have hBq : B.length = 64 * (B.length / 64) := by omega
  have hdiv : (B ++ p).length / 64 = B.length / 64 + p.length / 64 := by
    simp only [List.length_append]; omega
  have hmod : (B ++ p).length % 64 = p.length % 64 := by
    simp only [List.length_append]; omega
  have hdrop : (B ++ p).drop ((B ++ p).length / 64 * 64) = p.drop (p.length / 64 * 64) := by
    rw [hdiv, List.drop_append_eq_append_drop, List.drop_of_length_le (by omega)]
    simp only [List.nil_append]
    congr 1
    omega
  have hremlen : (p.drop (p.length / 64 * 64)).length = p.length % 64 := by
    simp only [List.length_drop]; omega
  have hlsb : s1.lsb_first = s0.lsb_first := by
    have := congrArg SHA224Info.lsb_first hs
    simpa using this
  have hacc : s1.accumulator =
      AbsorbBlocks s0.lsb_first (B.length / 64) s0.accumulator B := by
    have := congrArg SHA224Info.accumulator hs
    simpa using this
  refine ⟨?_, ?_, ?_⟩
  · simp only []
    rw [CopyWizardMemory_length _ _ _ (by rw [hremlen, hmsg]; omega), hmsg]
  · simp only []
    rw [hmod, hdrop, ← hremlen]
    have := CopyWizardMemory_take msg (p.drop (p.length / 64 * 64)) 0 (by omega)
    simpa using this
  · simp only []
    rw [hmod, hremlen, hdiv, AbsorbBlocks_append _ _ _ _ _ _ hBq, hlsb, hacc]
    rw [hs]


/-- The counters after `UpdateSHA224` of `n < 2 ^ 32` bytes on top of `b`. -/
theorem counters_step (b n : Nat) (hn : n < 2 ^ 32) :
    Trunc32 ((8 * b % 2 ^ 32 + (n <<< 3)) % 2 ^ 32) = 8 * (b + n) % 2 ^ 32 ∧
    ((if Trunc32 ((8 * b % 2 ^ 32 + (n <<< 3)) % 2 ^ 32) < 8 * b % 2 ^ 32
        then (8 * b / 2 ^ 32 % 2 ^ 32 + 1) % 2 ^ 32 else 8 * b / 2 ^ 32 % 2 ^ 32) +
      ((n % 2 ^ 32) >>> 29)) % 2 ^ 32 = 8 * (b + n) / 2 ^ 32 % 2 ^ 32 := by
  rw [Trunc32_eq_mod, Nat.shiftLeft_eq, Nat.shiftRight_eq_div_pow]
  constructor
  · omega
  · split <;> omega

/-- One `UpdateSHA224` call of fewer than `2 ^ 32` bytes keeps `Tracks`. -/
theorem Tracks_update {s0 s : SHA224Info} {B : List Nat} (C : List Nat)
    (ht : Tracks s0 s B) (hC : C.length < 2 ^ 32) :
    Tracks s0 (UpdateSHA224 s C) (B ++ C) := by
  obtain ⟨hlen, hpend, hs⟩ := ht
  have hoff : s.offset = B.length % 64 := by
    have := congrArg SHA224Info.offset hs; simpa using this
  have hlow : s.low_order = 8 * B.length % 2 ^ 32 := by
    have := congrArg SHA224Info.low_order hs; simpa using this
  have hhigh : s.high_order = 8 * B.length / 2 ^ 32 % 2 ^ 32 := by
    have := congrArg SHA224Info.high_order hs; simpa using this
  have hlsb : s.lsb_first = s0.lsb_first := by
    have := congrArg SHA224Info.lsb_first hs; simpa using this
  have hacc : s.accumulator =
      AbsorbBlocks s0.lsb_first (B.length / 64) s0.accumulator B := by
    have := congrArg SHA224Info.accumulator hs; simpa using this
  obtain ⟨hc1, hc2⟩ := counters_step B.length C.length hC
  unfold Tracks
  rw [List.length_append, ← hc1, ← hc2]
  unfold UpdateSHA224
  simp only [hlow, hhigh, hoff, hlen]
  generalize Trunc32 ((8 * B.length % 2 ^ 32 + C.length <<< 3) % 2 ^ 32) = low
  generalize ((if low < 8 * B.length % 2 ^ 32 then (8 * B.length / 2 ^ 32 % 2 ^ 32 + 1) % 2 ^ 32
    else 8 * B.length / 2 ^ 32 % 2 ^ 32) + (C.length % 2 ^ 32) >>> 29) % 2 ^ 32 = high
  by_cases ho : B.length % 64 = 0
  · rw [if_neg (by simpa using ho)]
    exact tail_phase _ _ _ _ _ _ _ ho hlen (by rw [hs]) (by omega)
  · rw [if_pos ho]
    by_cases hn : 64 - B.length % 64 > C.length
    · simp only [hn, if_true]
      have hcl : (CopyWizardMemory s.message (B.length % 64) (C.take C.length)).length = 64 := by
        rw [CopyWizardMemory_length _ _ _ (by simp; omega), hlen]
      have hmod : (B ++ C).length % 64 = B.length % 64 + (C.take C.length).length := by
        simp; omega
      have hdiv : (B ++ C).length / 64 = B.length / 64 := by
        simp; omega
      rw [hcl, if_pos (by omega)]
      refine ⟨hcl, ?_, ?_⟩
      · simp only []
        rw [hmod, hdiv, copy_extends_known _ hpend (by simp; omega), List.take_length,
          List.drop_append_of_le_length (by omega)]
      · simp only []
        rw [hdiv, ← AbsorbBlocks_take _ _ _ (B ++ C),
          List.take_append_of_le_length (by omega), AbsorbBlocks_take, ← hacc]
        rw [hmod, List.take_length]
        rw [hs]
    · simp only [hn, if_false]
      have hi : (C.take (64 - B.length % 64)).length = 64 - B.length % 64 := by
        simp; omega
      have hcl : (CopyWizardMemory s.message (B.length % 64)
          (C.take (64 - B.length % 64))).length = 64 := by
        rw [CopyWizardMemory_length _ _ _ (by rw [hi]; omega), hlen]
      have hblk : CopyWizardMemory s.message (B.length % 64) (C.take (64 - B.length % 64)) =
          B.drop (B.length / 64 * 64) ++ C.take (64 - B.length % 64) := by
        apply eq_of_take_length hcl
        have := copy_extends_known (C.take (64 - B.length % 64)) hpend
          (by rw [hi]; omega)
        rw [hi] at this
        have e : B.length % 64 + (64 - B.length % 64) = 64 := by omega
        rw [e] at this
        exact this
      rw [hcl, if_neg (by omega)]
      have hB1 : (B ++ C.take (64 - B.length % 64)).length % 64 = 0 := by
        rw [List.length_append, hi]; omega
      have hq1 : (B ++ C.take (64 - B.length % 64)).length / 64 = B.length / 64 + 1 := by
        rw [List.length_append, hi]; omega
      have hsplit : B ++ C.take (64 - B.length % 64) =
          B.take (64 * (B.length / 64)) ++
            (B.drop (B.length / 64 * 64) ++ C.take (64 - B.length % 64)) := by
        rw [← List.append_assoc]
        congr 1
        rw [Nat.mul_comm 64]
        exact (List.take_append_drop _ _).symm
      have hone : ∀ acc blk : List Nat, blk.length = 64 →
          AbsorbBlocks s0.lsb_first 1 acc blk = TransformAccumulator s0.lsb_first acc blk := by
        intro acc blk hb
        simp only [AbsorbBlocks]
        rw [List.take_of_length_le (by omega)]
      have hacc1 : TransformAccumulator s.lsb_first s.accumulator
          (CopyWizardMemory s.message (B.length % 64) (C.take (64 - B.length % 64))) =
          AbsorbBlocks s0.lsb_first ((B ++ C.take (64 - B.length % 64)).length / 64)
            s0.accumulator (B ++ C.take (64 - B.length % 64)) := by
        rw [hq1, hsplit, AbsorbBlocks_append _ _ _ _ _ _ (by simp; omega), AbsorbBlocks_take,
          hone _ _ (by rw [← hblk]; exact hcl), hblk, hlsb, hacc]
      have key := tail_phase s0
        (TransformSHA224
          { s with
            message := CopyWizardMemory s.message (B.length % 64) (C.take (64 - B.length % 64))
            low_order := low
            high_order := high
            offset := B.length % 64 + (64 - B.length % 64) })
        (B ++ C.take (64 - B.length % 64)) (C.drop (64 - B.length % 64)) low high
        (C.length + 1) hB1 hcl
        (by
          simp only [TransformSHA224]
          rw [hacc1]
          rw [hs])
        (by simp; omega)
      rw [List.append_assoc, List.take_append_drop] at key
      exact key


/-- The eight stores `datum[56]` .. `datum[63]` of `FinalizeSHA224` complete a
block whose first 56 bytes are known. -/
theorem length_stores {buf pre : List Nat} (v0 v1 v2 v3 v4 v5 v6 v7 : Nat)
    (hlen : buf.length = 64) (hpre : buf.take 56 = pre) :
    ((((((((buf.set 56 v0).set 57 v1).set 58 v2).set 59 v3).set 60 v4).set 61 v5).set 62
      v6).set 63 v7) = pre ++ [v0, v1, v2, v3, v4, v5, v6, v7] := by
  have h0 := set_extends_known v0 hpre (by omega)
  have h1 := set_extends_known v1 h0 (by simp; omega)
  have h2 := set_extends_known v2 h1 (by simp; omega)
  have h3 := set_extends_known v3 h2 (by simp; omega)
  have h4 := set_extends_known v4 h3 (by simp; omega)
  have h5 := set_extends_known v5 h4 (by simp; omega)
  have h6 := set_extends_known v6 h5 (by simp; omega)
  have h7 := set_extends_known v7 h6 (by simp; omega)
  have := eq_of_take_length (by simp; omega) h7
  rw [this]
  simp

theorem count_eq (b : Nat) : ((8 * b % 2 ^ 32) >>> 3) &&& 0x3f = b % 64 := by
  have h := Nat.and_pow_two_sub_one_eq_mod ((8 * b % 2 ^ 32) >>> 3) 6
  have e : (2 : Nat) ^ 6 - 1 = 0x3f := by norm_num
  rw [e] at h
  rw [h, Nat.shiftRight_eq_div_pow]
  omega

theorem pending_length (B : List Nat) :
    (B.drop (B.length / 64 * 64)).length = B.length % 64 := by
  simp only [List.length_drop]; omega

/-- What `FinalizeSHA224` leaves is a function of the initialized context and
of the bytes supplied. -/
theorem Finalize_eq {s0 s : SHA224Info} {B : List Nat} (ht : Tracks s0 s B) :
    FinalizeSHA224 s = FinalState s0 B := by
  obtain ⟨hlen, hpend, hs⟩ := ht
  have hlow : s.low_order = 8 * B.length % 2 ^ 32 := by
    have := congrArg SHA224Info.low_order hs; simpa using this
  have hhigh : s.high_order = 8 * B.length / 2 ^ 32 % 2 ^ 32 := by
    have := congrArg SHA224Info.high_order hs; simpa using this
  have hlsb : s.lsb_first = s0.lsb_first := by
    have := congrArg SHA224Info.lsb_first hs; simpa using this
  have hacc : s.accumulator =
      AbsorbBlocks s0.lsb_first (B.length / 64) s0.accumulator B := by
    have := congrArg SHA224Info.accumulator hs; simpa using this
  have hdig : s.digest = s0.digest := by
    have := congrArg SHA224Info.digest hs; simpa using this
  have hcount := count_eq B.length
  have hc64 : B.length % 64 < 64 := Nat.mod_lt _ (by omega)
  have hmark := set_extends_known 0x80 hpend (by omega)
  unfold FinalizeSHA224 FinalState FinalAccumulator LastBlock
  simp only [hlow, hhigh, hcount, hlen, Nat.reduceSub]
  generalize 8 * B.length % 2 ^ 32 = low
  generalize 8 * B.length / 2 ^ 32 % 2 ^ 32 = high
  by_cases hc : B.length % 64 + 1 ≤ 56
  · simp only [if_pos hc]
    have hpad : (ResetWizardMemory (s.message.set (B.length % 64) 0x80) (B.length % 64 + 1) 0
        (56 - (B.length % 64 + 1))).take 56 =
        B.drop (B.length / 64 * 64) ++ [0x80] ++ List.replicate (55 - B.length % 64) 0 := by
      rw [ResetWizardMemory_eq_copy]
      have := copy_extends_known (List.replicate (56 - (B.length % 64 + 1)) 0) hmark
        (by simp; omega)
      rw [List.length_replicate] at this
      have e : B.length % 64 + 1 + (56 - (B.length % 64 + 1)) = 56 := by omega
      have e2 : 56 - (B.length % 64 + 1) = 55 - B.length % 64 := by omega
      rw [e, e2] at this
      rw [e2]
      exact this
    have hfull := length_stores ((high >>> 24) % 256) ((high >>> 16) % 256)
      ((high >>> 8) % 256) (high % 256) ((low >>> 24) % 256) ((low >>> 16) % 256)
      ((low >>> 8) % 256) (low % 256)
      (by rw [ResetWizardMemory_eq_copy, CopyWizardMemory_length _ _ _ (by simp; omega)]
          simp [hlen]) hpad
    rw [hfull]
    simp only [TransformSHA224, hlsb, hacc, hdig, LengthBytes, List.append_assoc,
      List.singleton_append]
    rw [hs]
  · simp only [if_neg hc]
    have hblk1 : ResetWizardMemory (s.message.set (B.length % 64) 0x80) (B.length % 64 + 1) 0
        (64 - (B.length % 64 + 1)) =
        B.drop (B.length / 64 * 64) ++ 0x80 :: List.replicate (63 - B.length % 64) 0 := by
      rw [ResetWizardMemory_eq_copy]
      have := copy_extends_known (List.replicate (64 - (B.length % 64 + 1)) 0) hmark
        (by simp; omega)
      rw [List.length_replicate] at this
      have e : B.length % 64 + 1 + (64 - (B.length % 64 + 1)) = 64 := by omega
      have e2 : 64 - (B.length % 64 + 1) = 63 - B.length % 64 := by omega
      rw [e, e2] at this
      rw [e2]
      have h64 := eq_of_take_length
        (by rw [CopyWizardMemory_length _ _ _ (by simp; omega)]; simp [hlen]) this
      rw [h64]
      simp
    have hblk1len : (B.drop (B.length / 64 * 64) ++
        0x80 :: List.replicate (63 - B.length % 64) 0).length = 64 := by
      simp only [List.length_append, List.length_cons, List.length_replicate, pending_length]
      omega
    rw [hblk1]
    simp only [TransformSHA224, hblk1len, Nat.reduceSub]
    have hpad : (ResetWizardMemory (B.drop (B.length / 64 * 64) ++
        0x80 :: List.replicate (63 - B.length % 64) 0) 0 0 56).take 56 =
        List.replicate 56 0 := by
      rw [ResetWizardMemory_eq_copy]
      have := CopyWizardMemory_take (B.drop (B.length / 64 * 64) ++
        0x80 :: List.replicate (63 - B.length % 64) 0) (List.replicate 56 0) 0 (by omega)
      simpa using this
    have hfull := length_stores ((high >>> 24) % 256) ((high >>> 16) % 256)
      ((high >>> 8) % 256) (high % 256) ((low >>> 24) % 256) ((low >>> 16) % 256)
      ((low >>> 8) % 256) (low % 256)
      (by rw [ResetWizardMemory_eq_copy, CopyWizardMemory_length _ _ _ (by simp; omega)]
          exact hblk1len) hpad
    rw [hfull]
    simp only [hlsb, hacc, hdig, LengthBytes]
    rw [hs]


/-! ## From the context to closed terms -/

theorem Acquire_message_length (d m a : Nat → Nat) (lsb : Bool) (ts : Nat) :
    (AcquireSHA224Info d m a lsb ts).message.length = 64 := by
  simp [AcquireSHA224Info, InitializeSHA224, SHA224Blocksize]

theorem Acquire_digest_length (d m a : Nat → Nat) (lsb : Bool) (ts : Nat) :
    (AcquireSHA224Info d m a lsb ts).digest.length = 28 := by
  simp [AcquireSHA224Info, InitializeSHA224, SHA224Digestsize]

theorem Acquire_lsb_first (d m a : Nat → Nat) (lsb : Bool) (ts : Nat) :
    (AcquireSHA224Info d m a lsb ts).lsb_first = lsb := rfl

theorem initial_words_of_length (acc : List Nat) (h : 8 ≤ acc.length) :
    ((((((((acc.set 0 0xc1059ed8).set 1 0x367cd507).set 2 0x3070dd17).set 3
      0xf70e5939).set 4 0xffc00b31).set 5 0x68581511).set 6 0x64f98fa7).set 7
      0xbefa4fa4).take 8 = InitialWords := by
  rcases acc with _ | ⟨x0, _ | ⟨x1, _ | ⟨x2, _ | ⟨x3, _ | ⟨x4, _ | ⟨x5, _ | ⟨x6, _ | ⟨x7, r⟩⟩⟩⟩⟩⟩⟩⟩ <;>
    simp at h
  rfl

theorem Acquire_accumulator_take (d m a : Nat → Nat) (lsb : Bool) (ts : Nat) :
    (AcquireSHA224Info d m a lsb ts).accumulator.take 8 = InitialWords := by
  simp only [AcquireSHA224Info, InitializeSHA224]
  exact initial_words_of_length _ (by simp [SHA224Blocksize])

theorem getD_take_of_lt (l : List Nat) (i n : Nat) (h : i < n) :
    (l.take n).getD i 0 = l.getD i 0 := by
  simp [List.getD_eq_getElem?_getD, List.getElem?_take, h]

/-- `TransformAccumulator` reads and writes the first eight words only. -/
theorem TransformAccumulator_take (lsb_first : Bool) (acc p : List Nat) :
    (TransformAccumulator lsb_first acc p).take 8 =
      TransformAccumulator lsb_first (acc.take 8) p := by
  simp only [TransformAccumulator, List.set_take]
  simp only [getD_take_of_lt acc _ 8 (by omega : 0 < 8), getD_take_of_lt acc _ 8 (by omega : 1 < 8),
    getD_take_of_lt acc _ 8 (by omega : 2 < 8), getD_take_of_lt acc _ 8 (by omega : 3 < 8),
    getD_take_of_lt acc _ 8 (by omega : 4 < 8), getD_take_of_lt acc _ 8 (by omega : 5 < 8),
    getD_take_of_lt acc _ 8 (by omega : 6 < 8), getD_take_of_lt acc _ 8 (by omega : 7 < 8)]

theorem AbsorbBlocks_take_words (lsb_first : Bool) (k : Nat) :
    ∀ (acc p : List Nat), (AbsorbBlocks lsb_first k acc p).take 8 =
      AbsorbBlocks lsb_first k (acc.take 8) p := by
  induction k with
  | zero => intro acc p; rfl
  | succ k ih =>
    intro acc p
    simp only [AbsorbBlocks]
    rw [ih, TransformAccumulator_take]

theorem FinalAccumulator_take_words (lsb_first : Bool) (acc B : List Nat) :
    (FinalAccumulator lsb_first acc B).take 8 = FinalAccumulator lsb_first (acc.take 8) B := by
  simp only [FinalAccumulator]
  rw [TransformAccumulator_take]
  split
  · rw [AbsorbBlocks_take_words]
  · rw [TransformAccumulator_take, AbsorbBlocks_take_words]

theorem PackDigest_take_words (acc : List Nat) : PackDigest (acc.take 8) = PackDigest acc := by
  have hr : List.range (SHA224Digestsize / 4) = [0, 1, 2, 3, 4, 5, 6] := by decide
  simp only [PackDigest, hr, List.flatMap_cons, List.flatMap_nil]
  simp only [getD_take_of_lt acc _ 8 (by omega : 0 < 8), getD_take_of_lt acc _ 8 (by omega : 1 < 8),
    getD_take_of_lt acc _ 8 (by omega : 2 < 8), getD_take_of_lt acc _ 8 (by omega : 3 < 8),
    getD_take_of_lt acc _ 8 (by omega : 4 < 8), getD_take_of_lt acc _ 8 (by omega : 5 < 8),
    getD_take_of_lt acc _ 8 (by omega : 6 < 8)]

theorem PackDigest_length (acc : List Nat) : (PackDigest acc).length = 28 := by
  have hr : List.range (SHA224Digestsize / 4) = [0, 1, 2, 3, 4, 5, 6] := by decide
  simp [PackDigest, hr]

theorem Tracks_initial (d m a : Nat → Nat) (lsb : Bool) (ts : Nat) :
    Tracks (AcquireSHA224Info d m a lsb ts) (AcquireSHA224Info d m a lsb ts) [] := by
  refine ⟨Acquire_message_length d m a lsb ts, by simp, ?_⟩
  simp [AcquireSHA224Info, InitializeSHA224, AbsorbBlocks]

/-- A sequence of `UpdateSHA224` calls, each of fewer than `2 ^ 32` bytes,
keeps `Tracks` for the concatenation of the chunks. -/
theorem Tracks_foldl {s0 : SHA224Info} (cs : List (List Nat)) :
    ∀ {s : SHA224Info} {B : List Nat}, Tracks s0 s B → (∀ c ∈ cs, c.length < 2 ^ 32) →
      Tracks s0 (cs.foldl UpdateSHA224 s) (B ++ cs.flatten) := by
  induction cs with
  | nil => intro s B ht _; simpa using ht
  | cons c cs ih =>
    intro s B ht hcs
    have h1 := Tracks_update c ht (hcs c (by simp))
    have h2 := ih h1 (fun x hx => hcs x (by simp [hx]))
    simpa [List.append_assoc] using h2

/-- The state after finalization, for any chunking of the input. -/
theorem Finalize_foldl (d m a : Nat → Nat) (lsb : Bool) (ts : Nat) (cs : List (List Nat))
    (hcs : ∀ c ∈ cs, c.length < 2 ^ 32) :
    FinalizeSHA224 (cs.foldl UpdateSHA224 (AcquireSHA224Info d m a lsb ts)) =
      FinalState (AcquireSHA224Info d m a lsb ts) cs.flatten := by
  have h := Tracks_foldl cs (Tracks_initial d m a lsb ts) hcs
  rw [List.nil_append] at h
  exact Finalize_eq h

/-- The digest after finalization is `DigestOf`, whatever the fresh buffers
held and however the input was chunked. -/
theorem digest_eq (d m a : Nat → Nat) (lsb : Bool) (ts : Nat) (cs : List (List Nat))
    (hcs : ∀ c ∈ cs, c.length < 2 ^ 32) :
    (FinalizeSHA224 (cs.foldl UpdateSHA224 (AcquireSHA224Info d m a lsb ts))).digest =
      DigestOf lsb cs.flatten := by
  rw [Finalize_foldl d m a lsb ts cs hcs]
  simp only [FinalState, DigestOf]
  rw [CopyWizardMemory_full _ _ (by rw [PackDigest_length, Acquire_digest_length]),
    ← PackDigest_take_words, FinalAccumulator_take_words, Acquire_accumulator_take,
    Acquire_lsb_first, ← PackDigest_take_words (FinalAccumulator lsb InitialWords cs.flatten),
    FinalAccumulator_take_words]

/-! ## Properties of the memory-backed byte stream -/

/-- C1, the code at a failing input. For the 56-byte message of the byte `a`
repeated, the shortest kind of message whose padding needs a second block, the
digest that `InitializeSHA224`, `UpdateSHA224`, `FinalizeSHA224` produce is
not the SHA-224 digest of FIPS 180-4, whatever the fresh buffers held and on
either byte order. -/
theorem C1_digest_differs_from_standard (d m a : Nat → Nat) (lsb : Bool) (ts : Nat) :
    (FinalizeSHA224
      (UpdateSHA224 (AcquireSHA224Info d m a lsb ts) (List.replicate 56 97))).digest =
      [0x24, 0xc3, 0xcb, 0x7b, 0x0d, 0x26, 0x7f, 0xde, 0x1f, 0xda, 0xd4, 0x24, 0xee, 0x2f,
       0xdb, 0xf5, 0xd0, 0xb4, 0xde, 0x42, 0xbd, 0x74, 0x53, 0x02, 0x05, 0x32, 0xd3, 0xed] ∧
    FIPS180.SHA224 (List.replicate 56 97) =
      [0xd4, 0x08, 0x54, 0xfc, 0x9c, 0xaf, 0x17, 0x20, 0x67, 0x13, 0x6f, 0x2e, 0x29, 0xe1,
       0x38, 0x0b, 0x14, 0x62, 0x6b, 0xf6, 0xf0, 0xdd, 0x06, 0x77, 0x9f, 0x82, 0x0d, 0xcd] ∧
    (FinalizeSHA224
      (UpdateSHA224 (AcquireSHA224Info d m a lsb ts) (List.replicate 56 97))).digest ≠
      FIPS180.SHA224 (List.replicate 56 97) := by
  have h := digest_eq d m a lsb ts [List.replicate 56 97] (by decide)
  simp only [List.foldl_cons, List.foldl_nil] at h
  have hcode : DigestOf lsb [List.replicate 56 97].flatten =
      [0x24, 0xc3, 0xcb, 0x7b, 0x0d, 0x26, 0x7f, 0xde, 0x1f, 0xda, 0xd4, 0x24, 0xee, 0x2f,
       0xdb, 0xf5, 0xd0, 0xb4, 0xde, 0x42, 0xbd, 0x74, 0x53, 0x02, 0x05, 0x32, 0xd3, 0xed] := by
    cases lsb <;> decide!
  have hstd : FIPS180.SHA224 (List.replicate 56 97) =
      [0xd4, 0x08, 0x54, 0xfc, 0x9c, 0xaf, 0x17, 0x20, 0x67, 0x13, 0x6f, 0x2e, 0x29, 0xe1,
       0x38, 0x0b, 0x14, 0x62, 0x6b, 0xf6, 0xf0, 0xdd, 0x06, 0x77, 0x9f, 0x82, 0x0d, 0xcd] := by
    decide!
  rw [h, hcode, hstd]
  exact ⟨rfl, rfl, by decide⟩

/-- C3. Known answers for short inputs: whatever the fresh buffers held and on
either byte order, the digest of the empty byte sequence (with no `UpdateSHA224`
call, or with one of no bytes) is
`d14a028c 2a3a2bc9 476102bb 288234c4 15a2b01f 828ea62a c5b3e42f` and the digest
of the three bytes `abc` is
`23097d22 3405d822 8642a477 bda255b3 2aadbce4 bda0b3f7 e36c9da7`. -/
theorem C3_known_answers_short (d m a : Nat → Nat) (lsb : Bool) (ts : Nat) :
    (FinalizeSHA224 (AcquireSHA224Info d m a lsb ts)).digest =
      [0xd1, 0x4a, 0x02, 0x8c, 0x2a, 0x3a, 0x2b, 0xc9, 0x47, 0x61, 0x02, 0xbb, 0x28, 0x82,
       0x34, 0xc4, 0x15, 0xa2, 0xb0, 0x1f, 0x82, 0x8e, 0xa6, 0x2a, 0xc5, 0xb3, 0xe4, 0x2f] ∧
    (FinalizeSHA224 (UpdateSHA224 (AcquireSHA224Info d m a lsb ts) [])).digest =
      [0xd1, 0x4a, 0x02, 0x8c, 0x2a, 0x3a, 0x2b, 0xc9, 0x47, 0x61, 0x02, 0xbb, 0x28, 0x82,
       0x34, 0xc4, 0x15, 0xa2, 0xb0, 0x1f, 0x82, 0x8e, 0xa6, 0x2a, 0xc5, 0xb3, 0xe4, 0x2f] ∧
    (FinalizeSHA224 (UpdateSHA224 (AcquireSHA224Info d m a lsb ts) [97, 98, 99])).digest =
      [0x23, 0x09, 0x7d, 0x22, 0x34, 0x05, 0xd8, 0x22, 0x86, 0x42, 0xa4, 0x77, 0xbd, 0xa2,
       0x55, 0xb3, 0x2a, 0xad, 0xbc, 0xe4, 0xbd, 0xa0, 0xb3, 0xf7, 0xe3, 0x6c, 0x9d, 0xa7] := by
  have hn := digest_eq d m a lsb ts [] (by decide)
  have h0 := digest_eq d m a lsb ts [[]] (by decide)
  have h3 := digest_eq d m a lsb ts [[97, 98, 99]] (by decide)
  simp only [List.foldl_cons, List.foldl_nil] at hn h0 h3
  rw [hn, h0, h3]
  cases lsb <;> decide!

/-- C4, the code at the failing input. For the 64-byte message of the byte `a`
repeated, one full block followed by a padding block, the digest the source
produces is `3550a807 ...`, whereas the SHA-224 digest of FIPS 180-4 is
`a88cd5cd ...`. -/
theorem C4_one_block_digest_differs (d m a : Nat → Nat) (lsb : Bool) (ts : Nat) :
    (FinalizeSHA224
      (UpdateSHA224 (AcquireSHA224Info d m a lsb ts) (List.replicate 64 97))).digest =
      [0x35, 0x50, 0xa8, 0x07, 0x9b, 0x8e, 0xf7, 0x45, 0xbc, 0xf2, 0xb3, 0x47, 0x25, 0x13,
       0x46, 0x95, 0xb1, 0x4b, 0x1e, 0xe8, 0x80, 0x9b, 0xed, 0x5d, 0xb2, 0xc4, 0xdd, 0xe1] ∧
    FIPS180.SHA224 (List.replicate 64 97) =
      [0xa8, 0x8c, 0xd5, 0xcd, 0xe6, 0xd6, 0xfe, 0x91, 0x36, 0xa4, 0xe5, 0x8b, 0x49, 0x16,
       0x74, 0x61, 0xea, 0x95, 0xd3, 0x88, 0xca, 0x2b, 0xdb, 0x7a, 0xfd, 0xc3, 0xcb, 0xf4] ∧
    (FinalizeSHA224
      (UpdateSHA224 (AcquireSHA224Info d m a lsb ts) (List.replicate 64 97))).digest ≠
      FIPS180.SHA224 (List.replicate 64 97) := by
  have h := digest_eq d m a lsb ts [List.replicate 64 97] (by decide)
  simp only [List.foldl_cons, List.foldl_nil] at h
  have hcode : DigestOf lsb [List.replicate 64 97].flatten =
      [0x35, 0x50, 0xa8, 0x07, 0x9b, 0x8e, 0xf7, 0x45, 0xbc, 0xf2, 0xb3, 0x47, 0x25, 0x13,
       0x46, 0x95, 0xb1, 0x4b, 0x1e, 0xe8, 0x80, 0x9b, 0xed, 0x5d, 0xb2, 0xc4, 0xdd, 0xe1] := by
    cases lsb <;> decide!
  have hstd : FIPS180.SHA224 (List.replicate 64 97) =
      [0xa8, 0x8c, 0xd5, 0xcd, 0xe6, 0xd6, 0xfe, 0x91, 0x36, 0xa4, 0xe5, 0x8b, 0x49, 0x16,
       0x74, 0x61, 0xea, 0x95, 0xd3, 0x88, 0xca, 0x2b, 0xdb, 0x7a, 0xfd, 0xc3, 0xcb, 0xf4] := by
    decide!
  rw [h, hcode, hstd]
  exact ⟨rfl, rfl, by decide⟩

/-- C5. Stream round trip: on a memory-backed handle that is not mapped and has
position 0 and length 0, whatever its capacity and quantum, `WriteBlob` of the
`N` bytes `D` returns `N` and sets the length to `N` provided the reallocation,
if one is needed, succeeds; once the position is put back to 0, `ReadBlob` of
`N` bytes returns `N` and delivers exactly `D`. -/
theorem C5_stream_round_trip (sys sys2 : System) (b : BlobInfo) (D : List Nat)
    (htype : b.type = StreamType.BlobStream) (hmapped : b.mapped = false)
    (hoff : b.offset = 0) (hlen : b.length = 0)
    (hgrant : b.offset + D.length ≥ b.extent → sys.grant = true) :
    (WriteBlob sys b D).2 = (D.length : Int) ∧
    (WriteBlob sys b D).1.length = D.length ∧
    (ReadBlob sys2 { (WriteBlob sys b D).1 with offset := 0 } D.length).2 =
      ((D.length : Int), D) := by
  by_cases hD : D.length = 0
  · have hnil : D = [] := List.length_eq_zero.mp hD
    subst hnil
    simp [WriteBlob, ReadBlob, hlen]
  · have hstore : ∀ b1 : BlobInfo, b1.type = StreamType.BlobStream → b1.offset = 0 →
        b1.length = 0 →
        (StoreBlob b1 D).2 = (D.length : Int) ∧ (StoreBlob b1 D).1.length = D.length ∧
        (ReadBlob sys2 { (StoreBlob b1 D).1 with offset := 0 } D.length).2 =
          ((D.length : Int), D) := by
      intro b1 ht ho hl
      have hpos : 0 < D.length := Nat.pos_of_ne_zero hD
      refine ⟨rfl, by simp [StoreBlob, ho, hl], ?_⟩
      simp [StoreBlob, ho, hl, ReadBlob, hD, ht, WizardMin, CopyWizardMemory]
    unfold WriteBlob
    simp only [hD, if_false, htype, hmapped]
    split
    · rename_i hgrow
      have hg := hgrant hgrow
      simp only [ResizeQuantumMemory, hg, if_true, Bool.false_eq_true, if_false]
      exact hstore _ rfl hoff hlen
    · exact hstore b htype hoff hlen

/-- Witness for C5: three bytes written to an empty handle of capacity zero. -/
theorem C5_stream_round_trip_witness :
    (WriteBlob sysGrant (AttachBlob blankBlob [] 0) [7, 8, 9]).2 = 3 ∧
    (WriteBlob sysGrant (AttachBlob blankBlob [] 0) [7, 8, 9]).1.length = 3 ∧
    (ReadBlob sysRefuse
      { (WriteBlob sysGrant (AttachBlob blankBlob [] 0) [7, 8, 9]).1 with offset := 0 } 3).2 =
      (3, [7, 8, 9]) :=
  C5_stream_round_trip sysGrant sysRefuse (AttachBlob blankBlob [] 0) [7, 8, 9] rfl rfl rfl rfl
    (fun _ => rfl)

/-- C6. `ReadBlob` on a memory-backed handle with position `p <= L`, the
length, whose block holds at least `L` bytes: a request of `n > 0` bytes
returns `c = min(n, L - p)`, which is not negative, delivers the `c` stored
bytes from index `p` on, advances the position by `c`, sets the end-of-stream
flag when `c < n` and leaves it as it was otherwise, and changes nothing else;
a request of 0 bytes returns 0 and changes nothing. -/
theorem C6_ReadBlob_memory (sys : System) (b : BlobInfo) (n : Nat)
    (htype : b.type = StreamType.BlobStream) (hp : b.offset ≤ b.length)
    (hwf : b.length ≤ Allocated b) (hn : 0 < n) :
    ReadBlob sys b n =
      ({ b with
          offset := b.offset + min n (b.length - b.offset)
          eof := if min n (b.length - b.offset) < n then true else b.eof },
        ((min n (b.length - b.offset) : Nat) : Int),
        StoredBytes b b.offset (b.offset + min n (b.length - b.offset))) ∧
    (StoredBytes b b.offset (b.offset + min n (b.length - b.offset))).length =
      min n (b.length - b.offset) ∧
    0 ≤ (ReadBlob sys b n).2.1 ∧
    ReadBlob sys b 0 = (b, 0, []) := by
  have hn0 : n ≠ 0 := by omega
  have hmin : WizardMin n (b.length - b.offset) = min n (b.length - b.offset) := by
    unfold WizardMin
    split <;> omega
  have hread : ReadBlob sys b n =
      ({ b with
          offset := b.offset + min n (b.length - b.offset)
          eof := if min n (b.length - b.offset) < n then true else b.eof },
        ((min n (b.length - b.offset) : Nat) : Int),
        StoredBytes b b.offset (b.offset + min n (b.length - b.offset))) := by
    unfold ReadBlob
    simp only [hn0, if_false, htype, hmin]
    by_cases hend : b.offset ≥ b.length
    · have e : min n (b.length - b.offset) = 0 := by omega
      simp [hend, e, hn, StoredBytes]
    · simp only [hend, if_false, StoredBytes, Nat.add_sub_cancel_left]
      by_cases hc : min n (b.length - b.offset) = n
      · have hlt : ¬ min n (b.length - b.offset) < n := by omega
        simp [hc]
      · have hlt : min n (b.length - b.offset) < n := by omega
        simp [hc, hlt]
  refine ⟨hread, ?_, ?_, by simp [ReadBlob]⟩
  · unfold StoredBytes
    unfold Allocated at hwf
    simp only [List.length_take, List.length_drop]
    omega
  · rw [hread]
    exact Int.natCast_nonneg _

/-- Witness for C6: four bytes asked of a five-byte blob at position 2, so that
three are delivered and the end of the stream is flagged. -/
theorem C6_ReadBlob_memory_witness :
    ReadBlob sysGrant { AttachBlob blankBlob [1, 2, 3, 4, 5] 5 with offset := 2 } 4 =
      ({ AttachBlob blankBlob [1, 2, 3, 4, 5] 5 with offset := 5, eof := true }, 3,
        [3, 4, 5]) ∧
    ([3, 4, 5] : List Nat).length = 3 ∧
    0 ≤ (ReadBlob sysGrant
      { AttachBlob blankBlob [1, 2, 3, 4, 5] 5 with offset := 2 } 4).2.1 ∧
    ReadBlob sysGrant { AttachBlob blankBlob [1, 2, 3, 4, 5] 5 with offset := 2 } 0 =
      ({ AttachBlob blankBlob [1, 2, 3, 4, 5] 5 with offset := 2 }, 0, []) :=
  C6_ReadBlob_memory sysGrant { AttachBlob blankBlob [1, 2, 3, 4, 5] 5 with offset := 2 } 4
    rfl (by decide) (by decide) (by decide)

/-- C8. On a memory-mapped memory-backed handle, `WriteBlob` of `n > 0` bytes
with `position + n` beyond the capacity returns 0 and leaves the handle (stored
bytes, position, length, capacity, quantum, kind and all the rest) as it
was. -/
theorem C8_mapped_write_beyond_extent (sys : System) (b : BlobInfo) (data : List Nat)
    (htype : b.type = StreamType.BlobStream) (hmapped : b.mapped = true)
    (hn : 0 < data.length) (hbeyond : b.offset + data.length > b.extent) :
    WriteBlob sys b data = (b, 0) := by
  have hn0 : data.length ≠ 0 := by omega
  have hge : b.offset + data.length ≥ b.extent := by omega
  simp [WriteBlob, hn0, htype, hmapped, hge]

/-- Witness for C8: two bytes written at the end of a mapped three-byte blob. -/
theorem C8_mapped_write_beyond_extent_witness :
    WriteBlob sysGrant
      { AttachBlob blankBlob [1, 2, 3] 3 with mapped := true, offset := 2 } [9, 9] =
      ({ AttachBlob blankBlob [1, 2, 3] 3 with mapped := true, offset := 2 }, 0) :=
  C8_mapped_write_beyond_extent sysGrant
    { AttachBlob blankBlob [1, 2, 3] 3 with mapped := true, offset := 2 } [9, 9] rfl rfl
    (by decide) (by decide)

/-- C10. On a memory-backed handle that is not mapped, when `WriteBlob` of
`n > 0` bytes has to grow the block (`position + n >= capacity`) and the
reallocation fails, it returns 0 and leaves the handle detached: data pointer
null, length 0, position 0, end-of-stream flag clear, kind undefined. -/
theorem C10_failed_growth_detaches (sys : System) (b : BlobInfo) (data : List Nat)
    (htype : b.type = StreamType.BlobStream) (hmapped : b.mapped = false)
    (hn : 0 < data.length) (hgrow : b.offset + data.length ≥ b.extent)
    (hfail : sys.grant = false) :
    (WriteBlob sys b data).2 = 0 ∧
    (WriteBlob sys b data).1.data = none ∧
    (WriteBlob sys b data).1.length = 0 ∧
    (WriteBlob sys b data).1.offset = 0 ∧
    (WriteBlob sys b data).1.eof = false ∧
    (WriteBlob sys b data).1.type = StreamType.UndefinedStream := by
  have hn0 : data.length ≠ 0 := by omega
  simp [WriteBlob, hn0, htype, hmapped, hgrow, ResizeQuantumMemory, hfail, DetachBlob]

/-- Witness for C10: one byte written to an empty blob when memory is refused. -/
theorem C10_failed_growth_detaches_witness :
    (WriteBlob sysRefuse (AttachBlob blankBlob [] 0) [5]).2 = 0 ∧
    (WriteBlob sysRefuse (AttachBlob blankBlob [] 0) [5]).1.data = none ∧
    (WriteBlob sysRefuse (AttachBlob blankBlob [] 0) [5]).1.length = 0 ∧
    (WriteBlob sysRefuse (AttachBlob blankBlob [] 0) [5]).1.offset = 0 ∧
    (WriteBlob sysRefuse (AttachBlob blankBlob [] 0) [5]).1.eof = false ∧
    (WriteBlob sysRefuse (AttachBlob blankBlob [] 0) [5]).1.type =
      StreamType.UndefinedStream :=
  C10_failed_growth_detaches sysRefuse (AttachBlob blankBlob [] 0) [5] rfl rfl (by decide)
    (by decide) rfl

/-! ## Properties of opening, closing and chunked reading -/

theorem ReadBlob_end_of_stream (sys : System) (b : BlobInfo) (request : Nat)
    (htype : b.type ≠ StreamType.BlobStream) :
    ReadBlob { sys with read := fun _ => ((([] : List Nat).length : Int), []) } b request =
      (b, 0, []) := by
  unfold ReadBlob
  split
  · rfl
  · split <;> first | rfl | exact absurd (by assumption) htype

theorem ReadBlobChunkLoop_stale_errno (sys : System) (b : BlobInfo) (n : Nat)
    (htype : b.type ≠ StreamType.BlobStream) (hn : 0 < n) (hmax : n ≤ SSIZE_MAX) :
    ∀ fuel : Nat, ReadBlobChunkLoop sys n fuel b [] EINTR 0 [] = none := by
  intro fuel
  induction fuel with
  | zero => rfl
  | succ fuel ih =>
    have hlt : (0 : Int) < SignedSize n := by
      unfold SignedSize
      rw [if_pos hmax]
      exact_mod_cast hn
    unfold ReadBlobChunkLoop
    simp only [hlt, if_true, StreamRead, ReadBlob_end_of_stream sys b _ htype,
      Option.getD_none, Int.le_refl, ne_eq, not_true_eq_false, if_false, Int.add_zero]
    exact ih

/-- C11, the code at the failing inputs. On a handle that is not memory-backed,
a `ReadBlobChunk` of `n > 0` bytes entered at the end of the stream with
`errno` still at `EINTR` from an earlier call never returns: every `ReadBlob`
delivers no byte, and the loop only ends on a zero-byte read when `errno` is
not `EINTR`. No number of passes is enough. -/
theorem C11_stale_errno_never_returns (sys : System) (b : BlobInfo) (n fuel : Nat)
    (htype : b.type ≠ StreamType.BlobStream) (hn : 0 < n) (hmax : n ≤ SSIZE_MAX) :
    ReadBlobChunk sys fuel b [] EINTR n = none := by
  unfold ReadBlobChunk
  rw [if_neg htype]
  exact ReadBlobChunkLoop_stale_errno sys b n htype hn hmax fuel

/-- Witness for C11: four bytes asked of a file handle at the end of its
stream, with a thousand passes. -/
theorem C11_stale_errno_never_returns_witness :
    ReadBlobChunk sysGrant 1000 fileBlob [] EINTR 4 = none :=
  C11_stale_errno_never_returns sysGrant fileBlob 4 1000 (by decide) (by decide) (by decide)

/-- C12 as stated fails: the handle `OpenBlob` returns for a command to pipe from
is a pipe stream, and `CloseBlob` returns true on it without calling `pclose`
or any other release primitive; the same holds for a file that `stat` reports
as a FIFO, which is never given to `fclose`. -/
theorem C12_counterexample :
    (OpenBlob hostPlain (cstr "|gzip -dc x.gz") BlobMode.ReadBinaryBlobMode true).map
      (fun h => (h.type, (CloseBlob hostPlain h).2)) =
      some (StreamType.PipeStream, true, []) ∧
    (OpenBlob { hostPlain with is_fifo := true } (cstr "queue") BlobMode.ReadBinaryBlobMode
      true).map (fun h => (h.type, (CloseBlob { hostPlain with is_fifo := true } h).2)) =
      some (StreamType.FileStream, true, []) := by
  decide

theorem OpenBlobFinish_some (host : Host) (mode : BlobMode) (b h : BlobInfo)
    (hb : b.exempt = false) (hm : b.mapped = false)
    (hopen : OpenBlobFinish host mode b = some h) :
    h.exempt = false ∧
    ((h.type = b.type ∧ h.mapped = false ∧ b.type ≠ StreamType.UndefinedStream) ∨
      (h.type = StreamType.BlobStream ∧ h.mapped = true ∧
        b.type = StreamType.FileStream)) := by
  unfold OpenBlobFinish at hopen
  by_cases hc : b.type = StreamType.FileStream ∧ ModeReads mode = true ∧
      host.st_size ≤ host.max_buffer_extent
  · cases hmap : host.map with
    | none =>
      simp only [hc, hmap, and_self, if_true] at hopen
      split at hopen
      · injection hopen with hopen
        subst hopen
        refine ⟨hb, Or.inl ⟨hc.1.symm, hm, ?_⟩⟩
        rw [hc.1]
        decide
      · cases hopen
    | some blob =>
      simp only [hc, hmap, and_self, if_true, AttachBlob] at hopen
      split at hopen
      · injection hopen with hopen
        subst hopen
        exact ⟨hb, Or.inr ⟨rfl, rfl, hc.1⟩⟩
      · cases hopen
  · simp only [hc, if_false] at hopen
    split at hopen
    · rename_i hne
      injection hopen with hopen
      subst hopen
      simp only [ne_eq] at hne
      exact ⟨hb, Or.inl ⟨rfl, hm, hne⟩⟩
    · cases hopen

theorem Exempted_eq_false (host : Host) (filename : List Nat)
    (h1 : ¬ LocaleCompare filename (cstr "-") = true)
    (h2 : ¬ LocaleNCompare filename (cstr "fd:") 3 = true)
    (h3 : ¬ (host.have_popen = true ∧ filename.head? = some 124))
    (h4 : ¬ (host.have_fifo = true ∧ host.stat_ok = true ∧ host.is_fifo = true)) :
    Exempted host filename = false := by
  have h3a : (host.have_popen && filename.head? == some 124) = false := by
    cases hp : host.have_popen
    · rfl
    · simp only [Bool.true_and, beq_eq_false_iff_ne, ne_eq]
      intro hh
      exact h3 ⟨hp, hh⟩
  have h4a : (host.have_fifo && host.stat_ok && host.is_fifo) = false := by
    cases hf : host.have_fifo <;> cases hs : host.stat_ok <;> cases hi : host.is_fifo <;>
      simp_all
  simp only [Bool.not_eq_true] at h1 h2
  simp [Exempted, h1, h2, h3a, h4a]

/-- The handles `OpenBlob` returns: exempt ones for the four kinds of file name
of `Exempted`, otherwise a file, gzip or bzip2 stream that is not mapped, or a
mapped blob. -/
theorem OpenBlob_cases (host : Host) (filename : List Nat) (mode : BlobMode)
    (compress : Bool) (h : BlobInfo) (hopen : OpenBlob host filename mode compress = some h) :
    (Exempted host filename = true ∧ h.exempt = true) ∨
    (Exempted host filename = false ∧ h.exempt = false ∧
      ((h.type = StreamType.FileStream ∧ h.mapped = false) ∨
        (h.type = StreamType.ZipStream ∧ h.mapped = false ∧ host.zlib_delegate = true) ∨
        (h.type = StreamType.BZipStream ∧ h.mapped = false ∧ host.bzlib_delegate = true) ∨
        (h.type = StreamType.BlobStream ∧ h.mapped = true))) := by
  unfold OpenBlob at hopen
  by_cases hacq : (!host.acquire) = true
  · rw [if_pos hacq] at hopen
    cases hopen
  rw [if_neg hacq] at hopen
  dsimp only at hopen
  by_cases h1 : LocaleCompare filename (cstr "-") = true
  · rw [if_pos h1] at hopen
    injection hopen with hopen
    subst hopen
    exact Or.inl ⟨by simp [Exempted, h1], rfl⟩
  rw [if_neg h1] at hopen
  by_cases h2 : LocaleNCompare filename (cstr "fd:") 3 = true
  · rw [if_pos h2] at hopen
    injection hopen with hopen
    subst hopen
    exact Or.inl ⟨by simp [Exempted, h2], rfl⟩
  rw [if_neg h2] at hopen
  by_cases h3 : host.have_popen = true ∧ filename.head? = some 124
  · rw [if_pos h3] at hopen
    split at hopen
    · cases hopen
    · injection hopen with hopen
      subst hopen
      exact Or.inl ⟨by simp [Exempted, h3.1, h3.2], rfl⟩
  rw [if_neg h3] at hopen
  by_cases h4 : host.have_fifo = true ∧ host.stat_ok = true ∧ host.is_fifo = true
  · rw [if_pos h4] at hopen
    split at hopen
    · cases hopen
    · injection hopen with hopen
      subst hopen
      exact Or.inl ⟨by simp [Exempted, h4.1, h4.2.1, h4.2.2], rfl⟩
  rw [if_neg h4] at hopen
  have hex : Exempted host filename = false := Exempted_eq_false host filename h1 h2 h3 h4
  refine Or.inr ⟨hex, ?_⟩
  have fin : ∀ b : BlobInfo, b.exempt = false → b.mapped = false →
      OpenBlobFinish host mode b = some h →
      (b.type = StreamType.ZipStream → host.zlib_delegate = true) →
      (b.type = StreamType.BZipStream → host.bzlib_delegate = true) →
      (b.type = StreamType.UndefinedStream ∨ b.type = StreamType.FileStream ∨
        b.type = StreamType.ZipStream ∨ b.type = StreamType.BZipStream) →
      h.exempt = false ∧
      ((h.type = StreamType.FileStream ∧ h.mapped = false) ∨
        (h.type = StreamType.ZipStream ∧ h.mapped = false ∧ host.zlib_delegate = true) ∨
        (h.type = StreamType.BZipStream ∧ h.mapped = false ∧ host.bzlib_delegate = true) ∨
        (h.type = StreamType.BlobStream ∧ h.mapped = true)) := by
    intro b hbe hbm hfin hz hbz hty
    obtain ⟨he, hcase⟩ := OpenBlobFinish_some host mode b h hbe hbm hfin
    refine ⟨he, ?_⟩
    rcases hcase with ⟨ht, hmp, hne⟩ | ⟨ht, hmp, _⟩
    · rcases hty with hty | hty | hty | hty
      · exact absurd hty hne
      · exact Or.inl ⟨ht.trans hty, hmp⟩
      · exact Or.inr (Or.inl ⟨ht.trans hty, hmp, hz hty⟩)
      · exact Or.inr (Or.inr (Or.inl ⟨ht.trans hty, hmp, hbz hty⟩))
    · exact Or.inr (Or.inr (Or.inr ⟨ht, hmp⟩))
  by_cases h5 : host.zlib_delegate = true ∧ compress = true ∧
      (HasSuffix filename (cstr ".Z") = true ∨ HasSuffix filename (cstr ".gz") = true ∨
        HasSuffix filename (cstr ".wmz") = true ∨ HasSuffix filename (cstr ".svgz") = true)
  · rw [if_pos h5] at hopen
    refine fin _ rfl rfl hopen (fun _ => h5.1) ?_ ?_
    · intro hh
      simp only [GetBlobInfo] at hh
      split at hh <;> cases hh
    · simp only [GetBlobInfo]
      split
      · exact Or.inr (Or.inr (Or.inl rfl))
      · exact Or.inl rfl
  rw [if_neg h5] at hopen
  by_cases h6 : host.bzlib_delegate = true ∧ compress = true ∧
      HasSuffix filename (cstr ".bz2") = true
  · rw [if_pos h6] at hopen
    refine fin _ rfl rfl hopen ?_ (fun _ => h6.1) ?_
    · intro hh
      simp only [GetBlobInfo] at hh
      split at hh <;> cases hh
    · simp only [GetBlobInfo]
      split
      · exact Or.inr (Or.inr (Or.inr rfl))
      · exact Or.inl rfl
  rw [if_neg h6] at hopen
  cases hf : host.fopen with
  | none =>
    rw [hf] at hopen
    exact fin _ rfl rfl hopen (fun hh => by cases hh) (fun hh => by cases hh) (Or.inl rfl)
  | some f =>
    rw [hf] at hopen
    dsimp only at hopen
    by_cases hr : ModeReads mode = true
    · rw [if_pos hr] at hopen
      refine fin _ ?_ ?_ hopen ?_ ?_ ?_ <;> clear hopen fin
      · split_ifs <;> rfl
      · split_ifs <;> rfl
      · intro hh
        split_ifs at hh <;> simp_all
      · intro hh
        split_ifs at hh <;> simp_all
      · split_ifs <;> simp
    · rw [if_neg hr] at hopen
      exact fin _ rfl rfl hopen (fun hh => by cases hh) (fun hh => by cases hh)
        (Or.inr (Or.inl rfl))

/-- C12, amended: for every handle `h` that `OpenBlob` returns, `CloseBlob`
makes no release call at all when the file name is one of the four exempted
kinds (the standard stream, an inherited descriptor, a command to pipe to or
from, a FIFO), and returns true; for every other file name it makes exactly the
release call of the kind of the handle: `fclose` for a file, `gzclose` for a
gzip stream, `BZ2_bzclose` for a bzip2 stream, and `munmap` for a file that was
mapped into memory (whose `FILE` was closed by `OpenBlob` already). -/
theorem C12_release_unless_exempted (host : Host) (filename : List Nat) (mode : BlobMode)
    (compress : Bool) (h : BlobInfo) (hopen : OpenBlob host filename mode compress = some h) :
    (Exempted host filename = true → h.exempt = true ∧ (CloseBlob host h).2 = (true, [])) ∧
    (Exempted host filename = false → h.exempt = false ∧
      ((h.type = StreamType.FileStream ∧ (CloseBlob host h).2.2 = [Primitive.fclose]) ∨
        (h.type = StreamType.ZipStream ∧ (CloseBlob host h).2.2 = [Primitive.gzclose]) ∨
        (h.type = StreamType.BZipStream ∧ (CloseBlob host h).2.2 = [Primitive.bzclose]) ∨
        (h.type = StreamType.BlobStream ∧ (CloseBlob host h).2.2 = [Primitive.munmap]))) := by
  rcases OpenBlob_cases host filename mode compress h hopen with ⟨hex, he⟩ | ⟨hex, he, hk⟩
  · refine ⟨fun _ => ⟨he, ?_⟩, fun hh => ?_⟩
    · unfold CloseBlob
      by_cases ht : h.type = StreamType.UndefinedStream
      · rw [if_pos ht]
      · rw [if_neg ht]
        simp only [he, if_true]
    · rw [hex] at hh
      cases hh
  · refine ⟨fun hh => ?_, fun _ => ⟨he, ?_⟩⟩
    · rw [hex] at hh
      cases hh
    · rcases hk with ⟨ht, hm⟩ | ⟨ht, hm, hz⟩ | ⟨ht, hm, hz⟩ | ⟨ht, hm⟩
      · refine Or.inl ⟨ht, ?_⟩
        simp [CloseBlob, ReleaseStream, ht, he, hm]
      · refine Or.inr (Or.inl ⟨ht, ?_⟩)
        simp [CloseBlob, ReleaseStream, ht, he, hm, hz]
      · refine Or.inr (Or.inr (Or.inl ⟨ht, ?_⟩))
        simp [CloseBlob, ReleaseStream, ht, he, hm, hz]
      · refine Or.inr (Or.inr (Or.inr ⟨ht, ?_⟩))
        simp [CloseBlob, ReleaseStream, ht, he, hm]

/-- Witness for C12 (amended): the regular file `data.bin` on a host where every
call succeeds. -/
theorem C12_release_unless_exempted_witness :
    OpenBlob hostPlain (cstr "data.bin") BlobMode.ReadBinaryBlobMode true = some plainHandle ∧
    (Exempted hostPlain (cstr "data.bin") = false → plainHandle.exempt = false ∧
      ((plainHandle.type = StreamType.FileStream ∧
          (CloseBlob hostPlain plainHandle).2.2 = [Primitive.fclose]) ∨
        (plainHandle.type = StreamType.ZipStream ∧
          (CloseBlob hostPlain plainHandle).2.2 = [Primitive.gzclose]) ∨
        (plainHandle.type = StreamType.BZipStream ∧
          (CloseBlob hostPlain plainHandle).2.2 = [Primitive.bzclose]) ∨
        (plainHandle.type = StreamType.BlobStream ∧
          (CloseBlob hostPlain plainHandle).2.2 = [Primitive.munmap]))) :=
  ⟨by decide, (C12_release_unless_exempted hostPlain (cstr "data.bin")
    BlobMode.ReadBinaryBlobMode true plainHandle (by decide)).2⟩

/-- C13: `DestroyBlob` on a handle whose reference count is greater than one
returns the same handle with the count one less, every other field unchanged,
and makes no release call; on a handle whose count is one it calls `CloseBlob`,
releases the structure and returns the null pointer. The structure is released
exactly when the decremented count is zero. -/
theorem C13_destroy_by_reference_count (host : Host) (b : BlobInfo) :
    (1 < b.reference_count →
      DestroyBlob host b = (some { b with reference_count := b.reference_count - 1 }, [])) ∧
    (b.reference_count = 1 →
      (DestroyBlob host b).1 = none ∧
      ∃ unmap, (DestroyBlob host b).2 =
        (CloseBlob host { b with reference_count := 0 }).2.2 ++ unmap ++
          [Primitive.relinquish]) ∧
    ((DestroyBlob host b).1 = none ↔ b.reference_count - 1 = 0) ∧
    (Primitive.relinquish ∈ (DestroyBlob host b).2 ↔ b.reference_count - 1 = 0) := by
  refine ⟨fun hc => ?_, fun hc => ?_, ?_, ?_⟩
  · have hne : b.reference_count - 1 ≠ 0 := by omega
    simp only [DestroyBlob, ne_eq, hne, not_false_eq_true, if_true]
  · have h0 : b.reference_count - 1 = 0 := by omega
    simp only [DestroyBlob, ne_eq, h0, not_true_eq_false, if_false]
    exact ⟨trivial, _, rfl⟩
  · by_cases h0 : b.reference_count - 1 = 0
    · simp [DestroyBlob, h0]
    · simp [DestroyBlob, h0]
  · by_cases h0 : b.reference_count - 1 = 0
    · simp [DestroyBlob, h0]
    · simp [DestroyBlob, h0]

/-- Witness for C13: the file handle `plainHandle` held twice is kept by the
first `DestroyBlob`; held once, it is closed with `fclose` and released. -/
theorem C13_destroy_by_reference_count_witness :
    DestroyBlob hostPlain { plainHandle with reference_count := 2 } =
      (some plainHandle, []) ∧
    DestroyBlob hostPlain plainHandle = (none, [Primitive.fclose, Primitive.relinquish]) :=
  ⟨(C13_destroy_by_reference_count hostPlain { plainHandle with reference_count := 2 }).1
    (by decide), by decide⟩

/-- On a memory-backed handle whose block holds the bytes it declares,
`ReadBlobByte` returns what `ReadByte` returns for the bytes from the position
to the length. -/
theorem ReadBlobByte_memory (sys : System) (b : BlobInfo)
    (hb : b.type = StreamType.BlobStream) (hlen : b.length ≤ (b.data.getD []).length) :
    (ReadBlobByte sys b).2 = (ReadByte (((b.data.getD []).take b.length).drop b.offset)).1 := by
  unfold ReadBlobByte ReadBlobStream
  have hnb : ¬ b.type ≠ StreamType.BlobStream := fun h => h hb
  rw [if_neg hnb]
  by_cases hge : b.offset ≥ b.length
  · rw [if_pos hge]
    have hnil : ((b.data.getD []).take b.length).drop b.offset = [] := by
      apply List.drop_eq_nil_of_le
      rw [List.length_take]
      omega
    rw [hnil]
    rfl
  · rw [if_neg hge]
    have hmin : WizardMin 1 (b.length - b.offset) = 1 := by
      unfold WizardMin
      split <;> omega
    obtain ⟨x, rest, hx⟩ : ∃ x rest, (b.data.getD []).drop b.offset = x :: rest := by
      cases hd : (b.data.getD []).drop b.offset with
      | nil =>
        have := congrArg List.length hd
        rw [List.length_drop] at this
        simp only [List.length_nil] at this
        omega
      | cons x rest => exact ⟨x, rest, rfl⟩
    have hx2 : ((b.data.getD []).take b.length).drop b.offset =
        x :: rest.take (b.length - b.offset - 1) := by
      rw [List.drop_take, hx]
      obtain ⟨m, hm⟩ : ∃ m, b.length - b.offset = m + 1 := ⟨b.length - b.offset - 1, by omega⟩
      rw [hm, List.take_succ_cons]
      simp
    simp only [hmin, hx, hx2, ReadByte, List.take_succ_cons, List.take_zero]
    split_ifs <;> simp_all

/-! ## The loops over the chunks of a content come to an end -/

/-- C14, the code at the failing input. `DigestCommand` run without
`-(de)compress` on the file `packed`, which starts with the gzip signature,
hashes the six bytes of the file; `AuthenticateDigest` run on the manifest this
has written, with the file unchanged, opens the content with detection on,
hashes the five inflated bytes `hello` instead, and writes a discrepancy entry
to the report. When the manifest is recorded with `-(de)compress`, both runs
hash the inflated bytes and the report stays empty. -/
theorem C14_round_trip_fails_on_gzip_signature :
    (DigestCommand sampleWorld 8 [cstr "digest", cstr "packed", cstr "out.rdf"]).map
      (fun v => v.session.hashed) = some [{ hash := 6, message := packedBytes }] ∧
    (DigestCommand
      (withFile sampleWorld (cstr "out.rdf")
        (Output (DigestCommand sampleWorld 8 [cstr "digest", cstr "packed", cstr "out.rdf"])))
      100 [cstr "digest", cstr "-authenticate", cstr "out.rdf", cstr "report.txt"]).map
      (fun v => (v.session.hashed, v.session.written)) =
      some ([{ hash := 6, message := cstr "hello" }],
        Discrepancy (cstr "packed") (cstr "T0") (cstr "T0") (cstr "T7")
          (sampleKit.HexDigest 6 packedBytes) (cstr "T7")
          (sampleKit.HexDigest 6 (cstr "hello"))) ∧
    (DigestCommand sampleWorld 8
      [cstr "digest", cstr "-(de)compress", cstr "packed", cstr "out.rdf"]).map
      (fun v => v.session.hashed) = some [{ hash := 6, message := cstr "hello" }] ∧
    (DigestCommand
      (withFile sampleWorld (cstr "out.rdf")
        (Output (DigestCommand sampleWorld 8
          [cstr "digest", cstr "-(de)compress", cstr "packed", cstr "out.rdf"])))
      100 [cstr "digest", cstr "-authenticate", cstr "out.rdf", cstr "report.txt"]).map
      (fun v => (v.session.hashed, v.session.written)) =
      some ([{ hash := 6, message := cstr "hello" }], []) := by
  refine ⟨by decide!, by decide!, by decide!, by decide!⟩

theorem VerifyContent_not_true (w : World) (fuel : Nat) (p : Parse) :
    ¬ ReturnsTrue (VerifyContent w fuel p) := by
  rintro ⟨s, h⟩
  unfold VerifyContent at h
  split at h
  · cases h
  · split at h
    · cases h
    · cases h

theorem InterpretKey_not_true (w : World) (fuel : Nat) (p : Parse) :
    ¬ ReturnsTrue (InterpretKey w fuel p) := by
  rintro ⟨s, h⟩
  unfold InterpretKey at h
  dsimp only at h
  split_ifs at h <;>
    first
    | cases h
    | exact VerifyContent_not_true w fuel p ⟨s, h⟩
    | (split at h <;> cases h)

theorem ReadField_not_true (w : World) (fuel : Nat) (p : Parse) :
    ¬ ReturnsTrue (ReadField w fuel p) := by
  rintro ⟨s, h⟩
  unfold ReadField at h
  dsimp only at h
  split_ifs at h <;>
    first
    | cases h
    | (split at h <;> first | cases h | exact InterpretKey_not_true w fuel _ ⟨s, h⟩)

theorem ParseFields_not_true (w : World) (fuel : Nat) :
    ∀ p : Parse, ¬ ReturnsTrue (ParseFields w fuel p) := by
  induction fuel with
  | zero =>
    rintro p ⟨s, h⟩
    cases h
  | succ fuel ih =>
    rintro p ⟨s, h⟩
    unfold ParseFields at h
    split_ifs at h
    · exact ih _ ⟨s, h⟩
    · split at h
      · cases h
      · rename_i result session heq
        injection h with h
        injection h with h1 h2
        subst h1
        subst h2
        exact ReadField_not_true w (fuel + 1) p ⟨_, heq⟩
      · exact ih _ ⟨s, h⟩
    · cases h

theorem ParseManifest_not_true (w : World) (host : Host) (fuel : Nat) :
    ∀ p : Parse, ¬ ReturnsTrue (ParseManifest w host fuel p) := by
  induction fuel with
  | zero =>
    rintro p ⟨s, h⟩
    cases h
  | succ fuel ih =>
    rintro p ⟨s, h⟩
    unfold ParseManifest at h
    split_ifs at h
    · split at h
      · cases h
      · rename_i result session heq
        injection h with h
        injection h with h1 h2
        subst h1
        subst h2
        exact ParseFields_not_true w (fuel + 1) _ ⟨_, heq⟩
      · split at h
        · cases h
        · exact ih _ ⟨s, h⟩
    · cases h

theorem AuthenticateManifest_not_true (w : World) (fuel : Nat) (a : Authentication)
    (filename : List Nat) : ¬ ReturnsTrue (AuthenticateManifest w fuel a filename) := by
  rintro ⟨s, h⟩
  unfold AuthenticateManifest at h
  split at h
  · cases h
  · dsimp only at h
    split at h
    · cases h
    · rename_i result session heq
      injection h with h
      injection h with h1 h2
      subst h1
      subst h2
      exact ParseManifest_not_true w _ fuel _ ⟨_, heq⟩
    · cases h

theorem ThrowDigestException_not_true {σ : Type} (session : Session) :
    ¬ ReturnsTrue (some (ThrowDigestException session : Flow σ)) := by
  rintro ⟨s, h⟩
  cases h

theorem AuthenticateArguments_not_true (w : World) (fuel : Nat) :
    ∀ (n : Nat) (args : List (List Nat)), args.length ≤ n →
      ∀ a : Authentication, ¬ ReturnsTrue (AuthenticateArguments w fuel args a) := by
  intro n
  induction n with
  | zero =>
    rintro args hlen a ⟨s, h⟩
    cases args with
    | nil =>
      unfold AuthenticateArguments at h
      cases h
    | cons x xs => simp at hlen
  | succ n ih =>
    intro args hlen a
    match args, hlen with
    | [], _ =>
      rintro ⟨s, h⟩
      unfold AuthenticateArguments at h
      cases h
    | [_], _ =>
      rintro ⟨s, h⟩
      unfold AuthenticateArguments at h
      cases h
    | option :: next :: rest, hlen =>
      have h1 : (next :: rest).length ≤ n := by
        simp only [List.length_cons] at hlen ⊢
        omega
      have h2 : rest.length ≤ n := by
        simp only [List.length_cons] at hlen
        omega
      rintro ⟨s, h⟩
      unfold AuthenticateArguments at h
      split at h
      · repeat' first
          | exact ih _ h1 _ ⟨s, h⟩
          | exact ih _ h2 _ ⟨s, h⟩
          | exact ThrowDigestException_not_true _ ⟨s, h⟩
          | cases h
          | split at h
      · split at h
        · cases h
        · rename_i result session heq
          injection h with h
          injection h with h3 h4
          subst h3
          subst h4
          exact AuthenticateManifest_not_true w fuel a option ⟨_, heq⟩
        · exact ih _ h1 _ ⟨s, h⟩

/-- C20, the code on every input and at the failing input. No run of
`AuthenticateDigest` returns `WizardTrue`: `status` is set to `WizardFalse` at
the start and never assigned again, and every other `return` gives
`WizardFalse`. In particular the run on the manifest just recorded for
`hello.txt`, in which the report and the manifest open, the digest matches,
nothing is reported and no exception is thrown, returns `WizardFalse`. -/
theorem C20_authenticate_never_returns_true :
    (∀ (w : World) (fuel : Nat) (argv : List (List Nat)) (v : Verdict),
      AuthenticateDigest w fuel argv = some v → v.result ≠ Outcome.returned true) ∧
    AuthenticateDigest
      (withFile sampleWorld (cstr "out.rdf")
        (Output (DigestCommand sampleWorld 8 [cstr "digest", cstr "hello.txt", cstr "out.rdf"])))
      100 [cstr "digest", cstr "-authenticate", cstr "out.rdf", cstr "report.txt"] =
      some { result := Outcome.returned false
             session :=
              { written := []
                hashed := [{ hash := 6, message := cstr "hello" }]
                exceptions := 0
                errno := 0 } } := by
  constructor
  · intro w fuel argv v h hv
    unfold AuthenticateDigest at h
    dsimp only at h
    split at h
    · injection h with h
      subst h
      cases hv
    · split at h
      · cases h
      · rename_i result session heq
        injection h with h
        subst h
        dsimp only at hv
        subst hv
        exact AuthenticateArguments_not_true w fuel _ _ (Nat.le_refl _) _ ⟨_, heq⟩
      · split at h
        · injection h with h
          subst h
          cases hv
        · injection h with h
          subst h
          cases hv
  · decide!

theorem HashContent_hash (sys : System) (length : Nat) :
    ∀ (fuel : Nat) (blob_info : BlobInfo) (stream : List ReadAnswer) (errno : Int)
      (hash_info : HashInfo) (extent : Nat) (r : Hashed),
      HashContent sys length fuel blob_info stream errno hash_info extent = some r →
        r.hash_info.hash = hash_info.hash := by
  intro fuel
  induction fuel with
  | zero =>
    intro b st e hi x r h
    cases h
  | succ fuel ih =>
    intro b st e hi x r h
    unfold HashContent at h
    split at h
    · cases h
    · split at h
      · injection h with h
        subst h
        rfl
      · exact (ih _ _ _ _ _ _ h).trans rfl

/-- C17, the code on every input and at the failing input. The record-close
block of `AuthenticateDigest` does not look at the hash parsed from the
`digest:` tag of the record: whatever that hash is, the session it leaves is
the same, the content being hashed with `SHA256Hash`. In the sample world,
where `sha224` is a recognized hash other than `SHA256Hash`, the manifest that
records for `hello.txt` the right `sha224` digest is authenticated with hash 6
and reported as a discrepancy. -/
theorem C17_recorded_hash_is_ignored :
    (∀ (w : World) (fuel : Nat) (p : Parse) (hash : Int),
      (VerifyContent w fuel { p with hash := hash }).map FlowSession =
        (VerifyContent w fuel p).map FlowSession) ∧
    sampleKit.ParseHashOption (cstr "sha224") = 5 ∧ sampleKit.SHA256Hash = 6 ∧
    (AuthenticateDigest (withFile sampleWorld (cstr "out.rdf") sha224Manifest) 100
      [cstr "digest", cstr "-authenticate", cstr "out.rdf", cstr "report.txt"]).map
      (fun v => (v.session.hashed, v.session.written)) =
      some ([{ hash := 6, message := cstr "hello" }],
        Discrepancy (cstr "hello.txt") (cstr "T0") (cstr "T0") (cstr "T7")
          (sampleKit.HexDigest 5 (cstr "hello")) (cstr "T7")
          (sampleKit.HexDigest 6 (cstr "hello"))) := by
  refine ⟨?_, by decide!, by decide!, by decide!⟩
  intro w fuel p hash
  unfold VerifyContent
  dsimp only
  split
  · rfl
  · split
    · rfl
    · rfl

/-- C18, the code on every input and at the failing input. The record that
`DigestCommand` writes for a content carries the tag of the selected hash
`d.hash` around a digest computed with `SHA256Hash`. In the sample world the
run with `-hash sha224` writes for `hello.txt` a `digest:sha224` element that
holds the digest of hash 6, which is not the `sha224` digest of the content. -/
theorem C18_tag_is_not_the_hash_used :
    (∀ (w : World) (fuel : Nat) (d d1 : Digest) (filename : List Nat),
      DigestContent w fuel d filename = some d1 →
        d1.session.written = d.session.written ∨
        ∃ message extent,
          d1.session.hashed = d.session.hashed ++
            [{ hash := w.kit.SHA256Hash, message := message }] ∧
          d1.session.written = d.session.written ++
            DigestRecord w.kit w.time (ModifyTime (w.host filename) filename) filename d.hash extent
              (w.kit.HexDigest w.kit.SHA256Hash message)) ∧
    sampleKit.ParseHashOption (cstr "sha224") = 5 ∧ sampleKit.SHA256Hash = 6 ∧
    LocaleLower (sampleKit.HashMnemonic 5) = cstr "sha224" ∧
    sampleKit.HexDigest 5 (cstr "hello") ≠ sampleKit.HexDigest 6 (cstr "hello") ∧
    DigestCommand sampleWorld 8
      [cstr "digest", cstr "-hash", cstr "sha224", cstr "hello.txt", cstr "out.rdf"] =
      some { result := Outcome.returned false
             session :=
              { written := ManifestHeader ++
                  DigestRecord sampleKit 7 0 (cstr "hello.txt") 5 5
                    (sampleKit.HexDigest 6 (cstr "hello")) ++ ManifestTrailer
                hashed := [{ hash := 6, message := cstr "hello" }]
                exceptions := 0
                errno := 0 } } := by
  refine ⟨?_, by decide!, by decide!, by decide!, by decide!, by decide!⟩
  intro w fuel d d1 filename h
  unfold DigestContent at h
  split at h
  · injection h with h
    subst h
    exact Or.inl rfl
  · split at h
    · cases h
    · rename_i r heq
      injection h with h
      subst h
      have hh : r.hash_info.hash = w.kit.SHA256Hash :=
        HashContent_hash _ _ _ _ _ _ _ _ _ heq
      have hr : r.hash_info =
          { hash := w.kit.SHA256Hash, message := r.hash_info.message } := by
        rw [← hh]
      refine Or.inr ⟨r.hash_info.message, r.extent, ?_, ?_⟩
      · exact congrArg (fun x => d.session.hashed ++ [x]) hr
      · show d.session.written ++ DigestRecord w.kit w.time (ModifyTime (w.host filename) filename) filename
            d.hash r.extent (w.kit.HexDigest r.hash_info.hash r.hash_info.message) = _
        rw [hh]

/-- C19, the code at the failing inputs. `DigestCommand` returns what
`CloseBlob` returns for the manifest, and `CloseBlob` returns true exactly when
the release call reports an error. In the sample world the run in which the
manifest opens, the record is written and the stream is closed without error
returns `WizardFalse`; the same run when `fclose` fails on the manifest returns
`WizardTrue`. -/
theorem C19_status_is_inverted :
    (∀ (host : Host) (h : BlobInfo), h.type = StreamType.FileStream → h.exempt = false →
      (CloseBlob host h).2.1 = decide (host.fclose < 0)) ∧
    DigestCommand sampleWorld 8 [cstr "digest", cstr "hello.txt", cstr "out.rdf"] =
      some { result := Outcome.returned false
             session :=
              { written := ManifestHeader ++
                  DigestRecord sampleKit 7 0 (cstr "hello.txt") 6 5
                    (sampleKit.HexDigest 6 (cstr "hello")) ++ ManifestTrailer
                hashed := [{ hash := 6, message := cstr "hello" }]
                exceptions := 0
                errno := 0 } } ∧
    (DigestCommand closeFails 8 [cstr "digest", cstr "hello.txt", cstr "out.rdf"]).map
      (fun v => v.result) = some (Outcome.returned true) := by
  refine ⟨?_, by decide!, by decide!⟩
  intro host h ht he
  simp [CloseBlob, ReleaseStream, ht, he]

/-! ## Initialization and determinism of the hash engine -/

theorem Tracks_Initialize (s : SHA224Info) (hmsg : s.message.length = 64) :
    Tracks (InitializeSHA224 s) (InitializeSHA224 s) [] := by
  refine ⟨hmsg, by simp, ?_⟩
  simp [InitializeSHA224, AbsorbBlocks]

/-- The digest of a context that was initialized, whatever it held before. -/
theorem Initialize_digest (s : SHA224Info) (cs : List (List Nat))
    (hacc : 8 ≤ s.accumulator.length) (hmsg : s.message.length = 64)
    (hdig : s.digest.length = 28) (hcs : ∀ c ∈ cs, c.length < 2 ^ 32) :
    (FinalizeSHA224 (cs.foldl UpdateSHA224 (InitializeSHA224 s))).digest =
      DigestOf s.lsb_first cs.flatten := by
  have h := Tracks_foldl cs (Tracks_Initialize s hmsg) hcs
  rw [List.nil_append] at h
  rw [Finalize_eq h]
  have hwords : (InitializeSHA224 s).accumulator.take 8 = InitialWords := by
    simp only [InitializeSHA224]
    exact initial_words_of_length _ hacc
  have hlsb : (InitializeSHA224 s).lsb_first = s.lsb_first := rfl
  have hd : (InitializeSHA224 s).digest.length = 28 := hdig
  simp only [FinalState, DigestOf]
  rw [CopyWizardMemory_full _ _ (by rw [PackDigest_length, hd]),
    ← PackDigest_take_words, FinalAccumulator_take_words, hwords, hlsb,
    ← PackDigest_take_words (FinalAccumulator s.lsb_first InitialWords cs.flatten),
    FinalAccumulator_take_words]

theorem usedContext_lengths :
    8 ≤ usedContext.accumulator.length ∧ usedContext.message.length = 64 ∧
      usedContext.digest.length = 28 := by
  have h := Finalize_foldl (fun _ => 0) (fun _ => 0) (fun _ => 0) true 0 [[97, 98, 99]]
    (by decide)
  have hu : usedContext = FinalState
      (AcquireSHA224Info (fun _ => 0) (fun _ => 0) (fun _ => 0) true 0) [[97, 98, 99]].flatten := h
  rw [hu]
  refine ⟨?_, by decide, ?_⟩
  · have h8 : ((FinalState (AcquireSHA224Info (fun _ => 0) (fun _ => 0) (fun _ => 0) true 0)
        [[97, 98, 99]].flatten).accumulator.take 8).length = 8 := by
      simp only [FinalState]
      rw [FinalAccumulator_take_words, Acquire_accumulator_take]
      decide!
    rw [List.length_take] at h8
    omega
  · simp only [FinalState]
    rw [CopyWizardMemory_full _ _ (by rw [PackDigest_length, Acquire_digest_length])]
    exact PackDigest_length _

/-- C21: for every context whose buffers have the sizes `AcquireSHA224Info`
gives them, `InitializeSHA224` stores the eight initial words of SHA-224 in the
accumulator and zero in `low_order`, `high_order` and `offset`; and whatever
the context held before, the digest of any input supplied afterwards is the
one a freshly acquired context gives. -/
theorem C21_initialize_resets (s : SHA224Info) (cs : List (List Nat))
    (d m a : Nat → Nat) (ts : Nat)
    (hacc : 8 ≤ s.accumulator.length) (hmsg : s.message.length = 64)
    (hdig : s.digest.length = 28) (hcs : ∀ c ∈ cs, c.length < 2 ^ 32) :
    (InitializeSHA224 s).accumulator.take 8 =
      [0xc1059ed8, 0x367cd507, 0x3070dd17, 0xf70e5939, 0xffc00b31, 0x68581511, 0x64f98fa7,
        0xbefa4fa4] ∧
    (InitializeSHA224 s).low_order = 0 ∧ (InitializeSHA224 s).high_order = 0 ∧
    (InitializeSHA224 s).offset = 0 ∧
    (FinalizeSHA224 (cs.foldl UpdateSHA224 (InitializeSHA224 s))).digest =
      (FinalizeSHA224 (cs.foldl UpdateSHA224 (AcquireSHA224Info d m a s.lsb_first ts))).digest := by
  refine ⟨?_, rfl, rfl, rfl, ?_⟩
  · simp only [InitializeSHA224]
    exact initial_words_of_length _ hacc
  · rw [Initialize_digest s cs hacc hmsg hdig hcs, digest_eq d m a s.lsb_first ts cs hcs]

/-- Witness for C21: the context that has hashed `abc`, initialized again and
given the two chunks `ab` and `c`. -/
theorem C21_initialize_resets_witness :
    (InitializeSHA224 usedContext).accumulator.take 8 =
      [0xc1059ed8, 0x367cd507, 0x3070dd17, 0xf70e5939, 0xffc00b31, 0x68581511, 0x64f98fa7,
        0xbefa4fa4] ∧
    (InitializeSHA224 usedContext).low_order = 0 ∧
    (InitializeSHA224 usedContext).high_order = 0 ∧
    (InitializeSHA224 usedContext).offset = 0 ∧
    (FinalizeSHA224 ([[97, 98], [99]].foldl UpdateSHA224 (InitializeSHA224 usedContext))).digest =
      (FinalizeSHA224 ([[97, 98], [99]].foldl UpdateSHA224
        (AcquireSHA224Info (fun _ => 1) (fun _ => 2) (fun _ => 3) usedContext.lsb_first 5))).digest :=
  C21_initialize_resets usedContext [[97, 98], [99]] (fun _ => 1) (fun _ => 2) (fun _ => 3) 5
    usedContext_lengths.1 usedContext_lengths.2.1 usedContext_lengths.2.2 (by decide)

/-! ## The transform, the padding and the digest bytes -/

theorem TransformAccumulator_words (lsb_first : Bool) (acc p : List Nat)
    (hacc : acc.length = 8) :
    TransformAccumulator lsb_first acc p =
      [Trunc32 (acc.getD 0 0 + (FinalRegisters lsb_first acc p).A),
       Trunc32 (acc.getD 1 0 + (FinalRegisters lsb_first acc p).B),
       Trunc32 (acc.getD 2 0 + (FinalRegisters lsb_first acc p).C),
       Trunc32 (acc.getD 3 0 + (FinalRegisters lsb_first acc p).D),
       Trunc32 (acc.getD 4 0 + (FinalRegisters lsb_first acc p).E),
       Trunc32 (acc.getD 5 0 + (FinalRegisters lsb_first acc p).F),
       Trunc32 (acc.getD 6 0 + (FinalRegisters lsb_first acc p).G),
       acc.getD 7 0] := by
  rcases acc with _ | ⟨x0, _ | ⟨x1, _ | ⟨x2, _ | ⟨x3, _ | ⟨x4, _ | ⟨x5, _ | ⟨x6, _ | ⟨x7, r⟩⟩⟩⟩⟩⟩⟩⟩ <;>
    simp at hacc
  subst hacc
  rfl

/-- C28, the code on every input and at the failing input. For every
accumulator of eight words and every block, `TransformSHA224` adds the
registers `A` .. `G` into the words 0 .. 6 and leaves word 7 as it was: the
register `H` is not added. For the initial words of SHA-224 and the padded
block of `abc`, on either kind of host, the word 7 the source leaves differs
from the sum the claim states. -/
theorem C28_eighth_register_not_added :
    (∀ (lsb_first : Bool) (acc p : List Nat), acc.length = 8 →
      (∀ i, i < 7 → (TransformAccumulator lsb_first acc p).getD i 0 =
        (acc.getD i 0 + RegisterWord (FinalRegisters lsb_first acc p) i) % 2 ^ 32) ∧
      (TransformAccumulator lsb_first acc p).getD 7 0 = acc.getD 7 0) ∧
    (∀ lsb_first : Bool,
      (TransformSHA224
        { usedContext with
          accumulator := InitialWords, message := abcBlock, lsb_first := lsb_first }).accumulator.getD
        7 0 = 0xbefa4fa4 ∧
      (InitialWords.getD 7 0 +
        RegisterWord (FinalRegisters lsb_first InitialWords abcBlock) 7) % 2 ^ 32 =
        0xd2da082d) := by
  refine ⟨?_, ?_⟩
  · intro lsb_first acc p hacc
    rw [TransformAccumulator_words lsb_first acc p hacc]
    refine ⟨?_, rfl⟩
    intro i hi
    interval_cases i <;> simp [RegisterWord, Trunc32_eq_mod]
  · intro lsb_first
    cases lsb_first
    · exact ⟨by decide!, by decide!⟩
    · exact ⟨by decide!, by decide!⟩

theorem shift_byte (w n : Nat) : (w >>> n) &&& 0xff = w / 2 ^ n % 256 := by
  rw [Nat.shiftRight_eq_div_pow]
  exact Nat.and_pow_two_sub_one_eq_mod _ 8

theorem and_byte (w : Nat) : w &&& 0xff = w % 256 :=
  Nat.and_pow_two_sub_one_eq_mod w 8

theorem Finalize_sizes (s : SHA224Info) :
    (FinalizeSHA224 s).digestsize = s.digestsize ∧ (FinalizeSHA224 s).blocksize = s.blocksize ∧
      (FinalizeSHA224 s).digest =
        CopyWizardMemory s.digest 0 (PackDigest (FinalizeSHA224 s).accumulator) := by
  unfold FinalizeSHA224
  dsimp only
  split <;> exact ⟨rfl, rfl, rfl⟩

/-- C30: for every context whose digest buffer and size fields are as
`AcquireSHA224Info` sets them, after `FinalizeSHA224` the digest buffer holds 28
bytes, `GetSHA224Digestsize` returns 28 and `GetSHA224Blocksize` 64, and for
every `i` in 0 .. 6 the four bytes from `4 i` on are bytes and spell the
accumulator word `i` left by the last transform, most significant byte
first. -/
theorem C30_digest_bytes (s : SHA224Info) (hdig : s.digest.length = 28)
    (hsize : s.digestsize = SHA224Digestsize) (hblock : s.blocksize = SHA224Blocksize) :
    (FinalizeSHA224 s).digest.length = 28 ∧
    GetSHA224Digestsize (FinalizeSHA224 s) = 28 ∧ GetSHA224Blocksize (FinalizeSHA224 s) = 64 ∧
    ∀ i, i < 7 →
      (FinalizeSHA224 s).digest.getD (4 * i) 0 < 256 ∧
      (FinalizeSHA224 s).digest.getD (4 * i + 1) 0 < 256 ∧
      (FinalizeSHA224 s).digest.getD (4 * i + 2) 0 < 256 ∧
      (FinalizeSHA224 s).digest.getD (4 * i + 3) 0 < 256 ∧
      (FinalizeSHA224 s).digest.getD (4 * i) 0 * 2 ^ 24 +
        (FinalizeSHA224 s).digest.getD (4 * i + 1) 0 * 2 ^ 16 +
        (FinalizeSHA224 s).digest.getD (4 * i + 2) 0 * 2 ^ 8 +
        (FinalizeSHA224 s).digest.getD (4 * i + 3) 0 =
        (FinalizeSHA224 s).accumulator.getD i 0 % 2 ^ 32 := by
  obtain ⟨h1, h2, h3⟩ := Finalize_sizes s
  have hd : (FinalizeSHA224 s).digest = PackDigest (FinalizeSHA224 s).accumulator := by
    rw [h3]
    exact CopyWizardMemory_full _ _ (by rw [PackDigest_length, hdig])
  refine ⟨by rw [hd]; exact PackDigest_length _, by simp [GetSHA224Digestsize, h1, hsize,
    SHA224Digestsize], by simp [GetSHA224Blocksize, h2, hblock, SHA224Blocksize], ?_⟩
  intro i hi
  rw [hd]
  have hr : List.range (SHA224Digestsize / 4) = [0, 1, 2, 3, 4, 5, 6] := by decide
  simp only [PackDigest, hr, List.flatMap_cons, List.flatMap_nil, shift_byte, and_byte]
  generalize (FinalizeSHA224 s).accumulator = acc
  interval_cases i <;>
    simp only [List.getD_eq_getElem?_getD, List.cons_append, List.nil_append, Nat.mul_zero,
      Nat.mul_one, Nat.zero_add, List.getElem?_cons_zero, List.getElem?_cons_succ,
      Option.getD_some, Nat.reduceMul, Nat.reduceAdd] <;>
    omega

/-- Witness for C30: a freshly acquired context, finalized. -/
theorem C30_digest_bytes_witness :
    (FinalizeSHA224
      (AcquireSHA224Info (fun _ => 0) (fun _ => 0) (fun _ => 0) true 0)).digest.length = 28 ∧
    GetSHA224Digestsize (FinalizeSHA224
      (AcquireSHA224Info (fun _ => 0) (fun _ => 0) (fun _ => 0) true 0)) = 28 :=
  ⟨(C30_digest_bytes (AcquireSHA224Info (fun _ => 0) (fun _ => 0) (fun _ => 0) true 0)
      (Acquire_digest_length _ _ _ _ _) rfl rfl).1,
    (C30_digest_bytes (AcquireSHA224Info (fun _ => 0) (fun _ => 0) (fun _ => 0) true 0)
      (Acquire_digest_length _ _ _ _ _) rfl rfl).2.1⟩


/-! ## The blocks handed to the transform -/

theorem UpdateBlocksLog_eq (fuel : Nat) :
    ∀ (s : SHA224Info) (p : List Nat), s.message.length = 64 → p.length / 64 ≤ fuel →
      (UpdateBlocksLog fuel s p).flatten = p.take (p.length / 64 * 64) ∧
        ∀ b ∈ UpdateBlocksLog fuel s p, b.length = 64 := by
  induction fuel with
  | zero =>
    intro s p hs hp
    have h0 : p.length / 64 = 0 := by omega
    simp [UpdateBlocksLog, h0]
  | succ fuel ih =>
    intro s p hs hp
    by_cases hlen : p.length ≥ s.message.length
    · have h64 : 64 ≤ p.length := by omega
      have hset : SetStringInfoDatum s.message p = p.take 64 := by
        unfold SetStringInfoDatum
        rw [hs]
        exact CopyWizardMemory_full _ _ (by simp; omega)
      obtain ⟨hflat, hall⟩ := ih
        (TransformSHA224 { s with message := SetStringInfoDatum s.message p })
        (p.drop s.message.length)
        (by simp [TransformSHA224, hset]; omega)
        (by simp [hs]; omega)
      rw [UpdateBlocksLog, if_pos hlen]
      constructor
      · rw [List.flatten_cons, hflat, hset, hs]
        have hk : p.length / 64 * 64 = 64 + (p.length - 64) / 64 * 64 := by omega
        rw [hk, List.take_add]
        simp only [List.length_drop]
      · intro b hb
        rcases List.mem_cons.1 hb with h | h
        · rw [h, hset]; simp; omega
        · exact hall b h
    · have h0 : p.length / 64 = 0 := by omega
      simp [UpdateBlocksLog, hlen, h0]

/-- The accumulator after the loop of `UpdateSHA224` is `TransformAccumulator`
carried over the buffers handed to `TransformSHA224`. -/
theorem UpdateBlocksLog_fold (fuel : Nat) :
    ∀ (s : SHA224Info) (p : List Nat), s.message.length = 64 → p.length / 64 ≤ fuel →
      (UpdateBlocksLog fuel s p).foldl (TransformAccumulator s.lsb_first) s.accumulator =
        AbsorbBlocks s.lsb_first (p.length / 64) s.accumulator p := by
  induction fuel with
  | zero =>
    intro s p hs hp
    have h0 : p.length / 64 = 0 := by omega
    simp [UpdateBlocksLog, h0, AbsorbBlocks]
  | succ fuel ih =>
    intro s p hs hp
    by_cases hlen : p.length ≥ s.message.length
    · have h64 : 64 ≤ p.length := by omega
      have hset : SetStringInfoDatum s.message p = p.take 64 := by
        unfold SetStringInfoDatum
        rw [hs]
        exact CopyWizardMemory_full _ _ (by simp; omega)
      have hrec := ih
        (TransformSHA224 { s with message := SetStringInfoDatum s.message p })
        (p.drop s.message.length)
        (by simp [TransformSHA224, hset]; omega)
        (by simp [hs]; omega)
      rw [UpdateBlocksLog, if_pos hlen, List.foldl_cons]
      have hk : p.length / 64 = (p.length - 64) / 64 + 1 := by omega
      simp only [TransformSHA224, hset, hs, List.length_drop] at hrec ⊢
      rw [hrec, hk]
      simp only [AbsorbBlocks]
    · have h0 : p.length / 64 = 0 := by omega
      simp [UpdateBlocksLog, hlen, h0, AbsorbBlocks]

theorem UpdateBlocksLog_fold_of (fuel : Nat) (s : SHA224Info) (p : List Nat) (lsb : Bool)
    (acc : List Nat) (hs : s.message.length = 64) (hp : p.length / 64 ≤ fuel)
    (hl : s.lsb_first = lsb) (ha : s.accumulator = acc) :
    (UpdateBlocksLog fuel s p).foldl (TransformAccumulator lsb) acc =
      AbsorbBlocks lsb (p.length / 64) acc p := by
  subst hl
  subst ha
  exact UpdateBlocksLog_fold fuel s p hs hp

theorem LengthBytes_eq_bigEndian (x : Nat) :
    LengthBytes (x / 2 ^ 32 % 2 ^ 32) (x % 2 ^ 32) = FIPS180.bigEndian 8 (x % 2 ^ 64) := by
  simp only [LengthBytes, FIPS180.bigEndian, Nat.shiftRight_eq_div_pow]
  norm_num
  omega

/-- The blocks of `FinalizeSHA224` as functions of the bytes supplied. -/
theorem FinalizeSHA224Log_eq {s0 s : SHA224Info} {B : List Nat} (ht : Tracks s0 s B) :
    FinalizeSHA224Log s =
      (if B.length % 64 + 1 ≤ 56 then []
        else [B.drop (B.length / 64 * 64) ++ 0x80 :: List.replicate (63 - B.length % 64) 0]) ++
        [LastBlock B] := by
  obtain ⟨hlen, hpend, hs⟩ := ht
  have hlow : s.low_order = 8 * B.length % 2 ^ 32 := by
    have := congrArg SHA224Info.low_order hs; simpa using this
  have hhigh : s.high_order = 8 * B.length / 2 ^ 32 % 2 ^ 32 := by
    have := congrArg SHA224Info.high_order hs; simpa using this
  have hcount := count_eq B.length
  have hc64 : B.length % 64 < 64 := Nat.mod_lt _ (by omega)
  have hmark := set_extends_known 0x80 hpend (by omega)
  unfold FinalizeSHA224Log LastBlock
  simp only [hlow, hhigh, hcount, hlen, Nat.reduceSub]
  generalize 8 * B.length % 2 ^ 32 = low
  generalize 8 * B.length / 2 ^ 32 % 2 ^ 32 = high
  by_cases hc : B.length % 64 + 1 ≤ 56
  · simp only [if_pos hc]
    have hpad : (ResetWizardMemory (s.message.set (B.length % 64) 0x80) (B.length % 64 + 1) 0
        (56 - (B.length % 64 + 1))).take 56 =
        B.drop (B.length / 64 * 64) ++ [0x80] ++ List.replicate (55 - B.length % 64) 0 := by
      rw [ResetWizardMemory_eq_copy]
      have := copy_extends_known (List.replicate (56 - (B.length % 64 + 1)) 0) hmark
        (by simp; omega)
      rw [List.length_replicate] at this
      have e : B.length % 64 + 1 + (56 - (B.length % 64 + 1)) = 56 := by omega
      have e2 : 56 - (B.length % 64 + 1) = 55 - B.length % 64 := by omega
      rw [e, e2] at this
      rw [e2]
      exact this
    have hfull := length_stores ((high >>> 24) % 256) ((high >>> 16) % 256)
      ((high >>> 8) % 256) (high % 256) ((low >>> 24) % 256) ((low >>> 16) % 256)
      ((low >>> 8) % 256) (low % 256)
      (by rw [ResetWizardMemory_eq_copy, CopyWizardMemory_length _ _ _ (by simp; omega)]
          simp [hlen]) hpad
    rw [hfull]
    simp only [LengthBytes, List.append_assoc, List.singleton_append, List.nil_append]
  · simp only [if_neg hc]
    have hblk1 : ResetWizardMemory (s.message.set (B.length % 64) 0x80) (B.length % 64 + 1) 0
        (64 - (B.length % 64 + 1)) =
        B.drop (B.length / 64 * 64) ++ 0x80 :: List.replicate (63 - B.length % 64) 0 := by
      rw [ResetWizardMemory_eq_copy]
      have := copy_extends_known (List.replicate (64 - (B.length % 64 + 1)) 0) hmark
        (by simp; omega)
      rw [List.length_replicate] at this
      have e : B.length % 64 + 1 + (64 - (B.length % 64 + 1)) = 64 := by omega
      have e2 : 64 - (B.length % 64 + 1) = 63 - B.length % 64 := by omega
      rw [e, e2] at this
      rw [e2]
      have h64 := eq_of_take_length
        (by rw [CopyWizardMemory_length _ _ _ (by simp; omega)]; simp [hlen]) this
      rw [h64]
      simp
    have hblk1len : (B.drop (B.length / 64 * 64) ++
        0x80 :: List.replicate (63 - B.length % 64) 0).length = 64 := by
      simp only [List.length_append, List.length_cons, List.length_replicate, pending_length]
      omega
    rw [hblk1]
    simp only [TransformSHA224, hblk1len, Nat.reduceSub]
    have hpad : (ResetWizardMemory (B.drop (B.length / 64 * 64) ++
        0x80 :: List.replicate (63 - B.length % 64) 0) 0 0 56).take 56 =
        List.replicate 56 0 := by
      rw [ResetWizardMemory_eq_copy]
      have := CopyWizardMemory_take (B.drop (B.length / 64 * 64) ++
        0x80 :: List.replicate (63 - B.length % 64) 0) (List.replicate 56 0) 0 (by omega)
      simpa using this
    have hfull := length_stores ((high >>> 24) % 256) ((high >>> 16) % 256)
      ((high >>> 8) % 256) (high % 256) ((low >>> 24) % 256) ((low >>> 16) % 256)
      ((low >>> 8) % 256) (low % 256)
      (by rw [ResetWizardMemory_eq_copy, CopyWizardMemory_length _ _ _ (by simp; omega)]
          exact hblk1len) hpad
    rw [hfull]
    simp only [LengthBytes, List.singleton_append]

theorem LastBlock_length (B : List Nat) : (LastBlock B).length = 64 := by
  unfold LastBlock
  simp only [List.length_append, LengthBytes, List.length_cons, List.length_nil]
  split
  · simp only [List.length_append, List.length_cons, List.length_replicate, pending_length]
    omega
  · simp

/-- The byte sequence that `UpdateSHA224` and `FinalizeSHA224` feed to the
transform is the padded message of FIPS 180-4. -/
theorem padded_split (M : List Nat) :
    M.take (M.length / 64 * 64) ++
      ((if M.length % 64 + 1 ≤ 56 then []
        else [M.drop (M.length / 64 * 64) ++ 0x80 :: List.replicate (63 - M.length % 64) 0]) ++
        [LastBlock M]).flatten = FIPS180.pad M := by
  have hb := LengthBytes_eq_bigEndian (8 * M.length)
  have hM : M.take (M.length / 64 * 64) ++ M.drop (M.length / 64 * 64) = M :=
    List.take_append_drop _ _
  unfold FIPS180.pad LastBlock
  rw [← hb]
  by_cases hc : M.length % 64 + 1 ≤ 56
  · have e : (119 - M.length % 64) % 64 = 55 - M.length % 64 := by omega
    simp only [if_pos hc, e, List.nil_append, List.flatten_cons, List.flatten_nil,
      List.append_nil]
    rw [← List.append_assoc, ← List.append_assoc, hM]
  · have e : (119 - M.length % 64) % 64 = (63 - M.length % 64) + 56 := by omega
    simp only [if_neg hc, e, List.singleton_append, List.flatten_cons, List.flatten_nil,
      List.append_nil, List.replicate_add]
    simp only [List.append_assoc, List.cons_append]
    rw [← List.append_assoc (M.take _) (M.drop _), hM]

/-- On a context without pending bytes `UpdateSHA224` hands over the whole
blocks of its argument. -/
theorem UpdateSHA224Log_fresh (s : SHA224Info) (M : List Nat) (hoff : s.offset = 0)
    (hmsg : s.message.length = 64) :
    (UpdateSHA224Log s M).flatten = M.take (M.length / 64 * 64) ∧
      (∀ b ∈ UpdateSHA224Log s M, b.length = 64) ∧
      (UpdateSHA224Log s M).foldl (TransformAccumulator s.lsb_first) s.accumulator =
        AbsorbBlocks s.lsb_first (M.length / 64) s.accumulator M := by
  unfold UpdateSHA224Log
  simp only [hoff, ne_eq, not_true_eq_false, if_false]
  refine ⟨?_, ?_, ?_⟩
  · exact And.left (UpdateBlocksLog_eq (M.length + 1) _ M hmsg (by omega))
  · exact And.right (UpdateBlocksLog_eq (M.length + 1) _ M hmsg (by omega))
  · exact UpdateBlocksLog_fold_of (M.length + 1) _ M _ _ hmsg (by omega) rfl rfl

/-- C29: for every context with a 64-byte message buffer and every message `M`
of fewer than `2 ^ 32` bytes, the message buffers handed to `TransformSHA224`
by `UpdateSHA224` on the initialized context and then by `FinalizeSHA224`,
laid end to end, are `M`, the byte `0x80`, the least number of zero bytes and
the 64-bit big-endian bit length (the padded message of FIPS 180-4); each
buffer has 64 bytes; `FinalizeSHA224` hands over one buffer when
`n mod 64 ≤ 55` and two otherwise, the last being the buffer it leaves; and
the accumulator it leaves is `TransformAccumulator` carried over these
buffers in turn. -/
theorem C29_blocks_are_padded_message (s : SHA224Info) (M : List Nat)
    (hmsg : s.message.length = 64) (hM : M.length < 2 ^ 32) :
    (UpdateSHA224Log (InitializeSHA224 s) M ++
        FinalizeSHA224Log (UpdateSHA224 (InitializeSHA224 s) M)).flatten = FIPS180.pad M ∧
      (∀ b ∈ UpdateSHA224Log (InitializeSHA224 s) M ++
        FinalizeSHA224Log (UpdateSHA224 (InitializeSHA224 s) M), b.length = 64) ∧
      (FinalizeSHA224Log (UpdateSHA224 (InitializeSHA224 s) M)).length =
        (if M.length % 64 ≤ 55 then 1 else 2) ∧
      (FinalizeSHA224Log (UpdateSHA224 (InitializeSHA224 s) M)).getLast? =
        some (FinalizeSHA224 (UpdateSHA224 (InitializeSHA224 s) M)).message ∧
      (FinalizeSHA224 (UpdateSHA224 (InitializeSHA224 s) M)).accumulator =
        (UpdateSHA224Log (InitializeSHA224 s) M ++
          FinalizeSHA224Log (UpdateSHA224 (InitializeSHA224 s) M)).foldl
          (TransformAccumulator s.lsb_first) (InitializeSHA224 s).accumulator := by
  have ht := Tracks_update M (Tracks_Initialize s hmsg) hM
  rw [List.nil_append] at ht
  have hfin := FinalizeSHA224Log_eq ht
  have hlast : (FinalizeSHA224 (UpdateSHA224 (InitializeSHA224 s) M)).message = LastBlock M := by
    rw [Finalize_eq ht]; rfl
  obtain ⟨hflat, hall, hfold⟩ := UpdateSHA224Log_fresh (InitializeSHA224 s) M rfl hmsg
  have hacc : (FinalizeSHA224 (UpdateSHA224 (InitializeSHA224 s) M)).accumulator =
      FinalAccumulator s.lsb_first (InitializeSHA224 s).accumulator M := by
    rw [Finalize_eq ht]; rfl
  refine ⟨?_, ?_, ?_, ?_, ?_⟩
  · rw [List.flatten_append, hflat, hfin]
    exact padded_split M
  · intro b hb
    rcases List.mem_append.1 hb with h | h
    · exact hall b h
    · rw [hfin] at h
      rcases List.mem_append.1 h with h | h
      · split at h
        · cases h
        · rw [List.mem_singleton.1 h]
          simp only [List.length_append, List.length_cons, List.length_replicate,
            pending_length]
          omega
      · rw [List.mem_singleton.1 h]
        exact LastBlock_length M
  · rw [hfin]
    by_cases hc : M.length % 64 + 1 ≤ 56
    · have : M.length % 64 ≤ 55 := by omega
      simp [hc, this]
    · have : ¬ M.length % 64 ≤ 55 := by omega
      simp [hc, this]
  · rw [hfin, hlast]
    simp
  · have hlsb : (InitializeSHA224 s).lsb_first = s.lsb_first := rfl
    rw [hlsb] at hfold
    rw [hacc, List.foldl_append, hfold, hfin]
    unfold FinalAccumulator
    by_cases hc : M.length % 64 + 1 ≤ 56
    · simp only [hc, if_true, List.nil_append, List.foldl_cons, List.foldl_nil]
    · simp only [hc, if_false, List.singleton_append, List.foldl_cons, List.foldl_nil]

/-- Witness for C29: sixty bytes, which `FinalizeSHA224` pads into two blocks. -/
theorem C29_blocks_are_padded_message_witness :
    (AcquireSHA224Info (fun _ => 0) (fun _ => 0) (fun _ => 0) true 0).message.length = 64 ∧
      (List.replicate 60 97).length < 2 ^ 32 ∧
      (UpdateSHA224Log
          (InitializeSHA224 (AcquireSHA224Info (fun _ => 0) (fun _ => 0) (fun _ => 0) true 0))
          (List.replicate 60 97) ++
        FinalizeSHA224Log (UpdateSHA224
          (InitializeSHA224 (AcquireSHA224Info (fun _ => 0) (fun _ => 0) (fun _ => 0) true 0))
          (List.replicate 60 97))).flatten = FIPS180.pad (List.replicate 60 97) ∧
      (FinalizeSHA224Log (UpdateSHA224
          (InitializeSHA224 (AcquireSHA224Info (fun _ => 0) (fun _ => 0) (fun _ => 0) true 0))
          (List.replicate 60 97))).length = 2 :=
  ⟨by decide, by decide,
    (C29_blocks_are_padded_message _ (List.replicate 60 97) (by decide) (by decide)).1,
    (C29_blocks_are_padded_message _ (List.replicate 60 97) (by decide) (by decide)).2.2.1⟩

/-! ## The splay tree: rotations and the search -/

theorem TotalOrder.flip {f : Nat → Nat → Int} (h : TotalOrder f) (a b : Nat) :
    0 < f a b ↔ f b a < 0 := h.1 a b

theorem TotalOrder.zero_symm {f : Nat → Nat → Int} (h : TotalOrder f) {a b : Nat}
    (hab : f a b = 0) : f b a = 0 := by
  have h1 := h.1 a b
  have h2 := h.1 b a
  omega

theorem TotalOrder.refl {f : Nat → Nat → Int} (h : TotalOrder f) (a : Nat) : f a a = 0 := by
  have h1 := h.1 a a
  omega

theorem TotalOrder.lt_of_lt_of_le {f : Nat → Nat → Int} (h : TotalOrder f) {a b c : Nat}
    (hab : f a b < 0) (hbc : f b c ≤ 0) : f a c < 0 := by
  by_contra hac
  have hca : f c a ≤ 0 := by
    have := h.1 c a
    omega
  have hba := h.2 b c a hbc hca
  have := h.1 b a
  omega

theorem TotalOrder.lt_of_le_of_lt {f : Nat → Nat → Int} (h : TotalOrder f) {a b c : Nat}
    (hab : f a b ≤ 0) (hbc : f b c < 0) : f a c < 0 := by
  by_contra hac
  have hca : f c a ≤ 0 := by
    have := h.1 c a
    omega
  have hcb := h.2 c a b hca hab
  have := h.1 c b
  omega

theorem TotalOrder.lt_trans {f : Nat → Nat → Int} (h : TotalOrder f) {a b c : Nat}
    (hab : f a b < 0) (hbc : f b c < 0) : f a c < 0 :=
  h.lt_of_lt_of_le hab (by omega)

/-- Equal keys compare alike with every third key. -/
theorem TotalOrder.congr_left {f : Nat → Nat → Int} (h : TotalOrder f) {a b : Nat}
    (hab : f a b = 0) (c : Nat) :
    (f a c < 0 ↔ f b c < 0) ∧ (f a c = 0 ↔ f b c = 0) ∧ (0 < f a c ↔ 0 < f b c) := by
  have hba := h.zero_symm hab
  have l1 : f a c < 0 → f b c < 0 := fun x => h.lt_of_le_of_lt (by omega) x
  have l2 : f b c < 0 → f a c < 0 := fun x => h.lt_of_le_of_lt (by omega) x
  have g1 : 0 < f a c → 0 < f b c := fun x =>
    (h.1 b c).2 (h.lt_of_lt_of_le ((h.1 a c).1 x) (by omega))
  have g2 : 0 < f b c → 0 < f a c := fun x =>
    (h.1 a c).2 (h.lt_of_lt_of_le ((h.1 b c).1 x) (by omega))
  refine ⟨⟨l1, l2⟩, ⟨?_, ?_⟩, ⟨g1, g2⟩⟩
  · intro x
    by_contra y
    rcases Int.lt_or_gt_of_ne y with z | z
    · have := l2 z; omega
    · have := g2 z; omega
  · intro x
    by_contra y
    rcases Int.lt_or_gt_of_ne y with z | z
    · have := l1 z; omega
    · have := g1 z; omega

theorem TotalOrder.congr_right {f : Nat → Nat → Int} (h : TotalOrder f) {a b : Nat}
    (hab : f a b = 0) (c : Nat) :
    (f c a < 0 ↔ f c b < 0) ∧ (f c a = 0 ↔ f c b = 0) ∧ (0 < f c a ↔ 0 < f c b) := by
  obtain ⟨l, e, g⟩ := h.congr_left hab c
  have e1 : f c a = 0 ↔ f a c = 0 := ⟨h.zero_symm, h.zero_symm⟩
  have e2 : f c b = 0 ↔ f b c = 0 := ⟨h.zero_symm, h.zero_symm⟩
  refine ⟨?_, ?_, ?_⟩
  · rw [← h.1 a c, ← h.1 b c]; exact g
  · rw [e1, e2]; exact e
  · rw [h.1 c a, h.1 c b]; exact l

theorem CompareKeys_none_total : TotalOrder (CompareKeys none) := by
  constructor
  · intro a b
    simp only [CompareKeys]
    split_ifs <;> omega
  · intro a b c
    simp only [CompareKeys]
    split_ifs <;> omega

theorem CompareNumbers_total : TotalOrder CompareNumbers := by
  constructor
  · intro a b
    simp only [CompareNumbers]
    omega
  · intro a b c
    simp only [CompareNumbers]
    omega

theorem Size_eq_length (t : NodeInfo) : Size t = (InOrder t).length := by
  induction t with
  | null => rfl
  | node k v l r ihl ihr => simp [Size, InOrder, ihl, ihr]; omega

theorem InOrderNodes_length (t : NodeInfo) : (InOrderNodes t).length = Size t := by
  induction t with
  | null => rfl
  | node k v l r ihl ihr => simp [Size, InOrderNodes, ihl, ihr]; omega

theorem Height_le_Size (t : NodeInfo) : Height t ≤ Size t := by
  induction t with
  | null => simp [Height, Size]
  | node k v l r ihl ihr => simp only [Height, Size]; omega

theorem InOrder_eq_nil {t : NodeInfo} : InOrder t = [] ↔ t = .null := by
  cases t <;> simp [InOrder]

theorem RotateParent_InOrder (side : Side) (t : NodeInfo) :
    InOrder (RotateParent side t) = InOrder t := by
  unfold RotateParent
  split <;> simp [InOrder, List.append_assoc]

theorem RotateGrandparent_InOrder (upper lower : Side) (t : NodeInfo) :
    InOrder (RotateGrandparent upper lower t) = InOrder t := by
  unfold RotateGrandparent
  split <;> simp [InOrder, List.append_assoc]

/-- Whatever `SplayNode` returns, the tree it leaves holds the entries it
found, in the same order. -/
theorem SplayNode_InOrder (c : Option (Nat → Nat → Int)) (b : Bool) (key : Nat) (t : NodeInfo) :
    ∀ d, InOrder (SplayNode c b key d t).tree = InOrder t := by
  induction t with
  | null => intro d; rfl
  | node k v l r ihl ihr =>
    intro d
    rw [SplayNode]
    by_cases h0 : CompareKeys c k key = 0
    · simp only [h0, if_true, Splayed.tree]
    simp only [h0, if_false]
    by_cases h1 : d ≥ MaxSplayTreeDepth
    · simp only [h1, if_true, Splayed.tree]
    simp only [h1, if_false]
    by_cases h2 : CompareKeys c k key > 0
    · simp only [h2, if_true]
      have := ihl (d + 1)
      cases hr : SplayNode c b key (d + 1) l <;> rw [hr] at this <;>
        simp only [Splayed.tree] at this <;> cases b <;>
        simp [Splayed.tree, RotateGrandparent_InOrder, InOrder, this]
    · simp only [h2, if_false]
      have := ihr (d + 1)
      cases hr : SplayNode c b key (d + 1) r <;> rw [hr] at this <;>
        simp only [Splayed.tree] at this <;> cases b <;>
        simp [Splayed.tree, RotateGrandparent_InOrder, InOrder, this]

/-- `SplayNode` returns `absent` on `NULL` only. -/
theorem SplayNode_absent {c : Option (Nat → Nat → Int)} {b : Bool} {key d : Nat} {t : NodeInfo}
    (h : SplayNode c b key d t = .absent) : t = .null := by
  cases t with
  | null => rfl
  | node k v l r =>
    exfalso
    rw [SplayNode] at h
    by_cases h0 : CompareKeys c k key = 0
    · simp [h0] at h
    simp only [h0, if_false] at h
    by_cases h1 : d ≥ MaxSplayTreeDepth
    · simp [h1] at h
    simp only [h1, if_false] at h
    by_cases h2 : CompareKeys c k key > 0
    · simp only [h2, if_true] at h
      cases hr : SplayNode c b key (d + 1) l <;> rw [hr] at h <;> revert h <;> cases b <;> simp
    · simp only [h2, if_false] at h
      cases hr : SplayNode c b key (d + 1) r <;> rw [hr] at h <;> revert h <;> cases b <;> simp


theorem Below_null (f : Nat → Nat → Int) (key : Nat) : Below f key .null := by
  intro e he; cases he

theorem Above_null (f : Nat → Nat → Int) (key : Nat) : Above f key .null := by
  intro e he; cases he

theorem Below_node {f : Nat → Nat → Int} {key k v : Nat} {l r : NodeInfo} :
    Below f key (.node k v l r) ↔ Below f key l ∧ f k key < 0 ∧ Below f key r := by
  simp only [Below, InOrder, List.mem_append, List.mem_cons]
  constructor
  · intro h
    exact ⟨fun e he => h e (Or.inl he), h (k, v) (Or.inr (Or.inl rfl)),
      fun e he => h e (Or.inr (Or.inr he))⟩
  · rintro ⟨h1, h2, h3⟩ e (he | he | he)
    · exact h1 e he
    · rw [he]; exact h2
    · exact h3 e he

theorem Above_node {f : Nat → Nat → Int} {key k v : Nat} {l r : NodeInfo} :
    Above f key (.node k v l r) ↔ Above f key l ∧ 0 < f k key ∧ Above f key r := by
  simp only [Above, InOrder, List.mem_append, List.mem_cons]
  constructor
  · intro h
    exact ⟨fun e he => h e (Or.inl he), h (k, v) (Or.inr (Or.inl rfl)),
      fun e he => h e (Or.inr (Or.inr he))⟩
  · rintro ⟨h1, h2, h3⟩ e (he | he | he)
    · exact h1 e he
    · rw [he]; exact h2
    · exact h3 e he

/-- The ordering of a node in terms of its parts. -/
theorem Ordered_node {f : Nat → Nat → Int} {k v : Nat} {l r : NodeInfo} :
    Ordered f (.node k v l r) ↔
      Ordered f l ∧ Ordered f r ∧ (∀ e ∈ InOrder l, f e.1 k < 0) ∧
        (∀ e ∈ InOrder r, f k e.1 < 0) ∧
        ∀ a ∈ InOrder l, ∀ b ∈ InOrder r, f a.1 b.1 < 0 := by
  simp only [Ordered, InOrder, List.pairwise_append, List.pairwise_cons, List.mem_cons]
  constructor
  · rintro ⟨h1, ⟨h2, h3⟩, h4⟩
    exact ⟨h1, h3, fun e he => h4 e he (k, v) (Or.inl rfl), h2,
      fun a ha b hb => h4 a ha b (Or.inr hb)⟩
  · rintro ⟨h1, h2, h3, h4, h5⟩
    refine ⟨h1, ⟨h4, h2⟩, ?_⟩
    rintro a ha b (hb | hb)
    · rw [hb]; exact h3 a ha
    · exact h5 a ha b hb

theorem Ordered_null (f : Nat → Nat → Int) : Ordered f .null := List.Pairwise.nil

/-- With the search-tree ordering and transitivity, a node is ordered when its
parts are and its key lies between them. -/
theorem Ordered_node_of {f : Nat → Nat → Int} (hf : TotalOrder f) {k v : Nat} {l r : NodeInfo}
    (hl : Ordered f l) (hr : Ordered f r) (h1 : ∀ e ∈ InOrder l, f e.1 k < 0)
    (h2 : ∀ e ∈ InOrder r, f k e.1 < 0) : Ordered f (.node k v l r) :=
  Ordered_node.2 ⟨hl, hr, h1, h2, fun a ha b hb => hf.lt_trans (h1 a ha) (h2 b hb)⟩

/-- The keys right of a node whose key is not below `key` are above `key`. -/
theorem Above_of_right {f : Nat → Nat → Int} (hf : TotalOrder f) {key k : Nat} {r : NodeInfo}
    (hk : f key k ≤ 0) (hr : ∀ e ∈ InOrder r, f k e.1 < 0) : Above f key r :=
  fun e he => (hf.1 e.1 key).2 (hf.lt_of_le_of_lt hk (hr e he))

/-- The keys left of a node whose key is not above `key` are below `key`. -/
theorem Below_of_left {f : Nat → Nat → Int} (hf : TotalOrder f) {key k : Nat} {l : NodeInfo}
    (hk : f k key ≤ 0) (hl : ∀ e ∈ InOrder l, f e.1 k < 0) : Below f key l :=
  fun e he => hf.lt_of_lt_of_le (hl e he) hk

/-- On an ordered tree the node that `SplayNode` moves up is where the search
for `key` ends. -/
theorem SplayNode_Splits {c : Option (Nat → Nat → Int)} (hf : TotalOrder (CompareKeys c))
    (b : Bool) (key : Nat) (t : NodeInfo) :
    Ordered (CompareKeys c) t → ∀ d, (SplayNode c b key d t).Splits (CompareKeys c) key := by
  induction t with
  | null => intro _ d; simp [SplayNode, Splayed.Splits]
  | node k v l r ihl ihr =>
    intro ho d
    obtain ⟨hol, hor, hlk, hkr, -⟩ := Ordered_node.1 ho
    rw [SplayNode]
    by_cases h0 : CompareKeys c k key = 0
    · simp only [h0, if_true, Splayed.Splits, RootSplits]
      exact ⟨by simp, Below_of_left hf (by omega) hlk,
        Above_of_right hf (by have := hf.zero_symm h0; omega) hkr⟩
    simp only [h0, if_false]
    by_cases h1 : d ≥ MaxSplayTreeDepth
    · simp only [h1, if_true, Splayed.Splits]
    simp only [h1, if_false]
    by_cases h2 : CompareKeys c k key > 0
    · simp only [h2, if_true]
      have hkey : CompareKeys c key k < 0 := (hf.1 k key).1 h2
      have hr : Above (CompareKeys c) key r := Above_of_right hf (by omega) hkr
      have hl := ihl hol (d + 1)
      cases hs : SplayNode c b key (d + 1) l with
      | absent =>
        have hnull := SplayNode_absent hs
        subst hnull
        cases b <;> simp [Splayed.Splits, RootSplits, Below_null, hr]
      | here l1 =>
        rw [hs] at hl
        simp only [Splayed.Splits] at hl
        simp only [Splayed.Splits, NodeInfo.left, NodeInfo.right, NodeInfo.key]
        exact ⟨by simp, hl.1, hl.2, h2, hr⟩
      | below side l1 =>
        rw [hs] at hl
        cases side with
        | left =>
          simp only [Splayed.Splits] at hl
          obtain ⟨hp, hn, hsn, hpk, hpr⟩ := hl
          cases l1 with
          | null => exact absurd rfl hp
          | node pk pv pl pr =>
            cases pl with
            | null => exact absurd rfl hn
            | node nk nv nl nr =>
              simp only [NodeInfo.left, NodeInfo.right, NodeInfo.key, RootSplits] at hsn hpk hpr
              cases b <;>
                simp [Splayed.Splits, RotateGrandparent, RootSplits, Above_node, hsn.1, hsn.2,
                  hpk, hpr, hr, h2]
        | right =>
          simp only [Splayed.Splits] at hl
          obtain ⟨hp, hn, hsn, hpk, hpl⟩ := hl
          cases l1 with
          | null => exact absurd rfl hp
          | node pk pv pl pr =>
            cases pr with
            | null => exact absurd rfl hn
            | node nk nv nl nr =>
              simp only [NodeInfo.left, NodeInfo.right, NodeInfo.key, RootSplits] at hsn hpk hpl
              cases b <;>
                simp [Splayed.Splits, RotateGrandparent, RootSplits, Above_node, Below_node,
                  hsn.1, hsn.2, hpk, hpl, hr, h2]
      | settled l1 b1 => simp [Splayed.Splits]
    · simp only [h2, if_false]
      have h3 : CompareKeys c k key < 0 := by omega
      have hl : Below (CompareKeys c) key l := Below_of_left hf (by omega) hlk
      have hrr := ihr hor (d + 1)
      cases hs : SplayNode c b key (d + 1) r with
      | absent =>
        have hnull := SplayNode_absent hs
        subst hnull
        cases b <;> simp [Splayed.Splits, RootSplits, Above_null, hl]
      | here r1 =>
        rw [hs] at hrr
        simp only [Splayed.Splits] at hrr
        simp only [Splayed.Splits, NodeInfo.left, NodeInfo.right, NodeInfo.key]
        exact ⟨by simp, hrr.1, hrr.2, h3, hl⟩
      | below side r1 =>
        rw [hs] at hrr
        cases side with
        | left =>
          simp only [Splayed.Splits] at hrr
          obtain ⟨hp, hn, hsn, hpk, hpr⟩ := hrr
          cases r1 with
          | null => exact absurd rfl hp
          | node pk pv pl pr =>
            cases pl with
            | null => exact absurd rfl hn
            | node nk nv nl nr =>
              simp only [NodeInfo.left, NodeInfo.right, NodeInfo.key, RootSplits] at hsn hpk hpr
              cases b <;>
                simp [Splayed.Splits, RotateGrandparent, RootSplits, Above_node, Below_node,
                  hsn.1, hsn.2, hpk, hpr, hl, h3]
        | right =>
          simp only [Splayed.Splits] at hrr
          obtain ⟨hp, hn, hsn, hpk, hpl⟩ := hrr
          cases r1 with
          | null => exact absurd rfl hp
          | node pk pv pl pr =>
            cases pr with
            | null => exact absurd rfl hn
            | node nk nv nl nr =>
              simp only [NodeInfo.left, NodeInfo.right, NodeInfo.key, RootSplits] at hsn hpk hpl
              cases b <;>
                simp [Splayed.Splits, RotateGrandparent, RootSplits, Above_node, Below_node,
                  hsn.1, hsn.2, hpk, hpl, hl, h3]
      | settled r1 b1 => simp [Splayed.Splits]

/-- Without a raised flag at the call, `SplayNode` settles only by raising
it. -/
theorem SplayNode_settled {c : Option (Nat → Nat → Int)} {key : Nat} (t : NodeInfo) :
    ∀ d t1 b1, SplayNode c false key d t = .settled t1 b1 → b1 = true := by
  induction t with
  | null => intro d t1 b1 h; simp [SplayNode] at h
  | node k v l r ihl ihr =>
    intro d t1 b1 h
    rw [SplayNode] at h
    by_cases h0 : CompareKeys c k key = 0
    · simp [h0] at h
    simp only [h0, if_false] at h
    by_cases h1 : d ≥ MaxSplayTreeDepth
    · simp only [h1, if_true, Splayed.settled.injEq] at h
      exact h.2.symm
    simp only [h1, if_false] at h
    by_cases h2 : CompareKeys c k key > 0
    · simp only [h2, if_true] at h
      cases hs : SplayNode c false key (d + 1) l with
      | settled l1 b2 =>
        rw [hs] at h
        simp only [Splayed.settled.injEq] at h
        rw [← h.2]
        exact ihl _ _ _ hs
      | absent => rw [hs] at h; simp at h
      | here l1 => rw [hs] at h; simp at h
      | below side l1 => rw [hs] at h; simp at h
    · simp only [h2, if_false] at h
      cases hs : SplayNode c false key (d + 1) r with
      | settled l1 b2 =>
        rw [hs] at h
        simp only [Splayed.settled.injEq] at h
        rw [← h.2]
        exact ihr _ _ _ hs
      | absent => rw [hs] at h; simp at h
      | here l1 => rw [hs] at h; simp at h
      | below side l1 => rw [hs] at h; simp at h

/-- A tree whose paths end before the depth limit is splayed without raising
the flag. -/
theorem SplayNode_within {c : Option (Nat → Nat → Int)} {key : Nat} (t : NodeInfo) :
    ∀ d, Height t + d ≤ MaxSplayTreeDepth →
      ∀ t1 b1, SplayNode c false key d t ≠ .settled t1 b1 := by
  induction t with
  | null => intro d _ t1 b1 h; simp [SplayNode] at h
  | node k v l r ihl ihr =>
    intro d hd t1 b1 h
    simp only [Height] at hd
    rw [SplayNode] at h
    by_cases h0 : CompareKeys c k key = 0
    · simp [h0] at h
    simp only [h0, if_false] at h
    have h1 : ¬ d ≥ MaxSplayTreeDepth := by omega
    simp only [h1, if_false] at h
    by_cases h2 : CompareKeys c k key > 0
    · simp only [h2, if_true] at h
      cases hs : SplayNode c false key (d + 1) l with
      | settled l1 b2 => exact ihl (d + 1) (by omega) _ _ hs
      | absent => rw [hs] at h; simp at h
      | here l1 => rw [hs] at h; simp at h
      | below side l1 => rw [hs] at h; simp at h
    · simp only [h2, if_false] at h
      cases hs : SplayNode c false key (d + 1) r with
      | settled l1 b2 => exact ihr (d + 1) (by omega) _ _ hs
      | absent => rw [hs] at h; simp at h
      | here l1 => rw [hs] at h; simp at h
      | below side l1 => rw [hs] at h; simp at h


/-! ## The splay tree: the traversal and the rebuilding -/

theorem InOrderNodes_ne_null {t n : NodeInfo} (h : n ∈ InOrderNodes t) : n ≠ .null := by
  induction t with
  | null => cases h
  | node k v l r ihl ihr =>
    simp only [InOrderNodes, List.mem_append, List.mem_cons] at h
    rcases h with h | h | h
    · exact ihl h
    · rw [h]; simp
    · exact ihr h

theorem InOrderNodes_entries (t : NodeInfo) :
    (InOrderNodes t).map (fun n => (n.key, n.value)) = InOrder t := by
  induction t with
  | null => rfl
  | node k v l r ihl ihr =>
    simp only [InOrderNodes, InOrder, List.map_append, List.map_cons, ihl, ihr]
    rfl

/-- The loop of `IterateOverSplayTree`, entered at a node with the transition
`LeftTransition`, hands the nodes below it to `SplayTreeToNodeArray` in order
and arrives at the transition `UpTransition` of that node; it takes one pass
less than four times the number of these nodes. -/
theorem IterateLoop_subtree (t : NodeInfo) :
    ∀ (fuel : Nat) (stack : List (NodeInfo × TransitionType)) (acc : List NodeInfo),
      t ≠ .null →
      IterateLoop SplayTreeToNodeArray (fuel + (4 * Size t - 1))
          ((t, .LeftTransition) :: stack) acc =
        IterateLoop SplayTreeToNodeArray fuel ((t, .UpTransition) :: stack)
          (acc ++ InOrderNodes t) := by
  induction t with
  | null => intro _ _ _ h; exact absurd rfl h
  | node k v l r ihl ihr =>
    intro fuel stack acc _
    -- up to the transition `DownTransition` of this node
    have hdown : IterateLoop SplayTreeToNodeArray (fuel + (4 * Size (.node k v l r) - 1))
          ((.node k v l r, .LeftTransition) :: stack) acc =
        IterateLoop SplayTreeToNodeArray (fuel + 4 * Size r + 2)
          ((.node k v l r, .DownTransition) :: stack) (acc ++ InOrderNodes l) := by
      cases l with
      | null =>
        have e : fuel + (4 * Size (.node k v .null r) - 1) = (fuel + 4 * Size r + 2) + 1 := by
          simp only [Size]; omega
        rw [e]
        simp [IterateLoop, NodeInfo.left, InOrderNodes]
      | node lk lv ll lr =>
        have e : fuel + (4 * Size (.node k v (.node lk lv ll lr) r) - 1) =
            ((fuel + 4 * Size r + 3) + (4 * Size (.node lk lv ll lr) - 1)) + 1 := by
          simp only [Size]; omega
        rw [e]
        have step : ∀ n, IterateLoop SplayTreeToNodeArray (n + 1)
            ((.node k v (.node lk lv ll lr) r, .LeftTransition) :: stack) acc =
            IterateLoop SplayTreeToNodeArray n ((.node lk lv ll lr, .LeftTransition) ::
              (.node k v (.node lk lv ll lr) r, .DownTransition) :: stack) acc := by
          intro n; simp [IterateLoop, NodeInfo.left]
        rw [step, ihl _ _ _ (by simp)]
        have e2 : fuel + 4 * Size r + 3 = (fuel + 4 * Size r + 2) + 1 := by omega
        rw [e2]
        simp [IterateLoop]
    rw [hdown]
    -- the call of the method and the transition `RightTransition`
    have hright : IterateLoop SplayTreeToNodeArray (fuel + 4 * Size r + 2)
          ((.node k v l r, .DownTransition) :: stack) (acc ++ InOrderNodes l) =
        IterateLoop SplayTreeToNodeArray (fuel + 4 * Size r + 1)
          ((.node k v l r, .RightTransition) :: stack)
          (acc ++ InOrderNodes l ++ [.node k v l r]) := by
      simp [IterateLoop, SplayTreeToNodeArray]
    rw [hright]
    cases r with
    | null =>
      simp [IterateLoop, NodeInfo.right, InOrderNodes, Size]
    | node rk rv rl rr =>
      have e : fuel + 4 * Size (.node rk rv rl rr) + 1 =
          ((fuel + 1) + (4 * Size (.node rk rv rl rr) - 1)) + 1 := by
        simp only [Size]; omega
      rw [e]
      have step : ∀ n a, IterateLoop SplayTreeToNodeArray (n + 1)
          ((.node k v l (.node rk rv rl rr), .RightTransition) :: stack) a =
          IterateLoop SplayTreeToNodeArray n ((.node rk rv rl rr, .LeftTransition) ::
            (.node k v l (.node rk rv rl rr), .UpTransition) :: stack) a := by
        intro n a; simp [IterateLoop, NodeInfo.right]
      rw [step, ihr _ _ _ (by simp)]
      simp [IterateLoop, InOrderNodes]

/-- `IterateOverSplayTree` with `SplayTreeToNodeArray` fills the array with the
nodes in order, when `splay_tree->nodes` is not less than their number. -/
theorem IterateOverSplayTree_nodes (s : SplayTreeInfo) (h : Size s.root ≤ s.nodes) :
    IterateOverSplayTree s SplayTreeToNodeArray [] = some (0, InOrderNodes s.root) := by
  unfold IterateOverSplayTree
  cases hr : s.root with
  | null => rfl
  | node k v l r =>
    rw [hr] at h
    simp only
    have e : 4 * s.nodes = (4 * s.nodes - 4 * Size (.node k v l r) + 1) +
        (4 * Size (.node k v l r) - 1) := by
      simp only [Size] at h ⊢; omega
    rw [e, IterateLoop_subtree _ _ _ _ (by simp)]
    simp [IterateLoop]

/-- The part of an array between two indices, split at an index between
them. -/
theorem slice_split {α : Type} (xs : List α) (low bisect high : Nat) (h1 : low ≤ bisect)
    (h2 : bisect ≤ high) (h3 : high < xs.length) :
    (xs.drop low).take (high - low + 1) =
      (xs.drop low).take (bisect - low) ++
        xs.get ⟨bisect, by omega⟩ :: (xs.drop (bisect + 1)).take (high - bisect) := by
  have e : high - low + 1 = (bisect - low) + ((high - bisect) + 1) := by omega
  rw [e, List.take_add, List.drop_drop]
  have e2 : low + (bisect - low) = bisect := by omega
  congr 1
  rw [e2, List.drop_eq_getElem_cons (by omega), List.take_succ_cons]
  rfl

/-- `LinkSplayTreeNodes` returns a tree that holds the entries of the array
between the two indices, in order, and is as low as halving allows. -/
theorem LinkSplayTreeNodes_spec (nodes : List NodeInfo) (hnodes : ∀ n ∈ nodes, n ≠ .null) :
    ∀ (fuel low high : Nat), low ≤ high → high < nodes.length → high - low < fuel →
      ∃ t, LinkSplayTreeNodes fuel nodes low high = some t ∧
        InOrder t = ((nodes.drop low).take (high - low + 1)).map (fun n => (n.key, n.value)) ∧
        ∀ k, high - low + 1 < 2 ^ k → Height t ≤ k := by
  intro fuel
  induction fuel with
  | zero => intro low high _ _ h; omega
  | succ fuel ih =>
    intro low high hlow hhigh hfuel
    have hb1 : low ≤ low + (high - low) / 2 := by omega
    have hb2 : low + (high - low) / 2 ≤ high := by omega
    have hget : nodes[low + (high - low) / 2]? =
        some (nodes.get ⟨low + (high - low) / 2, by omega⟩) := by
      rw [List.getElem?_eq_getElem (by omega)]; rfl
    have hne := hnodes _ (List.get_mem nodes (low + (high - low) / 2) (by omega))
    have hsplit := slice_split nodes low (low + (high - low) / 2) high hb1 hb2 hhigh
    cases hn : nodes.get ⟨low + (high - low) / 2, by omega⟩ with
    | null => exact absurd hn hne
    | node k v nl nr =>
      rw [hn] at hget hsplit
      rw [LinkSplayTreeNodes]
      simp only [hget]
      -- the left part
      have hleft : ∃ l, (if low + 1 > low + (high - low) / 2 then some NodeInfo.null
            else LinkSplayTreeNodes fuel nodes low (low + (high - low) / 2 - 1)) = some l ∧
          InOrder l = ((nodes.drop low).take (low + (high - low) / 2 - low)).map
            (fun n => (n.key, n.value)) ∧
          ∀ k, (high - low) / 2 < 2 ^ k → Height l ≤ k := by
        by_cases hc : low + 1 > low + (high - low) / 2
        · refine ⟨.null, by simp [hc], ?_, fun k _ => by simp [Height]⟩
          have e : low + (high - low) / 2 - low = 0 := by omega
          rw [e]; rfl
        · obtain ⟨l, h1, h2, h3⟩ := ih low (low + (high - low) / 2 - 1) (by omega) (by omega)
            (by omega)
          refine ⟨l, by simp only [hc, if_false]; exact h1, ?_, ?_⟩
          · rw [h2]
            congr 2
            omega
          · intro k hk
            exact h3 k (by omega)
      -- the right part
      have hright : ∃ r, (if low + (high - low) / 2 + 1 > high then some NodeInfo.null
            else LinkSplayTreeNodes fuel nodes (low + (high - low) / 2 + 1) high) = some r ∧
          InOrder r = ((nodes.drop (low + (high - low) / 2 + 1)).take
            (high - (low + (high - low) / 2))).map (fun n => (n.key, n.value)) ∧
          ∀ k, high - (low + (high - low) / 2) < 2 ^ k → Height r ≤ k := by
        by_cases hc : low + (high - low) / 2 + 1 > high
        · refine ⟨.null, by simp [hc], ?_, fun k _ => by simp [Height]⟩
          have e : high - (low + (high - low) / 2) = 0 := by omega
          rw [e]; rfl
        · obtain ⟨r, h1, h2, h3⟩ := ih (low + (high - low) / 2 + 1) high (by omega) hhigh
            (by omega)
          refine ⟨r, by simp only [hc, if_false]; exact h1, ?_, ?_⟩
          · rw [h2]
            congr 2
            omega
          · intro k hk
            exact h3 k (by omega)
      obtain ⟨l, hl1, hl2, hl3⟩ := hleft
      obtain ⟨r, hr1, hr2, hr3⟩ := hright
      refine ⟨.node k v l r, ?_, ?_, ?_⟩
      · simp only [hl1, hr1]
      · rw [hsplit]
        simp [InOrder, hl2, hr2, NodeInfo.key, NodeInfo.value]
      · intro j hj
        cases j with
        | zero => simp at hj
        | succ j =>
          have hp : 2 ^ (j + 1) = 2 * 2 ^ j := by rw [pow_succ]; omega
          have a := hl3 j (by omega)
          have b := hr3 j (by omega)
          simp only [Height]
          omega


/-- `BalanceSplayTree` keeps the entries and their order, lowers the flag and
leaves a tree of at most `k` levels when there are fewer than `2 ^ k`
nodes. -/
theorem BalanceSplayTree_spec (s : SplayTreeInfo) (h : s.nodes = Size s.root) :
    ∃ s2, BalanceSplayTree s = some s2 ∧ InOrder s2.root = InOrder s.root ∧
      s2.balance = false ∧ s2.compare = s.compare ∧ s2.nodes = s.nodes ∧ s2.key = s.key ∧
      s2.next = s.next ∧ ∀ k, 2 ≤ k → Size s.root < 2 ^ k → Height s2.root ≤ k := by
  unfold BalanceSplayTree
  by_cases h2 : s.nodes ≤ 2
  · refine ⟨{ s with balance := false }, by simp only [h2, if_true], rfl, rfl, rfl, rfl, rfl,
      rfl, ?_⟩
    intro k hk _
    have := Height_le_Size s.root
    show Height s.root ≤ k
    omega
  · simp only [h2, if_false]
    rw [IterateOverSplayTree_nodes s (by omega)]
    simp only [InOrderNodes_length, h, lt_irrefl, if_false]
    obtain ⟨t, ht, hin, hh⟩ := LinkSplayTreeNodes_spec (InOrderNodes s.root)
      (fun n hn => InOrderNodes_ne_null hn) (Size s.root) 0 (Size s.root - 1) (by omega)
      (by rw [InOrderNodes_length]; omega) (by omega)
    rw [ht]
    refine ⟨_, rfl, ?_, rfl, rfl, rfl, rfl, rfl, ?_⟩
    · show InOrder t = InOrder s.root
      rw [hin, List.drop_zero, List.take_of_length_le (by rw [InOrderNodes_length]; omega),
        InOrderNodes_entries]
    · intro k _ hk
      exact hh k (by omega)

theorem Size_of_InOrder {t u : NodeInfo} (h : InOrder t = InOrder u) : Size t = Size u := by
  rw [Size_eq_length, Size_eq_length, h]

theorem Ordered_of_InOrder {f : Nat → Nat → Int} {t u : NodeInfo} (h : InOrder t = InOrder u)
    (ho : Ordered f u) : Ordered f t := by
  unfold Ordered at *
  rw [h]; exact ho

/-- `Splay` changes the root and the flag only, and keeps the entries and
their order. -/
theorem Splay_fields (s : SplayTreeInfo) (key : Nat) :
    InOrder (Splay s key).root = InOrder s.root ∧ (Splay s key).compare = s.compare ∧
      (Splay s key).nodes = s.nodes ∧ (Splay s key).key = s.key ∧
      (Splay s key).next = s.next := by
  have h := SplayNode_InOrder s.compare s.balance key s.root 0
  unfold Splay
  cases hr : SplayNode s.compare s.balance key 0 s.root with
  | absent => exact ⟨rfl, rfl, rfl, rfl, rfl⟩
  | here t => rw [hr] at h; exact ⟨h, rfl, rfl, rfl, rfl⟩
  | below side t =>
    rw [hr] at h
    exact ⟨(RotateParent_InOrder side t).trans h, rfl, rfl, rfl, rfl⟩
  | settled t b => rw [hr] at h; exact ⟨h, rfl, rfl, rfl, rfl⟩

/-- On a tree whose paths end before the depth limit `Splay` leaves the flag
lowered. -/
theorem Splay_within (s : SplayTreeInfo) (key : Nat) (hb : s.balance = false)
    (hh : Height s.root ≤ MaxSplayTreeDepth) : (Splay s key).balance = false := by
  have h := @SplayNode_within s.compare key s.root 0 (by omega)
  unfold Splay
  rw [hb]
  cases hr : SplayNode s.compare false key 0 s.root with
  | absent => exact hb
  | here t => rfl
  | below side t => rfl
  | settled t b => exact absurd hr (h t b)

/-- When `Splay` leaves the flag lowered on an ordered tree, the root is where
the search for `key` ends. -/
theorem Splay_splits (s : SplayTreeInfo) (key : Nat) (hf : TotalOrder (CompareKeys s.compare))
    (ho : Ordered (CompareKeys s.compare) s.root) (hb : s.balance = false)
    (hb1 : (Splay s key).balance = false) :
    RootSplits (CompareKeys s.compare) key (Splay s key).root := by
  have h := SplayNode_Splits hf s.balance key s.root ho 0
  have hs := @SplayNode_settled s.compare key s.root 0
  unfold Splay at hb1 ⊢
  rw [hb] at h hb1 ⊢
  cases hr : SplayNode s.compare false key 0 s.root with
  | absent =>
    rw [SplayNode_absent hr]
    trivial
  | here t =>
    rw [hr] at h
    exact h.2
  | below side t =>
    rw [hr] at h
    cases side with
    | left =>
      obtain ⟨hp, hn, hsn, hpk, hpr⟩ := h
      cases t with
      | null => exact absurd rfl hp
      | node pk pv pl pr =>
        cases pl with
        | null => exact absurd rfl hn
        | node nk nv nl nr =>
          simp only [NodeInfo.left, NodeInfo.right, NodeInfo.key, RootSplits] at hsn hpk hpr
          simp [RotateParent, RootSplits, Above_node, hsn.1, hsn.2, hpk, hpr]
    | right =>
      obtain ⟨hp, hn, hsn, hpk, hpl⟩ := h
      cases t with
      | null => exact absurd rfl hp
      | node pk pv pl pr =>
        cases pr with
        | null => exact absurd rfl hn
        | node nk nv nl nr =>
          simp only [NodeInfo.left, NodeInfo.right, NodeInfo.key, RootSplits] at hsn hpk hpl
          simp [RotateParent, RootSplits, Below_node, hsn.1, hsn.2, hpk, hpl]
  | settled t b =>
    rw [hr] at hb1
    have := hs t b hr
    simp only at hb1
    rw [this] at hb1
    cases hb1

theorem MaxSplayTreeDepth_eq : MaxSplayTreeDepth = 1024 := rfl

/-- The two ways through `SplaySplayTree` on a tree with the right node count:
it leaves the tree alone (no root, or the remembered key answers), or it ends
with a `Splay` that leaves the flag lowered, on the tree itself or on the tree
rebuilt by `BalanceSplayTree`, and remembers `key`. The fatal branch is not
taken. -/
theorem SplaySplayTree_cases (s : SplayTreeInfo) (key : Nat) (hc : Counted s) :
    ((s.root = .null ∨ (s.key ≠ 0 ∧ CompareRemembered s key = 0)) ∧
        SplaySplayTree s key = some s) ∨
      ∃ s0, SplaySplayTree s key = some { Splay s0 key with key := key } ∧
        (Splay s0 key).balance = false ∧ (s.balance = false → s0.balance = false) ∧
        InOrder s0.root = InOrder s.root ∧ s0.compare = s.compare ∧ s0.nodes = s.nodes ∧
        s0.next = s.next := by
  obtain ⟨hn, hbound⟩ := hc
  unfold SplaySplayTree
  cases hroot : s.root with
  | null => exact Or.inl ⟨Or.inl rfl, rfl⟩
  | node k v l r =>
    simp only
    by_cases hcache : s.key ≠ 0 ∧ CompareRemembered s key = 0
    · rw [if_pos hcache]
      exact Or.inl ⟨Or.inr hcache, rfl⟩
    rw [if_neg hcache]
    right
    obtain ⟨h1, h2, h3, h4, h5⟩ := Splay_fields s key
    by_cases hbal : (Splay s key).balance = true
    · rw [if_pos hbal]
      have hsize : Size (Splay s key).root = Size s.root := Size_of_InOrder h1
      obtain ⟨s2, hs2, hin2, hb2, hc2, hn2, hk2, hx2, hh2⟩ :=
        BalanceSplayTree_spec (Splay s key) (by rw [h3, hsize, hn])
      rw [hs2]
      simp only
      have hheight : Height s2.root ≤ MaxSplayTreeDepth := by
        have := hh2 64 (by omega) (by rw [hsize]; exact hbound)
        rw [MaxSplayTreeDepth_eq]; omega
      have hb3 := Splay_within s2 key hb2 hheight
      simp only [hb3, Bool.false_eq_true, if_false]
      refine ⟨s2, ?_, hb3, fun _ => hb2, ?_, ?_, ?_, ?_⟩
      · simp only [hb3]
      · rw [hin2, h1, hroot]
      · rw [hc2, h2]
      · rw [hn2, h3]
      · rw [hx2, h5]
    · rw [if_neg hbal]
      exact ⟨s, rfl, Bool.eq_false_iff.2 hbal, fun h => h, hroot.symm ▸ rfl, rfl, rfl, rfl⟩

/-- `SplaySplayTree` on a tree with the right node count returns, and keeps
the entries, their order, the comparison, the count and the iterator. -/
theorem SplaySplayTree_total (s : SplayTreeInfo) (key : Nat) (hc : Counted s) :
    ∃ s1, SplaySplayTree s key = some s1 ∧ InOrder s1.root = InOrder s.root ∧
      s1.compare = s.compare ∧ s1.nodes = s.nodes ∧ s1.next = s.next ∧
      (s.balance = false → s1.balance = false) := by
  rcases SplaySplayTree_cases s key hc with ⟨-, h⟩ | ⟨s0, h, hb, hb0, hin, hcmp, hnodes, hnext⟩
  · exact ⟨s, h, rfl, rfl, rfl, rfl, fun x => x⟩
  · obtain ⟨g1, g2, g3, g4, g5⟩ := Splay_fields s0 key
    refine ⟨_, h, ?_, ?_, ?_, ?_, fun _ => hb⟩
    · show InOrder (Splay s0 key).root = _
      rw [g1, hin]
    · show (Splay s0 key).compare = _
      rw [g2, hcmp]
    · show (Splay s0 key).nodes = _
      rw [g3, hnodes]
    · show (Splay s0 key).next = _
      rw [g5, hnext]

theorem Counted_of_InOrder (s s1 : SplayTreeInfo) (hc : Counted s)
    (hin : InOrder s1.root = InOrder s.root) (hn : s1.nodes = s.nodes) : Counted s1 := by
  have := Size_of_InOrder hin
  exact ⟨by rw [hn, this]; exact hc.1, by rw [this]; exact hc.2⟩

/-- The root of an ordered tree whose key equals `key` is where the search for
`key` ends. -/
theorem RootSplits_of_equal {f : Nat → Nat → Int} (hf : TotalOrder f) {key : Nat} {t : NodeInfo}
    (ho : Ordered f t) (h : f t.key key = 0) : RootSplits f key t := by
  cases t with
  | null => trivial
  | node k v l r =>
    obtain ⟨-, -, hlk, hkr, -⟩ := Ordered_node.1 ho
    simp only [NodeInfo.key] at h
    exact ⟨Below_of_left hf (by omega) hlk,
      Above_of_right hf (by have := hf.zero_symm h; omega) hkr⟩

theorem CompareKeys_none_eq {a b : Nat} (h : CompareKeys none a b = 0) : a = b := by
  simp only [CompareKeys] at h
  split_ifs at h <;> omega

/-- `SplaySplayTree` on a sound tree: it returns a sound tree with the same
entries in the same order whose root is where the search for `key` ends. -/
theorem SplaySplayTree_sound (s : SplayTreeInfo) (key : Nat) (hs : Sound s) :
    ∃ s1, SplaySplayTree s key = some s1 ∧ Sound s1 ∧ InOrder s1.root = InOrder s.root ∧
      s1.compare = s.compare ∧ s1.nodes = s.nodes ∧ s1.next = s.next ∧
      RootSplits (CompareKeys s.compare) key s1.root := by
  rcases SplaySplayTree_cases s key hs.counted with
    ⟨hcase, h⟩ | ⟨s0, h, hb, hb0, hin, hcmp, hnodes, hnext⟩
  · refine ⟨s, h, hs, rfl, rfl, rfl, rfl, ?_⟩
    rcases hcase with hnull | ⟨hkey, hrem⟩
    · rw [hnull]; trivial
    · unfold CompareRemembered at hrem
      cases hcompare : s.compare with
      | some f =>
        rw [hcompare] at hrem
        have ho := hs.ordered
        have ht := hs.total
        rw [hcompare] at ho ht
        exact RootSplits_of_equal ht ho hrem
      | none =>
        rw [hcompare] at hrem
        have hk : s.key = key := by
          simp only at hrem
          split_ifs at hrem <;> omega
        have := hs.remembered hcompare hkey
        rw [hcompare, hk] at this
        exact this
  · obtain ⟨g1, g2, g3, g4, g5⟩ := Splay_fields s0 key
    have ht0 : TotalOrder (CompareKeys s0.compare) := by rw [hcmp]; exact hs.total
    have ho0 : Ordered (CompareKeys s0.compare) s0.root := by
      rw [hcmp]; exact Ordered_of_InOrder hin hs.ordered
    have hsplit := Splay_splits s0 key ht0 ho0 (hb0 hs.lowered) hb
    rw [hcmp] at hsplit
    have hin1 : InOrder (Splay s0 key).root = InOrder s.root := by rw [g1, hin]
    refine ⟨_, h, ?_, hin1, ?_, ?_, ?_, hsplit⟩
    · refine ⟨?_, ?_, ?_, hb, ?_⟩
      · show TotalOrder (CompareKeys (Splay s0 key).compare)
        rw [g2, hcmp]; exact hs.total
      · show Ordered (CompareKeys (Splay s0 key).compare) (Splay s0 key).root
        rw [g2, hcmp]; exact Ordered_of_InOrder hin1 hs.ordered
      · exact Counted_of_InOrder s { Splay s0 key with key := key } hs.counted hin1
          (by show (Splay s0 key).nodes = _; rw [g3, hnodes])
      · intro _ _
        show RootSplits (CompareKeys (Splay s0 key).compare) key (Splay s0 key).root
        rw [g2, hcmp]; exact hsplit
    · show (Splay s0 key).compare = _
      rw [g2, hcmp]
    · show (Splay s0 key).nodes = _
      rw [g3, hnodes]
    · show (Splay s0 key).next = _
      rw [g5, hnext]


/-! ## The splay tree: what the calls do to the entries -/

theorem Lookup_none {f : Nat → Nat → Int} {xs : List (Nat × Nat)} {key : Nat}
    (h : ∀ e ∈ xs, f e.1 key ≠ 0) : Lookup f xs key = 0 := by
  unfold Lookup
  rw [List.find?_eq_none.2 (fun e he => by simpa using h e he)]

theorem Lookup_append_of_none {f : Nat → Nat → Int} {xs ys : List (Nat × Nat)} {key : Nat}
    (h : ∀ e ∈ xs, f e.1 key ≠ 0) : Lookup f (xs ++ ys) key = Lookup f ys key := by
  unfold Lookup
  rw [List.find?_append, List.find?_eq_none.2 (fun e he => by simpa using h e he)]
  rfl

theorem Lookup_cons_hit {f : Nat → Nat → Int} {m : Nat × Nat} {ys : List (Nat × Nat)}
    {key : Nat} (h : f m.1 key = 0) : Lookup f (m :: ys) key = m.2 := by
  unfold Lookup
  rw [List.find?_cons_of_pos _ (by simpa using h)]

theorem Lookup_cons_skip {f : Nat → Nat → Int} {m : Nat × Nat} {ys : List (Nat × Nat)}
    {key : Nat} (h : f m.1 key ≠ 0) : Lookup f (m :: ys) key = Lookup f ys key := by
  unfold Lookup
  rw [List.find?_cons_of_neg _ (by simpa using h)]

/-- An entry whose key is not equal to `key` does not matter to the search. -/
theorem Lookup_skip {f : Nat → Nat → Int} {m : Nat × Nat} (xs ys : List (Nat × Nat)) {key : Nat}
    (h : f m.1 key ≠ 0) : Lookup f (xs ++ m :: ys) key = Lookup f (xs ++ ys) key := by
  induction xs with
  | nil => exact Lookup_cons_skip h
  | cons x xs ih =>
    by_cases hx : f x.1 key = 0
    · rw [List.cons_append, List.cons_append, Lookup_cons_hit hx, Lookup_cons_hit hx]
    · rw [List.cons_append, List.cons_append, Lookup_cons_skip hx, Lookup_cons_skip hx, ih]

/-- Among ordered entries the search finds each entry under its own key. -/
theorem Lookup_mem {f : Nat → Nat → Int} (hf : TotalOrder f) {xs : List (Nat × Nat)}
    (ho : xs.Pairwise fun a b => f a.1 b.1 < 0) {e : Nat × Nat} (he : e ∈ xs) :
    Lookup f xs e.1 = e.2 := by
  induction xs with
  | nil => cases he
  | cons x xs ih =>
    obtain ⟨hx, hxs⟩ := List.pairwise_cons.1 ho
    rcases List.mem_cons.1 he with h | h
    · rw [h]; exact Lookup_cons_hit (hf.refl _)
    · rw [Lookup_cons_skip (by have := hx e h; omega)]
      exact ih hxs h

/-- The entries of a tree whose root is where the search for `key` ends. -/
theorem Lookup_root {f : Nat → Nat → Int} {key k v : Nat} {l r : NodeInfo}
    (h : RootSplits f key (.node k v l r)) :
    Lookup f (InOrder (.node k v l r)) key = if f k key = 0 then v else 0 := by
  obtain ⟨hl, hr⟩ := h
  simp only [InOrder]
  rw [Lookup_append_of_none (fun e he => by have := hl e he; omega)]
  by_cases hk : f k key = 0
  · rw [if_pos hk, Lookup_cons_hit hk]
  · rw [if_neg hk, Lookup_cons_skip hk]
    exact Lookup_none (fun e he => by have := hr e he; omega)

theorem root_of_InOrder {t u : NodeInfo} (h : InOrder t = InOrder u) (hu : u ≠ .null) :
    ∃ k v l r, t = .node k v l r := by
  cases t with
  | null =>
    exfalso
    exact hu (InOrder_eq_nil.1 h.symm)
  | node k v l r => exact ⟨k, v, l, r, rfl⟩

/-- `GetValueFromSplayTree` on a sound tree returns the value stored under a
key equal to `key`, or `NULL`, and a sound tree with the same entries. -/
theorem GetValueFromSplayTree_spec (s : SplayTreeInfo) (key : Nat) (hs : Sound s) :
    ∃ s1, GetValueFromSplayTree s key =
        some (Lookup (CompareKeys s.compare) (InOrder s.root) key, s1) ∧
      Sound s1 ∧ InOrder s1.root = InOrder s.root ∧ s1.compare = s.compare ∧
      s1.nodes = s.nodes ∧ s1.next = s.next := by
  unfold GetValueFromSplayTree
  cases hroot : s.root with
  | null => exact ⟨s, rfl, hs, hroot.symm ▸ rfl, rfl, rfl, rfl⟩
  | node k0 v0 l0 r0 =>
    obtain ⟨s1, h1, hs1, hin, hcmp, hnodes, hnext, hsplit⟩ := SplaySplayTree_sound s key hs
    simp only [h1]
    obtain ⟨k, v, l, r, hr⟩ := root_of_InOrder hin (by rw [hroot]; simp)
    rw [hr] at hsplit
    have hlook := Lookup_root hsplit
    rw [← hr, hin, hroot] at hlook
    rw [hr]
    simp only [hcmp, hlook]
    by_cases hk : CompareKeys s.compare k key = 0
    · simp only [hk, ne_eq, not_true_eq_false, if_false, if_true]
      exact ⟨s1, rfl, hs1, by rw [← hroot]; exact hin, hcmp, hnodes, hnext⟩
    · simp only [hk, ne_eq, not_false_eq_true, if_true, if_false]
      exact ⟨s1, rfl, hs1, by rw [← hroot]; exact hin, hcmp, hnodes, hnext⟩


theorem Above_iff {f : Nat → Nat → Int} (hf : TotalOrder f) {key : Nat} {t : NodeInfo} :
    Above f key t ↔ ∀ e ∈ InOrder t, f key e.1 < 0 :=
  ⟨fun h e he => (hf.1 e.1 key).1 (h e he), fun h e he => (hf.1 e.1 key).2 (h e he)⟩

/-- The entries of a tree whose root is where the search for `key` ends and
does not hold a key equal to `key`: those with smaller keys, then those with
greater keys. -/
theorem root_parts {f : Nat → Nat → Int} {key k v : Nat} {l r : NodeInfo}
    (hsplit : RootSplits f key (.node k v l r)) (h0 : f k key ≠ 0) :
    ∃ L R, (∀ e ∈ L, f e.1 key < 0) ∧ (∀ e ∈ R, 0 < f e.1 key) ∧
      InOrder (.node k v l r) = L ++ R := by
  obtain ⟨hl, hr⟩ := hsplit
  by_cases hlt : f k key < 0
  · refine ⟨InOrder l ++ [(k, v)], InOrder r, ?_, hr, by simp [InOrder]⟩
    intro e he
    rcases List.mem_append.1 he with he | he
    · exact hl e he
    · rw [List.mem_singleton.1 he]; exact hlt
  · refine ⟨InOrder l, (k, v) :: InOrder r, hl, ?_, by simp [InOrder]⟩
    intro e he
    rcases List.mem_cons.1 he with he | he
    · rw [he]; show 0 < f k key; omega
    · exact hr e he

/-- `AddValueToSplayTree` on a sound tree. With `L` the entries of smaller and
`R` those of greater keys: an entry with an equal key is replaced and the count
stays; otherwise the entry is put between `L` and `R` and the count goes up by
one, or, when the node is not granted, nothing changes and the call returns
`WizardFalse`. -/
theorem AddValueToSplayTree_spec (s : SplayTreeInfo) (key value : Nat) (memory : Bool)
    (hs : Sound s) (hroom : Size s.root + 1 < 2 ^ 64) :
    ∃ b s2, AddValueToSplayTree s key value memory = some (b, s2) ∧ Sound s2 ∧
      s2.compare = s.compare ∧
      ∃ L R, (∀ e ∈ L, CompareKeys s.compare e.1 key < 0) ∧
        (∀ e ∈ R, 0 < CompareKeys s.compare e.1 key) ∧
        ((∃ k v, CompareKeys s.compare k key = 0 ∧ InOrder s.root = L ++ (k, v) :: R ∧
            InOrder s2.root = L ++ (key, value) :: R ∧ s2.nodes = s.nodes ∧ b = true) ∨
          (memory = true ∧ b = true ∧ InOrder s.root = L ++ R ∧
            InOrder s2.root = L ++ (key, value) :: R ∧ s2.nodes = s.nodes + 1) ∨
          (memory = false ∧ b = false ∧ InOrder s.root = L ++ R ∧
            InOrder s2.root = L ++ R ∧ s2.nodes = s.nodes)) := by
  obtain ⟨s1, h1, hs1, hin, hcmp, hnodes, hnext, hsplit⟩ := SplaySplayTree_sound s key hs
  have hf := hs.total
  have ho1 := hs1.ordered
  have hc1 := hs1.counted
  rw [hcmp] at ho1
  have hsize : Size s1.root = Size s.root := Size_of_InOrder hin
  have hcount : (s1.nodes + 1) % 2 ^ 64 = Size s.root + 1 := by
    rw [hc1.1, hsize]; omega
  unfold AddValueToSplayTree
  simp only [h1]
  cases hr : s1.root with
  | null =>
    rw [hr] at hin
    cases memory with
    | false =>
      simp only [if_true]
      exact ⟨false, s1, rfl, hs1, hcmp, [], [], by simp, by simp,
        Or.inr (Or.inr ⟨trivial, rfl, by rw [← hin]; rfl, by rw [hr]; rfl, hnodes⟩)⟩
    | true =>
      simp only [Bool.true_eq_false, if_false]
      refine ⟨true, _, rfl, ⟨?_, ?_, ?_, hs1.lowered, ?_⟩, hcmp, [], [], by simp, by simp,
        Or.inr (Or.inl ⟨trivial, rfl, ?_, rfl, ?_⟩)⟩
      · show TotalOrder (CompareKeys s1.compare)
        exact hs1.total
      · show Ordered (CompareKeys s1.compare) (.node key value .null .null)
        simp [Ordered, InOrder]
      · refine ⟨?_, ?_⟩
        · show (s1.nodes + 1) % 2 ^ 64 = Size (.node key value .null .null)
          rw [hcount, ← hsize, hr]; simp [Size]
        · show Size (.node key value .null .null) < 2 ^ 64
          simp [Size]
      · intro _ h; exact absurd rfl h
      · rw [← hin]; rfl
      · show (s1.nodes + 1) % 2 ^ 64 = s.nodes + 1
        rw [hcount, hs.counted.1]
  | node k v l r =>
    rw [hr] at hin hsplit ho1
    obtain ⟨hl, hrr⟩ := hsplit
    obtain ⟨hol, hor, hlk, hkr, hlr⟩ := Ordered_node.1 ho1
    have hrr1 := (Above_iff hf).1 hrr
    simp only [hcmp]
    by_cases h0 : CompareKeys s.compare k key = 0
    · simp only [h0, if_true]
      refine ⟨true, _, rfl, ⟨?_, ?_, ?_, hs1.lowered, ?_⟩, rfl, InOrder l, InOrder r, hl, hrr,
        Or.inl ⟨k, v, h0, hin.symm, rfl, hnodes, rfl⟩⟩
      · exact hf
      · show Ordered (CompareKeys s.compare) (.node key value l r)
        exact Ordered_node_of hf hol hor hl hrr1
      · refine ⟨?_, ?_⟩
        · show s1.nodes = Size (.node key value l r)
          rw [hc1.1, hr]; rfl
        · show Size (.node key value l r) < 2 ^ 64
          have := hc1.2
          rw [hr] at this
          exact this
      · intro hnone hkey
        have := hs1.remembered (hcmp.trans hnone) hkey
        rw [hr, hcmp] at this
        exact this
    · simp only [h0, if_false]
      have hsz : Size (.node k v l r) = Size s.root := by rw [← hr]; exact hsize
      simp only [Size] at hsz
      cases memory with
      | false =>
        simp only [if_true]
        obtain ⟨L, R, hL, hR, hLR⟩ := root_parts (show RootSplits (CompareKeys s.compare) key
          (.node k v l r) from ⟨hl, hrr⟩) h0
        refine ⟨false, s1, rfl, hs1, hcmp, L, R, hL, hR,
          Or.inr (Or.inr ⟨trivial, rfl, by rw [← hin]; exact hLR, by rw [hr]; exact hLR, hnodes⟩)⟩
      | true =>
      simp only [Bool.true_eq_false, if_false]
      by_cases hlt : CompareKeys s.compare k key < 0
      · simp only [hlt, if_true]
        refine ⟨true, _, rfl, ⟨?_, ?_, ?_, hs1.lowered, ?_⟩, rfl, InOrder l ++ [(k, v)],
          InOrder r, ?_, hrr, Or.inr (Or.inl ⟨trivial, rfl, ?_, ?_, ?_⟩)⟩
        · exact hf
        · show Ordered (CompareKeys s.compare) (.node key value (.node k v l .null) r)
          refine Ordered_node_of hf (Ordered_node_of hf hol (Ordered_null _) hlk
            (fun e he => by cases he)) hor ?_ hrr1
          intro e he
          simp only [InOrder, List.mem_append, List.mem_cons, List.append_nil] at he
          rcases he with he | he | he
          · exact hl e he
          · rw [he]; exact hlt
          · cases he
        · refine ⟨?_, ?_⟩
          · show (s1.nodes + 1) % 2 ^ 64 = Size (.node key value (.node k v l .null) r)
            rw [hcount]; simp only [Size]; omega
          · show Size (.node key value (.node k v l .null) r) < 2 ^ 64
            simp only [Size]; omega
        · intro _ h; exact absurd rfl h
        · intro e he
          rcases List.mem_append.1 he with he | he
          · exact hl e he
          · rw [List.mem_singleton.1 he]; exact hlt
        · rw [← hin]; simp [InOrder]
        · show InOrder (.node key value (.node k v l .null) r) = _
          simp [InOrder]
        · show (s1.nodes + 1) % 2 ^ 64 = s.nodes + 1
          rw [hcount, hs.counted.1]
      · simp only [hlt, if_false]
        have hgt : 0 < CompareKeys s.compare k key := by omega
        have hkk : CompareKeys s.compare key k < 0 := (hf.1 k key).1 hgt
        refine ⟨true, _, rfl, ⟨?_, ?_, ?_, hs1.lowered, ?_⟩, rfl, InOrder l,
          (k, v) :: InOrder r, hl, ?_, Or.inr (Or.inl ⟨trivial, rfl, ?_, ?_, ?_⟩)⟩
        · exact hf
        · show Ordered (CompareKeys s.compare) (.node key value l (.node k v .null r))
          refine Ordered_node_of hf hol (Ordered_node_of hf (Ordered_null _) hor
            (fun e he => by cases he) hkr) hl ?_
          intro e he
          simp only [InOrder, List.mem_append, List.mem_cons, List.nil_append] at he
          rcases he with he | he
          · rw [he]; exact hkk
          · exact hrr1 e he
        · refine ⟨?_, ?_⟩
          · show (s1.nodes + 1) % 2 ^ 64 = Size (.node key value l (.node k v .null r))
            rw [hcount]; simp only [Size]; omega
          · show Size (.node key value l (.node k v .null r)) < 2 ^ 64
            simp only [Size]; omega
        · intro _ h; exact absurd rfl h
        · intro e he
          rcases List.mem_cons.1 he with he | he
          · rw [he]; exact hgt
          · exact hrr e he
        · rw [← hin]; simp [InOrder]
        · show InOrder (.node key value l (.node k v .null r)) = _
          simp [InOrder]
        · show (s1.nodes + 1) % 2 ^ 64 = s.nodes + 1
          rw [hcount, hs.counted.1]

theorem LinkRightmost_InOrder (l r : NodeInfo) (hl : l ≠ .null) :
    InOrder (LinkRightmost l r) = InOrder l ++ InOrder r := by
  induction l with
  | null => exact absurd rfl hl
  | node k v ll lr _ ih =>
    cases lr with
    | null => simp [LinkRightmost, InOrder]
    | node rk rv rl rr =>
      simp only [LinkRightmost, InOrder] at ih ⊢
      rw [ih (by simp)]
      simp

theorem JoinSubtrees_InOrder (l r : NodeInfo) :
    InOrder (JoinSubtrees l r) = InOrder l ++ InOrder r := by
  unfold JoinSubtrees
  split
  · simp [InOrder]
  · simp [InOrder]
  · rename_i h1 h2
    exact LinkRightmost_InOrder l r (fun h => by simp_all)

theorem Ordered_append {f : Nat → Nat → Int} {l r : NodeInfo} {k v : Nat}
    (ho : Ordered f (.node k v l r)) : (InOrder l ++ InOrder r).Pairwise
      fun a b => f a.1 b.1 < 0 := by
  obtain ⟨hol, hor, -, -, hlr⟩ := Ordered_node.1 ho
  exact List.pairwise_append.2 ⟨hol, hor, hlr⟩

/-- `RemoveNodeFromSplayTree` on a sound tree: with an entry of equal key
stored it returns its value, takes exactly that entry out and lowers the count
by one; otherwise it returns `NULL` and keeps the entries. -/
theorem RemoveNodeFromSplayTree_spec (s : SplayTreeInfo) (key : Nat) (hs : Sound s) :
    ∃ value s2, RemoveNodeFromSplayTree s key = some (value, s2) ∧ Sound s2 ∧
      s2.compare = s.compare ∧
      ∃ L R, (∀ e ∈ L, CompareKeys s.compare e.1 key < 0) ∧
        (∀ e ∈ R, 0 < CompareKeys s.compare e.1 key) ∧
        ((∃ k, CompareKeys s.compare k key = 0 ∧ InOrder s.root = L ++ (k, value) :: R ∧
            InOrder s2.root = L ++ R ∧ s2.nodes + 1 = s.nodes) ∨
          (value = 0 ∧ InOrder s.root = L ++ R ∧ InOrder s2.root = L ++ R ∧
            s2.nodes = s.nodes)) := by
  unfold RemoveNodeFromSplayTree
  cases hroot : s.root with
  | null =>
    refine ⟨0, s, rfl, hs, rfl, [], [], by simp, by simp, Or.inr ⟨rfl, rfl, ?_, rfl⟩⟩
    rw [hroot]; rfl
  | node k0 v0 l0 r0 =>
    obtain ⟨s1, h1, hs1, hin, hcmp, hnodes, hnext, hsplit⟩ := SplaySplayTree_sound s key hs
    have hf := hs.total
    have ho1 := hs1.ordered
    have hc1 := hs1.counted
    rw [hcmp] at ho1
    simp only [h1]
    obtain ⟨k, v, l, r, hr⟩ := root_of_InOrder hin (by rw [hroot]; simp)
    rw [hr] at hsplit ho1
    rw [hr]
    simp only [hcmp]
    have hsound0 : Sound { s1 with key := 0 } :=
      ⟨hs1.total, hs1.ordered, hs1.counted, hs1.lowered, fun _ h => absurd rfl h⟩
    by_cases h0 : CompareKeys s.compare k key = 0
    · simp only [h0, ne_eq, not_true_eq_false, if_false]
      refine ⟨v, _, rfl, ⟨hf, ?_, ⟨?_, ?_⟩, hs1.lowered, fun _ h => absurd rfl h⟩, rfl,
        InOrder l, InOrder r, hsplit.1, hsplit.2,
        Or.inl ⟨k, h0, by rw [← hroot, ← hin, hr]; rfl, JoinSubtrees_InOrder l r, ?_⟩⟩
      · show Ordered (CompareKeys s.compare) (JoinSubtrees l r)
        unfold Ordered
        rw [JoinSubtrees_InOrder]
        exact Ordered_append ho1
      · show (s1.nodes + 2 ^ 64 - 1) % 2 ^ 64 = Size (JoinSubtrees l r)
        have e : Size (JoinSubtrees l r) + 1 = Size s1.root := by
          rw [Size_eq_length, Size_eq_length, JoinSubtrees_InOrder, hr]
          simp [InOrder]; omega
        have := hc1.2
        rw [hc1.1]
        omega
      · show Size (JoinSubtrees l r) < 2 ^ 64
        have e : Size (JoinSubtrees l r) + 1 = Size s1.root := by
          rw [Size_eq_length, Size_eq_length, JoinSubtrees_InOrder, hr]
          simp [InOrder]; omega
        have := hc1.2
        omega
      · show (s1.nodes + 2 ^ 64 - 1) % 2 ^ 64 + 1 = s.nodes
        have := hc1.2
        have e : 0 < Size s1.root := by rw [hr]; simp [Size]
        rw [← hnodes, hc1.1]
        omega
    · simp only [h0, ne_eq, not_false_eq_true, if_true]
      obtain ⟨L, R, hL, hR, hLR⟩ := root_parts hsplit h0
      have hin0 : InOrder s.root = L ++ R := by rw [← hin, hr]; exact hLR
      rw [hroot] at hin0
      refine ⟨0, _, rfl, ?_, rfl, L, R, hL, hR, Or.inr ⟨rfl, hin0, ?_, hnodes⟩⟩
      · have := hsound0
        rw [hr] at this
        simp only [hcmp] at this
        exact this
      · exact hLR

/-- `DeleteNodeFromSplayTree` on a sound tree: with an entry of equal key
stored it returns `WizardTrue`, takes exactly that entry out and lowers the
count by one; otherwise it returns `WizardFalse` and keeps the entries. -/
theorem DeleteNodeFromSplayTree_spec (s : SplayTreeInfo) (key : Nat) (hs : Sound s) :
    ∃ b s2, DeleteNodeFromSplayTree s key = some (b, s2) ∧ Sound s2 ∧
      s2.compare = s.compare ∧
      ∃ L R, (∀ e ∈ L, CompareKeys s.compare e.1 key < 0) ∧
        (∀ e ∈ R, 0 < CompareKeys s.compare e.1 key) ∧
        ((b = true ∧ ∃ k v, CompareKeys s.compare k key = 0 ∧
            InOrder s.root = L ++ (k, v) :: R ∧ InOrder s2.root = L ++ R ∧
            s2.nodes + 1 = s.nodes) ∨
          (b = false ∧ InOrder s.root = L ++ R ∧ InOrder s2.root = L ++ R ∧
            s2.nodes = s.nodes)) := by
  unfold DeleteNodeFromSplayTree
  cases hroot : s.root with
  | null =>
    refine ⟨false, s, rfl, hs, rfl, [], [], by simp, by simp, Or.inr ⟨rfl, rfl, ?_, rfl⟩⟩
    rw [hroot]; rfl
  | node k0 v0 l0 r0 =>
    obtain ⟨s1, h1, hs1, hin, hcmp, hnodes, hnext, hsplit⟩ := SplaySplayTree_sound s key hs
    have hf := hs.total
    have ho1 := hs1.ordered
    have hc1 := hs1.counted
    rw [hcmp] at ho1
    simp only [h1]
    obtain ⟨k, v, l, r, hr⟩ := root_of_InOrder hin (by rw [hroot]; simp)
    rw [hr] at hsplit ho1
    rw [hr]
    simp only [hcmp]
    have hsound0 : Sound { s1 with key := 0 } :=
      ⟨hs1.total, hs1.ordered, hs1.counted, hs1.lowered, fun _ h => absurd rfl h⟩
    by_cases h0 : CompareKeys s.compare k key = 0
    · simp only [h0, ne_eq, not_true_eq_false, if_false]
      refine ⟨true, _, rfl, ⟨hf, ?_, ⟨?_, ?_⟩, hs1.lowered, fun _ h => absurd rfl h⟩, rfl,
        InOrder l, InOrder r, hsplit.1, hsplit.2,
        Or.inl ⟨rfl, k, v, h0, by rw [← hroot, ← hin, hr]; rfl, JoinSubtrees_InOrder l r, ?_⟩⟩
      · show Ordered (CompareKeys s.compare) (JoinSubtrees l r)
        unfold Ordered
        rw [JoinSubtrees_InOrder]
        exact Ordered_append ho1
      · show (s1.nodes + 2 ^ 64 - 1) % 2 ^ 64 = Size (JoinSubtrees l r)
        have e : Size (JoinSubtrees l r) + 1 = Size s1.root := by
          rw [Size_eq_length, Size_eq_length, JoinSubtrees_InOrder, hr]
          simp [InOrder]; omega
        have := hc1.2
        rw [hc1.1]
        omega
      · show Size (JoinSubtrees l r) < 2 ^ 64
        have e : Size (JoinSubtrees l r) + 1 = Size s1.root := by
          rw [Size_eq_length, Size_eq_length, JoinSubtrees_InOrder, hr]
          simp [InOrder]; omega
        have := hc1.2
        omega
      · show (s1.nodes + 2 ^ 64 - 1) % 2 ^ 64 + 1 = s.nodes
        have := hc1.2
        have e : 0 < Size s1.root := by rw [hr]; simp [Size]
        rw [← hnodes, hc1.1]
        omega
    · simp only [h0, ne_eq, not_false_eq_true, if_true]
      obtain ⟨L, R, hL, hR, hLR⟩ := root_parts hsplit h0
      have hin0 : InOrder s.root = L ++ R := by rw [← hin, hr]; exact hLR
      rw [hroot] at hin0
      refine ⟨false, _, rfl, ?_, rfl, L, R, hL, hR, Or.inr ⟨rfl, hin0, ?_, hnodes⟩⟩
      · have := hsound0
        rw [hr] at this
        simp only [hcmp] at this
        exact this
      · exact hLR

/-- The key `LeftmostKey` ends at is the key of the first entry. -/
theorem LeftmostKey_eq (t : NodeInfo) :
    LeftmostKey t = ((InOrder t).head?.map Prod.fst).getD 0 := by
  induction t with
  | null => rfl
  | node k v l r ihl _ =>
    cases l with
    | null => simp [LeftmostKey, InOrder]
    | node lk lv ll lr =>
      rw [LeftmostKey, ihl]
      simp only [InOrder]
      cases InOrder ll <;> simp

/-- Two ways of cutting a list at an element that ends a run of elements with
a property are the same. -/
theorem split_unique {α : Type} {P : α → Prop} {a b : α} :
    ∀ {L1 L2 R1 R2 : List α}, (∀ x ∈ L1, P x) → (∀ x ∈ L2, P x) → ¬ P a → ¬ P b →
      L1 ++ a :: R1 = L2 ++ b :: R2 → L1 = L2 ∧ a = b ∧ R1 = R2 := by
  intro L1
  induction L1 with
  | nil =>
    intro L2 R1 R2 _ h2 ha hb h
    cases L2 with
    | nil =>
      simp only [List.nil_append, List.cons.injEq] at h
      exact ⟨rfl, h.1, h.2⟩
    | cons y L2 =>
      simp only [List.nil_append, List.cons_append, List.cons.injEq] at h
      exact absurd (h.1 ▸ h2 y (List.mem_cons_self _ _)) ha
  | cons x L1 ih =>
    intro L2 R1 R2 h1 h2 ha hb h
    cases L2 with
    | nil =>
      simp only [List.nil_append, List.cons_append, List.cons.injEq] at h
      exact absurd (h.1 ▸ h1 x (List.mem_cons_self _ _)) hb
    | cons y L2 =>
      simp only [List.cons_append, List.cons.injEq] at h
      obtain ⟨e1, e2, e3⟩ := ih (fun z hz => h1 z (List.mem_cons_of_mem _ hz))
        (fun z hz => h2 z (List.mem_cons_of_mem _ hz)) ha hb h.2
      exact ⟨by rw [h.1, e1], e2, e3⟩


/-- One step of the iteration on a sound tree whose iterator stands at the
entry `e`: both calls return what `e` holds, keep the entries and move the
iterator to the entry that follows. -/
theorem GetNext_spec (s : SplayTreeInfo) (hs : Sound s) (done rest : List (Nat × Nat))
    (e : Nat × Nat) (hin : InOrder s.root = done ++ e :: rest) (hnext : s.next = e.1)
    (hne : e.1 ≠ 0) :
    ∃ s2, GetNextKeyInSplayTree s = some (e.1, s2) ∧
      GetNextValueInSplayTree s = some (e.2, s2) ∧ Sound s2 ∧
      InOrder s2.root = InOrder s.root ∧ s2.compare = s.compare ∧
      s2.next = ((rest.head?).map Prod.fst).getD 0 := by
  obtain ⟨s1, h1, hs1, hin1, hcmp, hnodes, hnext1, hsplit⟩ :=
    SplaySplayTree_sound s s.next hs
  have hf := hs.total
  have hroot : s.root ≠ .null := by
    intro h
    rw [h] at hin
    simp [InOrder] at hin
  obtain ⟨k, v, l, r, hr⟩ := root_of_InOrder hin1 hroot
  rw [hr, hnext] at hsplit
  rw [hr, hin] at hin1
  obtain ⟨hl, hrr⟩ := hsplit
  have ho := hs.ordered
  unfold Ordered at ho
  rw [hin] at ho
  have hdone : ∀ x ∈ done, CompareKeys s.compare x.1 e.1 < 0 := by
    intro x hx
    exact (List.pairwise_append.1 ho).2.2 x hx e (List.mem_cons_self _ _)
  have hee : ¬ CompareKeys s.compare e.1 e.1 < 0 := by
    have := hf.refl e.1
    omega
  have hmem : e ∈ InOrder l ++ (k, v) :: InOrder r := by
    simp only [InOrder] at hin1
    rw [hin1]; simp
  have hkv : (k, v) = e := by
    rcases List.mem_append.1 hmem with h | h
    · exact absurd (hl e h) hee
    · rcases List.mem_cons.1 h with h | h
      · exact h.symm
      · have := hrr e h
        have := hf.refl e.1
        omega
  have hkk : ¬ CompareKeys s.compare (k, v).1 e.1 < 0 := by rw [hkv]; exact hee
  simp only [InOrder] at hin1
  obtain ⟨e1, e2, e3⟩ := split_unique
    (P := fun x : Nat × Nat => CompareKeys s.compare x.1 e.1 < 0)
    (show ∀ x ∈ InOrder l, CompareKeys s.compare x.1 e.1 < 0 from hl) hdone hkk hee hin1
  have hk : k = e.1 := by rw [← hkv]
  have hv : v = e.2 := by rw [← hkv]
  have hsound : Sound { s1 with next := LeftmostKey r } :=
    ⟨hs1.total, hs1.ordered, hs1.counted, hs1.lowered, hs1.remembered⟩
  refine ⟨{ s1 with next := LeftmostKey r }, ?_, ?_, hsound, ?_, hcmp, ?_⟩
  · unfold GetNextKeyInSplayTree
    cases hr0 : s.root with
    | null => exact absurd hr0 hroot
    | node a b c d =>
      simp only
      rw [if_neg (by rw [hnext]; exact hne), h1]
      simp only [hr, hk]
  · unfold GetNextValueInSplayTree
    cases hr0 : s.root with
    | null => exact absurd hr0 hroot
    | node a b c d =>
      simp only
      rw [if_neg (by rw [hnext]; exact hne), h1]
      simp only [hr, hv]
  · show InOrder s1.root = InOrder s.root
    rw [hr, hin]
    simp only [InOrder]
    exact hin1
  · show LeftmostKey r = _
    rw [LeftmostKey_eq, e3]

theorem GetNext_end (s : SplayTreeInfo) (h : s.root = .null ∨ s.next = 0) :
    GetNextKeyInSplayTree s = some (0, s) ∧ GetNextValueInSplayTree s = some (0, s) := by
  unfold GetNextKeyInSplayTree GetNextValueInSplayTree
  cases hr : s.root with
  | null => exact ⟨rfl, rfl⟩
  | node k v l r =>
    rcases h with h | h
    · rw [hr] at h; cases h
    · simp only [h, if_true]
      exact ⟨trivial, trivial⟩

/-- The iteration from an entry on: the calls return what the entries from
there on hold, in their order, and then `NULL`. -/
theorem NextKeys_from (rest : List (Nat × Nat)) :
    ∀ (done : List (Nat × Nat)) (s : SplayTreeInfo), Sound s → (∀ e ∈ rest, e.1 ≠ 0) →
      InOrder s.root = done ++ rest → s.next = ((rest.head?).map Prod.fst).getD 0 →
      NextKeys (rest.length + 1) s = some (rest.map Prod.fst ++ [0]) ∧
        NextValues (rest.length + 1) s = some (rest.map Prod.snd ++ [0]) := by
  induction rest with
  | nil =>
    intro done s _ _ _ hnext
    obtain ⟨h1, h2⟩ := GetNext_end s (Or.inr hnext)
    simp [NextKeys, NextValues, h1, h2]
  | cons e rest ih =>
    intro done s hs hkeys hin hnext
    obtain ⟨s2, h1, h2, hs2, hin2, -, hnext2⟩ :=
      GetNext_spec s hs done rest e hin hnext (hkeys e (List.mem_cons_self _ _))
    obtain ⟨g1, g2⟩ := ih (done ++ [e]) s2 hs2
      (fun x hx => hkeys x (List.mem_cons_of_mem _ hx))
      (by rw [hin2, hin]; simp) hnext2
    constructor
    · rw [List.length_cons, NextKeys, h1]
      simp only [g1]
      rfl
    · rw [List.length_cons, NextValues, h2]
      simp only [g2]
      rfl


/-! ## The splay tree: the node count along any sequence of calls -/

theorem JoinSubtrees_Size (l r : NodeInfo) : Size (JoinSubtrees l r) = Size l + Size r := by
  rw [Size_eq_length, Size_eq_length, Size_eq_length, JoinSubtrees_InOrder, List.length_append]

theorem AddValueToSplayTree_counted (s : SplayTreeInfo) (key value : Nat) (memory : Bool)
    (hc : Counted s) (hroom : Size s.root + 1 < 2 ^ 64) :
    ∃ b s2, AddValueToSplayTree s key value memory = some (b, s2) ∧ Counted s2 ∧
      s2.compare = s.compare ∧ Size s2.root ≤ Size s.root + 1 := by
  obtain ⟨s1, h1, hin, hcmp, hnodes, -, -⟩ := SplaySplayTree_total s key hc
  have hc1 := Counted_of_InOrder s s1 hc hin hnodes
  have hsize : Size s1.root = Size s.root := Size_of_InOrder hin
  have hcount : (s1.nodes + 1) % 2 ^ 64 = Size s.root + 1 := by
    rw [hc1.1, hsize]; omega
  unfold AddValueToSplayTree
  simp only [h1]
  cases hr : s1.root with
  | null =>
    rw [hr] at hsize
    cases memory with
    | false => exact ⟨false, s1, rfl, hc1, hcmp, by rw [hr]; omega⟩
    | true =>
      refine ⟨true, _, rfl, ⟨?_, ?_⟩, hcmp, ?_⟩
      · show (s1.nodes + 1) % 2 ^ 64 = Size (.node key value .null .null)
        rw [hcount, ← hsize]; rfl
      · show Size (.node key value .null .null) < 2 ^ 64
        simp [Size]
      · show Size (.node key value .null .null) ≤ _
        simp [Size]
  | node k v l r =>
    rw [hr] at hsize
    simp only [Size] at hsize
    by_cases h0 : CompareKeys s1.compare k key = 0
    · simp only [h0, if_true]
      refine ⟨true, _, rfl, ⟨?_, ?_⟩, hcmp, ?_⟩
      · show s1.nodes = Size (.node key value l r)
        rw [hc1.1, hr]; rfl
      · show Size (.node key value l r) < 2 ^ 64
        simp only [Size]; omega
      · show Size (.node key value l r) ≤ _
        simp only [Size]; omega
    · simp only [h0, if_false]
      cases memory with
      | false => exact ⟨false, s1, rfl, hc1, hcmp, by rw [hr]; simp only [Size]; omega⟩
      | true =>
        simp only [Bool.true_eq_false, if_false]
        by_cases hlt : CompareKeys s1.compare k key < 0
        · simp only [hlt, if_true]
          refine ⟨true, _, rfl, ⟨?_, ?_⟩, hcmp, ?_⟩
          · show (s1.nodes + 1) % 2 ^ 64 = Size (.node key value (.node k v l .null) r)
            rw [hcount]; simp only [Size]; omega
          · show Size (.node key value (.node k v l .null) r) < 2 ^ 64
            simp only [Size]; omega
          · show Size (.node key value (.node k v l .null) r) ≤ _
            simp only [Size]; omega
        · simp only [hlt, if_false]
          refine ⟨true, _, rfl, ⟨?_, ?_⟩, hcmp, ?_⟩
          · show (s1.nodes + 1) % 2 ^ 64 = Size (.node key value l (.node k v .null r))
            rw [hcount]; simp only [Size]; omega
          · show Size (.node key value l (.node k v .null r)) < 2 ^ 64
            simp only [Size]; omega
          · show Size (.node key value l (.node k v .null r)) ≤ _
            simp only [Size]; omega

theorem RemoveNodeFromSplayTree_counted (s : SplayTreeInfo) (key : Nat) (hc : Counted s) :
    ∃ v s2, RemoveNodeFromSplayTree s key = some (v, s2) ∧ Counted s2 ∧
      s2.compare = s.compare ∧ Size s2.root ≤ Size s.root := by
  unfold RemoveNodeFromSplayTree
  cases hroot : s.root with
  | null => exact ⟨0, s, rfl, hc, rfl, by rw [hroot]⟩
  | node k0 v0 l0 r0 =>
    obtain ⟨s1, h1, hin, hcmp, hnodes, -, -⟩ := SplaySplayTree_total s key hc
    have hc1 := Counted_of_InOrder s s1 hc hin hnodes
    have hsize : Size s1.root = Size s.root := Size_of_InOrder hin
    rw [hroot] at hsize
    simp only [h1]
    cases hr : s1.root with
    | null =>
      obtain ⟨k, v, l, r, h⟩ := root_of_InOrder hin (by rw [hroot]; simp)
      rw [h] at hr
      cases hr
    | node k v l r =>
      simp only
      by_cases h0 : CompareKeys s1.compare k key = 0
      · simp only [h0, ne_eq, not_true_eq_false, if_false]
        have hj := JoinSubtrees_Size l r
        have h2 := hc1.2
        have h3 := hc1.1
        rw [hr] at h2 h3 hsize
        simp only [Size] at h2 h3 hsize
        refine ⟨v, _, rfl, ⟨?_, ?_⟩, hcmp, ?_⟩
        · show (s1.nodes + 2 ^ 64 - 1) % 2 ^ 64 = Size (JoinSubtrees l r)
          omega
        · show Size (JoinSubtrees l r) < 2 ^ 64
          omega
        · show Size (JoinSubtrees l r) ≤ _
          simp only [Size]
          omega
      · simp only [h0, ne_eq, not_false_eq_true, if_true]
        have hc2 := hc1
        rw [Counted, hr] at hc2
        rw [hr] at hsize
        exact ⟨0, _, rfl, hc2, hcmp, le_of_eq hsize⟩

theorem DeleteNodeFromSplayTree_counted (s : SplayTreeInfo) (key : Nat) (hc : Counted s) :
    ∃ b s2, DeleteNodeFromSplayTree s key = some (b, s2) ∧ Counted s2 ∧
      s2.compare = s.compare ∧ Size s2.root ≤ Size s.root := by
  unfold DeleteNodeFromSplayTree
  cases hroot : s.root with
  | null => exact ⟨false, s, rfl, hc, rfl, by rw [hroot]⟩
  | node k0 v0 l0 r0 =>
    obtain ⟨s1, h1, hin, hcmp, hnodes, -, -⟩ := SplaySplayTree_total s key hc
    have hc1 := Counted_of_InOrder s s1 hc hin hnodes
    have hsize : Size s1.root = Size s.root := Size_of_InOrder hin
    rw [hroot] at hsize
    simp only [h1]
    cases hr : s1.root with
    | null =>
      obtain ⟨k, v, l, r, h⟩ := root_of_InOrder hin (by rw [hroot]; simp)
      rw [h] at hr
      cases hr
    | node k v l r =>
      simp only
      by_cases h0 : CompareKeys s1.compare k key = 0
      · simp only [h0, ne_eq, not_true_eq_false, if_false]
        have hj := JoinSubtrees_Size l r
        have h2 := hc1.2
        have h3 := hc1.1
        rw [hr] at h2 h3 hsize
        simp only [Size] at h2 h3 hsize
        refine ⟨true, _, rfl, ⟨?_, ?_⟩, hcmp, ?_⟩
        · show (s1.nodes + 2 ^ 64 - 1) % 2 ^ 64 = Size (JoinSubtrees l r)
          omega
        · show Size (JoinSubtrees l r) < 2 ^ 64
          omega
        · show Size (JoinSubtrees l r) ≤ _
          simp only [Size]
          omega
      · simp only [h0, ne_eq, not_false_eq_true, if_true]
        have hc2 := hc1
        rw [Counted, hr] at hc2
        rw [hr] at hsize
        exact ⟨false, _, rfl, hc2, hcmp, le_of_eq hsize⟩

theorem GetValueFromSplayTree_counted (s : SplayTreeInfo) (key : Nat) (hc : Counted s) :
    ∃ v s2, GetValueFromSplayTree s key = some (v, s2) ∧ Counted s2 ∧
      s2.compare = s.compare ∧ Size s2.root ≤ Size s.root := by
  unfold GetValueFromSplayTree
  cases hroot : s.root with
  | null => exact ⟨0, s, rfl, hc, rfl, by rw [hroot]⟩
  | node k0 v0 l0 r0 =>
    obtain ⟨s1, h1, hin, hcmp, hnodes, -, -⟩ := SplaySplayTree_total s key hc
    have hc1 := Counted_of_InOrder s s1 hc hin hnodes
    have hsize : Size s1.root = Size s.root := Size_of_InOrder hin
    rw [hroot] at hsize
    simp only [h1]
    cases hr : s1.root with
    | null =>
      obtain ⟨k, v, l, r, h⟩ := root_of_InOrder hin (by rw [hroot]; simp)
      rw [h] at hr
      cases hr
    | node k v l r =>
      simp only
      by_cases h0 : CompareKeys s1.compare k key = 0
      · simp only [h0, ne_eq, not_true_eq_false, if_false]
        exact ⟨v, _, rfl, hc1, hcmp, le_of_eq hsize⟩
      · simp only [h0, ne_eq, not_false_eq_true, if_true]
        exact ⟨0, _, rfl, hc1, hcmp, le_of_eq hsize⟩

theorem GetNext_counted (s : SplayTreeInfo) (hc : Counted s) :
    (∃ v s2, GetNextKeyInSplayTree s = some (v, s2) ∧ Counted s2 ∧
      s2.compare = s.compare ∧ Size s2.root ≤ Size s.root) ∧
    ∃ v s2, GetNextValueInSplayTree s = some (v, s2) ∧ Counted s2 ∧
      s2.compare = s.compare ∧ Size s2.root ≤ Size s.root := by
  unfold GetNextKeyInSplayTree GetNextValueInSplayTree
  cases hroot : s.root with
  | null => exact ⟨⟨0, s, rfl, hc, rfl, by rw [hroot]⟩, ⟨0, s, rfl, hc, rfl, by rw [hroot]⟩⟩
  | node k0 v0 l0 r0 =>
    simp only
    by_cases hn : s.next = 0
    · simp only [hn, if_true]
      exact ⟨⟨0, s, rfl, hc, rfl, by rw [hroot]⟩, ⟨0, s, rfl, hc, rfl, by rw [hroot]⟩⟩
    · simp only [hn, if_false]
      obtain ⟨s1, h1, hin, hcmp, hnodes, -, -⟩ := SplaySplayTree_total s s.next hc
      have hc1 := Counted_of_InOrder s s1 hc hin hnodes
      obtain ⟨k, v, l, r, hr⟩ := root_of_InOrder hin (by rw [hroot]; simp)
      have hsize : Size s1.root = Size s.root := Size_of_InOrder hin
      rw [hroot] at hsize
      simp only [h1, hr]
      have hc2 : Counted { s1 with next := LeftmostKey r } := hc1
      rw [hr] at hc2 hsize
      exact ⟨⟨k, _, rfl, hc2, hcmp, le_of_eq hsize⟩, ⟨v, _, rfl, hc2, hcmp, le_of_eq hsize⟩⟩

/-- Every call returns on a tree with the right node count and leaves the
count right; the tree grows by one node at most. -/
theorem Serve_counted (s : SplayTreeInfo) (c : Request) (hc : Counted s)
    (hroom : Size s.root + 1 < 2 ^ 64) :
    ∃ s2, Serve s c = some s2 ∧ Counted s2 ∧ s2.compare = s.compare ∧
      Size s2.root ≤ Size s.root + 1 := by
  cases c with
  | add key value memory =>
    obtain ⟨b, s2, h, h1, h2, h3⟩ := AddValueToSplayTree_counted s key value memory hc hroom
    exact ⟨s2, by simp [Serve, h], h1, h2, h3⟩
  | delete key =>
    obtain ⟨b, s2, h, h1, h2, h3⟩ := DeleteNodeFromSplayTree_counted s key hc
    exact ⟨s2, by simp [Serve, h], h1, h2, by omega⟩
  | remove key =>
    obtain ⟨b, s2, h, h1, h2, h3⟩ := RemoveNodeFromSplayTree_counted s key hc
    exact ⟨s2, by simp [Serve, h], h1, h2, by omega⟩
  | get key =>
    obtain ⟨b, s2, h, h1, h2, h3⟩ := GetValueFromSplayTree_counted s key hc
    exact ⟨s2, by simp [Serve, h], h1, h2, by omega⟩
  | reset =>
    exact ⟨ResetSplayTree s, rfl, ⟨rfl, by simp [ResetSplayTree, Size]⟩, rfl,
      by simp [ResetSplayTree, Size]⟩
  | resetIterator =>
    exact ⟨ResetSplayTreeIterator s, rfl, hc, rfl, by simp [ResetSplayTreeIterator]⟩
  | nextKey =>
    obtain ⟨b, s2, h, h1, h2, h3⟩ := (GetNext_counted s hc).1
    exact ⟨s2, by simp [Serve, h], h1, h2, by omega⟩
  | nextValue =>
    obtain ⟨b, s2, h, h1, h2, h3⟩ := (GetNext_counted s hc).2
    exact ⟨s2, by simp [Serve, h], h1, h2, by omega⟩

theorem ServeAll_counted (cs : List Request) :
    ∀ s : SplayTreeInfo, Counted s → Size s.root + cs.length < 2 ^ 64 →
      ∃ s2, ServeAll cs s = some s2 ∧ Counted s2 ∧ s2.compare = s.compare := by
  induction cs with
  | nil => intro s hc _; exact ⟨s, rfl, hc, rfl⟩
  | cons c cs ih =>
    intro s hc hlen
    simp only [List.length_cons] at hlen
    obtain ⟨s1, h1, hc1, hcmp1, hsz⟩ := Serve_counted s c hc (by omega)
    obtain ⟨s2, h2, hc2, hcmp2⟩ := ih s1 hc1 (by omega)
    exact ⟨s2, by simp [ServeAll, h1, h2], hc2, by rw [hcmp2, hcmp1]⟩


/-! ## The splay tree: soundness along any sequence of calls -/

theorem GetNext_sound (s : SplayTreeInfo) (hs : Sound s) :
    (∃ v s2, GetNextKeyInSplayTree s = some (v, s2) ∧ Sound s2 ∧ s2.compare = s.compare ∧
      InOrder s2.root = InOrder s.root) ∧
    ∃ v s2, GetNextValueInSplayTree s = some (v, s2) ∧ Sound s2 ∧ s2.compare = s.compare ∧
      InOrder s2.root = InOrder s.root := by
  unfold GetNextKeyInSplayTree GetNextValueInSplayTree
  cases hroot : s.root with
  | null =>
    exact ⟨⟨0, s, rfl, hs, rfl, by rw [hroot]⟩, ⟨0, s, rfl, hs, rfl, by rw [hroot]⟩⟩
  | node k0 v0 l0 r0 =>
    simp only
    by_cases hn : s.next = 0
    · simp only [hn, if_true]
      exact ⟨⟨0, s, rfl, hs, rfl, by rw [hroot]⟩, ⟨0, s, rfl, hs, rfl, by rw [hroot]⟩⟩
    · simp only [hn, if_false]
      obtain ⟨s1, h1, hs1, hin, hcmp, -, -, -⟩ := SplaySplayTree_sound s s.next hs
      obtain ⟨k, v, l, r, hr⟩ := root_of_InOrder hin (by rw [hroot]; simp)
      rw [hroot] at hin
      simp only [h1, hr]
      have hs2 : Sound { s1 with next := LeftmostKey r } :=
        ⟨hs1.total, hs1.ordered, hs1.counted, hs1.lowered, hs1.remembered⟩
      rw [hr] at hin hs2
      exact ⟨⟨k, _, rfl, hs2, hcmp, hin⟩, ⟨v, _, rfl, hs2, hcmp, hin⟩⟩

theorem ResetSplayTree_sound (s : SplayTreeInfo) (hs : Sound s) : Sound (ResetSplayTree s) :=
  ⟨hs.total, Ordered_null _, ⟨rfl, by simp [ResetSplayTree, Size]⟩, rfl,
    fun _ h => absurd rfl h⟩

theorem ResetSplayTreeIterator_sound (s : SplayTreeInfo) (hs : Sound s) :
    Sound (ResetSplayTreeIterator s) :=
  ⟨hs.total, hs.ordered, hs.counted, hs.lowered, hs.remembered⟩

theorem NewSplayTree_sound (compare : Option (Nat → Nat → Int))
    (hf : TotalOrder (CompareKeys compare)) : Sound (NewSplayTree compare) :=
  ⟨hf, Ordered_null _, ⟨rfl, by simp [NewSplayTree, Size]⟩, rfl, fun _ h => absurd rfl h⟩

/-- Every call keeps a sound tree sound. -/
theorem Serve_sound (s : SplayTreeInfo) (c : Request) (hs : Sound s)
    (hroom : Size s.root + 1 < 2 ^ 64) :
    ∃ s2, Serve s c = some s2 ∧ Sound s2 ∧ s2.compare = s.compare ∧
      Size s2.root ≤ Size s.root + 1 := by
  obtain ⟨s3, h3, -, -, hsz⟩ := Serve_counted s c hs.counted hroom
  refine ⟨s3, h3, ?_, ?_⟩
  all_goals
    cases c with
    | add key value memory =>
      obtain ⟨b, s2, h, h1, h2, -⟩ := AddValueToSplayTree_spec s key value memory hs hroom
      simp only [Serve, h, Option.map_some', Option.some.injEq] at h3
      subst h3
      first | exact h1 | exact ⟨h2, hsz⟩
    | delete key =>
      obtain ⟨b, s2, h, h1, h2, -⟩ := DeleteNodeFromSplayTree_spec s key hs
      simp only [Serve, h, Option.map_some', Option.some.injEq] at h3
      subst h3
      first | exact h1 | exact ⟨h2, hsz⟩
    | remove key =>
      obtain ⟨b, s2, h, h1, h2, -⟩ := RemoveNodeFromSplayTree_spec s key hs
      simp only [Serve, h, Option.map_some', Option.some.injEq] at h3
      subst h3
      first | exact h1 | exact ⟨h2, hsz⟩
    | get key =>
      obtain ⟨s2, h, h1, -, h2, -⟩ := GetValueFromSplayTree_spec s key hs
      simp only [Serve, h, Option.map_some', Option.some.injEq] at h3
      subst h3
      first | exact h1 | exact ⟨h2, hsz⟩
    | reset =>
      simp only [Serve, Option.some.injEq] at h3
      subst h3
      first | exact ResetSplayTree_sound s hs | exact ⟨rfl, hsz⟩
    | resetIterator =>
      simp only [Serve, Option.some.injEq] at h3
      subst h3
      first | exact ResetSplayTreeIterator_sound s hs | exact ⟨rfl, hsz⟩
    | nextKey =>
      obtain ⟨v, s2, h, h1, h2, -⟩ := (GetNext_sound s hs).1
      simp only [Serve, h, Option.map_some', Option.some.injEq] at h3
      subst h3
      first | exact h1 | exact ⟨h2, hsz⟩
    | nextValue =>
      obtain ⟨v, s2, h, h1, h2, -⟩ := (GetNext_sound s hs).2
      simp only [Serve, h, Option.map_some', Option.some.injEq] at h3
      subst h3
      first | exact h1 | exact ⟨h2, hsz⟩

/-- A sequence of calls keeps a sound tree sound. -/
theorem ServeAll_sound (cs : List Request) :
    ∀ s : SplayTreeInfo, Sound s → Size s.root + cs.length < 2 ^ 64 →
      ∃ s2, ServeAll cs s = some s2 ∧ Sound s2 ∧ s2.compare = s.compare ∧
        Size s2.root ≤ Size s.root + cs.length := by
  induction cs with
  | nil => intro s hs _; exact ⟨s, rfl, hs, rfl, by simp⟩
  | cons c cs ih =>
    intro s hs hlen
    simp only [List.length_cons] at hlen ⊢
    obtain ⟨s1, h1, hs1, hcmp1, hsz⟩ := Serve_sound s c hs (by omega)
    obtain ⟨s2, h2, hs2, hcmp2, hsz2⟩ := ih s1 hs1 (by omega)
    exact ⟨s2, by simp [ServeAll, h1, h2], hs2, by rw [hcmp2, hcmp1], by omega⟩


/-! ## The splay tree as a finite map -/

/-- The search among ordered entries cut at `key`, for a key `k`. -/
theorem Lookup_parts {f : Nat → Nat → Int} (hf : TotalOrder f) {key k : Nat}
    {L R : List (Nat × Nat)} (hL : ∀ e ∈ L, f e.1 key < 0) (hR : ∀ e ∈ R, 0 < f e.1 key) :
    (f key k = 0 → ∀ m : Nat × Nat, f m.1 key = 0 → Lookup f (L ++ m :: R) k = m.2) ∧
      (f key k = 0 → Lookup f (L ++ R) k = 0) ∧
      (f key k ≠ 0 → ∀ m : Nat × Nat, f m.1 key = 0 →
        Lookup f (L ++ m :: R) k = Lookup f (L ++ R) k) := by
  refine ⟨?_, ?_, ?_⟩
  · intro hk m hm
    have hLk : ∀ e ∈ L, f e.1 k ≠ 0 := fun e he => by
      have := (hf.congr_right hk e.1).1.1 (hL e he)
      omega
    rw [Lookup_append_of_none hLk]
    exact Lookup_cons_hit ((hf.congr_right hk m.1).2.1.1 hm)
  · intro hk
    apply Lookup_none
    intro e he
    rcases List.mem_append.1 he with h | h
    · have := (hf.congr_right hk e.1).1.1 (hL e h)
      omega
    · have := (hf.congr_right hk e.1).2.2.1 (hR e h)
      omega
  · intro hk m hm
    apply Lookup_skip
    intro h
    exact hk ((hf.congr_left hm k).2.1.1 h)

/-- What one storing or deleting call does to the search for any key. -/
theorem Serve_update (s : SplayTreeInfo) (u : Update) (hs : Sound s)
    (hroom : Size s.root + 1 < 2 ^ 64) :
    ∃ s2, Serve s u.request = some s2 ∧ Sound s2 ∧ s2.compare = s.compare ∧
      Size s2.root ≤ Size s.root + 1 ∧
      ∀ k, Lookup (CompareKeys s.compare) (InOrder s2.root) k =
        match u with
        | .add key value => if CompareKeys s.compare key k = 0 then value
            else Lookup (CompareKeys s.compare) (InOrder s.root) k
        | .delete key => if CompareKeys s.compare key k = 0 then 0
            else Lookup (CompareKeys s.compare) (InOrder s.root) k := by
  have hf := hs.total
  obtain ⟨s3, h3, hs3, hcmp3, hsz⟩ := Serve_sound s u.request hs hroom
  refine ⟨s3, h3, hs3, hcmp3, hsz, ?_⟩
  intro k
  cases u with
  | add key value =>
    obtain ⟨b, s2, h, -, -, L, R, hL, hR, hcase⟩ :=
      AddValueToSplayTree_spec s key value true hs hroom
    simp only [Update.request, Serve, h, Option.map_some', Option.some.injEq] at h3
    subst h3
    obtain ⟨p1, p2, p3⟩ := Lookup_parts (k := k) hf hL hR
    simp only
    by_cases hk : CompareKeys s.compare key k = 0
    · simp only [hk, if_true]
      rcases hcase with ⟨k0, v0, -, -, hin2, -, -⟩ | ⟨-, -, -, hin2, -⟩ | ⟨hm, -, -, -, -⟩
      · rw [hin2]; exact p1 hk (key, value) (hf.refl key)
      · rw [hin2]; exact p1 hk (key, value) (hf.refl key)
      · cases hm
    · simp only [hk, if_false]
      rcases hcase with ⟨k0, v0, h0, hin, hin2, -, -⟩ | ⟨-, -, hin, hin2, -⟩ | ⟨hm, -, -, -, -⟩
      · rw [hin2, hin, p3 hk (key, value) (hf.refl key), p3 hk (k0, v0) h0]
      · rw [hin2, hin, p3 hk (key, value) (hf.refl key)]
      · cases hm
  | delete key =>
    obtain ⟨b, s2, h, -, -, L, R, hL, hR, hcase⟩ := DeleteNodeFromSplayTree_spec s key hs
    simp only [Update.request, Serve, h, Option.map_some', Option.some.injEq] at h3
    subst h3
    obtain ⟨p1, p2, p3⟩ := Lookup_parts (k := k) hf hL hR
    simp only
    by_cases hk : CompareKeys s.compare key k = 0
    · simp only [hk, if_true]
      rcases hcase with ⟨-, k0, v0, -, -, hin2, -⟩ | ⟨-, -, hin2, -⟩
      · rw [hin2]; exact p2 hk
      · rw [hin2]; exact p2 hk
    · simp only [hk, if_false]
      rcases hcase with ⟨-, k0, v0, h0, hin, hin2, -⟩ | ⟨-, hin, hin2, -⟩
      · rw [hin2, hin, p3 hk (k0, v0) h0]
      · rw [hin2, hin]

/-- Along a sequence of storing and deleting calls the search in the tree
agrees with the finite map read off the calls. -/
theorem ServeAll_updates (f : Nat → Nat → Int) (cs : List Update) :
    ∀ (earlier : List Update) (s : SplayTreeInfo), Sound s → CompareKeys s.compare = f →
      (∀ k, Lookup f (InOrder s.root) k = Recorded f earlier.reverse k) →
      Size s.root + cs.length < 2 ^ 64 →
      ∃ s2, ServeAll (cs.map Update.request) s = some s2 ∧ Sound s2 ∧
        CompareKeys s2.compare = f ∧
        ∀ k, Lookup f (InOrder s2.root) k = Recorded f (earlier ++ cs).reverse k := by
  induction cs with
  | nil =>
    intro earlier s hs hf hlook _
    exact ⟨s, rfl, hs, hf, by simpa using hlook⟩
  | cons u cs ih =>
    intro earlier s hs hf hlook hlen
    simp only [List.length_cons] at hlen
    obtain ⟨s1, h1, hs1, hcmp1, hsz, hstep⟩ := Serve_update s u hs (by omega)
    rw [hf] at hstep
    have hf1 : CompareKeys s1.compare = f := by rw [hcmp1]; exact hf
    obtain ⟨s2, h2, hs2, hf2, hlook2⟩ := ih (earlier ++ [u]) s1 hs1 hf1
      (by
        intro k
        rw [hstep k, List.reverse_append, List.reverse_singleton, List.singleton_append]
        cases u <;> simp only [Recorded, hlook k])
      (by omega)
    refine ⟨s2, by simp [ServeAll, h1, h2], hs2, hf2, ?_⟩
    intro k
    rw [hlook2 k, List.append_assoc, List.singleton_append]

/-- C23: under a comparison that orders the keys, after any sequence of
`AddValueToSplayTree` and `DeleteNodeFromSplayTree` calls on a new tree (fewer
than `2 ^ 64` of them, every node granted) the calls all return, and
`GetValueFromSplayTree` returns for every key the value most recently added
under an equal key if that key has not been deleted since, and `NULL`
otherwise. -/
theorem C23_finite_map (compare : Option (Nat → Nat → Int)) (calls : List Update) (key : Nat)
    (hf : TotalOrder (CompareKeys compare)) (hlen : calls.length < 2 ^ 64) :
    ∃ s s1, ServeAll (calls.map Update.request) (NewSplayTree compare) = some s ∧
      GetValueFromSplayTree s key =
        some (Recorded (CompareKeys compare) calls.reverse key, s1) := by
  obtain ⟨s, h, hs, hcmp, hlook⟩ := ServeAll_updates (CompareKeys compare) calls []
    (NewSplayTree compare) (NewSplayTree_sound compare hf) rfl (fun k => rfl)
    (by simpa [NewSplayTree, Size] using hlen)
  obtain ⟨s1, h1, -⟩ := GetValueFromSplayTree_spec s key hs
  rw [hcmp, hlook key, List.nil_append] at h1
  exact ⟨s, s1, h, h1⟩

/-- Witness for C23: two keys added, the first deleted and the second added
again with another value; the second key is looked up. -/
theorem C23_finite_map_witness :
    TotalOrder (CompareKeys (some CompareNumbers)) ∧
      [Update.add 1 10, .add 2 20, .delete 1, .add 2 21].length < 2 ^ 64 ∧
      Recorded (CompareKeys (some CompareNumbers))
        [Update.add 1 10, .add 2 20, .delete 1, .add 2 21].reverse 2 = 21 ∧
      ∃ s s1, ServeAll ([Update.add 1 10, .add 2 20, .delete 1, .add 2 21].map Update.request)
          (NewSplayTree (some CompareNumbers)) = some s ∧
        GetValueFromSplayTree s 2 =
          some (Recorded (CompareKeys (some CompareNumbers))
            [Update.add 1 10, .add 2 20, .delete 1, .add 2 21].reverse 2, s1) :=
  ⟨CompareNumbers_total, by decide, by decide,
    C23_finite_map (some CompareNumbers) [.add 1 10, .add 2 20, .delete 1, .add 2 21] 2
      CompareNumbers_total (by decide)⟩


theorem sampleTree_sound : Sound sampleTree := by
  refine ⟨CompareNumbers_total, ?_, ⟨rfl, by decide⟩, rfl, fun h => by cases h⟩
  simp [Ordered, sampleTree, InOrder, CompareKeys, CompareNumbers]

theorem filter_parts {f : Nat → Nat → Int} {key : Nat} {L R : List (Nat × Nat)}
    (hL : ∀ e ∈ L, f e.1 key < 0) (hR : ∀ e ∈ R, 0 < f e.1 key) :
    (L ++ R).filter (fun e => decide (f e.1 key ≠ 0)) = L ++ R := by
  apply List.filter_eq_self.2
  intro e he
  rcases List.mem_append.1 he with h | h
  · have := hL e h
    simp only [ne_eq, decide_not, Bool.not_eq_true', decide_eq_false_iff_not]
    omega
  · have := hR e h
    simp only [ne_eq, decide_not, Bool.not_eq_true', decide_eq_false_iff_not]
    omega

theorem filter_parts_cons {f : Nat → Nat → Int} {key : Nat} {L R : List (Nat × Nat)}
    {m : Nat × Nat} (hL : ∀ e ∈ L, f e.1 key < 0) (hR : ∀ e ∈ R, 0 < f e.1 key)
    (hm : f m.1 key = 0) :
    (L ++ m :: R).filter (fun e => decide (f e.1 key ≠ 0)) = L ++ R := by
  have h1 := filter_parts hL (fun e (he : e ∈ ([] : List (Nat × Nat))) => by cases he)
  have h2 := filter_parts (fun e (he : e ∈ ([] : List (Nat × Nat))) => by cases he) hR
  simp only [List.append_nil, List.nil_append] at h1 h2
  rw [List.filter_append, h1, List.filter_cons_of_neg (by simpa using hm), h2]

/-- C24: on every sound tree `DeleteNodeFromSplayTree` returns, with
`WizardTrue` exactly when a key equal to `key` is stored; the entries it
leaves are the stored ones without those of a key equal to `key`, in their
order (one entry less when it returns `WizardTrue`, the same entries when it
returns `WizardFalse`); and every entry of another key is returned by
`GetValueFromSplayTree` afterwards. -/
theorem C24_delete_removes_exactly (s : SplayTreeInfo) (key : Nat) (hs : Sound s) :
    ∃ b s2, DeleteNodeFromSplayTree s key = some (b, s2) ∧
      (b = true ↔ ∃ e ∈ InOrder s.root, CompareKeys s.compare e.1 key = 0) ∧
      InOrder s2.root =
        (InOrder s.root).filter (fun e => decide (CompareKeys s.compare e.1 key ≠ 0)) ∧
      (b = true → (InOrder s2.root).length + 1 = (InOrder s.root).length) ∧
      (b = false → InOrder s2.root = InOrder s.root) ∧
      ∀ e ∈ InOrder s.root, CompareKeys s.compare e.1 key ≠ 0 →
        ∃ s3, GetValueFromSplayTree s2 e.1 = some (e.2, s3) := by
  obtain ⟨b, s2, h, hs2, hcmp, L, R, hL, hR, hcase⟩ := DeleteNodeFromSplayTree_spec s key hs
  have hne : ∀ e ∈ L ++ R, CompareKeys s.compare e.1 key ≠ 0 := by
    intro e he
    rcases List.mem_append.1 he with h | h
    · have := hL e h; omega
    · have := hR e h; omega
  have hget : ∀ e ∈ InOrder s2.root, ∃ s3, GetValueFromSplayTree s2 e.1 = some (e.2, s3) := by
    intro e he
    obtain ⟨s3, h3, -⟩ := GetValueFromSplayTree_spec s2 e.1 hs2
    rw [Lookup_mem hs2.total hs2.ordered he] at h3
    exact ⟨s3, h3⟩
  refine ⟨b, s2, h, ?_⟩
  rcases hcase with ⟨hb, k0, v0, h0, hin, hin2, hn⟩ | ⟨hb, hin, hin2, hn⟩
  · refine ⟨?_, ?_, ?_, ?_, ?_⟩
    · exact ⟨fun _ => ⟨(k0, v0), by rw [hin]; simp, h0⟩, fun _ => hb⟩
    · rw [hin, hin2]
      exact (filter_parts_cons hL hR h0).symm
    · intro _
      rw [hin, hin2]
      simp only [List.length_append, List.length_cons]
      omega
    · intro hf
      rw [hb] at hf
      cases hf
    · intro e he hek
      apply hget
      rw [hin2]
      rw [hin] at he
      rcases List.mem_append.1 he with h | h
      · exact List.mem_append_left _ h
      · rcases List.mem_cons.1 h with h | h
        · rw [h] at hek
          exact absurd h0 hek
        · exact List.mem_append_right _ h
  · refine ⟨?_, ?_, ?_, ?_, ?_⟩
    · constructor
      · intro hf
        rw [hb] at hf
        cases hf
      · rintro ⟨e, he, hek⟩
        rw [hin] at he
        exact absurd hek (hne e he)
    · rw [hin, hin2]
      exact (filter_parts hL hR).symm
    · intro hf
      rw [hb] at hf
      cases hf
    · intro _
      rw [hin, hin2]
    · intro e he _
      apply hget
      rw [hin2, ← hin]
      exact he

/-- Witness for C24: the key 10 deleted from the three entries of `sampleTree`. -/
theorem C24_delete_removes_exactly_witness :
    Sound sampleTree ∧
      ∃ b s2, DeleteNodeFromSplayTree sampleTree 10 = some (b, s2) ∧
        (b = true ↔ ∃ e ∈ InOrder sampleTree.root,
          CompareKeys sampleTree.compare e.1 10 = 0) ∧
        InOrder s2.root = (InOrder sampleTree.root).filter
          (fun e => decide (CompareKeys sampleTree.compare e.1 10 ≠ 0)) ∧
        (b = true → (InOrder s2.root).length + 1 = (InOrder sampleTree.root).length) ∧
        (b = false → InOrder s2.root = InOrder sampleTree.root) ∧
        ∀ e ∈ InOrder sampleTree.root, CompareKeys sampleTree.compare e.1 10 ≠ 0 →
          ∃ s3, GetValueFromSplayTree s2 e.1 = some (e.2, s3) :=
  ⟨sampleTree_sound, C24_delete_removes_exactly sampleTree 10 sampleTree_sound⟩


/-- C25: every sequence of calls on a new tree, under any comparison, returns
(there is room for the nodes in an `unsigned long`) and leaves a state in which
`GetNumberOfNodesInSplayTree` is the number of nodes linked; `ResetSplayTree`
makes both zero; and under a comparison that orders the keys, in that state
adding a key not stored raises the number by one, adding a stored key leaves
it, and deleting or removing a stored key lowers it by one, the number being
that of the nodes linked again. -/
theorem C25_node_count (compare : Option (Nat → Nat → Int)) (requests : List Request)
    (hlen : requests.length + 1 < 2 ^ 64) :
    ∃ s, ServeAll requests (NewSplayTree compare) = some s ∧
      GetNumberOfNodesInSplayTree s = Size s.root ∧
      GetNumberOfNodesInSplayTree (ResetSplayTree s) = 0 ∧ Size (ResetSplayTree s).root = 0 ∧
      (TotalOrder (CompareKeys compare) → ∀ key value,
        ((∀ e ∈ InOrder s.root, CompareKeys compare e.1 key ≠ 0) →
          ∃ s2, AddValueToSplayTree s key value true = some (true, s2) ∧
            GetNumberOfNodesInSplayTree s2 = GetNumberOfNodesInSplayTree s + 1 ∧
            GetNumberOfNodesInSplayTree s2 = Size s2.root) ∧
        ((∃ e ∈ InOrder s.root, CompareKeys compare e.1 key = 0) →
          (∃ s2, AddValueToSplayTree s key value true = some (true, s2) ∧
            GetNumberOfNodesInSplayTree s2 = GetNumberOfNodesInSplayTree s ∧
            GetNumberOfNodesInSplayTree s2 = Size s2.root) ∧
          (∃ s2, DeleteNodeFromSplayTree s key = some (true, s2) ∧
            GetNumberOfNodesInSplayTree s2 + 1 = GetNumberOfNodesInSplayTree s ∧
            GetNumberOfNodesInSplayTree s2 = Size s2.root) ∧
          ∃ v s2, RemoveNodeFromSplayTree s key = some (v, s2) ∧
            GetNumberOfNodesInSplayTree s2 + 1 = GetNumberOfNodesInSplayTree s ∧
            GetNumberOfNodesInSplayTree s2 = Size s2.root)) := by
  have hnew : Counted (NewSplayTree compare) := ⟨rfl, by simp [NewSplayTree, Size]⟩
  obtain ⟨s, h, hc, hcmp⟩ := ServeAll_counted requests (NewSplayTree compare) hnew
    (by simp only [NewSplayTree, Size]; omega)
  refine ⟨s, h, hc.1, rfl, rfl, ?_⟩
  intro hf key value
  obtain ⟨s0, h0, hs, -, hsz⟩ := ServeAll_sound requests (NewSplayTree compare)
    (NewSplayTree_sound compare hf) (by simp only [NewSplayTree, Size]; omega)
  rw [h] at h0
  cases h0
  have hcs : s.compare = compare := hcmp
  have hroom : Size s.root + 1 < 2 ^ 64 := by
    simp only [NewSplayTree, Size] at hsz
    omega
  have hparts : ∀ {L R : List (Nat × Nat)},
      (∀ e ∈ L, CompareKeys s.compare e.1 key < 0) →
      (∀ e ∈ R, 0 < CompareKeys s.compare e.1 key) →
      ∀ e ∈ L ++ R, CompareKeys s.compare e.1 key ≠ 0 := by
    intro L R hL hR e he
    rcases List.mem_append.1 he with h | h
    · have := hL e h; omega
    · have := hR e h; omega
  rw [← hcs]
  constructor
  · intro hnone
    obtain ⟨b, s2, ha, hs2, -, L, R, hL, hR, hcase⟩ :=
      AddValueToSplayTree_spec s key value true hs hroom
    rcases hcase with ⟨k0, v0, hk0, hin, -, -, -⟩ | ⟨-, hb, -, -, hn⟩ | ⟨hm, -, -, -, -⟩
    · exact absurd hk0 (hnone (k0, v0) (by rw [hin]; simp))
    · rw [hb] at ha
      exact ⟨s2, ha, hn, hs2.counted.1⟩
    · cases hm
  · rintro ⟨e, he, hek⟩
    refine ⟨?_, ?_, ?_⟩
    · obtain ⟨b, s2, ha, hs2, -, L, R, hL, hR, hcase⟩ :=
        AddValueToSplayTree_spec s key value true hs hroom
      rcases hcase with ⟨k0, v0, hk0, hin, -, hn, hb⟩ | ⟨-, hb, hin, -, hn⟩ | ⟨hm, -, -, -, -⟩
      · rw [hb] at ha
        exact ⟨s2, ha, hn, hs2.counted.1⟩
      · rw [hin] at he
        exact absurd hek (hparts hL hR e he)
      · cases hm
    · obtain ⟨b, s2, ha, hs2, -, L, R, hL, hR, hcase⟩ := DeleteNodeFromSplayTree_spec s key hs
      rcases hcase with ⟨hb, k0, v0, hk0, hin, -, hn⟩ | ⟨hb, hin, -, -⟩
      · rw [hb] at ha
        exact ⟨s2, ha, hn, hs2.counted.1⟩
      · rw [hin] at he
        exact absurd hek (hparts hL hR e he)
    · obtain ⟨v, s2, ha, hs2, -, L, R, hL, hR, hcase⟩ := RemoveNodeFromSplayTree_spec s key hs
      rcases hcase with ⟨k0, hk0, hin, -, hn⟩ | ⟨hb, hin, -, -⟩
      · exact ⟨v, s2, ha, hn, hs2.counted.1⟩
      · rw [hin] at he
        exact absurd hek (hparts hL hR e he)

theorem sampleCalls_run :
    (ServeAll sampleCalls (NewSplayTree (some CompareNumbers))).map SplayTreeInfo.fields =
      some sampleState.fields := by
  decide!

/-- Witness for C25: the calls `sampleCalls`, which leave six nodes. -/
theorem C25_node_count_witness :
    sampleCalls.length + 1 < 2 ^ 64 ∧
      ∃ s, ServeAll sampleCalls (NewSplayTree (some CompareNumbers)) = some s ∧
        GetNumberOfNodesInSplayTree s = Size s.root ∧
        GetNumberOfNodesInSplayTree s = 6 :=
  ⟨by decide,
    (C25_node_count (some CompareNumbers) sampleCalls (by decide)).elim fun s h =>
      ⟨s, h.1, h.2.1, by
        have h2 := sampleCalls_run
        rw [h.1] at h2
        simp only [Option.map_some', Option.some.injEq, SplayTreeInfo.fields,
          Prod.mk.injEq] at h2
        exact h2.2.2.2.2⟩⟩


theorem sampleState_sound : Sound sampleState := by
  refine ⟨CompareNumbers_total, ?_, ⟨rfl, by decide⟩, rfl, fun h => by cases h⟩
  simp [Ordered, sampleState, sampleShape, InOrder, CompareKeys, CompareNumbers]

/-- C26: `CloneSplayTree` does not clone every tree. The ordered tree of six
entries that adding the keys 1 to 6 and looking up 2 and 4 leaves (root 4,
on its left 2 with 1 and 3, on its right 5 with 6) is cloned, with clone
methods that return their argument and every node granted, into a tree of
five entries that reports five nodes: the entry of key 6 is missing. The node
5 is dropped from the one variable `next` when the node 2, which has two
children, is worked on, so the children of 5 are never visited. -/
theorem C26_clone_loses_entries :
    (ServeAll sampleCalls (NewSplayTree (some CompareNumbers))).map SplayTreeInfo.fields =
        some sampleState.fields ∧
      Sound sampleState ∧
      InOrder sampleState.root = [(1, 10), (2, 20), (3, 30), (4, 40), (5, 50), (6, 60)] ∧
      GetNumberOfNodesInSplayTree sampleState = 6 ∧
      (CloneSplayTree sampleState (some fun p => p) (some fun p => p) true).map
          (fun c => (InOrder c.root, GetNumberOfNodesInSplayTree c)) =
        some ([(1, 10), (2, 20), (3, 30), (4, 40), (5, 50)], 5) := by
  refine ⟨by decide!, sampleState_sound, by decide, rfl, by decide!⟩

/-- C27: on every sound tree whose keys are not `NULL`, after
`ResetSplayTreeIterator` as many calls of `GetNextKeyInSplayTree` as there are
nodes return the keys of the nodes in order, each node once, and the next call
returns `NULL`; the same calls of `GetNextValueInSplayTree` return the values
of these nodes and then `NULL`; and the keys returned are strictly ascending
under the comparison. -/
theorem C27_iteration_in_order (s : SplayTreeInfo) (hs : Sound s)
    (hkeys : ∀ e ∈ InOrder s.root, e.1 ≠ 0) :
    NextKeys (Size s.root + 1) (ResetSplayTreeIterator s) =
        some ((InOrder s.root).map Prod.fst ++ [0]) ∧
      NextValues (Size s.root + 1) (ResetSplayTreeIterator s) =
        some ((InOrder s.root).map Prod.snd ++ [0]) ∧
      ((InOrder s.root).map Prod.fst).Pairwise (fun a b => CompareKeys s.compare a b < 0) ∧
      (InOrder s.root).length = Size s.root := by
  have h := NextKeys_from (InOrder s.root) [] (ResetSplayTreeIterator s)
    (ResetSplayTreeIterator_sound s hs) hkeys rfl
    (by
      show LeftmostKey s.root = _
      exact LeftmostKey_eq s.root)
  rw [← Size_eq_length] at h
  refine ⟨h.1, h.2, ?_, (Size_eq_length s.root).symm⟩
  rw [List.pairwise_map]
  exact hs.ordered

/-- Witness for C27: the six entries of `sampleState`. -/
theorem C27_iteration_in_order_witness :
    Sound sampleState ∧ (∀ e ∈ InOrder sampleState.root, e.1 ≠ 0) ∧
      NextKeys (Size sampleState.root + 1) (ResetSplayTreeIterator sampleState) =
        some ((InOrder sampleState.root).map Prod.fst ++ [0]) ∧
      NextValues (Size sampleState.root + 1) (ResetSplayTreeIterator sampleState) =
        some ((InOrder sampleState.root).map Prod.snd ++ [0]) :=
  ⟨sampleState_sound, by decide,
    (C27_iteration_in_order sampleState sampleState_sound (by decide)).1,
    (C27_iteration_in_order sampleState sampleState_sound (by decide)).2.1⟩

/-! ## Growth of the memory-backed byte stream -/

theorem Resize_granted (sys : System) (memory : Option (List Nat)) (count : Nat)
    (hgrant : sys.grant = true) :
    ResizeQuantumMemory sys memory count =
      some ((List.range count).map fun i => (memory.getD []).getD i (sys.junk i)) := by
  simp [ResizeQuantumMemory, hgrant]

theorem WriteBlob_grows (sys : System) (b : BlobInfo) (data : List Nat)
    (htype : b.type = StreamType.BlobStream) (hmapped : b.mapped = false)
    (hn : 0 < data.length) (hgrow : b.offset + data.length ≥ b.extent)
    (hgrant : sys.grant = true) :
    WriteBlob sys b data =
      StoreBlob { b with
        quantum := b.quantum <<< 1
        extent := b.extent + (data.length + b.quantum <<< 1)
        data := some ((List.range (b.extent + (data.length + b.quantum <<< 1) + 1)).map
          fun i => (b.data.getD []).getD i (sys.junk i)) } data := by
  have hn0 : data.length ≠ 0 := by omega
  simp [WriteBlob, hn0, htype, hmapped, hgrow, Resize_granted _ _ _ hgrant]

theorem WriteBlob_stores (sys : System) (b : BlobInfo) (data : List Nat)
    (htype : b.type = StreamType.BlobStream)
    (hn : 0 < data.length) (hfits : b.offset + data.length < b.extent) :
    WriteBlob sys b data = StoreBlob b data := by
  have hn0 : data.length ≠ 0 := by omega
  have hlt : ¬ b.offset + data.length ≥ b.extent := by omega
  simp [WriteBlob, hn0, htype, hlt]

theorem WriteBlobStream_grows (sys : System) (b : BlobInfo) (data : List Nat)
    (htype : b.type = StreamType.BlobStream) (hmapped : b.mapped = false)
    (hgrow : b.offset + data.length ≥ b.extent) (hgrant : sys.grant = true) :
    WriteBlobStream sys b data =
      StoreBlob { b with
        quantum := b.quantum <<< 1
        extent := b.extent + b.quantum <<< 1 + data.length
        data := some ((List.range (b.extent + b.quantum <<< 1 + data.length)).map
          fun i => (b.data.getD []).getD i (sys.junk i)) } data := by
  simp [WriteBlobStream, SetBlobExtent, htype, hmapped, hgrow, Resize_granted _ _ _ hgrant]

theorem WriteBlobStream_stores (sys : System) (b : BlobInfo) (data : List Nat)
    (htype : b.type = StreamType.BlobStream)
    (hfits : b.offset + data.length < b.extent) :
    WriteBlobStream sys b data = StoreBlob b data := by
  have hlt : ¬ b.offset + data.length ≥ b.extent := by omega
  simp [WriteBlobStream, htype, hlt]

theorem CopyWizardMemory_block (f : Nat → Nat) (src : List Nat) (off count : Nat)
    (h : off + src.length ≤ count) :
    (CopyWizardMemory ((List.range (count + 1)).map f) off src).take count =
      CopyWizardMemory ((List.range count).map f) off src := by
  have key : ∀ (A : List Nat) (x : Nat), off + src.length ≤ A.length →
      (CopyWizardMemory (A ++ [x]) off src).take A.length = CopyWizardMemory A off src := by
    intro A x hA
    have hlen := CopyWizardMemory_length A src off hA
    unfold CopyWizardMemory at hlen ⊢
    have e1 : (A ++ [x]).take off = A.take off := List.take_append_of_le_length (by omega)
    have e2 : (A ++ [x]).drop (off + src.length) = A.drop (off + src.length) ++ [x] :=
      List.drop_append_of_le_length (by omega)
    rw [e1, e2, ← List.append_assoc]
    exact List.take_left' hlen
  have h2 := key ((List.range count).map f) (f count) (by simpa using h)
  simpa [List.range_succ] using h2

/-- C37. On a memory-backed handle that is not mapped and satisfies
`position <= length <= capacity`, for a non-empty string and an allocator that
grants what it is asked for, `WriteBlobString` (through `WriteBlobStream` and
`SetBlobExtent`) and `WriteBlob` of the same bytes return the same count, the
number of bytes, and leave the same position, length, capacity and quantum and
the same bytes at every index below the capacity, which covers the length. -/
theorem C37_WriteBlobString_as_WriteBlob (sys : System) (b : BlobInfo) (string : List Nat)
    (htype : b.type = StreamType.BlobStream) (hmapped : b.mapped = false)
    (hinv : BlobInvariant b) (hn : 0 < string.length) (hgrant : sys.grant = true) :
    (WriteBlobString sys b string).2 = (WriteBlob sys b string).2 ∧
    (WriteBlob sys b string).2 = string.length ∧
    (WriteBlobString sys b string).1.offset = (WriteBlob sys b string).1.offset ∧
    (WriteBlobString sys b string).1.length = (WriteBlob sys b string).1.length ∧
    (WriteBlobString sys b string).1.extent = (WriteBlob sys b string).1.extent ∧
    (WriteBlobString sys b string).1.quantum = (WriteBlob sys b string).1.quantum ∧
    (WriteBlob sys b string).1.length ≤ (WriteBlob sys b string).1.extent ∧
    StoredBytes (WriteBlobString sys b string).1 0 (WriteBlobString sys b string).1.extent =
      StoredBytes (WriteBlob sys b string).1 0 (WriteBlob sys b string).1.extent := by
  obtain ⟨hi1, hi2⟩ := hinv
  have hfield : ∀ b1 : BlobInfo, (StoreBlob b1 string).1.quantum = b1.quantum ∧
      (StoreBlob b1 string).1.extent = b1.extent ∧
      (StoreBlob b1 string).1.offset = b1.offset + string.length ∧
      (StoreBlob b1 string).1.data =
        some (CopyWizardMemory (b1.data.getD []) b1.offset string) ∧
      (StoreBlob b1 string).2 = string.length ∧
      (StoreBlob b1 string).1.length =
        (if b1.offset + string.length ≥ b1.length then b1.offset + string.length
          else b1.length) := by
    intro b1
    unfold StoreBlob
    dsimp only
    split <;> exact ⟨rfl, rfl, rfl, rfl, rfl, rfl⟩
  unfold WriteBlobString
  by_cases hgrow : b.offset + string.length ≥ b.extent
  · rw [WriteBlobStream_grows sys b string htype hmapped hgrow hgrant,
      WriteBlob_grows sys b string htype hmapped hn hgrow hgrant]
    obtain ⟨h1, h2, h3, h4, h5, h6⟩ := hfield { b with
      quantum := b.quantum <<< 1
      extent := b.extent + b.quantum <<< 1 + string.length
      data := some ((List.range (b.extent + b.quantum <<< 1 + string.length)).map
        fun i => (b.data.getD []).getD i (sys.junk i)) }
    obtain ⟨k1, k2, k3, k4, k5, k6⟩ := hfield { b with
      quantum := b.quantum <<< 1
      extent := b.extent + (string.length + b.quantum <<< 1)
      data := some ((List.range (b.extent + (string.length + b.quantum <<< 1) + 1)).map
        fun i => (b.data.getD []).getD i (sys.junk i)) }
    dsimp only at h1 h2 h3 h4 h5 h6 k1 k2 k3 k4 k5 k6
    simp only [Option.getD_some] at h4 k4
    have he : b.extent + b.quantum <<< 1 + string.length =
        b.extent + (string.length + b.quantum <<< 1) := by omega
    refine ⟨by rw [h5, k5], k5, by rw [h3, k3], by rw [h6, k6], by rw [h2, k2, he],
      by rw [h1, k1], ?_, ?_⟩
    · rw [k6, k2]
      split <;> omega
    · rw [StoredBytes, StoredBytes, h4, k4, h2, k2, Option.getD_some, Option.getD_some,
        List.drop_zero, List.drop_zero, Nat.sub_zero, Nat.sub_zero, he,
        CopyWizardMemory_block _ _ _ _ (by omega)]
      apply List.take_of_length_le
      rw [CopyWizardMemory_length _ _ _ (by simp; omega)]
      simp
  · have hfits : b.offset + string.length < b.extent := by omega
    rw [WriteBlobStream_stores sys b string htype hfits,
      WriteBlob_stores sys b string htype hn hfits]
    obtain ⟨h1, h2, h3, h4, h5, h6⟩ := hfield b
    refine ⟨rfl, h5, rfl, rfl, rfl, rfl, ?_, rfl⟩
    rw [h6, h2]
    split <;> omega

/-- Witness for C37: a growing write of three characters at position 2 of an
attached three-byte block. -/
theorem C37_WriteBlobString_as_WriteBlob_witness :
    (WriteBlobString sysGrant { AttachBlob blankBlob [1, 2, 3] 3 with offset := 2 }
        [104, 105, 33]).2 = 3 ∧
    (WriteBlob sysGrant { AttachBlob blankBlob [1, 2, 3] 3 with offset := 2 }
        [104, 105, 33]).2 = 3 ∧
    (WriteBlobString sysGrant { AttachBlob blankBlob [1, 2, 3] 3 with offset := 2 }
        [104, 105, 33]).1.extent =
      (WriteBlob sysGrant { AttachBlob blankBlob [1, 2, 3] 3 with offset := 2 }
        [104, 105, 33]).1.extent :=
  have h := C37_WriteBlobString_as_WriteBlob sysGrant
    { AttachBlob blankBlob [1, 2, 3] 3 with offset := 2 } [104, 105, 33] rfl rfl
    (by decide) (by decide) rfl
  ⟨h.1.trans h.2.1, h.2.1, h.2.2.2.2.1⟩

/-! ## The bit counters and the pending length of the hash engine -/

theorem UpdateBlocks_counters (fuel : Nat) :
    ∀ (s : SHA224Info) (p : List Nat),
      (UpdateBlocks fuel s p).1.low_order = s.low_order ∧
      (UpdateBlocks fuel s p).1.high_order = s.high_order := by
  induction fuel with
  | zero => intro s p; exact ⟨rfl, rfl⟩
  | succ fuel ih =>
    intro s p
    rw [UpdateBlocks]
    by_cases h : p.length ≥ s.message.length
    · rw [if_pos h]
      exact ih _ _
    · rw [if_neg h]
      exact ⟨rfl, rfl⟩

/-- The counters `UpdateSHA224` leaves, whichever path it takes. -/
theorem UpdateSHA224_counters (s : SHA224Info) (message : List Nat) :
    (UpdateSHA224 s message).low_order =
      Trunc32 ((s.low_order + (message.length <<< 3)) % 2 ^ 32) ∧
    (UpdateSHA224 s message).high_order =
      ((if Trunc32 ((s.low_order + (message.length <<< 3)) % 2 ^ 32) < s.low_order
          then (s.high_order + 1) % 2 ^ 32 else s.high_order) +
        ((message.length % 2 ^ 32) >>> 29)) % 2 ^ 32 := by
  unfold UpdateSHA224
  dsimp only
  split_ifs <;>
    first
    | exact ⟨rfl, rfl⟩
    | exact ⟨(UpdateBlocks_counters _ _ _).1, (UpdateBlocks_counters _ _ _).2⟩

/-- One `UpdateSHA224` call of any size keeps the pending bytes, the absorbed
blocks and the low counter word in step with the bytes supplied. -/
theorem Absorbed_update {s0 s : SHA224Info} {B : List Nat} {high0 : Nat} (C : List Nat)
    (ht : Absorbed s0 s B (8 * B.length % 2 ^ 32) high0) :
    ∃ high1, Absorbed s0 (UpdateSHA224 s C) (B ++ C) (8 * (B ++ C).length % 2 ^ 32) high1 := by
  obtain ⟨hlen, hpend, hs⟩ := ht
  have hoff : s.offset = B.length % 64 := by
    have := congrArg SHA224Info.offset hs; simpa using this
  have hlow : s.low_order = 8 * B.length % 2 ^ 32 := by
    have := congrArg SHA224Info.low_order hs; simpa using this
  have hhigh : s.high_order = high0 := by
    have := congrArg SHA224Info.high_order hs; simpa using this
  have hlsb : s.lsb_first = s0.lsb_first := by
    have := congrArg SHA224Info.lsb_first hs; simpa using this
  have hacc : s.accumulator =
      AbsorbBlocks s0.lsb_first (B.length / 64) s0.accumulator B := by
    have := congrArg SHA224Info.accumulator hs; simpa using this
  have hc1 : Trunc32 ((8 * B.length % 2 ^ 32 + (C.length <<< 3)) % 2 ^ 32) =
      8 * (B.length + C.length) % 2 ^ 32 := by
    rw [Trunc32_eq_mod, Nat.shiftLeft_eq]
    omega
  refine ⟨((if Trunc32 ((8 * B.length % 2 ^ 32 + (C.length <<< 3)) % 2 ^ 32) <
      8 * B.length % 2 ^ 32 then (high0 + 1) % 2 ^ 32 else high0) +
      ((C.length % 2 ^ 32) >>> 29)) % 2 ^ 32, ?_⟩
  rw [List.length_append, ← hc1]
  unfold UpdateSHA224
  simp only [hlow, hhigh, hoff, hlen]
  generalize Trunc32 ((8 * B.length % 2 ^ 32 + C.length <<< 3) % 2 ^ 32) = low
  generalize ((if low < 8 * B.length % 2 ^ 32 then (high0 + 1) % 2 ^ 32
    else high0) + (C.length % 2 ^ 32) >>> 29) % 2 ^ 32 = high
  by_cases ho : B.length % 64 = 0
  · rw [if_neg (by simpa using ho)]
    exact tail_phase _ _ _ _ _ _ _ ho hlen (by rw [hs]) (by omega)
  · rw [if_pos ho]
    by_cases hn : 64 - B.length % 64 > C.length
    · simp only [hn, if_true]
      have hcl : (CopyWizardMemory s.message (B.length % 64) (C.take C.length)).length = 64 := by
        rw [CopyWizardMemory_length _ _ _ (by simp; omega), hlen]
      have hmod : (B ++ C).length % 64 = B.length % 64 + (C.take C.length).length := by
        simp; omega
      have hdiv : (B ++ C).length / 64 = B.length / 64 := by
        simp; omega
      rw [hcl, if_pos (by omega)]
      refine ⟨hcl, ?_, ?_⟩
      · simp only []
        rw [hmod, hdiv, copy_extends_known _ hpend (by simp; omega), List.take_length,
          List.drop_append_of_le_length (by omega)]
      · simp only []
        rw [hdiv, ← AbsorbBlocks_take _ _ _ (B ++ C),
          List.take_append_of_le_length (by omega), AbsorbBlocks_take, ← hacc]
        rw [hmod, List.take_length]
        rw [hs]
    · simp only [hn, if_false]
      have hi : (C.take (64 - B.length % 64)).length = 64 - B.length % 64 := by
        simp; omega
      have hcl : (CopyWizardMemory s.message (B.length % 64)
          (C.take (64 - B.length % 64))).length = 64 := by
        rw [CopyWizardMemory_length _ _ _ (by rw [hi]; omega), hlen]
      have hblk : CopyWizardMemory s.message (B.length % 64) (C.take (64 - B.length % 64)) =
          B.drop (B.length / 64 * 64) ++ C.take (64 - B.length % 64) := by
        apply eq_of_take_length hcl
        have := copy_extends_known (C.take (64 - B.length % 64)) hpend
          (by rw [hi]; omega)
        rw [hi] at this
        have e : B.length % 64 + (64 - B.length % 64) = 64 := by omega
        rw [e] at this
        exact this
      rw [hcl, if_neg (by omega)]
      have hB1 : (B ++ C.take (64 - B.length % 64)).length % 64 = 0 := by
        rw [List.length_append, hi]; omega
      have hq1 : (B ++ C.take (64 - B.length % 64)).length / 64 = B.length / 64 + 1 := by
        rw [List.length_append, hi]; omega
      have hsplit : B ++ C.take (64 - B.length % 64) =
          B.take (64 * (B.length / 64)) ++
            (B.drop (B.length / 64 * 64) ++ C.take (64 - B.length % 64)) := by
        rw [← List.append_assoc]
        congr 1
        rw [Nat.mul_comm 64]
        exact (List.take_append_drop _ _).symm
      have hone : ∀ acc blk : List Nat, blk.length = 64 →
          AbsorbBlocks s0.lsb_first 1 acc blk = TransformAccumulator s0.lsb_first acc blk := by
        intro acc blk hb
        simp only [AbsorbBlocks]
        rw [List.take_of_length_le (by omega)]
      have hacc1 : TransformAccumulator s.lsb_first s.accumulator
          (CopyWizardMemory s.message (B.length % 64) (C.take (64 - B.length % 64))) =
          AbsorbBlocks s0.lsb_first ((B ++ C.take (64 - B.length % 64)).length / 64)
            s0.accumulator (B ++ C.take (64 - B.length % 64)) := by
        rw [hq1, hsplit, AbsorbBlocks_append _ _ _ _ _ _ (by simp; omega), AbsorbBlocks_take,
          hone _ _ (by rw [← hblk]; exact hcl), hblk, hlsb, hacc]
      have key := tail_phase s0
        (TransformSHA224
          { s with
            message := CopyWizardMemory s.message (B.length % 64) (C.take (64 - B.length % 64))
            low_order := low
            high_order := high
            offset := B.length % 64 + (64 - B.length % 64) })
        (B ++ C.take (64 - B.length % 64)) (C.drop (64 - B.length % 64)) low high
        (C.length + 1) hB1 hcl
        (by
          simp only [TransformSHA224]
          rw [hacc1]
          rw [hs])
        (by simp; omega)
      rw [List.append_assoc, List.take_append_drop] at key
      exact key

/-- C31. For every context (the counters are `unsigned int` values) and every
message of `n < 2 ^ 32` bytes, `UpdateSHA224` leaves the 64-bit counter
`high_order * 2 ^ 32 + low_order` at its previous value plus `8 * n`, modulo
`2 ^ 64`: the low word becomes `(low_order + 8 * n) mod 2 ^ 32`, and the high
word takes the carry of that sum and the top three bits `n / 2 ^ 29` of `n`,
modulo `2 ^ 32`. -/
theorem C31_bit_counter (s : SHA224Info) (message : List Nat)
    (hlow : s.low_order < 2 ^ 32) (hn : message.length < 2 ^ 32) :
    (UpdateSHA224 s message).high_order * 2 ^ 32 + (UpdateSHA224 s message).low_order =
      (s.high_order * 2 ^ 32 + s.low_order + 8 * message.length) % 2 ^ 64 ∧
    (UpdateSHA224 s message).low_order = (s.low_order + 8 * message.length) % 2 ^ 32 ∧
    (UpdateSHA224 s message).high_order =
      (s.high_order + (s.low_order + 8 * message.length % 2 ^ 32) / 2 ^ 32 +
        message.length / 2 ^ 29) % 2 ^ 32 := by
  obtain ⟨h1, h2⟩ := UpdateSHA224_counters s message
  rw [h1, h2, Trunc32_eq_mod, Nat.shiftLeft_eq, Nat.shiftRight_eq_div_pow]
  refine ⟨?_, by omega, ?_⟩ <;> split <;> omega

/-- Witness for C31: three bytes on a context whose counter is eight bits short
of `2 ^ 64` wrap it to 16. -/
theorem C31_bit_counter_witness :
    (UpdateSHA224 { usedContext with low_order := 0xfffffff8, high_order := 0xffffffff }
        [97, 98, 99]).high_order * 2 ^ 32 +
      (UpdateSHA224 { usedContext with low_order := 0xfffffff8, high_order := 0xffffffff }
        [97, 98, 99]).low_order = 16 :=
  (C31_bit_counter { usedContext with low_order := 0xfffffff8, high_order := 0xffffffff }
    [97, 98, 99] (by decide) (by decide)).1


/-- A sequence of `UpdateSHA224` calls of any sizes keeps the pending bytes,
the absorbed blocks and the low counter word in step with the bytes
supplied. -/
theorem Absorbed_foldl {s0 : SHA224Info} (cs : List (List Nat)) :
    ∀ {s : SHA224Info} {B : List Nat} {high0 : Nat},
      Absorbed s0 s B (8 * B.length % 2 ^ 32) high0 →
      ∃ high1, Absorbed s0 (cs.foldl UpdateSHA224 s) (B ++ cs.flatten)
        (8 * (B ++ cs.flatten).length % 2 ^ 32) high1 := by
  induction cs with
  | nil => intro s B high0 ht; exact ⟨high0, by simpa using ht⟩
  | cons c cs ih =>
    intro s B high0 ht
    obtain ⟨high1, h1⟩ := Absorbed_update c ht
    obtain ⟨high2, h2⟩ := ih h1
    exact ⟨high2, by simpa [List.append_assoc] using h2⟩

/-- The byte at index `c` of the first block `FinalizeSHA224` transforms, `c`
being the count it derives from `low_order`. -/
theorem FinalizeSHA224Log_marker (s : SHA224Info) (c : Nat) (hmsg : s.message.length = 64)
    (hc : (s.low_order >>> 3) &&& 0x3f = c) (hlt : c < 64) :
    ((FinalizeSHA224Log s).headD []).getD c 0 = 0x80 := by
  unfold FinalizeSHA224Log
  simp only [hc, hmsg]
  by_cases h : c + 1 ≤ 64 - 8
  · rw [if_pos h, if_pos h]
    simp only [List.nil_append, List.headD_cons, List.getD_eq_getElem?_getD]
    rw [List.getElem?_set_ne (by omega), List.getElem?_set_ne (by omega),
      List.getElem?_set_ne (by omega), List.getElem?_set_ne (by omega),
      List.getElem?_set_ne (by omega), List.getElem?_set_ne (by omega),
      List.getElem?_set_ne (by omega), List.getElem?_set_ne (by omega)]
    unfold ResetWizardMemory
    rw [List.append_assoc, List.getElem?_append_left (by simp; omega),
      List.getElem?_take_of_lt (by omega), List.getElem?_set_self (by omega)]
    rfl
  · rw [if_neg h]
    simp only [List.singleton_append, List.headD_cons, List.getD_eq_getElem?_getD]
    unfold ResetWizardMemory
    rw [List.append_assoc, List.getElem?_append_left (by simp; omega),
      List.getElem?_take_of_lt (by omega), List.getElem?_set_self (by omega)]
    rfl

/-- C32. In every state reached from `InitializeSHA224` (on a context with its
64-byte message buffer) by a sequence of `UpdateSHA224` calls of any sizes, the
pending length `offset` is below the block size 64, equals the total number of
bytes supplied modulo 64, and equals `(low_order >> 3) & 0x3f`; the first block
`FinalizeSHA224` then transforms holds the `0x80` marker at that index. -/
theorem C32_pending_length (s : SHA224Info) (cs : List (List Nat))
    (hmsg : s.message.length = 64) :
    (cs.foldl UpdateSHA224 (InitializeSHA224 s)).offset < SHA224Blocksize ∧
    (cs.foldl UpdateSHA224 (InitializeSHA224 s)).offset = cs.flatten.length % 64 ∧
    (cs.foldl UpdateSHA224 (InitializeSHA224 s)).offset =
      ((cs.foldl UpdateSHA224 (InitializeSHA224 s)).low_order >>> 3) &&& 0x3f ∧
    ((FinalizeSHA224Log (cs.foldl UpdateSHA224 (InitializeSHA224 s))).headD []).getD
      (cs.flatten.length % 64) 0 = 0x80 := by
  have h0 : Absorbed (InitializeSHA224 s) (InitializeSHA224 s) []
      (8 * ([] : List Nat).length % 2 ^ 32) 0 := Tracks_Initialize s hmsg
  obtain ⟨high1, hlen, _, hs⟩ := Absorbed_foldl cs h0
  rw [List.nil_append] at hs
  have hoff : (cs.foldl UpdateSHA224 (InitializeSHA224 s)).offset = cs.flatten.length % 64 := by
    have := congrArg SHA224Info.offset hs; simpa using this
  have hlow : (cs.foldl UpdateSHA224 (InitializeSHA224 s)).low_order =
      8 * cs.flatten.length % 2 ^ 32 := by
    have := congrArg SHA224Info.low_order hs; simpa using this
  have hlt : cs.flatten.length % 64 < 64 := Nat.mod_lt _ (by omega)
  have hcount : ((cs.foldl UpdateSHA224 (InitializeSHA224 s)).low_order >>> 3) &&& 0x3f =
      cs.flatten.length % 64 := by
    rw [hlow]
    exact count_eq _
  refine ⟨by rw [hoff]; exact hlt, hoff, by rw [hoff, hcount], ?_⟩
  exact FinalizeSHA224Log_marker _ _ hlen hcount hlt

/-- Witness for C32: 70 bytes supplied in chunks of 3, 60 and 7 bytes leave 6
bytes pending. -/
theorem C32_pending_length_witness :
    ([[1, 2, 3], List.replicate 60 0, List.replicate 7 9].foldl UpdateSHA224
      (InitializeSHA224 usedContext)).offset = 6 :=
  (C32_pending_length usedContext [[1, 2, 3], List.replicate 60 0, List.replicate 7 9]
    usedContext_lengths.2.1).2.1


/-! ## The transform against FIPS 180-4 -/

theorem or_disjoint (x y c k : Nat) (hx : x = c * 2 ^ k) (hy : y < 2 ^ k) : x ||| y = x + y := by
  rw [hx, Nat.mul_comm]
  exact (Nat.mul_add_lt_is_or hy c).symm

theorem and_shifted_byte (y k : Nat) : y &&& (0xff <<< k) = (y / 2 ^ k % 256) * 2 ^ k := by
  have h : y &&& (0xff <<< k) = ((y >>> k) &&& 0xff) <<< k := by
    apply Nat.eq_of_testBit_eq
    intro i
    simp only [Nat.testBit_and, Nat.testBit_shiftLeft, Nat.testBit_shiftRight]
    by_cases hk : k ≤ i
    · have e : k + (i - k) = i := by omega
      simp [hk, e]
    · simp [hk]
  rw [h, shift_byte, Nat.shiftLeft_eq]

theorem getD_byte (p : List Nat) (hp : ∀ b ∈ p, b < 256) (j : Nat) : p.getD j 0 < 256 := by
  by_cases h : j < p.length
  · rw [List.getD_eq_getElem _ _ h]
    exact hp _ (List.getElem_mem h)
  · rw [List.getD_eq_default _ _ (by omega)]
    omega

/-- The native load gives the little-endian or the big-endian value of the four
bytes. -/
theorem LoadWord_eq (lsb_first : Bool) (p : List Nat) (hp : ∀ b ∈ p, b < 256) (i : Nat) :
    LoadWord lsb_first p i =
      if lsb_first then
        p.getD (4 * i) 0 + p.getD (4 * i + 1) 0 * 2 ^ 8 + p.getD (4 * i + 2) 0 * 2 ^ 16 +
          p.getD (4 * i + 3) 0 * 2 ^ 24
      else FIPS180.blockWord p i := by
  have h0 := getD_byte p hp (4 * i)
  have h1 := getD_byte p hp (4 * i + 1)
  have h2 := getD_byte p hp (4 * i + 2)
  have h3 := getD_byte p hp (4 * i + 3)
  unfold LoadWord FIPS180.blockWord
  simp only [Nat.shiftLeft_eq]
  generalize p.getD (4 * i) 0 = b0 at *
  generalize p.getD (4 * i + 1) 0 = b1 at *
  generalize p.getD (4 * i + 2) 0 = b2 at *
  generalize p.getD (4 * i + 3) 0 = b3 at *
  cases lsb_first
  · simp only [Bool.false_eq_true, if_false]
    rw [or_disjoint (b0 * 2 ^ 24) (b1 * 2 ^ 16) b0 24 rfl (by omega),
      or_disjoint (b0 * 2 ^ 24 + b1 * 2 ^ 16) (b2 * 2 ^ 8) (b0 * 2 ^ 8 + b1) 16 (by omega)
        (by omega),
      or_disjoint (b0 * 2 ^ 24 + b1 * 2 ^ 16 + b2 * 2 ^ 8) b3 (b0 * 2 ^ 16 + b1 * 2 ^ 8 + b2) 8
        (by omega) (by omega)]
  · simp only [if_true]
    rw [Nat.or_comm b0, or_disjoint (b1 * 2 ^ 8) b0 b1 8 rfl (by omega),
      Nat.or_comm _ (b2 * 2 ^ 16), or_disjoint (b2 * 2 ^ 16) _ b2 16 rfl (by omega),
      Nat.or_comm _ (b3 * 2 ^ 24), or_disjoint (b3 * 2 ^ 24) _ b3 24 rfl (by omega)]
    omega

theorem blockWord_lt (p : List Nat) (hp : ∀ b ∈ p, b < 256) (i : Nat) :
    FIPS180.blockWord p i < 2 ^ 32 := by
  have h0 := getD_byte p hp (4 * i)
  have h1 := getD_byte p hp (4 * i + 1)
  have h2 := getD_byte p hp (4 * i + 2)
  have h3 := getD_byte p hp (4 * i + 3)
  unfold FIPS180.blockWord
  omega

/-- The word stored in `W[i]`, after the byte swap on a host whose first byte
is the least significant one, is the big-endian value of the four bytes. -/
theorem UnpackWord_eq (lsb_first : Bool) (p : List Nat) (hp : ∀ b ∈ p, b < 256) (i : Nat) :
    UnpackWord lsb_first p i = FIPS180.blockWord p i := by
  have h0 := getD_byte p hp (4 * i)
  have h1 := getD_byte p hp (4 * i + 1)
  have h2 := getD_byte p hp (4 * i + 2)
  have h3 := getD_byte p hp (4 * i + 3)
  have hlt := blockWord_lt p hp i
  unfold UnpackWord
  simp only [LoadWord_eq lsb_first p hp i]
  cases lsb_first
  · simp only [Bool.false_eq_true, if_false]
    rw [Trunc32_eq_mod]
    exact Nat.mod_eq_of_lt hlt
  · simp only [if_true]
    unfold FIPS180.blockWord
    generalize p.getD (4 * i) 0 = b0 at *
    generalize p.getD (4 * i + 1) 0 = b1 at *
    generalize p.getD (4 * i + 2) 0 = b2 at *
    generalize p.getD (4 * i + 3) 0 = b3 at *
    have m1 : (0xff000000 : Nat) = 0xff <<< 24 := by decide
    have m2 : (0x00ff0000 : Nat) = 0xff <<< 16 := by decide
    have m3 : (0x0000ff00 : Nat) = 0xff <<< 8 := by decide
    rw [m1, m2, m3, and_shifted_byte, and_shifted_byte, and_shifted_byte, shift_byte,
      Nat.shiftLeft_eq, Nat.shiftLeft_eq, Nat.shiftRight_eq_div_pow]
    generalize hT : b0 + b1 * 2 ^ 8 + b2 * 2 ^ 16 + b3 * 2 ^ 24 = T
    have e1 : T * 2 ^ 24 / 2 ^ 24 % 256 = b0 := by omega
    have e2 : T * 2 ^ 8 / 2 ^ 16 % 256 = b1 := by omega
    have e3 : T / 2 ^ 8 / 2 ^ 8 % 256 = b2 := by omega
    have e4 : T / 2 ^ 24 % 256 = b3 := by omega
    rw [e1, e2, e3, e4,
      or_disjoint (b0 * 2 ^ 24) (b1 * 2 ^ 16) b0 24 rfl (by omega),
      or_disjoint (b0 * 2 ^ 24 + b1 * 2 ^ 16) (b2 * 2 ^ 8) (b0 * 2 ^ 8 + b1) 16 (by omega)
        (by omega),
      or_disjoint (b0 * 2 ^ 24 + b1 * 2 ^ 16 + b2 * 2 ^ 8) b3 (b0 * 2 ^ 16 + b1 * 2 ^ 8 + b2) 8
        (by omega) (by omega)]


theorem RotateRight_eq (x n : Nat) : RotateRight x n = FIPS180.ROTR n x := by
  unfold RotateRight FIPS180.ROTR
  exact Trunc32_eq_mod _

theorem Suma0_eq (x : Nat) : Suma0 x = FIPS180.bigSigma0 x := by
  simp only [Suma0, FIPS180.bigSigma0, RotateRight_eq]

theorem Suma1_eq (x : Nat) : Suma1 x = FIPS180.bigSigma1 x := by
  simp only [Suma1, FIPS180.bigSigma1, RotateRight_eq]

theorem shifted_word (x n : Nat) (hx : x < 2 ^ 32) : Trunc32 (x >>> n) = FIPS180.SHR n x := by
  rw [Trunc32_eq_mod, FIPS180.SHR, Nat.shiftRight_eq_div_pow]
  apply Nat.mod_eq_of_lt
  exact lt_of_le_of_lt (Nat.div_le_self _ _) hx

theorem Sigma0_eq (x : Nat) (hx : x < 2 ^ 32) : Sigma0 x = FIPS180.smallSigma0 x := by
  simp only [Sigma0, FIPS180.smallSigma0, RotateRight_eq, shifted_word x _ hx]

theorem Sigma1_eq (x : Nat) (hx : x < 2 ^ 32) : Sigma1 x = FIPS180.smallSigma1 x := by
  simp only [Sigma1, FIPS180.smallSigma1, RotateRight_eq, shifted_word x _ hx]

/-- The exclusive or with `0xffffffff` is the complement of a 32-bit word. -/
theorem complement_word (x : Nat) (hx : x < 2 ^ 32) : x ^^^ 0xffffffff = 2 ^ 32 - 1 - x := by
  have e : (0xffffffff : Nat) = 2 ^ 32 - 1 := by norm_num
  have e2 : 2 ^ 32 - 1 - x = 2 ^ 32 - (x + 1) := by omega
  rw [e, e2]
  apply Nat.eq_of_testBit_eq
  intro i
  rw [Nat.testBit_xor, Nat.testBit_two_pow_sub_one, Nat.testBit_two_pow_sub_succ hx]
  by_cases hi : i < 32
  · simp [hi]
  · have hbit : x.testBit i = false :=
      Nat.testBit_lt_two_pow (lt_of_lt_of_le hx (Nat.pow_le_pow_right (by omega) (by omega)))
    simp [hi, hbit]

theorem Ch_eq (x y z : Nat) (hx : x < 2 ^ 32) : Ch x y z = FIPS180.Ch x y z := by
  unfold Ch FIPS180.Ch
  rw [complement_word x hx]

theorem Maj_eq (x y z : Nat) : Maj x y z = FIPS180.Maj x y z := rfl

/-- The table `K` of the source holds the constants of section 4.2.2. -/
theorem K_eq : K = FIPS180.K256 := by decide!

/-- The loop `for (i=16; i < 64; i++)`, run for `n` passes on an array whose
first entries are the 32-bit words `W`, appends the words of the standard. -/
theorem Schedule_extend (n : Nat) :
    ∀ (W : List Nat) (m : Nat), 16 ≤ W.length → (∀ w ∈ W, w < 2 ^ 32) →
      (List.range' W.length n).foldl
        (fun W i => W.set i (Trunc32 (Sigma1 (W.getD (i - 2) 0) + W.getD (i - 7) 0 +
          Sigma0 (W.getD (i - 15) 0) + W.getD (i - 16) 0)))
        (W ++ List.replicate (n + m) 0) =
      FIPS180.extendSchedule n W ++ List.replicate m 0 := by
  induction n with
  | zero =>
    intro W m _ _
    simp [FIPS180.extendSchedule]
  | succ n ih =>
    intro W m hlen hW
    have hget : ∀ k, 0 < k → k ≤ 16 →
        (W ++ List.replicate (n + 1 + m) 0).getD (W.length - k) 0 = W.getD (W.length - k) 0 ∧
        W.getD (W.length - k) 0 < 2 ^ 32 := by
      intro k hk0 hk
      have hlt : W.length - k < W.length := by omega
      rw [List.getD_append _ _ _ _ hlt]
      refine ⟨rfl, ?_⟩
      rw [List.getD_eq_getElem _ _ hlt]
      exact hW _ (List.getElem_mem hlt)
    obtain ⟨g2, b2⟩ := hget 2 (by omega) (by omega)
    obtain ⟨g7, _⟩ := hget 7 (by omega) (by omega)
    obtain ⟨g15, b15⟩ := hget 15 (by omega) (by omega)
    obtain ⟨g16, _⟩ := hget 16 (by omega) (by omega)
    have hrep : List.replicate (n + 1 + m) 0 = 0 :: List.replicate (n + m) 0 := by
      have e : n + 1 + m = (n + m) + 1 := by omega
      rw [e, List.replicate_succ]
    rw [List.range'_succ, List.foldl_cons]
    rw [g2, g7, g15, g16, Sigma1_eq _ b2, Sigma0_eq _ b15, Trunc32_eq_mod, hrep,
      List.set_append_right _ _ (Nat.le_refl _), Nat.sub_self, List.set_cons_zero]
    rw [FIPS180.extendSchedule]
    generalize hv : (FIPS180.smallSigma1 (W.getD (W.length - 2) 0) + W.getD (W.length - 7) 0 +
      FIPS180.smallSigma0 (W.getD (W.length - 15) 0) + W.getD (W.length - 16) 0) % 2 ^ 32 = v
    have hvlt : v < 2 ^ 32 := by
      rw [← hv]
      exact Nat.mod_lt _ (by norm_num)
    have h1 := ih (W ++ [v]) m (by simp; omega) (by
      intro w hw
      rcases List.mem_append.1 hw with h | h
      · exact hW w h
      · rw [List.mem_singleton.1 h]
        exact hvlt)
    rw [List.length_append, List.length_singleton, List.append_assoc, List.singleton_append] at h1
    exact h1

/-- The array `W[64]` of the source is the message schedule of the standard,
on either kind of host. -/
theorem Schedule_eq (lsb_first : Bool) (p : List Nat) (hp : ∀ b ∈ p, b < 256) :
    Schedule lsb_first p = FIPS180.messageSchedule p := by
  unfold Schedule FIPS180.messageSchedule
  simp only []
  have hmap : (List.range 16).map (UnpackWord lsb_first p) =
      (List.range 16).map (FIPS180.blockWord p) :=
    List.map_congr_left fun i _ => UnpackWord_eq lsb_first p hp i
  rw [hmap]
  have h := Schedule_extend 48 ((List.range 16).map (FIPS180.blockWord p)) 0 (by simp) (by
    intro w hw
    obtain ⟨i, _, rfl⟩ := List.mem_map.1 hw
    exact blockWord_lt p hp i)
  rw [List.length_map, List.length_range, Nat.add_zero, List.replicate_zero,
    List.append_nil] at h
  exact h

theorem extendSchedule_take (n : Nat) :
    ∀ W : List Nat, (FIPS180.extendSchedule n W).take W.length = W := by
  induction n with
  | zero => intro W; simp [FIPS180.extendSchedule]
  | succ n ih =>
    intro W
    rw [FIPS180.extendSchedule]
    generalize (FIPS180.smallSigma1 (W.getD (W.length - 2) 0) + W.getD (W.length - 7) 0 +
      FIPS180.smallSigma0 (W.getD (W.length - 15) 0) + W.getD (W.length - 16) 0) % 2 ^ 32 = v
    have h := ih (W ++ [v])
    have h2 := congrArg (List.take W.length) h
    rw [List.take_take, List.length_append, List.length_singleton,
      Nat.min_eq_left (by omega)] at h2
    rw [h2]
    simp

/-- The registers `A` .. `H` as the working variables `a .. h`. -/
theorem Round_eq (W : List Nat) (r : Registers) (j : Nat) (hE : r.E < 2 ^ 32) :
    [(Round W r j).A, (Round W r j).B, (Round W r j).C, (Round W r j).D, (Round W r j).E,
      (Round W r j).F, (Round W r j).G, (Round W r j).H] =
      FIPS180.step W [r.A, r.B, r.C, r.D, r.E, r.F, r.G, r.H] j ∧
    (Round W r j).E < 2 ^ 32 := by
  unfold Round FIPS180.step
  simp only [Trunc32_eq_mod, Suma0_eq, Suma1_eq, Ch_eq _ _ _ hE, Maj_eq, K_eq]
  exact ⟨trivial, Nat.mod_lt _ (by norm_num)⟩

theorem Rounds_eq (W : List Nat) (js : List Nat) :
    ∀ r : Registers, r.E < 2 ^ 32 →
      [(js.foldl (Round W) r).A, (js.foldl (Round W) r).B, (js.foldl (Round W) r).C,
        (js.foldl (Round W) r).D, (js.foldl (Round W) r).E, (js.foldl (Round W) r).F,
        (js.foldl (Round W) r).G, (js.foldl (Round W) r).H] =
      js.foldl (FIPS180.step W) [r.A, r.B, r.C, r.D, r.E, r.F, r.G, r.H] := by
  induction js with
  | nil => intro r _; rfl
  | cons j js ih =>
    intro r hE
    obtain ⟨h1, h2⟩ := Round_eq W r j hE
    rw [List.foldl_cons, List.foldl_cons, ih _ h2, h1]


/-- The registers after the 64 rounds are the working variables of the
standard after its 64 steps. -/
theorem FinalRegisters_eq (lsb_first : Bool) (acc p : List Nat) (hacc : acc.length = 8)
    (h4 : acc.getD 4 0 < 2 ^ 32) (hp : ∀ b ∈ p, b < 256) :
    [(FinalRegisters lsb_first acc p).A, (FinalRegisters lsb_first acc p).B,
      (FinalRegisters lsb_first acc p).C, (FinalRegisters lsb_first acc p).D,
      (FinalRegisters lsb_first acc p).E, (FinalRegisters lsb_first acc p).F,
      (FinalRegisters lsb_first acc p).G, (FinalRegisters lsb_first acc p).H] =
      (List.range 64).foldl (FIPS180.step (FIPS180.messageSchedule p)) acc := by
  rcases acc with _ | ⟨x0, _ | ⟨x1, _ | ⟨x2, _ | ⟨x3, _ | ⟨x4, _ | ⟨x5, _ | ⟨x6, _ | ⟨x7, r⟩⟩⟩⟩⟩⟩⟩⟩ <;>
    simp at hacc
  subst hacc
  have h := Rounds_eq (Schedule lsb_first p) (List.range 64)
    { A := x0, B := x1, C := x2, D := x3, E := x4, F := x5, G := x6, H := x7 } h4
  rw [← Schedule_eq lsb_first p hp]
  exact h

/-- Words 0 .. 6 after `TransformSHA224` are words 0 .. 6 of the compression
function of the standard. -/
theorem Transform_take (lsb_first : Bool) (acc p : List Nat) (hacc : acc.length = 8)
    (h4 : acc.getD 4 0 < 2 ^ 32) (hp : ∀ b ∈ p, b < 256) :
    (TransformAccumulator lsb_first acc p).take 7 = (FIPS180.compress acc p).take 7 := by
  have hr := FinalRegisters_eq lsb_first acc p hacc h4 hp
  rw [TransformAccumulator_words lsb_first acc p hacc]
  unfold FIPS180.compress
  rw [← hr]
  rcases acc with _ | ⟨x0, _ | ⟨x1, _ | ⟨x2, _ | ⟨x3, _ | ⟨x4, _ | ⟨x5, _ | ⟨x6, _ | ⟨x7, r⟩⟩⟩⟩⟩⟩⟩⟩ <;>
    simp at hacc
  subst hacc
  simp [Trunc32_eq_mod]

theorem word_of_mem (acc : List Nat) (hword : ∀ w ∈ acc, w < 2 ^ 32) (i : Nat) :
    acc.getD i 0 < 2 ^ 32 := by
  by_cases h : i < acc.length
  · rw [List.getD_eq_getElem _ _ h]
    exact hword _ (List.getElem_mem h)
  · rw [List.getD_eq_default _ _ (by omega)]
    norm_num

/-- C33. For every block of bytes, the sixteen initial schedule words the
source computes (4-byte `unsigned int`) are the big-endian values of the
sixteen 4-byte groups, both on a host whose first byte is the least significant
one (native load, then the byte swap) and on the other kind (native load); the
whole schedule, and so the accumulator after the transform, is the same on
both. -/
theorem C33_schedule_words_big_endian (p : List Nat) (hp : ∀ b ∈ p, b < 256) :
    (∀ (lsb_first : Bool) (i : Nat), UnpackWord lsb_first p i = FIPS180.blockWord p i) ∧
    (∀ i : Nat, LoadWord true p i =
      p.getD (4 * i) 0 + p.getD (4 * i + 1) 0 * 2 ^ 8 + p.getD (4 * i + 2) 0 * 2 ^ 16 +
        p.getD (4 * i + 3) 0 * 2 ^ 24) ∧
    (∀ i : Nat, LoadWord false p i = FIPS180.blockWord p i) ∧
    (∀ lsb_first : Bool,
      (Schedule lsb_first p).take 16 = (List.range 16).map (FIPS180.blockWord p)) ∧
    Schedule true p = Schedule false p ∧
    (∀ acc : List Nat, TransformAccumulator true acc p = TransformAccumulator false acc p) ∧
    (∀ s : SHA224Info, s.message = p →
      (TransformSHA224 { s with lsb_first := true }).accumulator =
        (TransformSHA224 { s with lsb_first := false }).accumulator) := by
  have hsched : Schedule true p = Schedule false p := by
    rw [Schedule_eq true p hp, Schedule_eq false p hp]
  have hacc : ∀ acc : List Nat,
      TransformAccumulator true acc p = TransformAccumulator false acc p := by
    intro acc
    unfold TransformAccumulator
    rw [hsched]
  refine ⟨fun lsb_first i => UnpackWord_eq lsb_first p hp i,
    fun i => LoadWord_eq true p hp i, fun i => LoadWord_eq false p hp i, ?_, hsched, hacc, ?_⟩
  · intro lsb_first
    rw [Schedule_eq lsb_first p hp]
    have h := extendSchedule_take 48 ((List.range 16).map (FIPS180.blockWord p))
    rw [List.length_map, List.length_range] at h
    exact h
  · intro s hs
    simp only [TransformSHA224, hs]
    exact hacc _

/-- Witness for C33: the padded block of `abc`. -/
theorem C33_schedule_words_big_endian_witness :
    Schedule true abcBlock = Schedule false abcBlock :=
  (C33_schedule_words_big_endian abcBlock (by decide)).2.2.2.2.1

/-- C35. For every accumulator of eight 32-bit words and every block of bytes,
on either kind of host, the words 0 .. 6 the source leaves in the accumulator
are the words 0 .. 6 of the SHA-256 compression function of FIPS 180-4 applied
to that state and block: the array `W` is the message schedule, the table `K`
holds the constants, the registers after the 64 rounds are the working
variables, and on 32-bit words `Ch`, `Maj`, `Sigma0`, `Sigma1`, `Suma0`, `Suma1`
are the functions of section 4.1.2. -/
theorem C35_transform_refines_compression (lsb_first : Bool) (acc p : List Nat)
    (hacc : acc.length = 8) (hword : ∀ w ∈ acc, w < 2 ^ 32) (hp : ∀ b ∈ p, b < 256) :
    (TransformAccumulator lsb_first acc p).take 7 = (FIPS180.compress acc p).take 7 ∧
    Schedule lsb_first p = FIPS180.messageSchedule p ∧
    K = FIPS180.K256 ∧
    [(FinalRegisters lsb_first acc p).A, (FinalRegisters lsb_first acc p).B,
      (FinalRegisters lsb_first acc p).C, (FinalRegisters lsb_first acc p).D,
      (FinalRegisters lsb_first acc p).E, (FinalRegisters lsb_first acc p).F,
      (FinalRegisters lsb_first acc p).G, (FinalRegisters lsb_first acc p).H] =
      (List.range 64).foldl (FIPS180.step (FIPS180.messageSchedule p)) acc ∧
    (∀ x y z : Nat, x < 2 ^ 32 →
      Ch x y z = FIPS180.Ch x y z ∧ Maj x y z = FIPS180.Maj x y z ∧
      Sigma0 x = FIPS180.smallSigma0 x ∧ Sigma1 x = FIPS180.smallSigma1 x ∧
      Suma0 x = FIPS180.bigSigma0 x ∧ Suma1 x = FIPS180.bigSigma1 x) :=
  ⟨Transform_take lsb_first acc p hacc (word_of_mem acc hword 4) hp,
    Schedule_eq lsb_first p hp, K_eq,
    FinalRegisters_eq lsb_first acc p hacc (word_of_mem acc hword 4) hp,
    fun x y z hx => ⟨Ch_eq x y z hx, Maj_eq x y z, Sigma0_eq x hx, Sigma1_eq x hx, Suma0_eq x,
      Suma1_eq x⟩⟩

/-- Witness for C35: the initial words of SHA-224 and the padded block of
`abc` on a host whose first byte is the least significant one. -/
theorem C35_transform_refines_compression_witness :
    (TransformAccumulator true InitialWords abcBlock).take 7 =
      (FIPS180.compress InitialWords abcBlock).take 7 :=
  (C35_transform_refines_compression true InitialWords abcBlock rfl (by decide)
    (by decide)).1


theorem bigEndian_bytes (k : Nat) : ∀ n : Nat, ∀ b ∈ FIPS180.bigEndian k n, b < 256 := by
  induction k with
  | zero => intro n b hb; simp [FIPS180.bigEndian] at hb
  | succ k ih =>
    intro n b hb
    rw [FIPS180.bigEndian] at hb
    rcases List.mem_cons.1 hb with h | h
    · rw [h]
      exact Nat.mod_lt _ (by norm_num)
    · exact ih n b h

theorem pad_bytes (M : List Nat) (hM : ∀ b ∈ M, b < 256) : ∀ b ∈ FIPS180.pad M, b < 256 := by
  intro b hb
  unfold FIPS180.pad at hb
  rcases List.mem_append.1 hb with h | h
  · rcases List.mem_append.1 h with h | h
    · exact hM b h
    · rcases List.mem_cons.1 h with h | h
      · rw [h]; norm_num
      · rw [List.eq_of_mem_replicate h]; norm_num
  · exact bigEndian_bytes 8 _ b h

/-- For a message of at most 55 bytes the one block `FinalizeSHA224` builds is
the padded message of the standard. -/
theorem LastBlock_eq_pad (M : List Nat) (hM : M.length ≤ 55) : LastBlock M = FIPS180.pad M := by
  have h := padded_split M
  have h0 : M.length / 64 * 64 = 0 := by omega
  rw [h0, if_pos (by omega)] at h
  simpa using h

/-- The digest bytes are the first seven words, most significant byte first. -/
theorem PackDigest_eq_bigEndian (acc : List Nat) (hacc : acc.length = 8) :
    PackDigest acc = (acc.take 7).flatMap (FIPS180.bigEndian 4) := by
  have hr : List.range (SHA224Digestsize / 4) = [0, 1, 2, 3, 4, 5, 6] := by decide
  rcases acc with _ | ⟨x0, _ | ⟨x1, _ | ⟨x2, _ | ⟨x3, _ | ⟨x4, _ | ⟨x5, _ | ⟨x6, _ | ⟨x7, r⟩⟩⟩⟩⟩⟩⟩⟩ <;>
    simp at hacc
  subst hacc
  simp [PackDigest, hr, FIPS180.bigEndian, and_byte, shift_byte, Nat.shiftRight_eq_div_pow]

theorem TransformAccumulator_length (lsb_first : Bool) (acc p : List Nat) :
    (TransformAccumulator lsb_first acc p).length = acc.length := by
  simp [TransformAccumulator]

/-- The digest the source computes for a message that pads to one block. -/
theorem DigestOf_short (lsb_first : Bool) (M : List Nat) (hM : M.length ≤ 55)
    (hbytes : ∀ b ∈ M, b < 256) : DigestOf lsb_first M = FIPS180.SHA224 M := by
  have hpadlen : (FIPS180.pad M).length = 64 := by
    rw [← LastBlock_eq_pad M hM]
    exact LastBlock_length M
  have h0 : M.length / 64 = 0 := by omega
  have hc : M.length % 64 + 1 ≤ 56 := by omega
  unfold DigestOf FinalAccumulator FIPS180.SHA224
  simp only [h0, AbsorbBlocks, if_pos hc]
  rw [LastBlock_eq_pad M hM, hpadlen]
  have h1 : (64 : Nat) / 64 = 0 + 1 := by norm_num
  rw [h1, FIPS180.hashBlocks, FIPS180.hashBlocks,
    List.take_of_length_le (by omega : (FIPS180.pad M).length ≤ 64)]
  have hwords : FIPS180.H0 = InitialWords := rfl
  rw [hwords]
  have ht := Transform_take lsb_first InitialWords (FIPS180.pad M) rfl (by decide)
    (pad_bytes M hbytes)
  rw [PackDigest_eq_bigEndian _ (by rw [TransformAccumulator_length]; rfl), ht]

/-- C34. For every sequence `M` of at most 55 bytes, on either kind of host and
for every context with the buffers `AcquireSHA224Info` allocates, the digest
that `InitializeSHA224`, `UpdateSHA224` of `M` and `FinalizeSHA224` produce is
the SHA-224 digest FIPS 180-4 defines for `M`. -/
theorem C34_short_message_digest (s : SHA224Info) (M : List Nat)
    (hacc : 8 ≤ s.accumulator.length) (hmsg : s.message.length = 64)
    (hdig : s.digest.length = 28) (hM : M.length ≤ 55) (hbytes : ∀ b ∈ M, b < 256) :
    (FinalizeSHA224 (UpdateSHA224 (InitializeSHA224 s) M)).digest = FIPS180.SHA224 M := by
  have h := Initialize_digest s [M] hacc hmsg hdig (by
    intro c hc
    rw [List.mem_singleton.1 hc]
    omega)
  rw [List.foldl_cons, List.foldl_nil, List.flatten_cons, List.flatten_nil,
    List.append_nil] at h
  rw [h]
  exact DigestOf_short s.lsb_first M hM hbytes

/-- Witness for C34: the message `abc` on a context that was used before. -/
theorem C34_short_message_digest_witness :
    (FinalizeSHA224 (UpdateSHA224 (InitializeSHA224 usedContext) [97, 98, 99])).digest =
      FIPS180.SHA224 [97, 98, 99] :=
  C34_short_message_digest usedContext [97, 98, 99] usedContext_lengths.1
    usedContext_lengths.2.1 usedContext_lengths.2.2 (by decide) (by decide)

/-! ## The splay tree: the ordering, the search path and the depth limit -/

theorem Ordered_SearchTree {f : Nat → Nat → Int} (t : NodeInfo) :
    Ordered f t → SearchTree f t := by
  induction t with
  | null => intro _; trivial
  | node k v l r ihl ihr =>
    intro h
    obtain ⟨hl, hr, h1, h2, -⟩ := Ordered_node.1 h
    exact ⟨h1, h2, ihl hl, ihr hr⟩

theorem Ordered_nodup {f : Nat → Nat → Int} (hf : TotalOrder f) {t : NodeInfo}
    (h : Ordered f t) : ((InOrder t).map Prod.fst).Nodup := by
  unfold Ordered at h
  rw [List.Nodup, List.pairwise_map]
  refine h.imp ?_
  intro a b hab heq
  rw [heq, hf.refl] at hab
  exact absurd hab (by decide)

/-- C38. Under a comparison that orders the keys, every sequence of calls of
`AddValueToSplayTree`, `GetValueFromSplayTree`, `DeleteNodeFromSplayTree`,
`RemoveNodeFromSplayTree`, `ResetSplayTree` and the iterator calls on a new
tree returns (there is room for the nodes in an `unsigned long`) and leaves a
tree whose keys in order are strictly increasing: at every node the keys of
the left subtree are smaller and those of the right subtree greater than the
key of the node, and no key occurs twice. -/
theorem C38_search_tree_ordering (compare : Option (Nat → Nat → Int))
    (requests : List Request) (hf : TotalOrder (CompareKeys compare))
    (hroom : requests.length < 2 ^ 64) :
    ∃ s, ServeAll requests (NewSplayTree compare) = some s ∧
      Ordered (CompareKeys compare) s.root ∧
      SearchTree (CompareKeys compare) s.root ∧
      ((InOrder s.root).map Prod.fst).Nodup := by
  obtain ⟨s, h, hs, hcmp, -⟩ := ServeAll_sound requests (NewSplayTree compare)
    (NewSplayTree_sound compare hf) (by
      have : Size (NewSplayTree compare).root = 0 := rfl
      omega)
  have hcmp2 : s.compare = compare := hcmp
  have ho : Ordered (CompareKeys compare) s.root := by
    have := hs.ordered
    rw [hcmp2] at this
    exact this
  exact ⟨s, h, ho, Ordered_SearchTree s.root ho, Ordered_nodup hf ho⟩

/-- Witness for C38: the calls `sampleCalls` under `CompareNumbers`. -/
theorem C38_search_tree_ordering_witness :
    ∃ s, ServeAll sampleCalls (NewSplayTree (some CompareNumbers)) = some s ∧
      Ordered (CompareKeys (some CompareNumbers)) s.root :=
  (C38_search_tree_ordering (some CompareNumbers) sampleCalls CompareNumbers_total
    (by decide)).elim fun s h => ⟨s, h.1, h.2.1⟩

theorem SearchPath_ne_nil (f : Nat → Nat → Int) (key : Nat) {t : NodeInfo} (h : t ≠ .null) :
    SearchPath f key t ≠ [] := by
  cases t with
  | null => exact absurd rfl h
  | node k v l r => simp [SearchPath]

theorem getLast?_cons_of_ne_nil {α : Type} (a : α) {l : List α} (h : l ≠ []) :
    (a :: l).getLast? = l.getLast? := by
  cases l with
  | nil => exact absurd rfl h
  | cons b l => rfl

/-- Without a raised flag, the node `SplayNode` moves up is the last one on
the search path. -/
theorem SplayNode_entry {c : Option (Nat → Nat → Int)} (hf : TotalOrder (CompareKeys c))
    (key : Nat) (t : NodeInfo) :
    Ordered (CompareKeys c) t → ∀ d, Height t + d ≤ MaxSplayTreeDepth →
      (SplayNode c false key d t).entry = (SearchPath (CompareKeys c) key t).getLast? := by
  induction t with
  | null => intro _ d _; rfl
  | node k v l r ihl ihr =>
    intro ho d hd
    obtain ⟨hol, hor, -, -, -⟩ := Ordered_node.1 ho
    simp only [Height] at hd
    rw [SplayNode, SearchPath]
    by_cases h0 : CompareKeys c k key = 0
    · simp [h0, Splayed.entry, NodeInfo.entry]
    simp only [h0, if_false]
    have h1 : ¬ d ≥ MaxSplayTreeDepth := by omega
    simp only [h1, if_false]
    by_cases h2 : CompareKeys c k key > 0
    · simp only [h2, if_true]
      have ih := ihl hol (d + 1) (by omega)
      have hsp := SplayNode_Splits hf false key l hol (d + 1)
      have hw := @SplayNode_within c key l (d + 1) (by omega)
      cases hs : SplayNode c false key (d + 1) l with
      | absent =>
        rw [SplayNode_absent hs]
        simp [Splayed.entry, NodeInfo.entry, SearchPath]
      | here l1 =>
        rw [hs] at ih hsp
        have hl : l ≠ .null := by
          intro hnull
          rw [hnull, SplayNode] at hs
          cases hs
        rw [getLast?_cons_of_ne_nil _ (SearchPath_ne_nil _ key hl), ← ih]
        rfl
      | below side l1 =>
        rw [hs] at ih hsp
        have hl : l ≠ .null := by
          intro hnull
          rw [hnull, SplayNode] at hs
          cases hs
        rw [getLast?_cons_of_ne_nil _ (SearchPath_ne_nil _ key hl), ← ih]
        cases side with
        | left =>
          obtain ⟨hp, hn, -⟩ := hsp
          cases l1 with
          | null => exact absurd rfl hp
          | node pk pv pl pr =>
            cases pl with
            | null => exact absurd rfl hn
            | node nk nv nl nr => rfl
        | right =>
          obtain ⟨hp, hn, -⟩ := hsp
          cases l1 with
          | null => exact absurd rfl hp
          | node pk pv pl pr =>
            cases pr with
            | null => exact absurd rfl hn
            | node nk nv nl nr => rfl
      | settled l1 b1 => exact absurd hs (hw l1 b1)
    · simp only [h2, if_false]
      have ih := ihr hor (d + 1) (by omega)
      have hsp := SplayNode_Splits hf false key r hor (d + 1)
      have hw := @SplayNode_within c key r (d + 1) (by omega)
      cases hs : SplayNode c false key (d + 1) r with
      | absent =>
        rw [SplayNode_absent hs]
        simp [Splayed.entry, NodeInfo.entry, SearchPath]
      | here r1 =>
        rw [hs] at ih hsp
        have hr : r ≠ .null := by
          intro hnull
          rw [hnull, SplayNode] at hs
          cases hs
        rw [getLast?_cons_of_ne_nil _ (SearchPath_ne_nil _ key hr), ← ih]
        rfl
      | below side r1 =>
        rw [hs] at ih hsp
        have hr : r ≠ .null := by
          intro hnull
          rw [hnull, SplayNode] at hs
          cases hs
        rw [getLast?_cons_of_ne_nil _ (SearchPath_ne_nil _ key hr), ← ih]
        cases side with
        | left =>
          obtain ⟨hp, hn, -⟩ := hsp
          cases r1 with
          | null => exact absurd rfl hp
          | node pk pv pl pr =>
            cases pl with
            | null => exact absurd rfl hn
            | node nk nv nl nr => rfl
        | right =>
          obtain ⟨hp, hn, -⟩ := hsp
          cases r1 with
          | null => exact absurd rfl hp
          | node pk pv pl pr =>
            cases pr with
            | null => exact absurd rfl hn
            | node nk nv nl nr => rfl
      | settled r1 b1 => exact absurd hs (hw r1 b1)

/-- On an ordered tree whose paths end before the depth limit, the root after
`Splay` is the last node on the search path. -/
theorem Splay_entry (s : SplayTreeInfo) (key : Nat) (hf : TotalOrder (CompareKeys s.compare))
    (ho : Ordered (CompareKeys s.compare) s.root) (hb : s.balance = false)
    (hh : Height s.root ≤ MaxSplayTreeDepth) :
    (Splay s key).root.entry = (SearchPath (CompareKeys s.compare) key s.root).getLast? := by
  have he := SplayNode_entry hf key s.root ho 0 (by omega)
  have hsp := SplayNode_Splits hf false key s.root ho 0
  have hw := @SplayNode_within s.compare key s.root 0 (by omega)
  rw [← he]
  unfold Splay
  rw [hb]
  cases hs : SplayNode s.compare false key 0 s.root with
  | absent =>
    rw [SplayNode_absent hs]
    rfl
  | here t => rfl
  | below side t =>
    rw [hs] at hsp
    cases side with
    | left =>
      obtain ⟨hp, hn, -⟩ := hsp
      cases t with
      | null => exact absurd rfl hp
      | node pk pv pl pr =>
        cases pl with
        | null => exact absurd rfl hn
        | node nk nv nl nr => rfl
    | right =>
      obtain ⟨hp, hn, -⟩ := hsp
      cases t with
      | null => exact absurd rfl hp
      | node pk pv pl pr =>
        cases pr with
        | null => exact absurd rfl hn
        | node nk nv nl nr => rfl
  | settled t b => exact absurd hs (hw t b)


/-- C39. For every ordered tree (under a comparison that orders the keys) whose
paths hold at most `MaxSplayTreeDepth` nodes, so that the search never meets
the depth limit, and every key, `Splay` as `SplaySplayTree` calls it (flag
lowered) keeps the entries and their order and the flag, and makes the root
the last node on the search path for the key: the entry whose key compares as
equal when there is one, and otherwise the entry with the greatest key below
the key or the one with the least key above it. -/
theorem C39_splay_moves_key_to_root (s : SplayTreeInfo) (key : Nat)
    (hf : TotalOrder (CompareKeys s.compare)) (ho : Ordered (CompareKeys s.compare) s.root)
    (hb : s.balance = false) (hh : Height s.root ≤ MaxSplayTreeDepth) :
    InOrder (Splay s key).root = InOrder s.root ∧
    (Splay s key).balance = false ∧
    (Splay s key).root.entry = (SearchPath (CompareKeys s.compare) key s.root).getLast? ∧
    (∀ e ∈ InOrder s.root, CompareKeys s.compare e.1 key = 0 →
      (Splay s key).root.entry = some e) ∧
    ((∀ e ∈ InOrder s.root, CompareKeys s.compare e.1 key ≠ 0) →
      ∀ k v l r, (Splay s key).root = .node k v l r →
        (CompareKeys s.compare k key < 0 ∧
          ∀ e ∈ InOrder s.root, CompareKeys s.compare e.1 key < 0 →
            CompareKeys s.compare e.1 k ≤ 0) ∨
        (0 < CompareKeys s.compare k key ∧
          ∀ e ∈ InOrder s.root, 0 < CompareKeys s.compare e.1 key →
            CompareKeys s.compare k e.1 ≤ 0)) := by
  obtain ⟨hin, -, -, -, -⟩ := Splay_fields s key
  have hbal := Splay_within s key hb hh
  have hsplit := Splay_splits s key hf ho hb hbal
  have ho1 : Ordered (CompareKeys s.compare) (Splay s key).root := Ordered_of_InOrder hin ho
  refine ⟨hin, hbal, Splay_entry s key hf ho hb hh, ?_, ?_⟩
  · intro e he h0
    rw [← hin] at he
    cases hroot : (Splay s key).root with
    | null => rw [hroot] at he; cases he
    | node k v l r =>
      rw [hroot] at he hsplit
      obtain ⟨hl, hr⟩ := hsplit
      simp only [InOrder, List.mem_append, List.mem_cons] at he
      rcases he with h | h | h
      · have := hl e h; omega
      · rw [h]; rfl
      · have := hr e h; omega
  · intro hnone k v l r hroot
    rw [hroot] at hsplit ho1
    obtain ⟨hl, hr⟩ := hsplit
    obtain ⟨-, -, hlk, hkr, -⟩ := Ordered_node.1 ho1
    have hk : CompareKeys s.compare k key ≠ 0 :=
      hnone (k, v) (by rw [← hin, hroot]; simp [InOrder])
    have hmem : ∀ e ∈ InOrder s.root, e ∈ InOrder l ∨ e = (k, v) ∨ e ∈ InOrder r := by
      intro e he
      rw [← hin, hroot] at he
      simpa [InOrder] using he
    by_cases hlt : CompareKeys s.compare k key < 0
    · left
      refine ⟨hlt, fun e he hek => ?_⟩
      rcases hmem e he with h | h | h
      · exact le_of_lt (hlk e h)
      · rw [h]; exact le_of_eq (hf.refl k)
      · have := hr e h; omega
    · right
      refine ⟨by omega, fun e he hek => ?_⟩
      rcases hmem e he with h | h | h
      · have := hl e h; omega
      · rw [h]; exact le_of_eq (hf.refl k)
      · exact le_of_lt (hkr e h)

/-- Witness for C39: the key 30 is brought to the root of `sampleTree`. -/
theorem C39_splay_moves_key_to_root_witness :
    InOrder (Splay sampleTree 30).root = InOrder sampleTree.root ∧
      (Splay sampleTree 30).root.entry = some (30, 300) :=
  have h := C39_splay_moves_key_to_root sampleTree 30 CompareNumbers_total
    sampleTree_sound.ordered rfl (by decide)
  ⟨h.1, h.2.2.2.1 (30, 300) (by decide) (by decide)⟩

theorem SplayDepth_le (c : Option (Nat → Nat → Int)) (key : Nat) (t : NodeInfo) :
    ∀ d, d ≤ MaxSplayTreeDepth → SplayDepth c key d t ≤ MaxSplayTreeDepth := by
  induction t with
  | null => intro d hd; exact hd
  | node k v l r ihl ihr =>
    intro d hd
    rw [SplayDepth]
    by_cases h0 : CompareKeys c k key = 0
    · rw [if_pos h0]; exact hd
    rw [if_neg h0]
    by_cases h1 : d ≥ MaxSplayTreeDepth
    · rw [if_pos h1]; exact hd
    rw [if_neg h1]
    by_cases h2 : CompareKeys c k key > 0
    · rw [if_pos h2]; exact ihl (d + 1) (by omega)
    · rw [if_neg h2]; exact ihr (d + 1) (by omega)

/-- When `SplayNode`, called with the flag lowered, raises it, the tree is as
it was. -/
theorem SplayNode_raised {c : Option (Nat → Nat → Int)} {key : Nat} (t : NodeInfo) :
    ∀ d t1 b1, SplayNode c false key d t = .settled t1 b1 → t1 = t := by
  induction t with
  | null => intro d t1 b1 h; simp [SplayNode] at h
  | node k v l r ihl ihr =>
    intro d t1 b1 h
    rw [SplayNode] at h
    by_cases h0 : CompareKeys c k key = 0
    · simp [h0] at h
    simp only [h0, if_false] at h
    by_cases h1 : d ≥ MaxSplayTreeDepth
    · simp only [h1, if_true, Splayed.settled.injEq] at h
      exact h.1.symm
    simp only [h1, if_false] at h
    by_cases h2 : CompareKeys c k key > 0
    · simp only [h2, if_true] at h
      cases hs : SplayNode c false key (d + 1) l with
      | settled l1 b2 =>
        rw [hs] at h
        simp only [Splayed.settled.injEq] at h
        rw [← h.1, ihl _ _ _ hs]
      | absent => rw [hs] at h; simp at h
      | here l1 => rw [hs] at h; simp at h
      | below side l1 => rw [hs] at h; simp at h
    · simp only [h2, if_false] at h
      cases hs : SplayNode c false key (d + 1) r with
      | settled r1 b2 =>
        rw [hs] at h
        simp only [Splayed.settled.injEq] at h
        rw [← h.1, ihr _ _ _ hs]
      | absent => rw [hs] at h; simp at h
      | here l1 => rw [hs] at h; simp at h
      | below side l1 => rw [hs] at h; simp at h

/-- A search path that goes on beyond the depth limit makes `SplayNode` raise
the flag. -/
theorem SplayNode_long {c : Option (Nat → Nat → Int)} {key : Nat} (t : NodeInfo) :
    ∀ d, d ≤ MaxSplayTreeDepth →
      MaxSplayTreeDepth + 1 < d + (SearchPath (CompareKeys c) key t).length →
      SplayNode c false key d t = .settled t true := by
  induction t with
  | null =>
    intro d hd hlen
    simp only [SearchPath, List.length_nil] at hlen
    omega
  | node k v l r ihl ihr =>
    intro d hd hlen
    rw [SearchPath] at hlen
    rw [SplayNode]
    by_cases h0 : CompareKeys c k key = 0
    · simp only [h0, if_true, List.length_cons, List.length_nil] at hlen
      omega
    simp only [h0, if_false, List.length_cons] at hlen ⊢
    by_cases h1 : d ≥ MaxSplayTreeDepth
    · simp only [h1, if_true]
    simp only [h1, if_false]
    by_cases h2 : CompareKeys c k key > 0
    · simp only [h2, if_true] at hlen ⊢
      rw [ihl (d + 1) (by omega) (by omega)]
    · simp only [h2, if_false] at hlen ⊢
      rw [ihr (d + 1) (by omega) (by omega)]

theorem Splay_raised (s : SplayTreeInfo) (key : Nat) (hb : s.balance = false)
    (h : (Splay s key).balance = true) : (Splay s key).root = s.root := by
  unfold Splay at h ⊢
  rw [hb] at h ⊢
  cases hs : SplayNode s.compare false key 0 s.root with
  | absent => rfl
  | here t => rw [hs] at h; cases h
  | below side t => rw [hs] at h; cases h
  | settled t b => exact SplayNode_raised s.root 0 t b hs

theorem Splay_long (s : SplayTreeInfo) (key : Nat) (hb : s.balance = false)
    (h : MaxSplayTreeDepth + 1 < (SearchPath (CompareKeys s.compare) key s.root).length) :
    (Splay s key).balance = true ∧ (Splay s key).root = s.root := by
  have hs := @SplayNode_long s.compare key s.root 0 (by omega) (by omega)
  unfold Splay
  rw [hb, hs]
  exact ⟨rfl, rfl⟩

/-- `BalanceSplayTree` leaves at most `floor(log2 n) + 1` levels. -/
theorem BalanceSplayTree_height (s : SplayTreeInfo) (h : s.nodes = Size s.root) :
    ∃ s2, BalanceSplayTree s = some s2 ∧ InOrder s2.root = InOrder s.root ∧
      s2.balance = false ∧ Height s2.root ≤ Nat.log 2 s.nodes + 1 ∧
      (Size s.root < 2 ^ 64 → Height s2.root ≤ 64) := by
  obtain ⟨s2, h1, h2, h3, -, -, -, -, hh⟩ := BalanceSplayTree_spec s h
  refine ⟨s2, h1, h2, h3, ?_, fun hsz => hh 64 (by omega) hsz⟩
  by_cases hn : s.nodes < 2
  · have hsz : Size s2.root = Size s.root := Size_of_InOrder h2
    have := Height_le_Size s2.root
    omega
  · have hlog : 1 ≤ Nat.log 2 s.nodes := by
      have := Nat.log_pos (by omega : 1 < 2) (by omega : 2 ≤ s.nodes)
      omega
    exact hh _ (by omega) (by rw [← h]; exact Nat.lt_pow_succ_log_self (by omega) _)


/-- C40. For every tree whose `nodes` field is the number of nodes linked and
every key: the `depth` argument of the nested calls of `Splay` never exceeds
`MaxSplayTreeDepth`, which is 1024; called with the flag lowered, a `Splay`
that raises the flag leaves the tree as it was, and it raises the flag whenever
the search path holds more than `MaxSplayTreeDepth + 1` nodes;
`BalanceSplayTree` then returns a tree with the same entries in the same order,
the flag lowered and at most `floor(log2 n) + 1` levels, on which the second
`Splay` leaves the flag lowered, and that is the tree `SplaySplayTree` leaves;
so `SplaySplayTree` returns without taking its fatal branch. -/
theorem C40_depth_limit_and_rebalance (s : SplayTreeInfo) (key : Nat) (hc : Counted s) :
    SplayDepth s.compare key 0 s.root ≤ MaxSplayTreeDepth ∧
    MaxSplayTreeDepth = 1024 ∧
    (s.balance = false → (Splay s key).balance = true → (Splay s key).root = s.root) ∧
    (s.balance = false →
      MaxSplayTreeDepth + 1 < (SearchPath (CompareKeys s.compare) key s.root).length →
        (Splay s key).balance = true ∧ (Splay s key).root = s.root) ∧
    (∃ s2, BalanceSplayTree (Splay s key) = some s2 ∧ InOrder s2.root = InOrder s.root ∧
      s2.balance = false ∧ Height s2.root ≤ Nat.log 2 s.nodes + 1 ∧
      (Splay s2 key).balance = false ∧ InOrder (Splay s2 key).root = InOrder s.root ∧
      (s.root ≠ .null → ¬ (s.key ≠ 0 ∧ CompareRemembered s key = 0) →
        (Splay s key).balance = true →
          SplaySplayTree s key = some { Splay s2 key with key := key })) ∧
    (∃ s1, SplaySplayTree s key = some s1 ∧ InOrder s1.root = InOrder s.root ∧
      (s.balance = false → s1.balance = false)) := by
  obtain ⟨hn, hbound⟩ := hc
  obtain ⟨h1, -, h3, -, -⟩ := Splay_fields s key
  have hsize : Size (Splay s key).root = Size s.root := Size_of_InOrder h1
  obtain ⟨s2, hs2, hin2, hb2, hlog, h64⟩ :=
    BalanceSplayTree_height (Splay s key) (by rw [h3, hsize, hn])
  have hheight : Height s2.root ≤ MaxSplayTreeDepth := by
    have := h64 (by rw [hsize]; exact hbound)
    rw [MaxSplayTreeDepth_eq]; omega
  have hb3 := Splay_within s2 key hb2 hheight
  obtain ⟨s1, ht1, ht2, -, -, -, ht3⟩ := SplaySplayTree_total s key ⟨hn, hbound⟩
  refine ⟨SplayDepth_le s.compare key s.root 0 (by omega), rfl,
    fun hb h => Splay_raised s key hb h, fun hb h => Splay_long s key hb h,
    ⟨s2, hs2, by rw [hin2, h1], hb2, by rw [← h3]; exact hlog, hb3,
      by rw [(Splay_fields s2 key).1, hin2, h1], ?_⟩,
    ⟨s1, ht1, ht2, ht3⟩⟩
  intro hroot hcache hbal
  unfold SplaySplayTree
  cases hr : s.root with
  | null => exact absurd hr hroot
  | node k v l r =>
    simp only
    rw [if_neg hcache, if_pos hbal, hs2]
    simp only
    rw [if_neg (by rw [hb3]; decide)]

/-- Witness for C40: on a path of 1100 nodes the search for a key greater than
all of them raises the flag, and `SplaySplayTree` returns with the entries in
the same order. -/
theorem C40_depth_limit_and_rebalance_witness :
    (Splay deepState 5000).balance = true ∧
      ∃ s1, SplaySplayTree deepState 5000 = some s1 ∧
        InOrder s1.root = InOrder deepState.root :=
  have h := C40_depth_limit_and_rebalance deepState 5000 ⟨by decide!, by decide!⟩
  ⟨(h.2.2.2.1 rfl (by decide!)).1, h.2.2.2.2.2.elim fun s1 h1 => ⟨s1, h1.1, h1.2.1⟩⟩


/-! ## Finalization whatever the counters hold

`UpdateSHA224` adds `(unsigned int) n >> 29` to `high_order`, so after a call
of `2 ^ 32` bytes or more the counters no longer hold the number of bits
supplied. The lemmas below follow the state through `FinalizeSHA224` for any
value of `high_order`. -/

/-- What `FinalizeSHA224` leaves is a function of the initialized context, of
the bytes supplied and of the high counter word. -/
theorem Finalize_absorbed {s0 s : SHA224Info} {B : List Nat} {high : Nat}
    (ht : Absorbed s0 s B (8 * B.length % 2 ^ 32) high) :
    FinalizeSHA224 s = FinalStateWith s0 B high (8 * B.length % 2 ^ 32) := by
  obtain ⟨hlen, hpend, hs⟩ := ht
  have hlow : s.low_order = 8 * B.length % 2 ^ 32 := by
    have := congrArg SHA224Info.low_order hs; simpa using this
  have hhigh : s.high_order = high := by
    have := congrArg SHA224Info.high_order hs; simpa using this
  have hlsb : s.lsb_first = s0.lsb_first := by
    have := congrArg SHA224Info.lsb_first hs; simpa using this
  have hacc : s.accumulator =
      AbsorbBlocks s0.lsb_first (B.length / 64) s0.accumulator B := by
    have := congrArg SHA224Info.accumulator hs; simpa using this
  have hdig : s.digest = s0.digest := by
    have := congrArg SHA224Info.digest hs; simpa using this
  have hcount := count_eq B.length
  have hc64 : B.length % 64 < 64 := Nat.mod_lt _ (by omega)
  have hmark := set_extends_known 0x80 hpend (by omega)
  unfold FinalizeSHA224 FinalStateWith FinalAccumulatorWith LastBlockWith
  simp only [hlow, hhigh, hcount, hlen, Nat.reduceSub]
  generalize 8 * B.length % 2 ^ 32 = low
  by_cases hc : B.length % 64 + 1 ≤ 56
  · simp only [if_pos hc]
    have hpad : (ResetWizardMemory (s.message.set (B.length % 64) 0x80) (B.length % 64 + 1) 0
        (56 - (B.length % 64 + 1))).take 56 =
        B.drop (B.length / 64 * 64) ++ [0x80] ++ List.replicate (55 - B.length % 64) 0 := by
      rw [ResetWizardMemory_eq_copy]
      have := copy_extends_known (List.replicate (56 - (B.length % 64 + 1)) 0) hmark
        (by simp; omega)
      rw [List.length_replicate] at this
      have e : B.length % 64 + 1 + (56 - (B.length % 64 + 1)) = 56 := by omega
      have e2 : 56 - (B.length % 64 + 1) = 55 - B.length % 64 := by omega
      rw [e, e2] at this
      rw [e2]
      exact this
    have hfull := length_stores ((high >>> 24) % 256) ((high >>> 16) % 256)
      ((high >>> 8) % 256) (high % 256) ((low >>> 24) % 256) ((low >>> 16) % 256)
      ((low >>> 8) % 256) (low % 256)
      (by rw [ResetWizardMemory_eq_copy, CopyWizardMemory_length _ _ _ (by simp; omega)]
          simp [hlen]) hpad
    rw [hfull]
    simp only [TransformSHA224, hlsb, hacc, hdig, LengthBytes, List.append_assoc,
      List.singleton_append]
    rw [hs]
  · simp only [if_neg hc]
    have hblk1 : ResetWizardMemory (s.message.set (B.length % 64) 0x80) (B.length % 64 + 1) 0
        (64 - (B.length % 64 + 1)) =
        B.drop (B.length / 64 * 64) ++ 0x80 :: List.replicate (63 - B.length % 64) 0 := by
      rw [ResetWizardMemory_eq_copy]
      have := copy_extends_known (List.replicate (64 - (B.length % 64 + 1)) 0) hmark
        (by simp; omega)
      rw [List.length_replicate] at this
      have e : B.length % 64 + 1 + (64 - (B.length % 64 + 1)) = 64 := by omega
      have e2 : 64 - (B.length % 64 + 1) = 63 - B.length % 64 := by omega
      rw [e, e2] at this
      rw [e2]
      have h64 := eq_of_take_length
        (by rw [CopyWizardMemory_length _ _ _ (by simp; omega)]; simp [hlen]) this
      rw [h64]
      simp
    have hblk1len : (B.drop (B.length / 64 * 64) ++
        0x80 :: List.replicate (63 - B.length % 64) 0).length = 64 := by
      simp only [List.length_append, List.length_cons, List.length_replicate, pending_length]
      omega
    rw [hblk1]
    simp only [TransformSHA224, hblk1len, Nat.reduceSub]
    have hpad : (ResetWizardMemory (B.drop (B.length / 64 * 64) ++
        0x80 :: List.replicate (63 - B.length % 64) 0) 0 0 56).take 56 =
        List.replicate 56 0 := by
      rw [ResetWizardMemory_eq_copy]
      have := CopyWizardMemory_take (B.drop (B.length / 64 * 64) ++
        0x80 :: List.replicate (63 - B.length % 64) 0) (List.replicate 56 0) 0 (by omega)
      simpa using this
    have hfull := length_stores ((high >>> 24) % 256) ((high >>> 16) % 256)
      ((high >>> 8) % 256) (high % 256) ((low >>> 24) % 256) ((low >>> 16) % 256)
      ((low >>> 8) % 256) (low % 256)
      (by rw [ResetWizardMemory_eq_copy, CopyWizardMemory_length _ _ _ (by simp; omega)]
          exact hblk1len) hpad
    rw [hfull]
    simp only [hlsb, hacc, hdig, LengthBytes]
    rw [hs]

/-- The state after finalization for any chunks of any sizes: the bytes
supplied, and the high counter word the calls left. -/
theorem Finalize_chunks {s0 : SHA224Info} (cs : List (List Nat)) (ht : Tracks s0 s0 []) :
    FinalizeSHA224 (cs.foldl UpdateSHA224 s0) =
      FinalStateWith s0 cs.flatten (cs.foldl UpdateSHA224 s0).high_order
        (8 * cs.flatten.length % 2 ^ 32) := by
  have ht0 : Absorbed s0 s0 [] (8 * ([] : List Nat).length % 2 ^ 32)
      (8 * ([] : List Nat).length / 2 ^ 32 % 2 ^ 32) := ht
  obtain ⟨high1, ha⟩ := Absorbed_foldl cs ht0
  rw [List.nil_append] at ha
  have hh : (cs.foldl UpdateSHA224 s0).high_order = high1 := by
    have := congrArg SHA224Info.high_order ha.2.2; simpa using this
  rw [hh]
  exact Finalize_absorbed ha

theorem FinalAccumulatorWith_take_words (lsb_first : Bool) (acc B : List Nat) (high low : Nat) :
    (FinalAccumulatorWith lsb_first acc B high low).take 8 =
      FinalAccumulatorWith lsb_first (acc.take 8) B high low := by
  simp only [FinalAccumulatorWith]
  rw [TransformAccumulator_take]
  split
  · rw [AbsorbBlocks_take_words]
  · rw [TransformAccumulator_take, AbsorbBlocks_take_words]

/-- The last eight bytes of the last block are the length bytes. -/
theorem LastBlockWith_drop (B : List Nat) (high low : Nat) :
    (LastBlockWith B high low).drop 56 = LengthBytes high low := by
  have hc64 : B.length % 64 < 64 := Nat.mod_lt _ (by omega)
  unfold LastBlockWith
  apply List.drop_left'
  dsimp only
  split
  · simp only [List.length_append, List.length_cons, List.length_replicate, pending_length]
    omega
  · simp

/-- The high counter word after one call on an initialized context. -/
theorem Initialize_update_high (s : SHA224Info) (B : List Nat) :
    (UpdateSHA224 (InitializeSHA224 s) B).high_order = HighAfter B.length := by
  have h := (UpdateSHA224_counters (InitializeSHA224 s) B).2
  have h0 : (InitializeSHA224 s).low_order = 0 := rfl
  have h1 : (InitializeSHA224 s).high_order = 0 := rfl
  rw [h, h0, h1, if_neg (Nat.not_lt_zero _)]
  simp [HighAfter]

/-- The digest of one call on an initialized context, for bytes of any number:
a function of the bytes and of the host byte order. -/
theorem Initialize_digest_any (s : SHA224Info) (B : List Nat)
    (hacc : 8 ≤ s.accumulator.length) (hmsg : s.message.length = 64)
    (hdig : s.digest.length = 28) :
    (FinalizeSHA224 (UpdateSHA224 (InitializeSHA224 s) B)).digest =
      PackDigest (FinalAccumulatorWith s.lsb_first InitialWords B (HighAfter B.length)
        (8 * B.length % 2 ^ 32)) := by
  have h := Finalize_chunks [B] (Tracks_Initialize s hmsg)
  simp only [List.foldl_cons, List.foldl_nil, List.flatten_cons, List.flatten_nil,
    List.append_nil] at h
  rw [h, Initialize_update_high]
  have hwords : (InitializeSHA224 s).accumulator.take 8 = InitialWords := by
    simp only [InitializeSHA224]
    exact initial_words_of_length _ hacc
  have hd : (InitializeSHA224 s).digest.length = 28 := hdig
  have hlsb : (InitializeSHA224 s).lsb_first = s.lsb_first := rfl
  simp only [FinalStateWith]
  rw [CopyWizardMemory_full _ _ (by rw [PackDigest_length, hd]),
    ← PackDigest_take_words, FinalAccumulatorWith_take_words, hwords, hlsb,
    ← PackDigest_take_words (FinalAccumulatorWith s.lsb_first InitialWords B _ _),
    FinalAccumulatorWith_take_words]

/-- C22: two contexts acquired independently on one host, whatever their
timestamps and whatever their fresh buffers held, that are each initialized,
updated with the same bytes `B` and finalized hold the same digest, of 28
bytes. `B` is any list of bytes, of any length. -/
theorem C22_digest_determinism (d1 m1 a1 d2 m2 a2 : Nat → Nat) (lsb : Bool) (ts1 ts2 : Nat)
    (B : List Nat) :
    (FinalizeSHA224 (UpdateSHA224 (InitializeSHA224 (AcquireSHA224Info d1 m1 a1 lsb ts1)) B)).digest =
      (FinalizeSHA224
        (UpdateSHA224 (InitializeSHA224 (AcquireSHA224Info d2 m2 a2 lsb ts2)) B)).digest ∧
    (FinalizeSHA224
      (UpdateSHA224 (InitializeSHA224 (AcquireSHA224Info d1 m1 a1 lsb ts1)) B)).digest.length =
      28 := by
  have key : ∀ (d m a : Nat → Nat) (ts : Nat),
      (FinalizeSHA224 (UpdateSHA224 (InitializeSHA224 (AcquireSHA224Info d m a lsb ts)) B)).digest =
        PackDigest (FinalAccumulatorWith lsb InitialWords B (HighAfter B.length)
          (8 * B.length % 2 ^ 32)) := by
    intro d m a ts
    have h := Initialize_digest_any (AcquireSHA224Info d m a lsb ts) B
      (by simp [AcquireSHA224Info, InitializeSHA224, SHA224Blocksize])
      (Acquire_message_length d m a lsb ts) (Acquire_digest_length d m a lsb ts)
    simpa [Acquire_lsb_first] using h
  refine ⟨by rw [key, key], ?_⟩
  rw [key]
  exact PackDigest_length _

/-- Witness for C22: the bytes `abc` through two contexts that differ in their
fresh buffers and timestamps. -/
theorem C22_digest_determinism_witness :
    (FinalizeSHA224 (UpdateSHA224 (InitializeSHA224
      (AcquireSHA224Info (fun _ => 0) (fun _ => 0) (fun _ => 0) true 1)) [97, 98, 99])).digest =
      (FinalizeSHA224 (UpdateSHA224 (InitializeSHA224
        (AcquireSHA224Info (fun i => i) (fun _ => 255) (fun _ => 7) true 2)) [97, 98, 99])).digest ∧
    (FinalizeSHA224 (UpdateSHA224 (InitializeSHA224
      (AcquireSHA224Info (fun _ => 0) (fun _ => 0) (fun _ => 0) true 1))
      [97, 98, 99])).digest.length = 28 :=
  C22_digest_determinism (fun _ => 0) (fun _ => 0) (fun _ => 0) (fun i => i) (fun _ => 255)
    (fun _ => 7) true 1 2 [97, 98, 99]


/-! ## Inputs of `2 ^ 32` bytes and the counters -/

/-- One call of `2 ^ 31` bytes on counters whose low word is zero: the low
word stays zero and the high word grows by four. -/
theorem UpdateSHA224_half (s : SHA224Info) (C : List Nat) (hl : s.low_order = 0)
    (hC : C.length = 2 ^ 31) :
    (UpdateSHA224 s C).low_order = 0 ∧
    (UpdateSHA224 s C).high_order = (s.high_order + 4) % 2 ^ 32 := by
  have h := UpdateSHA224_counters s C
  rw [hl, hC] at h
  have e1 : Trunc32 ((0 + ((2 : Nat) ^ 31 <<< 3)) % 2 ^ 32) = 0 := by decide
  have e2 : ((2 : Nat) ^ 31 % 2 ^ 32) >>> 29 = 4 := by decide
  rw [e1, if_neg (Nat.lt_irrefl 0), e2] at h
  exact h

/-- One call of `2 ^ 32` bytes on counters whose low word is zero: neither
word moves, the cast to `unsigned int` having dropped the whole count. -/
theorem UpdateSHA224_whole (s : SHA224Info) (C : List Nat) (hl : s.low_order = 0)
    (hC : C.length = 2 ^ 32) :
    (UpdateSHA224 s C).low_order = 0 ∧
    (UpdateSHA224 s C).high_order = s.high_order % 2 ^ 32 := by
  have h := UpdateSHA224_counters s C
  rw [hl, hC] at h
  have e1 : Trunc32 ((0 + ((2 : Nat) ^ 32 <<< 3)) % 2 ^ 32) = 0 := by decide
  have e2 : ((2 : Nat) ^ 32 % 2 ^ 32) >>> 29 = 0 := by decide
  rw [e1, if_neg (Nat.lt_irrefl 0), e2] at h
  exact h

/-- C2, the code at the failing input and below it. For every two chunks of
`2 ^ 31` bytes each, so each shorter than `2 ^ 32` bytes: supplied one after
the other to a fresh context and finalized, the bit counters stand at
`high_order = 8`, `low_order = 0` (the `2 ^ 35` bits supplied) and the last
block hashed ends in the length bytes `00 00 00 08 00 00 00 00`; supplied as
one message of `2 ^ 32` bytes and finalized, the counters stand at
`high_order = 0`, `low_order = 0` and the last block hashed ends in eight zero
bytes, because `UpdateSHA224` adds `(unsigned int) n >> 29` to `high_order`
and the cast drops bit 32 of `n`. The two finalized contexts differ. When the
whole input is shorter than `2 ^ 32` bytes, any chunking leaves the same
finalized context as the single call. -/
theorem C2_single_call_drops_length_bits (d m a : Nat → Nat) (lsb : Bool) (ts : Nat) :
    (∀ C1 C2 : List Nat, C1.length = 2 ^ 31 → C2.length = 2 ^ 31 →
      (FinalizeSHA224 (UpdateSHA224 (UpdateSHA224 (AcquireSHA224Info d m a lsb ts) C1)
        C2)).high_order = 8 ∧
      (FinalizeSHA224 (UpdateSHA224 (UpdateSHA224 (AcquireSHA224Info d m a lsb ts) C1)
        C2)).low_order = 0 ∧
      (FinalizeSHA224 (UpdateSHA224 (AcquireSHA224Info d m a lsb ts)
        (C1 ++ C2))).high_order = 0 ∧
      (FinalizeSHA224 (UpdateSHA224 (AcquireSHA224Info d m a lsb ts)
        (C1 ++ C2))).low_order = 0 ∧
      (FinalizeSHA224 (UpdateSHA224 (UpdateSHA224 (AcquireSHA224Info d m a lsb ts) C1)
        C2)).message.drop 56 = [0, 0, 0, 8, 0, 0, 0, 0] ∧
      (FinalizeSHA224 (UpdateSHA224 (AcquireSHA224Info d m a lsb ts)
        (C1 ++ C2))).message.drop 56 = [0, 0, 0, 0, 0, 0, 0, 0] ∧
      FinalizeSHA224 (UpdateSHA224 (UpdateSHA224 (AcquireSHA224Info d m a lsb ts) C1) C2) ≠
        FinalizeSHA224 (UpdateSHA224 (AcquireSHA224Info d m a lsb ts) (C1 ++ C2))) ∧
    (∀ cs : List (List Nat), (∀ c ∈ cs, c.length < 2 ^ 32) → cs.flatten.length < 2 ^ 32 →
      FinalizeSHA224 (cs.foldl UpdateSHA224 (AcquireSHA224Info d m a lsb ts)) =
        FinalizeSHA224 (UpdateSHA224 (AcquireSHA224Info d m a lsb ts) cs.flatten)) := by
  refine ⟨?_, ?_⟩
  · intro C1 C2 h1 h2
    have hl0 : (AcquireSHA224Info d m a lsb ts).low_order = 0 := rfl
    have hh0 : (AcquireSHA224Info d m a lsb ts).high_order = 0 := rfl
    have hlen : (C1 ++ C2).length = 2 ^ 32 := by
      rw [List.length_append, h1, h2]; norm_num
    have ha := UpdateSHA224_half (AcquireSHA224Info d m a lsb ts) C1 hl0 h1
    have hb := UpdateSHA224_half (UpdateSHA224 (AcquireSHA224Info d m a lsb ts) C1) C2 ha.1 h2
    have hw := UpdateSHA224_whole (AcquireSHA224Info d m a lsb ts) (C1 ++ C2) hl0 hlen
    have hchunked : (UpdateSHA224 (UpdateSHA224 (AcquireSHA224Info d m a lsb ts) C1)
        C2).high_order = 8 := by
      rw [hb.2, ha.2, hh0]; rfl
    have hsingle : (UpdateSHA224 (AcquireSHA224Info d m a lsb ts) (C1 ++ C2)).high_order =
        0 := by
      rw [hw.2, hh0]; rfl
    have hlow : 8 * (C1 ++ C2).length % 2 ^ 32 = 0 := by
      rw [hlen]; norm_num
    have f2 := Finalize_chunks [C1, C2] (Tracks_initial d m a lsb ts)
    have f1 := Finalize_chunks [C1 ++ C2] (Tracks_initial d m a lsb ts)
    simp only [List.foldl_cons, List.foldl_nil, List.flatten_cons, List.flatten_nil,
      List.append_nil] at f1 f2
    rw [hchunked, hlow] at f2
    rw [hsingle, hlow] at f1
    have b8 : LengthBytes 8 0 = [0, 0, 0, 8, 0, 0, 0, 0] := by decide
    have b0 : LengthBytes 0 0 = [0, 0, 0, 0, 0, 0, 0, 0] := by decide
    refine ⟨by rw [f2]; rfl, by rw [f2]; rfl, by rw [f1]; rfl, by rw [f1]; rfl, ?_, ?_, ?_⟩
    · rw [f2]
      exact (LastBlockWith_drop (C1 ++ C2) 8 0).trans b8
    · rw [f1]
      exact (LastBlockWith_drop (C1 ++ C2) 0 0).trans b0
    · intro h
      rw [f1, f2] at h
      have h8 : (8 : Nat) = 0 := congrArg SHA224Info.high_order h
      exact absurd h8 (by decide)
  · intro cs hcs hB
    have e1 := Finalize_foldl d m a lsb ts cs hcs
    have e2 := Finalize_foldl d m a lsb ts [cs.flatten] (by simpa using hB)
    simp only [List.foldl_cons, List.foldl_nil, List.flatten_cons, List.flatten_nil,
      List.append_nil] at e2
    rw [e1, e2]

/-- The failing input of C2 written out: `2 ^ 32` zero bytes, as two chunks of
`2 ^ 31` and as one message, on a fresh context. -/
theorem C2_single_call_drops_length_bits_witness :
    (FinalizeSHA224 (UpdateSHA224 (UpdateSHA224
      (AcquireSHA224Info (fun _ => 0) (fun _ => 0) (fun _ => 0) true 0)
      (List.replicate (2 ^ 31) 0)) (List.replicate (2 ^ 31) 0))).high_order = 8 ∧
    (FinalizeSHA224 (UpdateSHA224
      (AcquireSHA224Info (fun _ => 0) (fun _ => 0) (fun _ => 0) true 0)
      (List.replicate (2 ^ 31) 0 ++ List.replicate (2 ^ 31) 0))).high_order = 0 ∧
    FinalizeSHA224 (UpdateSHA224 (UpdateSHA224
      (AcquireSHA224Info (fun _ => 0) (fun _ => 0) (fun _ => 0) true 0)
      (List.replicate (2 ^ 31) 0)) (List.replicate (2 ^ 31) 0)) ≠
      FinalizeSHA224 (UpdateSHA224
        (AcquireSHA224Info (fun _ => 0) (fun _ => 0) (fun _ => 0) true 0)
        (List.replicate (2 ^ 31) 0 ++ List.replicate (2 ^ 31) 0)) :=
  have h := (C2_single_call_drops_length_bits (fun _ => 0) (fun _ => 0) (fun _ => 0) true 0).1
    (List.replicate (2 ^ 31) 0) (List.replicate (2 ^ 31) 0) (List.length_replicate _ _)
    (List.length_replicate _ _)
  ⟨h.1, h.2.2.1, h.2.2.2.2.2.2⟩

end Wizard
